import Mathlib

/-!
# A shallow embedding of `osmem.c`

The allocator of `src/src/osmem.c` keeps an address-ordered, doubly-linked list of
block headers inside the memory it manages.  The embedding keeps that shape: block
headers live in a header memory indexed by raw addresses, the links are raw
addresses (`0` is `NULL`), and every `while` loop of the source is a recursive
function that spends one unit of fuel per iteration.  Machine arithmetic on
`size_t` values and on pointers is arithmetic on `Nat` modulo `2 ^ 64`.

Payload bytes live in a second store (`bytes`), written only by `memset`, `memcpy` and
the zero fill of a fresh mapping; a header write does not change it.  Where headers
lie relative to payloads is stated through the registry (`Rep`, `TilesFrom`).
`memset` and `memcpy` touch only memory the process may access (`owned`): a range
that leaves the data segment or the pages of one live mapping ends the call in a
memory fault, as does the store through the untested result of a failed `mmap` in
`os_calloc`.
-/

namespace Osmem

/-! ## Machine words and constants -/

/-- Number of values of a 64-bit `size_t` or pointer. -/
def W : Nat := 2 ^ 64

/-- Addition of `size_t` values, or of a pointer and an offset. -/
def add64 (a b : Nat) : Nat := (a + b) % W

/-- Subtraction of `size_t` values, or of an offset from a pointer. -/
def sub64 (a b : Nat) : Nat := (a + (W - b % W)) % W

/-- Value of a `size_t` bit pattern after conversion to `long long`. -/
def toSigned (x : Nat) : Int := if x < 2 ^ 63 then (x : Int) else (x : Int) - (W : Int)

/-- The source's `#define ALLIGNMENT 8`. -/
def ALLIGNMENT : Nat := 8

/-- The source's `ALIGN(size)`: `(size + 7) & ~7` on `size_t`. -/
def ALIGN (size : Nat) : Nat := add64 size (ALLIGNMENT - 1) &&& (W - ALLIGNMENT)

/-- Modelled from the spec: `block_meta.h` is not part of the sources. The header
holds a `size_t` size, an `int` status and two links, which is 32 bytes on an LP64
platform; the spec's scenarios assume `HEADER = 32`. -/
def sizeof_block_meta : Nat := 32

/-- The source's `META_SIZE`. -/
def META_SIZE : Nat := ALIGN sizeof_block_meta

/-- The source's `MMAP_THRESHOLD`. -/
def MMAP_THRESHOLD : Nat := 128 * 1024

/-- Modelled from the spec: status FREE of `block_meta.h` (not part of the sources). -/
def STATUS_FREE : Nat := 0

/-- Modelled from the spec: status ALLOCATED of `block_meta.h` (not part of the sources). -/
def STATUS_ALLOC : Nat := 1

/-- Modelled from the spec: status MAPPED of `block_meta.h` (not part of the sources). -/
def STATUS_MAPPED : Nat := 2

/-! ## Memory, operating system and allocator state -/

/-- Header of a block, `struct block_meta`. Links are raw addresses, `0` is `NULL`. -/
structure block_meta where
  size : Nat
  status : Nat
  prev : Nat
  next : Nat
deriving DecidableEq, Repr

/-- Header memory: what a `struct block_meta *` reads at each address. -/
abbrev Mem := Nat → block_meta

/-- Store a whole header at address `a`. -/
def upd (m : Mem) (a : Nat) (b : block_meta) : Mem := fun x => if x = a then b else m x

/-- The assignment `a->size = v`. -/
def set_size (m : Mem) (a v : Nat) : Mem := upd m a { m a with size := v }

/-- The assignment `a->status = v`. -/
def set_status (m : Mem) (a v : Nat) : Mem := upd m a { m a with status := v }

/-- The assignment `a->prev = v`. -/
def set_prev (m : Mem) (a v : Nat) : Mem := upd m a { m a with prev := v }

/-- The assignment `a->next = v`. -/
def set_next (m : Mem) (a v : Nat) : Mem := upd m a { m a with next := v }

/-- One call of an operating-system primitive, with its arguments and its result. -/
inductive OsCall where
  | sbrk (delta ret : Nat)
  | mmap (len ret : Nat)
  | munmap (addr len : Nat) (success : Bool)
deriving DecidableEq, Repr

/-- The sentinel `(void *)-1` returned by a failing `sbrk` or `mmap`. -/
def FAILED : Nat := W - 1

/-- Whether the recorded call reported failure. -/
def OsCall.failed : OsCall → Bool
  | .sbrk _ ret => ret == FAILED
  | .mmap _ ret => ret == FAILED
  | .munmap _ _ success => !success

/-- Page size of the operating-system model. -/
def PAGE : Nat := 4096

/-- Length of a mapping rounded up to whole pages. -/
def pages (len : Nat) : Nat := (len + (PAGE - 1)) / PAGE * PAGE

/-- Allocator globals, the memory they point into, and the state of the operating
system model (program break, anonymous mappings, trace of calls, newest first).
The last field is a ghost counter: the number of times the preallocation branch of
`os_malloc` (lines 138-149) or `os_calloc` (lines 226-238) has run. The source has no
such variable and nothing in the model reads it. -/
structure State where
  mem : Mem
  bytes : Nat → Nat
  head : Nat
  prealloced_mem : Nat
  brk : Nat
  brk_max : Nat
  map_next : Nat
  maps : List (Nat × Nat)
  log : List OsCall
  preallocs : Nat

/-- Modelled from the spec: `sbrk(delta)` of section 6. It returns the old break and
grows the data segment contiguously, or returns the sentinel and changes nothing
when the segment cannot grow that far. A `delta` that is negative as `intptr_t` is
out of the spec's scope and is refused. -/
def sbrk (s : State) (delta : Nat) : Nat × State :=
  if delta < 2 ^ 63 ∧ s.brk + delta ≤ s.brk_max then
    (s.brk, { s with brk := s.brk + delta, log := OsCall.sbrk delta s.brk :: s.log })
  else
    (FAILED, { s with log := OsCall.sbrk delta FAILED :: s.log })

/-- Modelled from the spec: `mmap(NULL, len, ...)` of section 6 for anonymous private
memory. A new mapping is page aligned, zero filled and placed above every earlier
mapping; it fails for an empty length or when the address space is exhausted. -/
def mmap (s : State) (len : Nat) : Nat × State :=
  if 0 < len ∧ s.map_next + pages len < W then
    (s.map_next,
      { s with
        bytes := fun a => if s.map_next ≤ a ∧ a < s.map_next + pages len then 0 else s.bytes a
        map_next := s.map_next + pages len
        maps := (s.map_next, len) :: s.maps
        log := OsCall.mmap len s.map_next :: s.log })
  else
    (FAILED, { s with log := OsCall.mmap len FAILED :: s.log })

/-- Modelled from the spec: `munmap(addr, len)` of section 6. It releases a live
mapping when address and length match the original call exactly, and fails
otherwise. -/
def munmap (s : State) (addr len : Nat) : Bool × State :=
  if (addr, len) ∈ s.maps then
    (true, { s with maps := s.maps.erase (addr, len), log := OsCall.munmap addr len true :: s.log })
  else
    (false, { s with log := OsCall.munmap addr len false :: s.log })

/-- Whether the `n` bytes from address `a` on lie in memory the process may access:
below the program break, or inside the pages of one live mapping. Mappings are
separate objects that the operating system places where it likes, so a range that
runs off the pages of one mapping is not accessible, whatever lies next to it. -/
def owned (s : State) (a n : Nat) : Bool :=
  decide (a + n ≤ s.brk)
    || s.maps.any (fun x => decide (x.1 ≤ a ∧ a + n ≤ x.1 + pages x.2))

/-- The library call `memset(p, 0, n)` on payload bytes. A non-empty range that does
not fit in the address space or leaves the memory the process may access cannot be
written: the result is `none` (the process is killed by a memory fault). -/
def memset0 (s : State) (p n : Nat) : Option (Nat → Nat) :=
  if p + n ≤ W ∧ (n = 0 ∨ owned s p n = true) then
    some (fun a => if p ≤ a ∧ a < p + n then 0 else s.bytes a)
  else none

/-- The library call `memcpy(dst, src, n)` on payload bytes, with the same treatment
of ranges that cannot be read or written. -/
def memcpy (s : State) (dst src n : Nat) : Option (Nat → Nat) :=
  if dst + n ≤ W ∧ src + n ≤ W
      ∧ (n = 0 ∨ (owned s dst n = true ∧ owned s src n = true)) then
    some (fun a => if dst ≤ a ∧ a < dst + n then s.bytes (src + (a - dst)) else s.bytes a)
  else none

/-- Reasons for which the `DIE` macro ends the process. -/
inductive Fatal where
  | sbrk_failed
  | map_failed
  | unmap_failed
  | no_need_to_expand
  | expanding_mapped_block
  | free_invalid_pointer
  | realloc_invalid_pointer
deriving DecidableEq, Repr

/-- Outcome of running a piece of the allocator: a value, the process ended by `DIE`,
the process killed by a memory fault, or the fuel of a loop ran out before the loop
finished. -/
inductive Res (α : Type) where
  | ok (v : α)
  | die (f : Fatal)
  | fault
  | timeout

/-! ## The functions of `osmem.c` -/

/-- Body of the inner `while` of `coalesce_blocks`: unlink the successor `tmp` of
`iter` and add its header and payload to `iter`. -/
def merge_next (m : Mem) (iter : Nat) : Mem :=
  let tmp := (m iter).next
  let m1 := set_next m iter (m tmp).next
  let m2 := if (m1 iter).next ≠ 0 then set_prev m1 (m1 tmp).next iter else m1
  set_size m2 iter (add64 (add64 (m2 iter).size (m2 tmp).size) META_SIZE)

/-- Inner `while` of `coalesce_blocks`: merge `iter` with its FREE successors. -/
def coalesce_merge : Nat → Nat → Mem → Option Mem
  | 0, _, _ => none
  | fuel + 1, iter, m =>
    if (m iter).status = STATUS_FREE ∧ (m iter).next ≠ 0
        ∧ (m (m iter).next).status = STATUS_FREE then
      coalesce_merge fuel iter (merge_next m iter)
    else some m

/-- Outer `while` of `coalesce_blocks`: walk the list from `iter`. -/
def coalesce_walk : Nat → Nat → Mem → Option Mem
  | 0, _, _ => none
  | fuel + 1, iter, m =>
    if iter = 0 then some m
    else
      match coalesce_merge (fuel + 1) iter m with
      | none => none
      | some m1 => coalesce_walk fuel (m1 iter).next m1

/-- The source's `coalesce_blocks`. -/
def coalesce_blocks (fuel : Nat) (s : State) : Option State :=
  match coalesce_walk fuel s.head s.mem with
  | none => none
  | some m => some { s with mem := m }

/-- Body of the `if` of `split`: carve a FREE block of `remaining_size` bytes out of
the end of `block_to_split`. -/
def carve (m : Mem) (block_to_split size remaining_size : Nat) : Mem :=
  let neighbour_block := (m block_to_split).next
  let m1 := set_size m block_to_split (ALIGN size)
  let m2 := set_next m1 block_to_split
    (add64 (add64 block_to_split META_SIZE) (m1 block_to_split).size)
  let m3 := set_prev m2 (m2 block_to_split).next block_to_split
  let m4 := set_next m3 (m3 block_to_split).next neighbour_block
  let m5 := set_status m4 block_to_split STATUS_ALLOC
  let m6 := set_size m5 (m5 block_to_split).next remaining_size
  let m7 := set_status m6 (m6 block_to_split).next STATUS_FREE
  if neighbour_block ≠ 0 then
    set_prev m7 neighbour_block (m7 block_to_split).next
  else m7

/-- The source's `split`. Both of its paths end in `return block_to_split`, so the
result is that pointer together with the new header memory. -/
def split (m : Mem) (block_to_split size : Nat) : Nat × Mem :=
  (block_to_split,
    if toSigned (sub64 (sub64 (m block_to_split).size (ALIGN size)) META_SIZE) ≥ 8 then
      carve m block_to_split size (sub64 (sub64 (m block_to_split).size (ALIGN size)) META_SIZE)
    else
      set_status m block_to_split STATUS_ALLOC)

/-- The `while` of `find_best`. -/
def find_best_loop (request : Nat) (m : Mem) : Nat → Nat → Nat → Option Nat
  | 0, _, _ => none
  | fuel + 1, iter, best_fiting_block =>
    if iter = 0 then some best_fiting_block
    else
      let best :=
        if (m iter).size ≥ ALIGN request ∧ (m iter).status = STATUS_FREE then
          if best_fiting_block = 0 then iter
          else if (m iter).size < (m best_fiting_block).size
              ∧ (m iter).status = STATUS_FREE then iter
          else best_fiting_block
        else best_fiting_block
      find_best_loop request m fuel (m iter).next best

/-- The source's `find_best`; it returns the block found (or `NULL`) and the
coalesced state. -/
def find_best (fuel : Nat) (s : State) (request : Nat) : Option (Nat × State) :=
  match coalesce_blocks fuel s with
  | none => none
  | some s1 =>
    match find_best_loop request s1.mem fuel s1.head 0 with
    | none => none
    | some b => some (b, s1)

/-- First `while` of `insertAlloced`: the first node not below `block`. -/
def insert_seek (m : Mem) (block : Nat) : Nat → Nat → Option Nat
  | 0, _ => none
  | fuel + 1, iter =>
    if iter ≠ 0 ∧ iter < block then insert_seek m block fuel (m iter).next
    else some iter

/-- Second `while` of `insertAlloced`: the last node of the list. -/
def insert_last (m : Mem) : Nat → Nat → Option Nat
  | 0, _ => none
  | fuel + 1, iter =>
    if (m iter).next ≠ 0 then insert_last m fuel (m iter).next
    else some iter

/-- The source's `insertAlloced`. -/
def insertAlloced (fuel : Nat) (s : State) (block : Nat) : Option State :=
  if s.head = 0 then some { s with head := block }
  else
    match insert_seek s.mem block fuel s.head with
    | none => none
    | some iter =>
      if iter = 0 then
        match insert_last s.mem fuel s.head with
        | none => none
        | some last =>
          let m1 := set_next s.mem last block
          some { s with mem := set_prev m1 block last }
      else if iter = s.head then
        let m1 := set_next s.mem block s.head
        let m2 := set_prev m1 s.head block
        some { s with mem := m2, head := block }
      else
        let m1 := set_next s.mem block iter
        let m2 := set_prev m1 block (m1 iter).prev
        let m3 := set_next m2 (m2 block).prev block
        let m4 := set_prev m3 (m3 block).next block
        some { s with mem := m4 }

/-- The `while` of `getLastExpandableBlock`. -/
def last_loop (m : Mem) : Nat → Nat → Option Nat
  | 0, _ => none
  | fuel + 1, iter =>
    if (m iter).next ≠ 0 ∧ (m (m iter).next).status ≠ STATUS_MAPPED then
      last_loop m fuel (m iter).next
    else some iter

/-- The source's `getLastExpandableBlock`. -/
def getLastExpandableBlock (fuel : Nat) (s : State) : Res Nat :=
  if s.head = 0 then .ok 0
  else if (s.mem s.head).status = STATUS_MAPPED then .ok 0
  else
    match last_loop s.mem fuel s.head with
    | none => .timeout
    | some iter =>
      if (s.mem iter).status = STATUS_FREE then .ok iter
      else if (s.mem iter).status = STATUS_MAPPED then .die .expanding_mapped_block
      else .ok 0

/-- What `os_malloc` does with the block it found: hand out its payload. -/
def finish_malloc (p _n : Nat) (s : State) : Res (Nat × State) := .ok (p, s)

/-- What `os_calloc` does with the block it found: zero `n` payload bytes, then hand
out the payload. -/
def finish_calloc (p n : Nat) (s : State) : Res (Nat × State) :=
  match memset0 s p n with
  | none => .fault
  | some zeroed => .ok (p, { s with bytes := zeroed })

/-- The branch that `os_malloc` (lines 133-174) and `os_calloc` (lines 222-264) have
in common: the request served from the break-grown arena. The two copies differ
only in the last step of each path, which is passed as `fin`: it receives the
payload address, the number of bytes `os_calloc` clears there, and the state. -/
def arena (fuel : Nat) (s : State) (size : Nat)
    (fin : Nat → Nat → State → Res (Nat × State)) : Res (Nat × State) :=
  match find_best fuel s size with
  | none => .timeout
  | some (new_block, s1) =>
    if new_block ≠ 0 then
      fin (add64 (split s1.mem new_block size).1 META_SIZE)
        ((split s1.mem new_block size).2 (split s1.mem new_block size).1).size
        { s1 with mem := (split s1.mem new_block size).2 }
    else if s1.prealloced_mem = 0 then
      if (sbrk s1 (ALIGN MMAP_THRESHOLD)).1 = FAILED then .die .sbrk_failed
      else
        match insertAlloced fuel
          { (sbrk s1 (ALIGN MMAP_THRESHOLD)).2 with
            mem := set_status (set_size (set_next (set_prev
              (sbrk s1 (ALIGN MMAP_THRESHOLD)).2.mem
              (sbrk s1 (ALIGN MMAP_THRESHOLD)).1 0)
              (sbrk s1 (ALIGN MMAP_THRESHOLD)).1 0)
              (sbrk s1 (ALIGN MMAP_THRESHOLD)).1 (sub64 (ALIGN MMAP_THRESHOLD) META_SIZE))
              (sbrk s1 (ALIGN MMAP_THRESHOLD)).1 STATUS_FREE }
          (sbrk s1 (ALIGN MMAP_THRESHOLD)).1 with
        | none => .timeout
        | some s3 =>
          fin (add64 (split s3.mem (sbrk s1 (ALIGN MMAP_THRESHOLD)).1 size).1 META_SIZE)
            ((split s3.mem (sbrk s1 (ALIGN MMAP_THRESHOLD)).1 size).2
              (split s3.mem (sbrk s1 (ALIGN MMAP_THRESHOLD)).1 size).1).size
            { s3 with
              mem := (split s3.mem (sbrk s1 (ALIGN MMAP_THRESHOLD)).1 size).2
              prealloced_mem := 1
              preallocs := s3.preallocs + 1 }
    else
      match getLastExpandableBlock fuel s1 with
      | .timeout => .timeout
      | .fault => .fault
      | .die f => .die f
      | .ok last_exp_block =>
        if last_exp_block = 0 then
          if (sbrk s1 (add64 (ALIGN size) META_SIZE)).1 = FAILED then .die .sbrk_failed
          else
            match insertAlloced fuel
              { (sbrk s1 (add64 (ALIGN size) META_SIZE)).2 with
                mem := set_status (set_size (set_next (set_prev
                  (sbrk s1 (add64 (ALIGN size) META_SIZE)).2.mem
                  (sbrk s1 (add64 (ALIGN size) META_SIZE)).1 0)
                  (sbrk s1 (add64 (ALIGN size) META_SIZE)).1 0)
                  (sbrk s1 (add64 (ALIGN size) META_SIZE)).1 (ALIGN size))
                  (sbrk s1 (add64 (ALIGN size) META_SIZE)).1 STATUS_ALLOC }
              (sbrk s1 (add64 (ALIGN size) META_SIZE)).1 with
            | none => .timeout
            | some s3 =>
              fin (add64 (sbrk s1 (add64 (ALIGN size) META_SIZE)).1 META_SIZE) (ALIGN size) s3
        else if sub64 (ALIGN size) (s1.mem last_exp_block).size = 0 then
          .die .no_need_to_expand
        else
          fin (add64 last_exp_block META_SIZE) (ALIGN size)
            { (sbrk s1 (sub64 (ALIGN size) (s1.mem last_exp_block).size)).2 with
              mem := set_size (set_status
                (sbrk s1 (sub64 (ALIGN size) (s1.mem last_exp_block).size)).2.mem
                last_exp_block STATUS_ALLOC) last_exp_block (ALIGN size) }

/-- The source's `os_malloc`; it returns the pointer handed to the caller and the
new state. The branch for requests below the threshold is `arena`, which the
source spells out in `os_malloc` and again, with the `memset` calls added, in
`os_calloc`. -/
def os_malloc (fuel : Nat) (s : State) (size : Nat) : Res (Nat × State) :=
  if size = 0 then .ok (0, s)
  else if size < sub64 MMAP_THRESHOLD META_SIZE then arena fuel s size finish_malloc
  else
    let r := mmap s (add64 META_SIZE (ALIGN size))
    if r.1 = FAILED then .die .map_failed
    else
      let new_block := r.1
      let m1 := set_size r.2.mem new_block (ALIGN size)
      let m2 := set_prev m1 new_block 0
      let m3 := set_next m2 new_block 0
      let m4 := set_status m3 new_block STATUS_MAPPED
      .ok (add64 new_block META_SIZE, { r.2 with mem := m4 })

/-- The source's `os_free`. -/
def os_free (s : State) (ptr : Nat) : Res State :=
  if ptr = 0 then .ok s
  else
    let block := sub64 ptr META_SIZE
    if (s.mem block).status ≠ STATUS_ALLOC ∧ (s.mem block).status ≠ STATUS_FREE
        ∧ (s.mem block).status ≠ STATUS_MAPPED then .die .free_invalid_pointer
    else if (s.mem block).status = STATUS_FREE then .ok s
    else if (s.mem block).status = STATUS_ALLOC then
      .ok { s with mem := set_status s.mem block STATUS_FREE }
    else if (s.mem block).status = STATUS_MAPPED then
      let r := munmap s block (add64 (s.mem block).size META_SIZE)
      if r.1 = false then .die .unmap_failed else .ok r.2
    else .ok s

/-- The source's `os_calloc`. It does not test the result of `mmap` (lines 217-222):
when the call failed, the first store through `new_block`, at `(void *)-1`, is a
memory fault. -/
def os_calloc (fuel : Nat) (s : State) (nmemb size : Nat) : Res (Nat × State) :=
  let request := (nmemb * size) % W
  if request = 0 then .ok (0, s)
  else if add64 (ALIGN request) META_SIZE ≥ 4096 then
    let r := mmap s (add64 (ALIGN request) META_SIZE)
    let new_block := r.1
    if new_block = FAILED then .fault
    else
      let m1 := set_size r.2.mem new_block (ALIGN request)
      let m2 := set_prev m1 new_block 0
      let m3 := set_next m2 new_block 0
      let m4 := set_status m3 new_block STATUS_MAPPED
      .ok (add64 new_block META_SIZE, { r.2 with mem := m4 })
  else arena fuel s request finish_calloc

/-- Lines 302-308 of `os_realloc`: `block` takes over the header and payload of its
successor `tmp` and unlinks it. -/
def absorb_next (m : Mem) (block : Nat) : Mem :=
  let tmp := (m block).next
  let m1 := set_size m block (add64 (add64 (m block).size META_SIZE) (m tmp).size)
  let m2 := set_next m1 block (m1 tmp).next
  if (m2 tmp).next ≠ 0 then set_prev m2 (m2 tmp).next block else m2

/-- The source's `os_realloc`. -/
def os_realloc (fuel : Nat) (s : State) (ptr size : Nat) : Res (Nat × State) :=
  if size = 0 then
    match os_free s ptr with
    | .ok s1 => .ok (0, s1)
    | .die f => .die f
    | .fault => .fault
    | .timeout => .timeout
  else if ptr = 0 then os_malloc fuel s size
  else
    let block := sub64 ptr META_SIZE
    if (s.mem block).status = STATUS_FREE then .ok (0, s)
    else
      match coalesce_blocks fuel s with
      | none => .timeout
      | some s1 =>
        if (s1.mem block).status = STATUS_MAPPED then
          if (s1.mem block).size = ALIGN size then .ok (ptr, s1)
          else
            match os_malloc fuel s1 size with
            | .timeout => .timeout
            | .fault => .fault
            | .die f => .die f
            | .ok (new_ptr, s2) =>
              let n := if (s2.mem block).size > ALIGN size then size else (s2.mem block).size
              match memcpy s2 new_ptr ptr n with
              | none => .fault
              | some copied =>
                match os_free { s2 with bytes := copied } ptr with
                | .ok s3 => .ok (new_ptr, s3)
                | .die f => .die f
                | .fault => .fault
                | .timeout => .timeout
        else if (s1.mem block).status = STATUS_ALLOC then
          if (s1.mem block).size = ALIGN size then .ok (ptr, s1)
          else if (s1.mem block).size > ALIGN size then
            let r := split s1.mem block size
            .ok (add64 r.1 META_SIZE, { s1 with mem := r.2 })
          else if (s1.mem block).next = 0 then
            let r := sbrk s1 (sub64 (ALIGN size) (s1.mem block).size)
            .ok (add64 block META_SIZE, { r.2 with mem := set_size r.2.mem block (ALIGN size) })
          else if (s1.mem (s1.mem block).next).status = STATUS_FREE
              ∧ add64 (add64 (s1.mem block).size META_SIZE) (s1.mem (s1.mem block).next).size
                ≥ ALIGN size then
            let r := split (absorb_next s1.mem block) block size
            .ok (add64 r.1 META_SIZE, { s1 with mem := r.2 })
          else
            match os_malloc fuel s1 (ALIGN size) with
            | .timeout => .timeout
            | .fault => .fault
            | .die f => .die f
            | .ok (new_ptr, s2) =>
              match memcpy s2 new_ptr ptr (s2.mem block).size with
              | none => .fault
              | some copied =>
                .ok (new_ptr, { s2 with bytes := copied, mem := set_status s2.mem block STATUS_FREE })
        else .die .realloc_invalid_pointer

/-! ## The registry seen as a list

The proofs read the linked list out of the header memory as a list of blocks
(address, size, status) and describe each list-walking function of the source by
its effect on that list. -/

/-- A registry node as the list view shows it. -/
structure Blk where
  addr : Nat
  size : Nat
  status : Nat
deriving DecidableEq, Repr

/-- The nodes reached from `h` by following `next` are exactly `v`, and the link
after the last of them is `e`. -/
def Seg (m : Mem) : Nat → List Blk → Nat → Prop
  | h, [], e => h = e
  | h, b :: v, e =>
    h = b.addr ∧ b.addr ≠ 0 ∧ (m b.addr).size = b.size ∧ (m b.addr).status = b.status
      ∧ Seg m (m b.addr).next v e

/-- The `NULL`-terminated list starting at `h` holds exactly the nodes `v`. -/
def Rep (m : Mem) (h : Nat) (v : List Blk) : Prop := Seg m h v 0

/-- The blocks `v` lie back to back from address `a` up to address `e`: each header
is followed by its payload and then by the next header. -/
def TilesFrom : Nat → List Blk → Nat → Prop
  | a, [], e => a = e
  | a, b :: v, e => b.addr = a ∧ TilesFrom (a + META_SIZE + b.size) v e

/-- No two neighbours of the list are both FREE. -/
def NoAdjFree : List Blk → Prop
  | [] => True
  | [_] => True
  | b :: c :: v => ¬ (b.status = STATUS_FREE ∧ c.status = STATUS_FREE) ∧ NoAdjFree (c :: v)

/-- Strictly ascending header addresses. -/
def Ascending : List Blk → Prop
  | [] => True
  | [_] => True
  | b :: c :: v => b.addr < c.addr ∧ Ascending (c :: v)

/-- Every neighbour starts where the payload of its predecessor ends. -/
def Contiguous : List Blk → Prop
  | [] => True
  | [_] => True
  | b :: c :: v => b.addr + META_SIZE + b.size = c.addr ∧ Contiguous (c :: v)

/-- List view of the inner loop of `coalesce_blocks`: `b` absorbs its FREE
successors; the result is the grown block and the nodes left after it. -/
def mergeL : Blk → List Blk → Blk × List Blk
  | b, [] => (b, [])
  | b, c :: v =>
    if b.status = STATUS_FREE ∧ c.status = STATUS_FREE then
      mergeL { b with size := add64 (add64 b.size c.size) META_SIZE } v
    else (b, c :: v)

/-- List view of `coalesce_blocks` from the node `b` on. -/
def coalesceFrom : Blk → List Blk → List Blk
  | b, [] => [b]
  | b, c :: v =>
    if b.status = STATUS_FREE ∧ c.status = STATUS_FREE then
      coalesceFrom { b with size := add64 (add64 b.size c.size) META_SIZE } v
    else b :: coalesceFrom c v

/-- List view of `coalesce_blocks`. -/
def coalesceL : List Blk → List Blk
  | [] => []
  | b :: v => coalesceFrom b v

/-- List view of one iteration of the loop of `find_best`: the candidate kept after
looking at `b`. -/
def keepL (r : Nat) (b : Blk) (best : Option Blk) : Option Blk :=
  if b.size ≥ r ∧ b.status = STATUS_FREE then
    match best with
    | none => some b
    | some c => if b.size < c.size then some b else some c
  else best

/-- List view of the loop of `find_best`: the candidate kept after walking `v`. -/
def bestL (r : Nat) : List Blk → Option Blk → Option Blk
  | [], best => best
  | b :: v, best => bestL r v (keepL r b best)

/-- Address of an optional block, `NULL` when there is none. -/
def addrOf : Option Blk → Nat
  | none => 0
  | some b => b.addr

/-- List view of `split`: the nodes that replace `b`. -/
@[irreducible] def splitL (b : Blk) (size : Nat) : List Blk :=
  if toSigned (sub64 (sub64 b.size (ALIGN size)) META_SIZE) ≥ 8 then
    [⟨b.addr, ALIGN size, STATUS_ALLOC⟩,
     ⟨add64 (add64 b.addr META_SIZE) (ALIGN size),
      sub64 (sub64 b.size (ALIGN size)) META_SIZE, STATUS_FREE⟩]
  else [⟨b.addr, b.size, STATUS_ALLOC⟩]

/-! ## Well-formed and reachable states -/

/-- No recorded operating-system call reported failure. -/
def NoFail (log : List OsCall) : Prop := ∀ c ∈ log, c.failed = false

/-- The state of a process that has not called the allocator yet: empty registry,
nothing preallocated, no mapping, no call made; the break is a non-null aligned
address below the region in which mappings are placed, and the data segment stays
clear of the last page of the address space, where the sentinel `(void *)-1` lies. -/
structure Fresh (s : State) : Prop where
  head : s.head = 0
  pre : s.prealloced_mem = 0
  brk_pos : 0 < s.brk
  brk8 : 8 ∣ s.brk
  brk_le : s.brk ≤ s.brk_max
  max_le : s.brk_max ≤ s.map_next
  next8 : 8 ∣ s.map_next
  next_lt : s.map_next < W
  room : s.brk_max + PAGE ≤ W
  maps : s.maps = []
  log : s.log = []
  count : s.preallocs = 0

/-- The pointer `p` is live in `s`: it is the payload of an ALLOCATED registry node or
of a MAPPED block whose mapping is still in place. -/
def Held (s : State) (p : Nat) : Prop :=
  (∃ v b, Rep s.mem s.head v ∧ b ∈ v ∧ b.status = STATUS_ALLOC ∧ p = b.addr + META_SIZE)
  ∨ (∃ x ∈ s.maps, (s.mem x.1).status = STATUS_MAPPED ∧ p = x.1 + META_SIZE)

/-- States reachable from a fresh allocator by public calls that return, on
arbitrary `size_t` arguments and on pointers that are `NULL` or live, while every
operating-system call made so far has succeeded. -/
inductive Reachable : State → Prop
  | fresh (s : State) : Fresh s → Reachable s
  | malloc (s s1 : State) (fuel size p : Nat) :
      Reachable s → size < W → os_malloc fuel s size = .ok (p, s1) → NoFail s1.log →
      Reachable s1
  | calloc (s s1 : State) (fuel nmemb size p : Nat) :
      Reachable s → nmemb < W → size < W → os_calloc fuel s nmemb size = .ok (p, s1) →
      NoFail s1.log → Reachable s1
  | realloc (s s1 : State) (fuel ptr size p : Nat) :
      Reachable s → (ptr = 0 ∨ Held s ptr) → size < W →
      os_realloc fuel s ptr size = .ok (p, s1) → NoFail s1.log → Reachable s1
  | free (s s1 : State) (ptr : Nat) :
      Reachable s → (ptr = 0 ∨ Held s ptr) → os_free s ptr = .ok s1 → NoFail s1.log →
      Reachable s1

/-- The list `v` is the registry of `s`, and `s` satisfies the structural
invariant of the allocator. -/
structure Valid (s : State) (v : List Blk) : Prop where
  rep : Rep s.mem s.head v
  tiles : v ≠ [] → TilesFrom s.head v s.brk
  pre0 : s.prealloced_mem = 0 → v = []
  pre1 : s.prealloced_mem ≠ 0 → v ≠ []
  size8 : ∀ b ∈ v, 8 ∣ b.size
  stat : ∀ b ∈ v, b.status = STATUS_FREE ∨ b.status = STATUS_ALLOC
  brk_pos : 0 < s.brk
  brk8 : 8 ∣ s.brk
  brk_le : s.brk ≤ s.brk_max
  max_le : s.brk_max ≤ s.map_next
  next8 : 8 ∣ s.map_next
  next_lt : s.map_next < W
  room : s.brk_max + PAGE ≤ W
  maps : ∀ x ∈ s.maps, (s.mem x.1).status = STATUS_MAPPED
    ∧ x.2 = add64 (s.mem x.1).size META_SIZE ∧ 8 ∣ (s.mem x.1).size ∧ 8 ∣ x.1
    ∧ s.brk_max ≤ x.1 ∧ x.1 + pages x.2 ≤ s.map_next ∧ 0 < x.2
  apart : s.maps.Pairwise (fun x y => y.1 + pages y.2 ≤ x.1)
  nofail : NoFail s.log

/-- Two header memories show the same size, status and `next` link at `a`. -/
def Agree (m m1 : Mem) (a : Nat) : Prop :=
  (m1 a).size = (m a).size ∧ (m1 a).status = (m a).status ∧ (m1 a).next = (m a).next

/-- What a request served from the arena leaves behind: from the state `s` with
registry `v`, the request `n` returned the payload `p` (with `sz` bytes for the
caller to clear) in the state `s1` with registry `v1`. -/
structure ArenaPost (s : State) (v : List Blk) (n p sz : Nat) (s1 : State)
    (v1 : List Blk) : Prop where
  valid : Valid s1 v1
  blk : ∃ b : Blk, b ∈ v1 ∧ p = b.addr + 32 ∧ b.status = STATUS_ALLOC ∧ ALIGN n ≤ b.size
    ∧ sz = b.size
  noadj : NoAdjFree v1
  keep : ∀ x : Blk, x ∈ v → x.status = STATUS_ALLOC → x ∈ v1
  other : ∀ x : Blk, x ∈ v → x.status = STATUS_ALLOC → x.addr + 32 ≠ p
  maps : s1.maps = s.maps
  bytes : s1.bytes = s.bytes
  brk_max : s1.brk_max = s.brk_max
  map_next : s1.map_next = s.map_next
  frame : ∀ a, s.brk_max ≤ a → Agree s.mem s1.mem a
  log : (s1.log = s.log ∧ s1.brk = s.brk)
    ∨ ∃ d : Nat, s1.log = OsCall.sbrk d s.brk :: s.log ∧ s1.brk = s.brk + d
  pre : s1.prealloced_mem ≠ 0
  head : s.prealloced_mem ≠ 0 → s1.head = s.head
  first : s.prealloced_mem = 0 →
    s1.head = s.brk ∧ s1.log = OsCall.sbrk 131072 s.brk :: s.log
  pos : 0 < ALIGN n → (∀ x : Blk, x ∈ v → 0 < x.size) → ∀ x : Blk, x ∈ v1 → 0 < x.size
  count : (s.prealloced_mem = 0 → s1.preallocs = s.preallocs + 1)
    ∧ (s.prealloced_mem ≠ 0 → s1.preallocs = s.preallocs)

/-- List view of the assignment `a->status = st`. -/
def setStatusL (a st : Nat) (v : List Blk) : List Blk :=
  v.map (fun b => if b.addr = a then { b with status := st } else b)

/-- From the state `s` with registry `v` to the state `s1` with registry `v1`, every
live allocation other than the pointer `r` is still live and has kept its header:
ALLOCATED nodes are still nodes of the registry, with the same address, size and
status, and mappings are still in place. -/
def Stable (s : State) (v : List Blk) (s1 : State) (v1 : List Blk) (r : Nat) : Prop :=
  (∀ b : Blk, b ∈ v → b.status = STATUS_ALLOC → b.addr + META_SIZE ≠ r → b ∈ v1)
  ∧ (∀ x : Nat × Nat, x ∈ s.maps → x.1 + META_SIZE ≠ r →
      x ∈ s1.maps ∧ Agree s.mem s1.mem x.1)

/-- The pointer `p` handed out for a request of `n` bytes is the payload of an
ALLOCATED node of the registry `v1` or of a live mapping of `s1`, and its header
records at least the request rounded up to the alignment. -/
def Returned (s1 : State) (v1 : List Blk) (p n : Nat) : Prop :=
  (∃ b : Blk, b ∈ v1 ∧ b.status = STATUS_ALLOC ∧ p = b.addr + META_SIZE ∧ ALIGN n ≤ b.size)
  ∨ (∃ x : Nat × Nat, x ∈ s1.maps ∧ p = x.1 + META_SIZE ∧ ALIGN n ≤ (s1.mem x.1).size)

/-- The pointer `p` stays out of the hands of the allocator from `s` to `s2`: a
sequence of public calls that return, none of which releases or reallocates `p`,
on pointers that are `NULL` or live, every operating-system call succeeding. -/
inductive Later (p : Nat) : State → State → Prop
  | refl (s : State) : Later p s s
  | malloc (s s1 s2 : State) (fuel size q : Nat) :
      Later p s s1 → size < W → os_malloc fuel s1 size = .ok (q, s2) → NoFail s2.log →
      Later p s s2
  | calloc (s s1 s2 : State) (fuel nmemb size q : Nat) :
      Later p s s1 → nmemb < W → size < W → os_calloc fuel s1 nmemb size = .ok (q, s2) →
      NoFail s2.log → Later p s s2
  | realloc (s s1 s2 : State) (fuel ptr size q : Nat) :
      Later p s s1 → (ptr = 0 ∨ Held s1 ptr) → ptr ≠ p → size < W →
      os_realloc fuel s1 ptr size = .ok (q, s2) → NoFail s2.log → Later p s s2
  | free (s s1 s2 : State) (ptr : Nat) :
      Later p s s1 → (ptr = 0 ∨ Held s1 ptr) → ptr ≠ p → os_free s1 ptr = .ok s2 →
      NoFail s2.log → Later p s s2

/-! ## Concrete runs

A fresh process and the states a few calls lead to, used to evaluate the model on
explicit inputs. -/

/-- State in which a call that returned left the allocator (`d` when it did not
return). -/
def resState : Res (Nat × State) → State → State
  | .ok x, _ => x.2
  | _, d => d

/-- Pointer that a call returned (`0` when it did not return). -/
def resPtr : Res (Nat × State) → Nat
  | .ok x => x.1
  | _ => 0

/-- State in which `os_free` left the allocator (`d` when it did not return). -/
def freeState : Res State → State → State
  | .ok x, _ => x
  | _, d => d

/-- A process that has not called the allocator: break at 4096, room for the data
segment up to 2^32, mappings placed from 2^40 on, payload bytes all 255. -/
def s0 : State where
  mem := fun _ => ⟨0, 0, 0, 0⟩
  bytes := fun _ => 255
  head := 0
  prealloced_mem := 0
  brk := 4096
  brk_max := 4294967296
  map_next := 1099511627776
  maps := []
  log := []
  preallocs := 0

/-- After `a = os_malloc(100)` in `s0`. -/
def sA : State := resState (os_malloc 4 s0 100) s0

/-- After `os_free(a)` in `sA`. -/
def sAF : State := freeState (os_free sA 4128) sA

/-- After `b = os_malloc(100)` in `sA`. -/
def sB : State := resState (os_malloc 4 sA 100) sA

/-- After `os_malloc(2^64 - 16)` in `s0`. -/
def sM1 : State := resState (os_malloc 1 s0 18446744073709551600) s0

/-- After a second `os_malloc(2^64 - 16)` in `sM1`. -/
def sM2 : State := resState (os_malloc 1 sM1 18446744073709551600) sM1

/-- The state `coalesce_blocks` leaves from `sB`. -/
def scB : State := (coalesce_blocks 4 sB).getD sB

/-- After `a = os_malloc(8)` in `s0`. -/
def sP1 : State := resState (os_malloc 4 s0 8) s0

/-- After `b = os_malloc(8)` in `sP1`. -/
def sP : State := resState (os_malloc 4 sP1 8) sP1

/-- The state `coalesce_blocks` leaves from `sP`. -/
def scP : State := (coalesce_blocks 4 sP).getD sP

/-- A process that has not called the allocator and whose address space has no room
left for a mapping. -/
def sFull : State where
  mem := fun _ => ⟨0, 0, 0, 0⟩
  bytes := fun _ => 255
  head := 0
  prealloced_mem := 0
  brk := 4096
  brk_max := 4294967296
  map_next := 18446744073709547520
  maps := []
  log := []
  preallocs := 0

/-- A process that has not called the allocator and whose data segment can grow by
the preallocation and no further. -/
def sTight : State where
  mem := fun _ => ⟨0, 0, 0, 0⟩
  bytes := fun _ => 255
  head := 0
  prealloced_mem := 0
  brk := 4096
  brk_max := 135168
  map_next := 1099511627776
  maps := []
  log := []
  preallocs := 0

/-- After `a = os_malloc(100)` in `sTight`. -/
def sT1 : State := resState (os_malloc 4 sTight 100) sTight

/-- After `os_malloc(131000)` in `sT1`. -/
def sT2 : State := resState (os_malloc 4 sT1 131000) sT1

/-- After `os_calloc(1, 2^64 - 1)` in `sA`. -/
def sZ : State := resState (os_calloc 4 sA 1 18446744073709551615) sA

/-- After `os_calloc(10, 10)` in `sA`. -/
def sC : State := resState (os_calloc 4 sA 10 10) sA

/-- The state `coalesce_blocks` leaves from `sAF`. -/
def scAF : State := (coalesce_blocks 4 sAF).getD sAF

/-- Number of bytes the recorded `sbrk` calls asked for. -/
def sbrkTotal : List OsCall → Nat
  | [] => 0
  | .sbrk delta _ :: log => delta + sbrkTotal log
  | .mmap _ _ :: log => sbrkTotal log
  | .munmap _ _ _ :: log => sbrkTotal log

/-- The oldest recorded `sbrk` call (the log is newest first): its argument and its
result. -/
def firstSbrk : List OsCall → Option (Nat × Nat)
  | [] => none
  | .sbrk delta ret :: log =>
    match firstSbrk log with
    | none => some (delta, ret)
    | some x => some x
  | .mmap _ _ :: log => firstSbrk log
  | .munmap _ _ _ :: log => firstSbrk log

/-- Bytes the nodes of the registry take up, header and payload. -/
def footprint : List Blk → Nat
  | [] => 0
  | b :: v => META_SIZE + b.size + footprint v

/-- Accounting of the data segment: while nothing is preallocated no `sbrk` call has
been made and the preallocation branch has not run; afterwards the oldest `sbrk` call
is the preallocation, it returned the registry head, the bytes obtained since then end
at the current break, and the preallocation branch has run exactly once. -/
structure Ledger (s : State) : Prop where
  idle : s.prealloced_mem = 0 → firstSbrk s.log = none
  first : s.prealloced_mem ≠ 0 → firstSbrk s.log = some (131072, s.head)
  total : s.prealloced_mem ≠ 0 → s.head + sbrkTotal s.log = s.brk
  never : s.prealloced_mem = 0 → s.preallocs = 0
  once : s.prealloced_mem ≠ 0 → s.preallocs = 1

/-- Reachable states in whose history every request of `os_calloc` and `os_realloc`
could be rounded up to the alignment without wrapping around 2^64 (a request of
`os_malloc` served from the arena is below the threshold and never wraps). -/
inductive Tame : State → Prop
  | fresh (s : State) : Fresh s → Tame s
  | malloc (s s1 : State) (fuel size p : Nat) :
      Tame s → size < W → os_malloc fuel s size = .ok (p, s1) → NoFail s1.log → Tame s1
  | calloc (s s1 : State) (fuel nmemb size p : Nat) :
      Tame s → nmemb < W → size < W → (nmemb * size) % W + 7 < W →
      os_calloc fuel s nmemb size = .ok (p, s1) → NoFail s1.log → Tame s1
  | realloc (s s1 : State) (fuel ptr size p : Nat) :
      Tame s → (ptr = 0 ∨ Held s ptr) → size + 7 < W →
      os_realloc fuel s ptr size = .ok (p, s1) → NoFail s1.log → Tame s1
  | free (s s1 : State) (ptr : Nat) :
      Tame s → (ptr = 0 ∨ Held s ptr) → os_free s ptr = .ok s1 → NoFail s1.log → Tame s1

/-- Every node of `v` having a payload, so has every node of the registry of `s1`. -/
def PosKeep (v : List Blk) (s1 : State) : Prop :=
  (∀ x : Blk, x ∈ v → 0 < x.size) →
    ∀ v1 : List Blk, Rep s1.mem s1.head v1 → ∀ x : Blk, x ∈ v1 → 0 < x.size

/-! ## Machine arithmetic -/

theorem W_eq : W = 18446744073709551616 := by decide

theorem META_SIZE_eq : META_SIZE = 32 := by decide

theorem land_mask (x : Nat) (hx : x < 2 ^ 64) : x &&& (2 ^ 64 - 8) = x / 8 * 8 := by
  have h1 : (2 ^ 64 - 8 : Nat) = (2 ^ 61 - 1) <<< 3 := by decide
  have h2 : x / 8 * 8 = (x >>> 3) <<< 3 := by
    simp [Nat.shiftLeft_eq, Nat.shiftRight_eq_div_pow]
  rw [h1, h2]
  apply Nat.eq_of_testBit_eq
  intro i
  simp only [Nat.testBit_land, Nat.testBit_shiftLeft, Nat.testBit_shiftRight,
    Nat.testBit_two_pow_sub_one]
  by_cases hi : 3 ≤ i
  · have e : 3 + (i - 3) = i := by omega
    by_cases h64 : i < 64
    · have : i - 3 < 61 := by omega
      simp [hi, this, e]
    · have hb : x.testBit i = false :=
        Nat.testBit_lt_two_pow (lt_of_lt_of_le hx (Nat.pow_le_pow_right (by decide) (by omega)))
      simp [hi, e, hb]
  · simp [hi]

theorem ALIGN_eq (n : Nat) : ALIGN n = (n + 7) % 18446744073709551616 / 8 * 8 := by
  have hlt : (n + 7) % 18446744073709551616 < 2 ^ 64 := Nat.mod_lt _ (by decide)
  have h := land_mask _ hlt
  exact h

theorem ALIGN_dvd (n : Nat) : 8 ∣ ALIGN n := by
  rw [ALIGN_eq]; exact Nat.dvd_mul_left 8 _

theorem ALIGN_lt (n : Nat) : ALIGN n + 8 ≤ W := by
  rw [ALIGN_eq, W_eq]; omega

theorem ALIGN_bounds (n : Nat) (h : n + 7 < W) : n ≤ ALIGN n ∧ ALIGN n < n + 8 := by
  rw [W_eq] at h
  rw [ALIGN_eq]; omega

theorem ALIGN_idem (n : Nat) : ALIGN (ALIGN n) = ALIGN n := by
  rw [ALIGN_eq (ALIGN n), ALIGN_eq n]; omega

theorem ALIGN_pos (n : Nat) (h0 : n ≠ 0) (h : n + 7 < W) : 8 ≤ ALIGN n := by
  rw [W_eq] at h
  rw [ALIGN_eq]; omega

theorem ALIGN_THRESHOLD : ALIGN MMAP_THRESHOLD = 131072 := by decide

theorem add64_eq (a b : Nat) (h : a + b < W) : add64 a b = a + b := by
  unfold add64; exact Nat.mod_eq_of_lt h

theorem sub64_eq (a b : Nat) (hb : b ≤ a) (ha : a < W) : sub64 a b = a - b := by
  unfold sub64
  rw [W_eq] at *
  omega

theorem sub64_wrap (a b : Nat) (hb : a < b) (hw : b < W) : sub64 a b = a + W - b := by
  unfold sub64
  rw [W_eq] at *
  omega

theorem add64_lt (a b : Nat) : add64 a b < W := Nat.mod_lt _ (by decide)

theorem sub64_lt (a b : Nat) : sub64 a b < W := Nat.mod_lt _ (by decide)

theorem threshold_eq : sub64 MMAP_THRESHOLD META_SIZE = 131040 := by decide

attribute [irreducible] add64 sub64 toSigned ALIGN

/-! ## Header memory -/

@[simp] theorem set_size_size (m : Mem) (a v x : Nat) :
    (set_size m a v x).size = if x = a then v else (m x).size := by
  unfold set_size upd; split <;> simp

@[simp] theorem set_size_status (m : Mem) (a v x : Nat) :
    (set_size m a v x).status = (m x).status := by
  unfold set_size upd; split <;> simp [*]

@[simp] theorem set_size_next (m : Mem) (a v x : Nat) :
    (set_size m a v x).next = (m x).next := by
  unfold set_size upd; split <;> simp [*]

@[simp] theorem set_size_prev (m : Mem) (a v x : Nat) :
    (set_size m a v x).prev = (m x).prev := by
  unfold set_size upd; split <;> simp [*]

@[simp] theorem set_status_size (m : Mem) (a v x : Nat) :
    (set_status m a v x).size = (m x).size := by
  unfold set_status upd; split <;> simp [*]

@[simp] theorem set_status_status (m : Mem) (a v x : Nat) :
    (set_status m a v x).status = if x = a then v else (m x).status := by
  unfold set_status upd; split <;> simp

@[simp] theorem set_status_next (m : Mem) (a v x : Nat) :
    (set_status m a v x).next = (m x).next := by
  unfold set_status upd; split <;> simp [*]

@[simp] theorem set_status_prev (m : Mem) (a v x : Nat) :
    (set_status m a v x).prev = (m x).prev := by
  unfold set_status upd; split <;> simp [*]

@[simp] theorem set_next_size (m : Mem) (a v x : Nat) :
    (set_next m a v x).size = (m x).size := by
  unfold set_next upd; split <;> simp [*]

@[simp] theorem set_next_status (m : Mem) (a v x : Nat) :
    (set_next m a v x).status = (m x).status := by
  unfold set_next upd; split <;> simp [*]

@[simp] theorem set_next_next (m : Mem) (a v x : Nat) :
    (set_next m a v x).next = if x = a then v else (m x).next := by
  unfold set_next upd; split <;> simp

@[simp] theorem set_next_prev (m : Mem) (a v x : Nat) :
    (set_next m a v x).prev = (m x).prev := by
  unfold set_next upd; split <;> simp [*]

@[simp] theorem set_prev_size (m : Mem) (a v x : Nat) :
    (set_prev m a v x).size = (m x).size := by
  unfold set_prev upd; split <;> simp [*]

@[simp] theorem set_prev_status (m : Mem) (a v x : Nat) :
    (set_prev m a v x).status = (m x).status := by
  unfold set_prev upd; split <;> simp [*]

@[simp] theorem set_prev_next (m : Mem) (a v x : Nat) :
    (set_prev m a v x).next = (m x).next := by
  unfold set_prev upd; split <;> simp [*]

@[simp] theorem set_prev_prev (m : Mem) (a v x : Nat) :
    (set_prev m a v x).prev = if x = a then v else (m x).prev := by
  unfold set_prev upd; split <;> simp

theorem Agree.refl (m : Mem) (a : Nat) : Agree m m a := ⟨rfl, rfl, rfl⟩

theorem Agree.trans {m m1 m2 : Mem} {a : Nat} (h1 : Agree m m1 a) (h2 : Agree m1 m2 a) :
    Agree m m2 a :=
  ⟨h2.1.trans h1.1, h2.2.1.trans h1.2.1, h2.2.2.trans h1.2.2⟩

theorem Agree.set_prev (m : Mem) (x v a : Nat) : Agree m (set_prev m x v) a := by
  simp [Agree]

/-! ## Lists of blocks -/

theorem Seg_frame {m m1 : Mem} : ∀ (v : List Blk) (h e : Nat),
    (∀ b ∈ v, Agree m m1 b.addr) → Seg m h v e → Seg m1 h v e
  | [], _, _, _, hs => hs
  | b :: v, h, e, hag, hs => by
    obtain ⟨h1, h2, h3, h4, h5⟩ := hs
    obtain ⟨a1, a2, a3⟩ := hag b (List.mem_cons_self _ _)
    refine ⟨h1, h2, a1.trans h3, a2.trans h4, ?_⟩
    rw [a3]
    exact Seg_frame v _ e (fun c hc => hag c (List.mem_cons_of_mem _ hc)) h5

theorem Seg_append {m : Mem} : ∀ (v1 v2 : List Blk) (h e : Nat),
    Seg m h (v1 ++ v2) e ↔ ∃ mid, Seg m h v1 mid ∧ Seg m mid v2 e
  | [], v2, h, e => by simp [Seg]
  | b :: v1, v2, h, e => by
    have ih := Seg_append (m := m) v1 v2 (m b.addr).next e
    show (h = b.addr ∧ b.addr ≠ 0 ∧ (m b.addr).size = b.size ∧ (m b.addr).status = b.status
      ∧ Seg m (m b.addr).next (v1 ++ v2) e) ↔ _
    rw [ih]
    constructor
    · rintro ⟨h1, h2, h3, h4, mid, h5, h6⟩
      exact ⟨mid, ⟨h1, h2, h3, h4, h5⟩, h6⟩
    · rintro ⟨mid, ⟨h1, h2, h3, h4, h5⟩, h6⟩
      exact ⟨h1, h2, h3, h4, mid, h5, h6⟩

theorem Rep_unique {m : Mem} : ∀ (v v1 : List Blk) (h : Nat),
    Rep m h v → Rep m h v1 → v = v1
  | [], [], _, _, _ => rfl
  | [], b :: v1, h, h1, h2 => by
    simp only [Rep, Seg] at h1 h2
    omega
  | b :: v, [], h, h1, h2 => by
    simp only [Rep, Seg] at h1 h2
    omega
  | b :: v, c :: v1, h, h1, h2 => by
    simp only [Rep, Seg] at h1 h2
    obtain ⟨a1, a2, a3, a4, a5⟩ := h1
    obtain ⟨b1, b2, b3, b4, b5⟩ := h2
    have hbc : b = c := by
      cases b; cases c
      simp only [Blk.mk.injEq]
      simp only at a1 a3 a4 b1 b3 b4
      subst a1
      subst b1
      exact ⟨rfl, a3.symm.trans b3, a4.symm.trans b4⟩
    subst hbc
    rw [Rep_unique v v1 _ a5 b5]

theorem TilesFrom_append : ∀ (v1 v2 : List Blk) (a e : Nat),
    TilesFrom a (v1 ++ v2) e ↔ ∃ mid, TilesFrom a v1 mid ∧ TilesFrom mid v2 e
  | [], v2, a, e => by simp [TilesFrom]
  | b :: v1, v2, a, e => by
    have ih := TilesFrom_append v1 v2 (a + META_SIZE + b.size) e
    show (b.addr = a ∧ TilesFrom (a + META_SIZE + b.size) (v1 ++ v2) e) ↔ _
    rw [ih]
    constructor
    · rintro ⟨h1, mid, h2, h3⟩
      exact ⟨mid, ⟨h1, h2⟩, h3⟩
    · rintro ⟨mid, ⟨h1, h2⟩, h3⟩
      exact ⟨h1, mid, h2, h3⟩

theorem TilesFrom_le : ∀ (v : List Blk) (a e : Nat), TilesFrom a v e → a ≤ e
  | [], a, e, h => by simp only [TilesFrom] at h; omega
  | b :: v, a, e, h => by
    have := TilesFrom_le v _ e h.2
    omega

theorem TilesFrom_mem : ∀ (v : List Blk) (a e : Nat), TilesFrom a v e →
    ∀ b ∈ v, a ≤ b.addr ∧ b.addr + META_SIZE + b.size ≤ e
  | [], _, _, _, b, hb => by simp at hb
  | c :: v, a, e, h, b, hb => by
    obtain ⟨h1, h2⟩ := h
    rcases List.mem_cons.mp hb with rfl | hb
    · have := TilesFrom_le v _ e h2
      omega
    · have := TilesFrom_mem v _ e h2 b hb
      omega

/-! ## `coalesce_blocks` on the list view -/

theorem merge_next_size (m : Mem) (iter x : Nat) :
    (merge_next m iter x).size =
      if x = iter then add64 (add64 (m iter).size (m (m iter).next).size) META_SIZE
      else (m x).size := by
  unfold merge_next
  by_cases h : (m (m iter).next).next = 0 <;> simp [h]

theorem merge_next_status (m : Mem) (iter x : Nat) :
    (merge_next m iter x).status = (m x).status := by
  unfold merge_next
  by_cases h : (m (m iter).next).next = 0 <;> simp [h]

theorem merge_next_next (m : Mem) (iter x : Nat) :
    (merge_next m iter x).next = if x = iter then (m (m iter).next).next else (m x).next := by
  unfold merge_next
  by_cases h : (m (m iter).next).next = 0 <;> simp [h]

theorem merge_next_agree (m : Mem) (iter a : Nat) (h : a ≠ iter) :
    Agree m (merge_next m iter) a := by
  simp [Agree, merge_next_size, merge_next_status, merge_next_next, h]

theorem merge_spec : ∀ (fuel : Nat) (v : List Blk) (b : Blk) (m : Mem),
    Rep m b.addr (b :: v) → (∀ c ∈ v, c.addr ≠ b.addr) →
    (v.length < fuel ∨ (coalesce_merge fuel b.addr m).isSome) →
    ∃ m1, coalesce_merge fuel b.addr m = some m1
      ∧ Rep m1 b.addr ((mergeL b v).1 :: (mergeL b v).2)
      ∧ (∀ a, a ≠ b.addr → Agree m m1 a)
      ∧ (m1 b.addr).status = (m b.addr).status
  | 0, _, _, _, _, _, hlen => by
    rcases hlen with h | h
    · omega
    · simp [coalesce_merge] at h
  | fuel + 1, [], b, m, hrep, _, _ => by
    obtain ⟨_, hb0, hbs, hbst, hnext⟩ := hrep
    have hn : (m b.addr).next = 0 := hnext
    refine ⟨m, ?_, ⟨rfl, hb0, hbs, hbst, hnext⟩, fun a _ => Agree.refl m a, rfl⟩
    simp [coalesce_merge, hn]
  | fuel + 1, c :: v, b, m, hrep, hne, hlen => by
    obtain ⟨_, hb0, hbs, hbst, hnext⟩ := hrep
    obtain ⟨hc1, hc0, hcs, hcst, hrest⟩ := hnext
    by_cases hff : b.status = STATUS_FREE ∧ c.status = STATUS_FREE
    · have hcond : (m b.addr).status = STATUS_FREE ∧ (m b.addr).next ≠ 0
          ∧ (m (m b.addr).next).status = STATUS_FREE := by
        rw [hc1, hbst, hcst]; exact ⟨hff.1, hc0, hff.2⟩
      have hcb : c.addr ≠ b.addr := hne c (List.mem_cons_self _ _)
      have hrep1 : Rep (merge_next m b.addr) b.addr
          ({ b with size := add64 (add64 b.size c.size) META_SIZE } :: v) := by
        refine ⟨rfl, hb0, ?_, ?_, ?_⟩
        · simp [merge_next_size, hbs, hc1, hcs]
        · simp [merge_next_status, hbst]
        · simp only [merge_next_next, if_true, hc1]
          exact Seg_frame v _ _ (fun x hx => merge_next_agree m b.addr x.addr
            (hne x (List.mem_cons_of_mem _ hx))) hrest
      obtain ⟨m1, h1, h2, h3, h4⟩ := merge_spec fuel v
        { b with size := add64 (add64 b.size c.size) META_SIZE } (merge_next m b.addr) hrep1
        (fun x hx => hne x (List.mem_cons_of_mem _ hx))
        (hlen.imp (fun h => by simp only [List.length_cons] at h; omega)
          (fun h => by rwa [coalesce_merge, if_pos hcond] at h))
      refine ⟨m1, ?_, ?_, fun a ha => (merge_next_agree m b.addr a ha).trans (h3 a ha), ?_⟩
      · rw [coalesce_merge, if_pos hcond]; exact h1
      · simpa [mergeL, hff] using h2
      · rw [h4]; exact merge_next_status m b.addr b.addr
    · have hcond : ¬ ((m b.addr).status = STATUS_FREE ∧ (m b.addr).next ≠ 0
          ∧ (m (m b.addr).next).status = STATUS_FREE) := by
        rw [hc1, hbst, hcst]; exact fun h => hff ⟨h.1, h.2.2⟩
      refine ⟨m, ?_, ?_, fun a _ => Agree.refl m a, rfl⟩
      · rw [coalesce_merge, if_neg hcond]
      · simp only [mergeL, hff, if_false]
        exact ⟨rfl, hb0, hbs, hbst, hc1, hc0, hcs, hcst, hrest⟩

theorem mergeL_suffix : ∀ (v : List Blk) (b : Blk), (mergeL b v).2 <:+ v
  | [], _ => List.suffix_refl _
  | c :: v, b => by
    unfold mergeL
    split
    · exact (mergeL_suffix v _).trans (List.suffix_cons c v)
    · exact List.suffix_refl _

theorem coalesceFrom_eq : ∀ (v : List Blk) (b : Blk),
    coalesceFrom b v = (mergeL b v).1 :: coalesceL (mergeL b v).2
  | [], _ => rfl
  | c :: v, b => by
    unfold mergeL coalesceFrom
    split
    · exact coalesceFrom_eq v _
    · rfl

theorem walk_spec : ∀ (fuel : Nat) (v : List Blk) (h : Nat) (m : Mem),
    Rep m h v → v.Pairwise (fun x y => x.addr ≠ y.addr) →
    (v.length < fuel ∨ (coalesce_walk fuel h m).isSome) →
    ∃ m1, coalesce_walk fuel h m = some m1 ∧ Rep m1 h (coalesceL v)
      ∧ (∀ a, (∀ c ∈ v, c.addr ≠ a) → Agree m m1 a)
      ∧ (∀ a, (m1 a).status = (m a).status)
  | 0, _, _, _, _, _, hlen => by
    rcases hlen with h | h
    · omega
    · simp [coalesce_walk] at h
  | fuel + 1, [], h, m, hrep, _, _ => by
    have h0 : h = 0 := hrep
    subst h0
    exact ⟨m, by simp [coalesce_walk], hrep, fun a _ => Agree.refl m a, fun _ => rfl⟩
  | fuel + 1, b :: v, h, m, hrep, hpw, hlen => by
    have hh : h = b.addr := hrep.1
    subst hh
    have hb0 : b.addr ≠ 0 := hrep.2.1
    have hne : ∀ c ∈ v, c.addr ≠ b.addr := fun c hc => ((List.pairwise_cons.mp hpw).1 c hc).symm
    simp only [List.length_cons] at hlen
    have hw : coalesce_walk (fuel + 1) b.addr m =
        match coalesce_merge (fuel + 1) b.addr m with
        | none => none
        | some m1 => coalesce_walk fuel (m1 b.addr).next m1 := by
      rw [coalesce_walk, if_neg hb0]
    obtain ⟨m1, e1, r1, f1, s1⟩ := merge_spec (fuel + 1) v b m hrep hne
      (hlen.imp (fun h => by omega) (fun h => by
        rw [hw] at h
        cases hm : coalesce_merge (fuel + 1) b.addr m with
        | none => rw [hm] at h; simp at h
        | some _ => rfl))
    rw [e1] at hw
    have hsuf := mergeL_suffix v b
    have hsub : ∀ c ∈ (mergeL b v).2, c ∈ v := fun c hc => hsuf.subset hc
    obtain ⟨hma, _, rs, rst, rnext⟩ := r1
    rw [← hma] at rs rst rnext
    have hlen2 : (mergeL b v).2.length < fuel
        ∨ (coalesce_walk fuel (m1 b.addr).next m1).isSome :=
      hlen.imp (fun h => by have := hsuf.length_le; omega) (fun h => by rwa [hw] at h)
    obtain ⟨m2, e2, r2, f2, s2⟩ := walk_spec fuel (mergeL b v).2 _ m1 rnext
      ((List.pairwise_cons.mp hpw).2.sublist hsuf.sublist) hlen2
    have hag : Agree m1 m2 b.addr := f2 b.addr (fun c hc => hne c (hsub c hc))
    have hst1 : ∀ a, (m1 a).status = (m a).status := by
      intro a
      by_cases ha : a = b.addr
      · subst ha; exact s1
      · exact (f1 a ha).2.1
    refine ⟨m2, ?_, ?_, ?_, fun a => (s2 a).trans (hst1 a)⟩
    · rw [hw]
      exact e2
    · rw [coalesceL, coalesceFrom_eq]
      refine ⟨hma, hma ▸ hb0, ?_, ?_, ?_⟩ <;> rw [← hma]
      · exact hag.1.trans rs
      · exact hag.2.1.trans rst
      rw [hag.2.2]
      exact r2
    · intro a ha
      have hab : a ≠ b.addr := fun h => ha b (List.mem_cons_self _ _) h.symm
      exact (f1 a hab).trans
        (f2 a (fun c hc => ha c (List.mem_cons_of_mem _ (hsub c hc))))

theorem TilesFrom_pairwise : ∀ (v : List Blk) (a e : Nat), TilesFrom a v e →
    v.Pairwise (fun x y => x.addr ≠ y.addr)
  | [], _, _, _ => List.Pairwise.nil
  | b :: v, a, e, h => by
    refine List.pairwise_cons.mpr ⟨fun c hc => ?_, TilesFrom_pairwise v _ e h.2⟩
    have h1 := (TilesFrom_mem v _ e h.2 c hc).1
    have h2 : b.addr = a := h.1
    rw [META_SIZE_eq] at h1
    omega

theorem TilesFrom_ascending : ∀ (v : List Blk) (a e : Nat), TilesFrom a v e → Ascending v
  | [], _, _, _ => trivial
  | [_], _, _, _ => trivial
  | b :: c :: v, a, e, h => by
    refine ⟨?_, TilesFrom_ascending (c :: v) _ e h.2⟩
    have h1 : b.addr = a := h.1
    have h2 : c.addr = a + META_SIZE + b.size := h.2.1
    rw [META_SIZE_eq] at h2
    omega

theorem TilesFrom_contiguous : ∀ (v : List Blk) (a e : Nat), TilesFrom a v e → Contiguous v
  | [], _, _, _ => trivial
  | [_], _, _, _ => trivial
  | b :: c :: v, a, e, h => by
    refine ⟨?_, TilesFrom_contiguous (c :: v) _ e h.2⟩
    have h1 : b.addr = a := h.1
    have h2 : c.addr = a + META_SIZE + b.size := h.2.1
    rw [h1, h2]

theorem coalesceFrom_head : ∀ (v : List Blk) (b : Blk),
    ∃ c rest, coalesceFrom b v = c :: rest ∧ c.addr = b.addr ∧ c.status = b.status
  | [], b => ⟨b, [], rfl, rfl, rfl⟩
  | c :: v, b => by
    unfold coalesceFrom
    split
    · obtain ⟨d, rest, h1, h2, h3⟩ := coalesceFrom_head v
        { b with size := add64 (add64 b.size c.size) META_SIZE }
      exact ⟨d, rest, h1, h2, h3⟩
    · exact ⟨b, _, rfl, rfl, rfl⟩

theorem coalesceFrom_noAdj : ∀ (v : List Blk) (b : Blk), NoAdjFree (coalesceFrom b v)
  | [], _ => trivial
  | c :: v, b => by
    unfold coalesceFrom
    split
    · exact coalesceFrom_noAdj v _
    · rename_i hff
      obtain ⟨d, rest, h1, _, h3⟩ := coalesceFrom_head v c
      have ih := coalesceFrom_noAdj v c
      rw [h1] at ih ⊢
      exact ⟨fun h => hff ⟨h.1, h3 ▸ h.2⟩, ih⟩

theorem coalesceL_noAdj (v : List Blk) : NoAdjFree (coalesceL v) := by
  cases v with
  | nil => trivial
  | cons b v => exact coalesceFrom_noAdj v b

theorem coalesceFrom_tiles : ∀ (v : List Blk) (b : Blk) (a e : Nat),
    TilesFrom a (b :: v) e → e < W → TilesFrom a (coalesceFrom b v) e
  | [], _, _, _, h, _ => h
  | c :: v, b, a, e, h, he => by
    obtain ⟨h1, h2, h3⟩ := h
    unfold coalesceFrom
    split
    · apply coalesceFrom_tiles v _ a e _ he
      refine ⟨h1, ?_⟩
      have hle := TilesFrom_le v _ e h3
      have hs : add64 (add64 b.size c.size) META_SIZE = b.size + c.size + META_SIZE := by
        rw [add64_eq b.size c.size (by omega), add64_eq _ _ (by omega)]
      simp only [hs]
      have e1 : a + META_SIZE + (b.size + c.size + META_SIZE)
          = a + META_SIZE + b.size + META_SIZE + c.size := by omega
      rw [e1]
      exact h3
    · exact ⟨h1, coalesceFrom_tiles v c _ e ⟨h2, h3⟩ he⟩

theorem coalesceL_tiles (v : List Blk) (a e : Nat) (hv : v ≠ [])
    (h : TilesFrom a v e) (he : e < W) : TilesFrom a (coalesceL v) e := by
  cases v with
  | nil => exact absurd rfl hv
  | cons b v => exact coalesceFrom_tiles v b a e h he

theorem coalesceL_ne_nil (v : List Blk) (hv : v ≠ []) : coalesceL v ≠ [] := by
  cases v with
  | nil => exact absurd rfl hv
  | cons b v =>
    obtain ⟨c, rest, h, _⟩ := coalesceFrom_head v b
    show coalesceFrom b v ≠ []
    rw [h]; exact List.cons_ne_nil _ _

theorem coalesceFrom_length : ∀ (v : List Blk) (b : Blk),
    (coalesceFrom b v).length ≤ v.length + 1
  | [], _ => Nat.le_refl _
  | c :: v, b => by
    unfold coalesceFrom
    split
    · have := coalesceFrom_length v { b with size := add64 (add64 b.size c.size) META_SIZE }
      simp only [List.length_cons]; omega
    · have := coalesceFrom_length v c
      simp only [List.length_cons]; omega

theorem coalesceL_length (v : List Blk) : (coalesceL v).length ≤ v.length := by
  cases v with
  | nil => exact Nat.le_refl _
  | cons b v => exact coalesceFrom_length v b

theorem coalesceFrom_forall (P : Blk → Prop)
    (hP : ∀ b c : Blk, P b → P c → P { b with size := add64 (add64 b.size c.size) META_SIZE }) :
    ∀ (v : List Blk) (b : Blk), (∀ x ∈ b :: v, P x) → ∀ x ∈ coalesceFrom b v, P x
  | [], _, h => h
  | c :: v, b, h => by
    unfold coalesceFrom
    split
    · apply coalesceFrom_forall P hP v
      intro x hx
      rcases List.mem_cons.mp hx with rfl | hx
      · exact hP b c (h b (List.mem_cons_self _ _))
          (h c (List.mem_cons_of_mem _ (List.mem_cons_self _ _)))
      · exact h x (List.mem_cons_of_mem _ (List.mem_cons_of_mem _ hx))
    · intro x hx
      rcases List.mem_cons.mp hx with rfl | hx
      · exact h _ (List.mem_cons_self _ _)
      · exact coalesceFrom_forall P hP v c (fun y hy => h y (List.mem_cons_of_mem _ hy)) x hx

theorem coalesceL_forall (P : Blk → Prop)
    (hP : ∀ b c : Blk, P b → P c → P { b with size := add64 (add64 b.size c.size) META_SIZE })
    (v : List Blk) (h : ∀ x ∈ v, P x) : ∀ x ∈ coalesceL v, P x := by
  cases v with
  | nil => exact h
  | cons b v => exact coalesceFrom_forall P hP v b h

/-! ## The other list walks -/

theorem find_loop_spec (request : Nat) (m : Mem) :
    ∀ (fuel : Nat) (v : List Blk) (h : Nat) (best : Option Blk),
    Rep m h v → (∀ c, best = some c → c.addr ≠ 0 ∧ (m c.addr).size = c.size) →
    (v.length < fuel ∨ (find_best_loop request m fuel h (addrOf best)).isSome) →
    find_best_loop request m fuel h (addrOf best)
      = some (addrOf (bestL (ALIGN request) v best))
  | 0, _, _, _, _, _, hlen => by
    rcases hlen with h | h
    · omega
    · simp [find_best_loop] at h
  | fuel + 1, [], h, best, hrep, _, _ => by
    have h0 : h = 0 := hrep
    simp [find_best_loop, h0, bestL]
  | fuel + 1, b :: v, h, best, hrep, hbest, hlen => by
    obtain ⟨hh, hb0, hbs, hbst, hnext⟩ := hrep
    subst hh
    simp only [List.length_cons] at hlen
    rw [find_best_loop, if_neg hb0] at hlen ⊢
    simp only [hbs, hbst, bestL] at hlen ⊢
    have key : (if b.size ≥ ALIGN request ∧ b.status = STATUS_FREE then
          if addrOf best = 0 then b.addr
          else if b.size < (m (addrOf best)).size ∧ b.status = STATUS_FREE then b.addr
          else addrOf best
        else addrOf best)
        = addrOf (keepL (ALIGN request) b best) := by
      unfold keepL
      by_cases hc : b.size ≥ ALIGN request ∧ b.status = STATUS_FREE
      · rw [if_pos hc, if_pos hc]
        cases best with
        | none => simp [addrOf]
        | some c =>
          obtain ⟨hc0, hcs⟩ := hbest c rfl
          simp only [addrOf, hc0, if_false, hcs, hc.2, and_true]
          by_cases hlt : b.size < c.size <;> simp [hlt, addrOf]
      · rw [if_neg hc, if_neg hc]
    rw [key] at hlen ⊢
    apply find_loop_spec request m fuel v _ _ hnext _ (hlen.imp (fun h => by omega) id)
    intro c hc
    unfold keepL at hc
    by_cases hcond : b.size ≥ ALIGN request ∧ b.status = STATUS_FREE
    · rw [if_pos hcond] at hc
      cases best with
      | none =>
        simp only [Option.some.injEq] at hc
        subst hc
        exact ⟨hb0, hbs⟩
      | some d =>
        by_cases hlt : b.size < d.size
        · simp only [hlt, if_true, Option.some.injEq] at hc
          subst hc
          exact ⟨hb0, hbs⟩
        · simp only [hlt, if_false, Option.some.injEq] at hc
          subst hc
          exact hbest _ rfl
    · rw [if_neg hcond] at hc
      exact hbest c hc

theorem last_loop_spec (m : Mem) : ∀ (fuel : Nat) (pre : List Blk) (l : Blk) (h : Nat),
    Rep m h (pre ++ [l]) → (∀ c ∈ pre ++ [l], c.status ≠ STATUS_MAPPED) →
    (pre.length < fuel ∨ (last_loop m fuel h).isSome) → last_loop m fuel h = some l.addr
  | 0, _, _, _, _, _, hlen => by
    rcases hlen with h | h
    · omega
    · simp [last_loop] at h
  | fuel + 1, [], l, h, hrep, _, _ => by
    obtain ⟨hh, _, _, _, hnext⟩ := hrep
    have hn : (m l.addr).next = 0 := hnext
    subst hh
    simp [last_loop, hn]
  | fuel + 1, b :: pre, l, h, hrep, hst, hlen => by
    have hrep1 : Seg m h (b :: (pre ++ [l])) 0 := hrep
    have hst : ∀ c ∈ b :: (pre ++ [l]), c.status ≠ STATUS_MAPPED := hst
    obtain ⟨hh, _, _, _, hnext⟩ := hrep1
    subst hh
    simp only [List.length_cons] at hlen
    cases hp : pre ++ [l] with
    | nil => simp at hp
    | cons c rest =>
      have hnext1 : Rep m (m b.addr).next (c :: rest) := by
        have := hnext
        rw [hp] at this
        exact this
      obtain ⟨hc1, hc0, _, hcst, _⟩ := hnext1
      have hcm : c.status ≠ STATUS_MAPPED :=
        hst c (List.mem_cons_of_mem _ (by rw [hp]; exact List.mem_cons_self _ _))
      have hcond : (m b.addr).next ≠ 0 ∧ (m (m b.addr).next).status ≠ STATUS_MAPPED := by
        rw [hc1, hcst]; exact ⟨hc0, hcm⟩
      rw [last_loop, if_pos hcond] at hlen ⊢
      exact last_loop_spec m fuel pre l _ hnext
        (fun x hx => hst x (List.mem_cons_of_mem _ hx)) (hlen.imp (fun h => by omega) id)

theorem insert_seek_spec (m : Mem) (block : Nat) : ∀ (fuel : Nat) (v : List Blk) (h : Nat),
    Rep m h v → (∀ c ∈ v, c.addr < block) →
    (v.length < fuel ∨ (insert_seek m block fuel h).isSome) →
    insert_seek m block fuel h = some 0
  | 0, _, _, _, _, hlen => by
    rcases hlen with h | h
    · omega
    · simp [insert_seek] at h
  | fuel + 1, [], h, hrep, _, _ => by
    have h0 : h = 0 := hrep
    simp [insert_seek, h0]
  | fuel + 1, b :: v, h, hrep, hlt, hlen => by
    obtain ⟨hh, hb0, _, _, hnext⟩ := hrep
    subst hh
    simp only [List.length_cons] at hlen
    have hcond : b.addr ≠ 0 ∧ b.addr < block := ⟨hb0, hlt b (List.mem_cons_self _ _)⟩
    rw [insert_seek, if_pos hcond] at hlen ⊢
    exact insert_seek_spec m block fuel v _ hnext
      (fun c hc => hlt c (List.mem_cons_of_mem _ hc)) (hlen.imp (fun h => by omega) id)

theorem insert_last_spec (m : Mem) : ∀ (fuel : Nat) (pre : List Blk) (l : Blk) (h : Nat),
    Rep m h (pre ++ [l]) → (pre.length < fuel ∨ (insert_last m fuel h).isSome) →
    insert_last m fuel h = some l.addr
  | 0, _, _, _, _, hlen => by
    rcases hlen with h | h
    · omega
    · simp [insert_last] at h
  | fuel + 1, [], l, h, hrep, _ => by
    obtain ⟨hh, _, _, _, hnext⟩ := hrep
    have hn : (m l.addr).next = 0 := hnext
    subst hh
    simp [insert_last, hn]
  | fuel + 1, b :: pre, l, h, hrep, hlen => by
    have hrep1 : Seg m h (b :: (pre ++ [l])) 0 := hrep
    obtain ⟨hh, _, _, _, hnext⟩ := hrep1
    subst hh
    simp only [List.length_cons] at hlen
    cases hp : pre ++ [l] with
    | nil => simp at hp
    | cons c rest =>
      have hnext1 : Rep m (m b.addr).next (c :: rest) := by
        have := hnext
        rw [hp] at this
        exact this
      obtain ⟨hc1, hc0, _, _, _⟩ := hnext1
      have hcond : (m b.addr).next ≠ 0 := by rw [hc1]; exact hc0
      rw [insert_last, if_pos hcond] at hlen ⊢
      exact insert_last_spec m fuel pre l _ hnext (hlen.imp (fun h => by omega) id)

/-! ## `split` on the list view -/

theorem split_fst (m : Mem) (blk size : Nat) : (split m blk size).1 = blk := rfl

theorem split_keep (m : Mem) (blk size : Nat)
    (hc : ¬ toSigned (sub64 (sub64 (m blk).size (ALIGN size)) META_SIZE) ≥ 8) :
    (split m blk size).2 = set_status m blk STATUS_ALLOC := by
  simp only [split, if_neg hc]

theorem split_carve_eq (m : Mem) (blk size : Nat)
    (hc : toSigned (sub64 (sub64 (m blk).size (ALIGN size)) META_SIZE) ≥ 8) :
    (split m blk size).2
      = carve m blk size (sub64 (sub64 (m blk).size (ALIGN size)) META_SIZE) := by
  simp only [split, if_pos hc]

theorem carve_fields (m : Mem) (blk size rem : Nat)
    (hne : add64 (add64 blk META_SIZE) (ALIGN size) ≠ blk) (x : Nat) :
    (carve m blk size rem x).size =
        (if x = add64 (add64 blk META_SIZE) (ALIGN size) then rem
        else if x = blk then ALIGN size else (m x).size)
    ∧ (carve m blk size rem x).status =
        (if x = add64 (add64 blk META_SIZE) (ALIGN size) then STATUS_FREE
        else if x = blk then STATUS_ALLOC else (m x).status)
    ∧ (carve m blk size rem x).next =
        (if x = add64 (add64 blk META_SIZE) (ALIGN size) then (m blk).next
        else if x = blk then add64 (add64 blk META_SIZE) (ALIGN size) else (m x).next) := by
  have hne1 : blk ≠ add64 (add64 blk META_SIZE) (ALIGN size) := fun h => hne h.symm
  by_cases hn : (m blk).next = 0
  · simp only [carve, hn, ne_eq, not_true_eq_false, if_false, set_status_size, set_size_size,
      set_next_size, set_prev_size, set_status_status, set_size_status, set_next_status,
      set_prev_status, set_status_next, set_size_next, set_next_next, set_prev_next, if_true,
      hne1]
    simp only [and_self]
  · simp only [carve, hn, ne_eq, not_false_eq_true, if_false, set_status_size, set_size_size,
      set_next_size, set_prev_size, set_status_status, set_size_status, set_next_status,
      set_prev_status, set_status_next, set_size_next, set_next_next, set_prev_next, if_true,
      hne1]
    simp only [and_self]

theorem split_rep (m : Mem) (pre suf : List Blk) (b : Blk) (h size : Nat)
    (hrep : Rep m h (pre ++ b :: suf))
    (hd : ∀ c ∈ pre ++ suf, c.addr ≠ b.addr)
    (hnb : toSigned (sub64 (sub64 b.size (ALIGN size)) META_SIZE) ≥ 8 →
      add64 (add64 b.addr META_SIZE) (ALIGN size) ≠ 0
      ∧ add64 (add64 b.addr META_SIZE) (ALIGN size) ≠ b.addr
      ∧ ∀ c ∈ pre ++ suf, c.addr ≠ add64 (add64 b.addr META_SIZE) (ALIGN size)) :
    Rep (split m b.addr size).2 h (pre ++ splitL b size ++ suf)
    ∧ (∀ a, a ≠ b.addr →
        (toSigned (sub64 (sub64 b.size (ALIGN size)) META_SIZE) ≥ 8 →
          a ≠ add64 (add64 b.addr META_SIZE) (ALIGN size)) →
        Agree m (split m b.addr size).2 a) := by
  obtain ⟨mid, hpre, hmid⟩ := (Seg_append pre (b :: suf) h 0).mp hrep
  obtain ⟨hm, hb0, hbs, hbst, hsuf⟩ := hmid
  subst hm
  have hdp : ∀ c ∈ pre, c.addr ≠ b.addr := fun c hc => hd c (List.mem_append_left _ hc)
  have hds : ∀ c ∈ suf, c.addr ≠ b.addr := fun c hc => hd c (List.mem_append_right _ hc)
  by_cases hc : toSigned (sub64 (sub64 b.size (ALIGN size)) META_SIZE) ≥ 8
  · obtain ⟨n0, nb, nd⟩ := hnb hc
    have hc1 : toSigned (sub64 (sub64 (m b.addr).size (ALIGN size)) META_SIZE) ≥ 8 := by
      rw [hbs]; exact hc
    have hf := carve_fields m b.addr size (sub64 (sub64 (m b.addr).size (ALIGN size)) META_SIZE) nb
    rw [← split_carve_eq m b.addr size hc1] at hf
    have hag : ∀ a, a ≠ b.addr → a ≠ add64 (add64 b.addr META_SIZE) (ALIGN size) →
        Agree m (split m b.addr size).2 a := by
      intro a h1 h2
      obtain ⟨f1, f2, f3⟩ := hf a
      simp only [h1, h2, if_false] at f1 f2 f3
      exact ⟨f1, f2, f3⟩
    refine ⟨?_, fun a h1 h2 => hag a h1 (h2 hc)⟩
    rw [List.append_assoc]
    refine (Seg_append pre _ h 0).mpr ⟨b.addr, ?_, ?_⟩
    · exact Seg_frame pre _ _ (fun c hc => hag c.addr (hdp c hc)
        (nd c (List.mem_append_left _ hc))) hpre
    · simp only [splitL, if_pos hc, List.cons_append, List.nil_append]
      obtain ⟨f1, f2, f3⟩ := hf b.addr
      obtain ⟨g1, g2, g3⟩ := hf (add64 (add64 b.addr META_SIZE) (ALIGN size))
      have nb1 : b.addr ≠ add64 (add64 b.addr META_SIZE) (ALIGN size) := fun h => nb h.symm
      simp only [nb1, if_false, if_true] at f1 f2 f3
      simp only [if_true, hbs] at g1 g2 g3
      have hs := Seg_frame suf _ _ (fun c hc => hag c.addr (hds c hc)
        (nd c (List.mem_append_right _ hc))) hsuf
      simp only [Seg, f1, f2, f3, g1, g2, g3, true_and, ne_eq]
      exact ⟨hb0, n0, hs⟩
  · have hc1 : ¬ toSigned (sub64 (sub64 (m b.addr).size (ALIGN size)) META_SIZE) ≥ 8 := by
      rw [hbs]; exact hc
    rw [split_keep m b.addr size hc1]
    have hag : ∀ a, a ≠ b.addr → Agree m (set_status m b.addr STATUS_ALLOC) a := by
      intro a h1
      simp [Agree, h1]
    refine ⟨?_, fun a h1 _ => hag a h1⟩
    rw [List.append_assoc]
    refine (Seg_append pre _ h 0).mpr ⟨b.addr, ?_, ?_⟩
    · exact Seg_frame pre _ _ (fun c hc => hag c.addr (hdp c hc)) hpre
    · simp only [splitL, if_neg hc, List.cons_append, List.nil_append]
      have hs := Seg_frame suf _ _ (fun c hc => hag c.addr (hds c hc)) hsuf
      simp only [Seg, set_status_size, set_status_status, set_status_next, if_true, hbs,
        true_and, ne_eq]
      exact ⟨hb0, hs⟩

theorem carve_rem (sz A : Nat) (hA : A ≤ sz) (hsz : sz < W)
    (hc : toSigned (sub64 (sub64 sz A) META_SIZE) ≥ 8) :
    sub64 (sub64 sz A) META_SIZE = sz - A - 32 ∧ A + 40 ≤ sz := by
  rw [META_SIZE_eq] at *
  rw [sub64_eq sz A hA hsz] at *
  rw [W_eq] at hsz
  unfold toSigned sub64 at hc
  unfold sub64
  rw [W_eq] at *
  have h32 : (32 : Nat) % 18446744073709551616 = 32 := by decide
  rw [h32] at *
  split at hc <;> omega

theorem splitL_pos (b : Blk) (size : Nat)
    (hc : toSigned (sub64 (sub64 b.size (ALIGN size)) META_SIZE) ≥ 8) :
    splitL b size = [⟨b.addr, ALIGN size, STATUS_ALLOC⟩,
     ⟨add64 (add64 b.addr META_SIZE) (ALIGN size),
      sub64 (sub64 b.size (ALIGN size)) META_SIZE, STATUS_FREE⟩] := by
  simp only [splitL, if_pos hc]

theorem splitL_neg (b : Blk) (size : Nat)
    (hc : ¬ toSigned (sub64 (sub64 b.size (ALIGN size)) META_SIZE) ≥ 8) :
    splitL b size = [⟨b.addr, b.size, STATUS_ALLOC⟩] := by
  simp only [splitL, if_neg hc]

theorem splitL_tiles (b : Blk) (suf : List Blk) (a e size : Nat)
    (h : TilesFrom a (b :: suf) e) (hA : ALIGN size ≤ b.size) (he : e < W) :
    TilesFrom a (splitL b size ++ suf) e := by
  have h1 : b.addr = a := h.1
  have h2 : TilesFrom (a + META_SIZE + b.size) suf e := h.2
  have hle := TilesFrom_le suf _ e h2
  have hb : b.size < W := by omega
  have e1 : add64 (add64 b.addr META_SIZE) (ALIGN size) = a + META_SIZE + ALIGN size := by
    rw [add64_eq b.addr META_SIZE (by omega), add64_eq _ _ (by omega), h1]
  generalize hl : splitL b size = l
  rcases Classical.em (toSigned (sub64 (sub64 b.size (ALIGN size)) META_SIZE) ≥ 8) with hc | hc
  · rw [splitL_pos b size hc] at hl
    subst hl
    obtain ⟨r1, r2⟩ := carve_rem b.size (ALIGN size) hA hb hc
    clear hc
    have e2 : a + META_SIZE + ALIGN size + META_SIZE + (b.size - ALIGN size - 32)
        = a + META_SIZE + b.size := by
      rw [META_SIZE_eq]; omega
    show b.addr = a
      ∧ add64 (add64 b.addr META_SIZE) (ALIGN size) = a + META_SIZE + ALIGN size
      ∧ TilesFrom (a + META_SIZE + ALIGN size + META_SIZE
          + sub64 (sub64 b.size (ALIGN size)) META_SIZE) suf e
    rw [r1, e2]
    exact ⟨h1, e1, h2⟩
  · rw [splitL_neg b size hc] at hl
    subst hl
    exact ⟨h1, h2⟩

theorem dvd_add64 (a b : Nat) (ha : 8 ∣ a) (hb : 8 ∣ b) : 8 ∣ add64 a b := by
  unfold add64
  rw [W_eq]
  omega

theorem dvd_sub64 (a b : Nat) (ha : 8 ∣ a) (hb : 8 ∣ b) : 8 ∣ sub64 a b := by
  unfold sub64
  rw [W_eq]
  omega

theorem keepL_none (r : Nat) (b : Blk) (best : Option Blk) (h : keepL r b best = none) :
    best = none ∧ ¬ (b.size ≥ r ∧ b.status = STATUS_FREE) := by
  unfold keepL at h
  by_cases hc : b.size ≥ r ∧ b.status = STATUS_FREE
  · rw [if_pos hc] at h
    cases best with
    | none => simp at h
    | some c => by_cases hlt : b.size < c.size <;> simp [hlt] at h
  · rw [if_neg hc] at h
    exact ⟨h, hc⟩

theorem keepL_some (r : Nat) (b : Blk) (best : Option Blk) (c : Blk)
    (h : keepL r b best = some c) :
    (c = b ∧ b.size ≥ r ∧ b.status = STATUS_FREE) ∨ best = some c := by
  unfold keepL at h
  by_cases hc : b.size ≥ r ∧ b.status = STATUS_FREE
  · rw [if_pos hc] at h
    cases best with
    | none =>
      simp only [Option.some.injEq] at h
      exact Or.inl ⟨h.symm, hc⟩
    | some d =>
      by_cases hlt : b.size < d.size
      · simp only [hlt, if_true, Option.some.injEq] at h
        exact Or.inl ⟨h.symm, hc⟩
      · simp only [hlt, if_false] at h
        exact Or.inr h
  · rw [if_neg hc] at h
    exact Or.inr h

theorem bestL_none (r : Nat) : ∀ (v : List Blk) (best : Option Blk),
    bestL r v best = none → best = none ∧ ∀ b ∈ v, ¬ (b.size ≥ r ∧ b.status = STATUS_FREE)
  | [], best, h => ⟨h, fun _ hb => by simp at hb⟩
  | b :: v, best, h => by
    obtain ⟨h1, h2⟩ := bestL_none r v (keepL r b best) h
    obtain ⟨h3, h4⟩ := keepL_none r b best h1
    refine ⟨h3, fun c hc => ?_⟩
    rcases List.mem_cons.mp hc with rfl | hc
    · exact h4
    · exact h2 c hc

theorem bestL_some (r : Nat) : ∀ (v : List Blk) (best : Option Blk) (c : Blk),
    bestL r v best = some c →
    (c ∈ v ∧ c.size ≥ r ∧ c.status = STATUS_FREE) ∨ best = some c
  | [], best, c, h => Or.inr h
  | b :: v, best, c, h => by
    rcases bestL_some r v (keepL r b best) c h with ⟨h1, h2⟩ | h1
    · exact Or.inl ⟨List.mem_cons_of_mem _ h1, h2⟩
    · rcases keepL_some r b best c h1 with ⟨h2, h3⟩ | h2
      · subst h2
        exact Or.inl ⟨List.mem_cons_self _ _, h3⟩
      · exact Or.inr h2

theorem coalesceFrom_mem_alloc : ∀ (v : List Blk) (b x : Blk),
    x ∈ b :: v → x.status ≠ STATUS_FREE → x ∈ coalesceFrom b v
  | [], _, _, hx, _ => hx
  | c :: v, b, x, hx, hs => by
    unfold coalesceFrom
    by_cases hff : b.status = STATUS_FREE ∧ c.status = STATUS_FREE
    · rw [if_pos hff]
      apply coalesceFrom_mem_alloc v _ x _ hs
      rcases List.mem_cons.mp hx with rfl | hx
      · exact absurd hff.1 hs
      · rcases List.mem_cons.mp hx with rfl | hx
        · exact absurd hff.2 hs
        · exact List.mem_cons_of_mem _ hx
    · rw [if_neg hff]
      rcases List.mem_cons.mp hx with rfl | hx
      · exact List.mem_cons_self _ _
      · exact List.mem_cons_of_mem _ (coalesceFrom_mem_alloc v c x hx hs)

theorem coalesceFrom_mem_rev : ∀ (v : List Blk) (b x : Blk),
    x ∈ coalesceFrom b v → x.status ≠ STATUS_FREE → x ∈ b :: v
  | [], _, _, hx, _ => hx
  | c :: v, b, x, hx, hs => by
    unfold coalesceFrom at hx
    by_cases hff : b.status = STATUS_FREE ∧ c.status = STATUS_FREE
    · rw [if_pos hff] at hx
      have := coalesceFrom_mem_rev v _ x hx hs
      rcases List.mem_cons.mp this with rfl | h
      · exact absurd hff.1 hs
      · exact List.mem_cons_of_mem _ (List.mem_cons_of_mem _ h)
    · rw [if_neg hff] at hx
      rcases List.mem_cons.mp hx with rfl | hx
      · exact List.mem_cons_self _ _
      · exact List.mem_cons_of_mem _ (coalesceFrom_mem_rev v c x hx hs)

theorem coalesceL_mem_alloc (v : List Blk) (x : Blk) (hx : x ∈ v)
    (hs : x.status ≠ STATUS_FREE) : x ∈ coalesceL v := by
  cases v with
  | nil => exact hx
  | cons b v => exact coalesceFrom_mem_alloc v b x hx hs

theorem coalesceL_mem_rev (v : List Blk) (x : Blk) (hx : x ∈ coalesceL v)
    (hs : x.status ≠ STATUS_FREE) : x ∈ v := by
  cases v with
  | nil => exact hx
  | cons b v => exact coalesceFrom_mem_rev v b x hx hs

theorem coalesceFrom_free_cap : ∀ (v : List Blk) (b x : Blk) (a e : Nat),
    TilesFrom a (b :: v) e → e < W → x ∈ b :: v → x.status = STATUS_FREE →
    ∃ y ∈ coalesceFrom b v, y.status = STATUS_FREE ∧ x.size ≤ y.size
  | [], _, x, _, _, _, _, hx, hs => ⟨x, hx, hs, Nat.le_refl _⟩
  | c :: v, b, x, a, e, ht, he, hx, hs => by
    obtain ⟨h1, h2, h3⟩ := ht
    have hle := TilesFrom_le v _ e h3
    unfold coalesceFrom
    by_cases hff : b.status = STATUS_FREE ∧ c.status = STATUS_FREE
    · rw [if_pos hff]
      have hsz : add64 (add64 b.size c.size) META_SIZE = b.size + c.size + META_SIZE := by
        rw [add64_eq b.size c.size (by omega), add64_eq _ _ (by omega)]
      have ht1 : TilesFrom a ({ b with size := add64 (add64 b.size c.size) META_SIZE } :: v) e := by
        refine ⟨h1, ?_⟩
        simp only [hsz]
        have e1 : a + META_SIZE + (b.size + c.size + META_SIZE)
            = a + META_SIZE + b.size + META_SIZE + c.size := by omega
        rw [e1]
        exact h3
      have big : ∀ z : Blk, z ∈ ({ b with size := add64 (add64 b.size c.size) META_SIZE } :: v) →
          z.status = STATUS_FREE → x.size ≤ z.size →
          ∃ y ∈ coalesceFrom { b with size := add64 (add64 b.size c.size) META_SIZE } v,
            y.status = STATUS_FREE ∧ x.size ≤ y.size := by
        intro z hz hzs hxz
        obtain ⟨y, hy1, hy2, hy3⟩ := coalesceFrom_free_cap v _ z a e ht1 he hz hzs
        exact ⟨y, hy1, hy2, Nat.le_trans hxz hy3⟩
      rcases List.mem_cons.mp hx with rfl | hx
      · exact big _ (List.mem_cons_self _ _) hff.1 (by simp only [hsz]; omega)
      · rcases List.mem_cons.mp hx with rfl | hx
        · exact big _ (List.mem_cons_self _ _) hff.1 (by simp only [hsz]; omega)
        · exact big x (List.mem_cons_of_mem _ hx) hs (Nat.le_refl _)
    · rw [if_neg hff]
      rcases List.mem_cons.mp hx with rfl | hx
      · exact ⟨x, List.mem_cons_self _ _, hs, Nat.le_refl _⟩
      · obtain ⟨y, hy1, hy2, hy3⟩ := coalesceFrom_free_cap v c x _ e ⟨h2, h3⟩ he hx hs
        exact ⟨y, List.mem_cons_of_mem _ hy1, hy2, hy3⟩

theorem coalesceL_free_cap (v : List Blk) (x : Blk) (a e : Nat) (ht : TilesFrom a v e)
    (he : e < W) (hx : x ∈ v) (hs : x.status = STATUS_FREE) :
    ∃ y ∈ coalesceL v, y.status = STATUS_FREE ∧ x.size ≤ y.size := by
  cases v with
  | nil => simp at hx
  | cons b v => exact coalesceFrom_free_cap v b x a e ht he hx hs

/-! ## The invariant along the heap operations -/

theorem Valid.bounds {s : State} {v : List Blk} (hv : Valid s v) (c : Blk) (hc : c ∈ v) :
    s.head ≤ c.addr ∧ c.addr + 32 + c.size ≤ s.brk := by
  have hne : v ≠ [] := List.ne_nil_of_mem hc
  have := TilesFrom_mem v _ _ (hv.tiles hne) c hc
  rw [META_SIZE_eq] at this
  exact this

theorem Valid.brk_lt {s : State} {v : List Blk} (hv : Valid s v) : s.brk < W :=
  lt_of_le_of_lt (Nat.le_trans hv.brk_le hv.max_le) hv.next_lt

theorem Valid_heap (s : State) (v v1 : List Blk) (m1 : Mem) (hv : Valid s v)
    (hrep : Rep m1 s.head v1) (ht : v1 ≠ [] → TilesFrom s.head v1 s.brk)
    (hne : v1 = [] ↔ v = []) (h8 : ∀ b ∈ v1, 8 ∣ b.size)
    (hst : ∀ b ∈ v1, b.status = STATUS_FREE ∨ b.status = STATUS_ALLOC)
    (hfr : ∀ a, s.brk ≤ a → Agree s.mem m1 a) :
    Valid { s with mem := m1 } v1 where
  rep := hrep
  tiles := ht
  pre0 := fun h => hne.mpr (hv.pre0 h)
  pre1 := fun h h1 => hv.pre1 h (hne.mp h1)
  size8 := h8
  stat := hst
  brk_pos := hv.brk_pos
  brk8 := hv.brk8
  brk_le := hv.brk_le
  max_le := hv.max_le
  next8 := hv.next8
  next_lt := hv.next_lt
  room := hv.room
  maps := by
    intro x hx
    obtain ⟨h1, h2, h3, h4, h5, h6, h7⟩ := hv.maps x hx
    obtain ⟨a1, a2, _⟩ := hfr x.1 (Nat.le_trans hv.brk_le h5)
    show (m1 x.1).status = STATUS_MAPPED ∧ x.2 = add64 (m1 x.1).size META_SIZE
      ∧ 8 ∣ (m1 x.1).size ∧ _
    rw [a1, a2]
    exact ⟨h1, h2, h3, h4, h5, h6, h7⟩
  apart := hv.apart
  nofail := hv.nofail

theorem Valid_bytes (s : State) (v : List Blk) (z : Nat → Nat) (hv : Valid s v) :
    Valid { s with bytes := z } v where
  rep := hv.rep
  tiles := hv.tiles
  pre0 := hv.pre0
  pre1 := hv.pre1
  size8 := hv.size8
  stat := hv.stat
  brk_pos := hv.brk_pos
  brk8 := hv.brk8
  brk_le := hv.brk_le
  max_le := hv.max_le
  next8 := hv.next8
  next_lt := hv.next_lt
  room := hv.room
  maps := hv.maps
  apart := hv.apart
  nofail := hv.nofail

theorem Valid_count (s : State) (v : List Blk) (k : Nat) (hv : Valid s v) :
    Valid { s with preallocs := k } v where
  rep := hv.rep
  tiles := hv.tiles
  pre0 := hv.pre0
  pre1 := hv.pre1
  size8 := hv.size8
  stat := hv.stat
  brk_pos := hv.brk_pos
  brk8 := hv.brk8
  brk_le := hv.brk_le
  max_le := hv.max_le
  next8 := hv.next8
  next_lt := hv.next_lt
  room := hv.room
  maps := hv.maps
  apart := hv.apart
  nofail := hv.nofail

theorem coalesce_valid (s : State) (v : List Blk) (fuel : Nat) (hv : Valid s v)
    (hf : v.length < fuel ∨ (coalesce_blocks fuel s).isSome) :
    ∃ m1, coalesce_blocks fuel s = some { s with mem := m1 }
      ∧ Valid { s with mem := m1 } (coalesceL v)
      ∧ (∀ a, (∀ c ∈ v, c.addr ≠ a) → Agree s.mem m1 a)
      ∧ (∀ a, (m1 a).status = (s.mem a).status) := by
  have hpw : v.Pairwise (fun x y => x.addr ≠ y.addr) := by
    by_cases hne : v = []
    · subst hne; exact List.Pairwise.nil
    · exact TilesFrom_pairwise v _ _ (hv.tiles hne)
  have hf1 : v.length < fuel ∨ (coalesce_walk fuel s.head s.mem).isSome := by
    refine hf.imp id (fun h => ?_)
    unfold coalesce_blocks at h
    cases hw : coalesce_walk fuel s.head s.mem with
    | none => rw [hw] at h; simp at h
    | some _ => rfl
  obtain ⟨m1, e1, r1, f1, s1⟩ := walk_spec fuel v s.head s.mem hv.rep hpw hf1
  refine ⟨m1, ?_, ?_, f1, s1⟩
  · unfold coalesce_blocks
    rw [e1]
  · refine Valid_heap s v (coalesceL v) m1 hv r1 ?_ ?_ ?_ ?_ ?_
    · intro hne
      have hv0 : v ≠ [] := fun h => hne (by rw [h]; rfl)
      exact coalesceL_tiles v _ _ hv0 (hv.tiles hv0) hv.brk_lt
    · constructor
      · intro h
        by_contra hv0
        exact coalesceL_ne_nil v hv0 h
      · intro h; rw [h]; rfl
    · exact coalesceL_forall (fun b => 8 ∣ b.size)
        (fun b c hb hc => dvd_add64 _ _ (dvd_add64 _ _ hb hc) (by rw [META_SIZE_eq]; decide))
        v hv.size8
    · exact coalesceL_forall (fun b => b.status = STATUS_FREE ∨ b.status = STATUS_ALLOC)
        (fun b c hb hc => hb) v hv.stat
    · intro a ha
      apply f1
      intro c hc hca
      have := (hv.bounds c hc).2
      omega

theorem find_best_valid (s : State) (v : List Blk) (fuel request : Nat) (hv : Valid s v)
    (hf : v.length < fuel ∨ (find_best fuel s request).isSome) :
    ∃ m1, find_best fuel s request
        = some (addrOf (bestL (ALIGN request) (coalesceL v) none), { s with mem := m1 })
      ∧ Valid { s with mem := m1 } (coalesceL v)
      ∧ (∀ a, (∀ c ∈ v, c.addr ≠ a) → Agree s.mem m1 a)
      ∧ (∀ a, (m1 a).status = (s.mem a).status) := by
  have hf1 : v.length < fuel ∨ (coalesce_blocks fuel s).isSome := by
    refine hf.imp id (fun h => ?_)
    unfold find_best at h
    cases hw : coalesce_blocks fuel s with
    | none => rw [hw] at h; simp at h
    | some _ => rfl
  obtain ⟨m1, e1, v1, f1, s1⟩ := coalesce_valid s v fuel hv hf1
  have hfb : find_best fuel s request =
      match find_best_loop request m1 fuel s.head 0 with
      | none => none
      | some b => some (b, { s with mem := m1 }) := by
    simp only [find_best, e1]
  have hf2 : (coalesceL v).length < fuel
      ∨ (find_best_loop request m1 fuel s.head (addrOf none)).isSome := by
    refine hf.imp (fun h => lt_of_le_of_lt (coalesceL_length v) h) (fun h => ?_)
    rw [hfb] at h
    cases hw : find_best_loop request m1 fuel s.head 0 with
    | none => rw [hw] at h; simp at h
    | some _ => simp [addrOf, hw]
  have hl : find_best_loop request m1 fuel s.head 0
      = some (addrOf (bestL (ALIGN request) (coalesceL v) none)) :=
    find_loop_spec request m1 fuel (coalesceL v) s.head none v1.rep
      (fun c hc => by simp at hc) hf2
  refine ⟨m1, ?_, v1, f1, s1⟩
  rw [hfb, hl]

theorem splitL_cases (b : Blk) (size : Nat) (hA : ALIGN size ≤ b.size) (hb : b.size < W) :
    (splitL b size = [⟨b.addr, ALIGN size, STATUS_ALLOC⟩,
        ⟨add64 (add64 b.addr META_SIZE) (ALIGN size), b.size - ALIGN size - 32, STATUS_FREE⟩]
      ∧ ALIGN size + 40 ≤ b.size
      ∧ toSigned (sub64 (sub64 b.size (ALIGN size)) META_SIZE) ≥ 8)
    ∨ (splitL b size = [⟨b.addr, b.size, STATUS_ALLOC⟩]
      ∧ ¬ toSigned (sub64 (sub64 b.size (ALIGN size)) META_SIZE) ≥ 8) := by
  rcases Classical.em (toSigned (sub64 (sub64 b.size (ALIGN size)) META_SIZE) ≥ 8) with hc | hc
  · obtain ⟨r1, r2⟩ := carve_rem b.size (ALIGN size) hA hb hc
    refine Or.inl ⟨?_, r2, hc⟩
    rw [splitL_pos b size hc, r1]
  · exact Or.inr ⟨splitL_neg b size hc, hc⟩

theorem splitL_ne_nil (b : Blk) (size : Nat) : splitL b size ≠ [] := by
  rcases Classical.em (toSigned (sub64 (sub64 b.size (ALIGN size)) META_SIZE) ≥ 8) with hc | hc
  · rw [splitL_pos b size hc]; exact List.cons_ne_nil _ _
  · rw [splitL_neg b size hc]; exact List.cons_ne_nil _ _

theorem splitL_good (b : Blk) (size : Nat) (hA : ALIGN size ≤ b.size) (hb : b.size < W)
    (h8 : 8 ∣ b.size) : ∀ x ∈ splitL b size,
    8 ∣ x.size ∧ (x.status = STATUS_FREE ∨ x.status = STATUS_ALLOC) := by
  have hal := ALIGN_dvd size
  intro x hx
  rcases splitL_cases b size hA hb with ⟨h1, h2, _⟩ | ⟨h1, _⟩
  · rw [h1] at hx
    simp only [List.mem_cons, List.mem_singleton, List.not_mem_nil, or_false] at hx
    rcases hx with rfl | rfl
    · exact ⟨hal, Or.inr rfl⟩
    · refine ⟨?_, Or.inl rfl⟩
      show 8 ∣ b.size - ALIGN size - 32
      omega
  · rw [h1] at hx
    simp only [List.mem_singleton] at hx
    subst hx
    exact ⟨h8, Or.inr rfl⟩

theorem split_valid (s : State) (pre suf : List Blk) (b : Blk) (size : Nat)
    (hv : Valid s (pre ++ b :: suf)) (hA : ALIGN size ≤ b.size) :
    Valid { s with mem := (split s.mem b.addr size).2 } (pre ++ splitL b size ++ suf)
    ∧ (∀ a, s.brk ≤ a → Agree s.mem (split s.mem b.addr size).2 a) := by
  have hne0 : pre ++ b :: suf ≠ [] := by simp
  obtain ⟨mid, t1, t2⟩ := (TilesFrom_append pre (b :: suf) _ _).mp (hv.tiles hne0)
  have hmid : b.addr = mid := t2.1
  subst hmid
  have hbb := hv.bounds b (List.mem_append_right _ (List.mem_cons_self _ _))
  have hW := hv.brk_lt
  have hpre : ∀ c ∈ pre, c.addr + 32 + c.size ≤ b.addr := by
    intro c hc
    have := (TilesFrom_mem pre _ _ t1 c hc).2
    rw [META_SIZE_eq] at this
    exact this
  have hsuf : ∀ c ∈ suf, b.addr + 32 + b.size ≤ c.addr := by
    intro c hc
    have := (TilesFrom_mem suf _ _ t2.2 c hc).1
    rw [META_SIZE_eq] at this
    exact this
  have hbW : b.size < W := by omega
  have hnbeq : add64 (add64 b.addr META_SIZE) (ALIGN size) = b.addr + 32 + ALIGN size := by
    rw [META_SIZE_eq, add64_eq b.addr 32 (by omega), add64_eq _ _ (by omega)]
  have hd : ∀ c ∈ pre ++ suf, c.addr ≠ b.addr := by
    intro c hc
    rcases List.mem_append.mp hc with h | h
    · have := hpre c h; omega
    · have := hsuf c h; omega
  have hnb : toSigned (sub64 (sub64 b.size (ALIGN size)) META_SIZE) ≥ 8 →
      add64 (add64 b.addr META_SIZE) (ALIGN size) ≠ 0
      ∧ add64 (add64 b.addr META_SIZE) (ALIGN size) ≠ b.addr
      ∧ ∀ c ∈ pre ++ suf, c.addr ≠ add64 (add64 b.addr META_SIZE) (ALIGN size) := by
    intro hc
    obtain ⟨_, r2⟩ := carve_rem b.size (ALIGN size) hA hbW hc
    clear hc
    rw [hnbeq]
    refine ⟨by omega, by omega, ?_⟩
    intro c hc
    rcases List.mem_append.mp hc with h | h
    · have := hpre c h; omega
    · have := hsuf c h; omega
  obtain ⟨hrep, hfr⟩ := split_rep s.mem pre suf b s.head size hv.rep hd hnb
  have hfr1 : ∀ a, s.brk ≤ a → Agree s.mem (split s.mem b.addr size).2 a := by
    intro a ha
    apply hfr a (by omega)
    intro hc
    obtain ⟨_, r2⟩ := carve_rem b.size (ALIGN size) hA hbW hc
    clear hc
    rw [hnbeq]
    omega
  refine ⟨?_, hfr1⟩
  have hgood := splitL_good b size hA hbW
    (hv.size8 b (List.mem_append_right _ (List.mem_cons_self _ _)))
  refine Valid_heap s _ _ _ hv hrep ?_ ?_ ?_ ?_ hfr1
  · intro _
    rw [List.append_assoc]
    exact (TilesFrom_append pre _ _ _).mpr ⟨b.addr, t1, splitL_tiles b suf _ _ size t2 hA hW⟩
  · constructor
    · intro h
      have := splitL_ne_nil b size
      simp only [List.append_eq_nil, this, and_false, false_and] at h
    · intro h; exact absurd h hne0
  · intro x hx
    rcases List.mem_append.mp hx with h | h
    · rcases List.mem_append.mp h with h | h
      · exact hv.size8 x (List.mem_append_left _ h)
      · exact (hgood x h).1
    · exact hv.size8 x (List.mem_append_right _ (List.mem_cons_of_mem _ h))
  · intro x hx
    rcases List.mem_append.mp hx with h | h
    · rcases List.mem_append.mp h with h | h
      · exact hv.stat x (List.mem_append_left _ h)
      · exact (hgood x h).2
    · exact hv.stat x (List.mem_append_right _ (List.mem_cons_of_mem _ h))

theorem insert_rep (s : State) (v : List Blk) (fuel block sz st : Nat)
    (hrep : Rep s.mem s.head v) (hlt : ∀ c ∈ v, c.addr < block) (hb0 : block ≠ 0)
    (hsz : (s.mem block).size = sz) (hst : (s.mem block).status = st)
    (hnx : (s.mem block).next = 0)
    (hpw : v.Pairwise (fun x y => x.addr ≠ y.addr))
    (hf : v.length < fuel ∨ (insertAlloced fuel s block).isSome) :
    ∃ m1 h1, insertAlloced fuel s block = some { s with mem := m1, head := h1 }
      ∧ Rep m1 h1 (v ++ [⟨block, sz, st⟩])
      ∧ (v ≠ [] → h1 = s.head) ∧ (v = [] → h1 = block)
      ∧ (∀ a, (∀ c ∈ v, c.addr ≠ a) → Agree s.mem m1 a) := by
  rcases List.eq_nil_or_concat v with hv | ⟨pre, l, hv⟩
  · subst hv
    have h0 : s.head = 0 := hrep
    refine ⟨s.mem, block, ?_, ?_, fun h => absurd rfl h, fun _ => rfl,
      fun a _ => Agree.refl _ a⟩
    · simp only [insertAlloced, h0, if_true]
    · exact ⟨rfl, hb0, hsz, hst, hnx⟩
  · rw [List.concat_eq_append] at hv
    subst hv
    have hh0 : s.head ≠ 0 := by
      cases pre with
      | nil => exact hrep.1 ▸ hrep.2.1
      | cons c pre => exact hrep.1 ▸ hrep.2.1
    have hlen : (pre ++ [l]).length = pre.length + 1 := by simp
    have hf1 : (pre ++ [l]).length < fuel ∨ (insert_seek s.mem block fuel s.head).isSome := by
      refine hf.imp id (fun h => ?_)
      unfold insertAlloced at h
      rw [if_neg hh0] at h
      cases hw : insert_seek s.mem block fuel s.head with
      | none => rw [hw] at h; simp at h
      | some _ => rfl
    have e1 := insert_seek_spec s.mem block fuel (pre ++ [l]) s.head hrep hlt hf1
    have hf2 : pre.length < fuel ∨ (insert_last s.mem fuel s.head).isSome := by
      rcases hf with h | h
      · left; omega
      · right
        unfold insertAlloced at h
        rw [if_neg hh0, e1] at h
        simp only [if_true] at h
        cases hw : insert_last s.mem fuel s.head with
        | none => rw [hw] at h; simp at h
        | some _ => rfl
    have e2 := insert_last_spec s.mem fuel pre l s.head hrep hf2
    have hia : insertAlloced fuel s block
        = some { s with mem := set_prev (set_next s.mem l.addr block) block l.addr } := by
      unfold insertAlloced
      rw [if_neg hh0, e1]
      simp only [if_true, e2]
    obtain ⟨mid, p1, p2⟩ := (Seg_append pre [l] s.head 0).mp hrep
    obtain ⟨hm, hl0, hls, hlst, hln⟩ := p2
    subst hm
    have hlb : l.addr < block := hlt l (List.mem_append_right _ (List.mem_singleton_self _))
    have hpl : ∀ c ∈ pre, c.addr ≠ l.addr := by
      intro c hc
      have := List.pairwise_append.mp hpw
      exact this.2.2 c hc l (List.mem_singleton_self _)
    have hag : ∀ a, a ≠ l.addr →
        Agree s.mem (set_prev (set_next s.mem l.addr block) block l.addr) a := by
      intro a ha
      simp [Agree, ha]
    refine ⟨_, s.head, hia, ?_, fun _ => rfl, fun h => by simp at h, ?_⟩
    · refine (Seg_append (pre ++ [l]) _ s.head 0).mpr ⟨block, ?_, ?_⟩
      · refine (Seg_append pre [l] s.head block).mpr ⟨l.addr, ?_, ?_⟩
        · exact Seg_frame pre _ _ (fun c hc => hag c.addr (hpl c hc)) p1
        · simp only [Seg, set_prev_size, set_next_size, set_prev_status, set_next_status,
            set_prev_next, set_next_next, if_true, hls, hlst, true_and, ne_eq]
          exact ⟨hl0, trivial⟩
      · have hbl : block ≠ l.addr := by omega
        simp only [Seg, set_prev_size, set_next_size, set_prev_status, set_next_status,
          set_prev_next, set_next_next, hbl, if_false, hsz, hst, hnx, true_and, ne_eq]
        exact ⟨hb0, trivial⟩
    · intro a ha
      exact hag a (fun h => ha l (List.mem_append_right _ (List.mem_singleton_self _)) h.symm)

theorem sbrk_ok (s : State) (delta : Nat) (h : delta < 2 ^ 63 ∧ s.brk + delta ≤ s.brk_max) :
    sbrk s delta
      = (s.brk, { s with brk := s.brk + delta, log := OsCall.sbrk delta s.brk :: s.log }) := by
  unfold sbrk; rw [if_pos h]

theorem sbrk_fail (s : State) (delta : Nat) (h : ¬ (delta < 2 ^ 63 ∧ s.brk + delta ≤ s.brk_max)) :
    sbrk s delta = (FAILED, { s with log := OsCall.sbrk delta FAILED :: s.log }) := by
  unfold sbrk; rw [if_neg h]

theorem sbrk_mem (s : State) (delta : Nat) : (sbrk s delta).2.mem = s.mem := by
  unfold sbrk; split <;> rfl

theorem NoFail_cons (c : OsCall) (log : List OsCall) :
    NoFail (c :: log) ↔ c.failed = false ∧ NoFail log := by
  unfold NoFail
  simp

theorem sbrk_nofail (s : State) (delta : Nat) (h : NoFail (sbrk s delta).2.log) :
    delta < 2 ^ 63 ∧ s.brk + delta ≤ s.brk_max := by
  by_contra hc
  rw [sbrk_fail s delta hc] at h
  have := ((NoFail_cons _ _).mp h).1
  simp [OsCall.failed] at this

theorem brk_ne_failed (b : Nat) (h8 : 8 ∣ b) : b ≠ FAILED := by
  have : FAILED = 18446744073709551615 := by decide
  rw [this]
  omega

theorem append_valid (s : State) (v : List Blk) (fuel delta sz st p : Nat) (hv : Valid s v)
    (hd : delta = sz + 32) (hfit : s.brk + delta ≤ s.brk_max)
    (h8 : 8 ∣ sz) (hst : st = STATUS_FREE ∨ st = STATUS_ALLOC) (hp : p ≠ 0)
    (hf : v.length < fuel ∨ (insertAlloced fuel
      { s with
        brk := s.brk + delta
        log := OsCall.sbrk delta s.brk :: s.log
        mem := set_status (set_size (set_next (set_prev s.mem s.brk 0) s.brk 0) s.brk sz)
          s.brk st } s.brk).isSome) :
    ∃ m1 h1, insertAlloced fuel
        { s with
          brk := s.brk + delta
          log := OsCall.sbrk delta s.brk :: s.log
          mem := set_status (set_size (set_next (set_prev s.mem s.brk 0) s.brk 0) s.brk sz)
            s.brk st } s.brk
        = some { s with
          brk := s.brk + delta
          log := OsCall.sbrk delta s.brk :: s.log
          mem := m1
          head := h1 }
      ∧ Valid { s with
          brk := s.brk + delta
          log := OsCall.sbrk delta s.brk :: s.log
          mem := m1
          head := h1
          prealloced_mem := p } (v ++ [⟨s.brk, sz, st⟩])
      ∧ (∀ a, s.brk + delta ≤ a → Agree s.mem m1 a)
      ∧ (v ≠ [] → h1 = s.head) := by
  have hb := hv.brk_pos
  have hbnd : ∀ c ∈ v, c.addr < s.brk := by
    intro c hc
    have := (hv.bounds c hc).2
    omega
  have hpw : v.Pairwise (fun x y => x.addr ≠ y.addr) := by
    by_cases hne : v = []
    · subst hne; exact List.Pairwise.nil
    · exact TilesFrom_pairwise v _ _ (hv.tiles hne)
  have hag0 : ∀ a, a ≠ s.brk → Agree s.mem
      (set_status (set_size (set_next (set_prev s.mem s.brk 0) s.brk 0) s.brk sz) s.brk st) a := by
    intro a ha
    simp [Agree, ha]
  have hrep0 : Rep (set_status (set_size (set_next (set_prev s.mem s.brk 0) s.brk 0) s.brk sz)
      s.brk st) s.head v :=
    Seg_frame v _ _ (fun c hc => hag0 c.addr (by have := hbnd c hc; omega)) hv.rep
  obtain ⟨m1, h1, e1, r1, n1, n2, f1⟩ := insert_rep
    { s with
      brk := s.brk + delta
      log := OsCall.sbrk delta s.brk :: s.log
      mem := set_status (set_size (set_next (set_prev s.mem s.brk 0) s.brk 0) s.brk sz)
        s.brk st } v fuel s.brk sz st hrep0 hbnd (by omega) (by simp) (by simp) (by simp) hpw hf
  have hfr : ∀ a, s.brk + delta ≤ a → Agree s.mem m1 a := by
    intro a ha
    refine (hag0 a (by omega)).trans (f1 a ?_)
    intro c hc
    have := hbnd c hc
    omega
  refine ⟨m1, h1, e1, ?_, hfr, n1⟩
  refine
    { rep := r1
      tiles := ?_
      pre0 := fun h => absurd h hp
      pre1 := fun _ => by simp
      size8 := ?_
      stat := ?_
      brk_pos := by show 0 < s.brk + delta; omega
      brk8 := by
        show 8 ∣ s.brk + delta
        have := hv.brk8
        omega
      brk_le := hfit
      max_le := hv.max_le
      next8 := hv.next8
      next_lt := hv.next_lt
      room := hv.room
      maps := ?_
      apart := hv.apart
      nofail := ?_ }
  · intro _
    show TilesFrom h1 (v ++ [⟨s.brk, sz, st⟩]) (s.brk + delta)
    by_cases hne : v = []
    · subst hne
      rw [n2 rfl]
      refine ⟨rfl, ?_⟩
      show s.brk + META_SIZE + sz = s.brk + delta
      rw [META_SIZE_eq]; omega
    · rw [n1 hne]
      refine (TilesFrom_append v _ _ _).mpr ⟨s.brk, hv.tiles hne, rfl, ?_⟩
      show s.brk + META_SIZE + sz = s.brk + delta
      rw [META_SIZE_eq]; omega
  · intro x hx
    rcases List.mem_append.mp hx with h | h
    · exact hv.size8 x h
    · rw [List.mem_singleton] at h; subst h; exact h8
  · intro x hx
    rcases List.mem_append.mp hx with h | h
    · exact hv.stat x h
    · rw [List.mem_singleton] at h; subst h; exact hst
  · intro x hx
    obtain ⟨a1, a2, a3, a4, a5, a6, a7⟩ := hv.maps x hx
    obtain ⟨g1, g2, _⟩ := hfr x.1 (by omega)
    show (m1 x.1).status = STATUS_MAPPED ∧ x.2 = add64 (m1 x.1).size META_SIZE
      ∧ 8 ∣ (m1 x.1).size ∧ _
    rw [g1, g2]
    exact ⟨a1, a2, a3, a4, a5, a6, a7⟩
  · show NoFail (OsCall.sbrk delta s.brk :: s.log)
    rw [NoFail_cons]
    refine ⟨?_, hv.nofail⟩
    have := brk_ne_failed s.brk hv.brk8
    simp [OsCall.failed, this]

theorem tail_valid (s : State) (pre : List Blk) (l : Blk) (A st delta : Nat) (m1 : Mem)
    (hv : Valid s (pre ++ [l])) (hd : l.size + delta = A)
    (hfit : s.brk + delta ≤ s.brk_max) (h8 : 8 ∣ A)
    (hst : st = STATUS_FREE ∨ st = STATUS_ALLOC)
    (hm : ∀ a, a ≠ l.addr → Agree s.mem m1 a)
    (hl : (m1 l.addr).size = A ∧ (m1 l.addr).status = st
      ∧ (m1 l.addr).next = (s.mem l.addr).next) :
    Valid { s with mem := m1, brk := s.brk + delta, log := OsCall.sbrk delta s.brk :: s.log }
      (pre ++ [⟨l.addr, A, st⟩]) := by
  have hne0 : pre ++ [l] ≠ [] := by simp
  obtain ⟨mid, t1, t2⟩ := (TilesFrom_append pre [l] _ _).mp (hv.tiles hne0)
  obtain ⟨hmid, t3⟩ := t2
  have t4 : l.addr + META_SIZE + l.size = s.brk := by rw [hmid]; exact t3
  obtain ⟨mid1, p1, p2⟩ := (Seg_append pre [l] s.head 0).mp hv.rep
  obtain ⟨hm1, hl0, hls, hlst, hln⟩ := p2
  have hpl : ∀ c ∈ pre, c.addr ≠ l.addr := by
    intro c hc
    have := (TilesFrom_pairwise _ _ _ (hv.tiles hne0))
    exact (List.pairwise_append.mp this).2.2 c hc l (List.mem_singleton_self _)
  have hbl : l.addr < s.brk := by rw [META_SIZE_eq] at t4; omega
  refine
    { rep := ?_
      tiles := ?_
      pre0 := fun h => absurd (hv.pre0 h) hne0
      pre1 := fun _ => by simp
      size8 := ?_
      stat := ?_
      brk_pos := by show 0 < s.brk + delta; have := hv.brk_pos; omega
      brk8 := ?_
      brk_le := hfit
      max_le := hv.max_le
      next8 := hv.next8
      next_lt := hv.next_lt
      room := hv.room
      maps := ?_
      apart := hv.apart
      nofail := ?_ }
  · refine (Seg_append pre _ s.head 0).mpr ⟨l.addr, ?_, ?_⟩
    · rw [← hm1]
      exact Seg_frame pre _ _ (fun c hc => hm c.addr (hpl c hc)) p1
    · refine ⟨rfl, hl0, hl.1, hl.2.1, ?_⟩
      show Seg m1 (m1 l.addr).next [] 0
      rw [hl.2.2]
      exact hln
  · intro _
    refine (TilesFrom_append pre _ _ _).mpr ⟨mid, t1, hmid, ?_⟩
    show mid + META_SIZE + A = s.brk + delta
    rw [← hmid]; omega
  · intro x hx
    rcases List.mem_append.mp hx with h | h
    · exact hv.size8 x (List.mem_append_left _ h)
    · rw [List.mem_singleton] at h; subst h; exact h8
  · intro x hx
    rcases List.mem_append.mp hx with h | h
    · exact hv.stat x (List.mem_append_left _ h)
    · rw [List.mem_singleton] at h; subst h; exact hst
  · show 8 ∣ s.brk + delta
    have := hv.brk8
    have := hv.size8 l (List.mem_append_right _ (List.mem_singleton_self _))
    omega
  · intro x hx
    obtain ⟨a1, a2, a3, a4, a5, a6, a7⟩ := hv.maps x hx
    have := hv.brk_le
    obtain ⟨g1, g2, _⟩ := hm x.1 (by omega)
    show (m1 x.1).status = STATUS_MAPPED ∧ x.2 = add64 (m1 x.1).size META_SIZE
      ∧ 8 ∣ (m1 x.1).size ∧ _
    rw [g1, g2]
    exact ⟨a1, a2, a3, a4, a5, a6, a7⟩
  · show NoFail (OsCall.sbrk delta s.brk :: s.log)
    rw [NoFail_cons]
    refine ⟨?_, hv.nofail⟩
    have := brk_ne_failed s.brk hv.brk8
    simp [OsCall.failed, this]

theorem status_ne : STATUS_FREE ≠ STATUS_MAPPED ∧ STATUS_ALLOC ≠ STATUS_MAPPED
    ∧ STATUS_FREE ≠ STATUS_ALLOC := by decide

theorem getLast_spec (s : State) (pre : List Blk) (l : Blk) (fuel : Nat)
    (hrep : Rep s.mem s.head (pre ++ [l]))
    (hst : ∀ c ∈ pre ++ [l], c.status = STATUS_FREE ∨ c.status = STATUS_ALLOC)
    (hf : pre.length < fuel ∨ (last_loop s.mem fuel s.head).isSome) :
    getLastExpandableBlock fuel s = .ok (if l.status = STATUS_FREE then l.addr else 0) := by
  have hnm : ∀ c ∈ pre ++ [l], c.status ≠ STATUS_MAPPED := by
    intro c hc h
    rcases hst c hc with h1 | h1
    · exact status_ne.1 (h1.symm.trans h)
    · exact status_ne.2.1 (h1.symm.trans h)
  have hhead : s.head ≠ 0 ∧ (s.mem s.head).status ≠ STATUS_MAPPED := by
    cases pre with
    | nil =>
      obtain ⟨h1, h2, _, h4, _⟩ := hrep
      rw [h1, h4]
      exact ⟨h2, hnm l (List.mem_singleton_self _)⟩
    | cons c pre =>
      have hrep1 : Seg s.mem s.head (c :: (pre ++ [l])) 0 := hrep
      obtain ⟨h1, h2, _, h4, _⟩ := hrep1
      rw [h1, h4]
      exact ⟨h2, hnm c (List.mem_cons_self _ _)⟩
  have e1 := last_loop_spec s.mem fuel pre l s.head hrep hnm hf
  obtain ⟨mid, p1, p2⟩ := (Seg_append pre [l] s.head 0).mp hrep
  obtain ⟨hm1, hl0, hls, hlst, hln⟩ := p2
  unfold getLastExpandableBlock
  rw [if_neg hhead.1, if_neg hhead.2, e1]
  simp only [hlst]
  by_cases hfree : l.status = STATUS_FREE
  · rw [if_pos hfree, if_pos hfree]
  · rw [if_neg hfree, if_neg hfree, if_neg (hnm l (List.mem_append_right _ (List.mem_singleton_self _)))]

theorem os_malloc_small (fuel : Nat) (s : State) (size : Nat) (h0 : size ≠ 0)
    (hlt : size < 131040) :
    os_malloc fuel s size = arena fuel s size finish_malloc := by
  have hlt1 : size < sub64 MMAP_THRESHOLD META_SIZE := by rw [threshold_eq]; exact hlt
  unfold os_malloc
  rw [if_neg h0, if_pos hlt1]

theorem os_calloc_small (fuel : Nat) (s : State) (nmemb size : Nat)
    (h0 : (nmemb * size) % W ≠ 0)
    (hlt : ¬ add64 (ALIGN ((nmemb * size) % W)) META_SIZE ≥ 4096) :
    os_calloc fuel s nmemb size = arena fuel s ((nmemb * size) % W) finish_calloc := by
  unfold os_calloc
  simp only [if_neg h0, if_neg hlt]

theorem Seg_mem {m : Mem} : ∀ (v : List Blk) (h e : Nat), Seg m h v e → ∀ b ∈ v,
    b.addr ≠ 0 ∧ (m b.addr).size = b.size ∧ (m b.addr).status = b.status
  | [], _, _, _, b, hb => by simp at hb
  | c :: v, h, e, hs, b, hb => by
    obtain ⟨_, h2, h3, h4, h5⟩ := hs
    rcases List.mem_cons.mp hb with rfl | hb
    · exact ⟨h2, h3, h4⟩
    · exact Seg_mem v _ e h5 b hb

theorem arena_find (s : State) (v : List Blk) (fuel n : Nat)
    (fin : Nat → Nat → State → Res (Nat × State))
    (hf : v.length < fuel ∨ arena fuel s n fin ≠ .timeout) :
    v.length < fuel ∨ (find_best fuel s n).isSome := by
  refine hf.imp id (fun h => ?_)
  cases hx : find_best fuel s n with
  | none =>
    exfalso
    apply h
    unfold arena
    rw [hx]
  | some _ => rfl

theorem arena_hit (s : State) (v : List Blk) (fuel n : Nat)
    (fin : Nat → Nat → State → Res (Nat × State)) (b : Blk)
    (hv : Valid s v) (hb : bestL (ALIGN n) (coalesceL v) none = some b)
    (hf : v.length < fuel ∨ arena fuel s n fin ≠ .timeout) :
    ∃ m1 pre suf, coalesceL v = pre ++ b :: suf
      ∧ Valid { s with mem := m1 } (coalesceL v)
      ∧ (∀ a, (m1 a).status = (s.mem a).status)
      ∧ b.status = STATUS_FREE ∧ ALIGN n ≤ b.size
      ∧ arena fuel s n fin = fin (b.addr + 32) ((split m1 b.addr n).2 b.addr).size
          { s with mem := (split m1 b.addr n).2 }
      ∧ Valid { s with mem := (split m1 b.addr n).2 } (pre ++ splitL b n ++ suf)
      ∧ (∀ a, s.brk ≤ a → Agree s.mem (split m1 b.addr n).2 a) := by
  obtain ⟨m1, e1, v1, f1, st1⟩ := find_best_valid s v fuel n hv (arena_find s v fuel n fin hf)
  rw [hb] at e1
  rcases bestL_some (ALIGN n) (coalesceL v) none b hb with ⟨hmem, hsz, hfree⟩ | h
  swap
  · simp at h
  obtain ⟨pre, suf, hsplit⟩ := List.append_of_mem hmem
  have hb0 : b.addr ≠ 0 := (Seg_mem _ _ _ v1.rep b hmem).1
  have hv1 : Valid { s with mem := m1 } (pre ++ b :: suf) := hsplit ▸ v1
  obtain ⟨hv2, fr2⟩ := split_valid { s with mem := m1 } pre suf b n hv1 hsz
  have hbW : b.addr + 32 < W := by
    have := (hv1.bounds b (List.mem_append_right _ (List.mem_cons_self _ _))).2
    have := hv1.brk_lt
    show b.addr + 32 < W
    omega
  refine ⟨m1, pre, suf, hsplit, v1, st1, hfree, hsz, ?_, hv2, ?_⟩
  · unfold arena
    rw [e1]
    simp only [addrOf]
    rw [if_pos hb0, split_fst, META_SIZE_eq, add64_eq _ _ hbW]
  · intro a ha
    refine (f1 a ?_).trans (fr2 a ha)
    intro c hc hca
    have := (hv.bounds c hc).2
    omega

/-! ## More fuel never changes a result -/

theorem coalesce_merge_mono : ∀ (f f1 iter : Nat) (m r : Mem), f ≤ f1 →
    coalesce_merge f iter m = some r → coalesce_merge f1 iter m = some r
  | 0, _, _, _, _, _, h => by simp [coalesce_merge] at h
  | f + 1, 0, _, _, _, hle, _ => by omega
  | f + 1, f1 + 1, iter, m, r, hle, h => by
    rw [coalesce_merge] at h ⊢
    by_cases hc : (m iter).status = STATUS_FREE ∧ (m iter).next ≠ 0
        ∧ (m (m iter).next).status = STATUS_FREE
    · rw [if_pos hc] at h ⊢
      exact coalesce_merge_mono f f1 iter _ r (by omega) h
    · rw [if_neg hc] at h ⊢
      exact h

theorem coalesce_walk_mono : ∀ (f f1 iter : Nat) (m r : Mem), f ≤ f1 →
    coalesce_walk f iter m = some r → coalesce_walk f1 iter m = some r
  | 0, _, _, _, _, _, h => by simp [coalesce_walk] at h
  | f + 1, 0, _, _, _, hle, _ => by omega
  | f + 1, f1 + 1, iter, m, r, hle, h => by
    rw [coalesce_walk] at h ⊢
    by_cases hc : iter = 0
    · rw [if_pos hc] at h ⊢
      exact h
    · rw [if_neg hc] at h ⊢
      cases hm : coalesce_merge (f + 1) iter m with
      | none => rw [hm] at h; simp at h
      | some m1 =>
        rw [hm] at h
        rw [coalesce_merge_mono (f + 1) (f1 + 1) iter m m1 hle hm]
        exact coalesce_walk_mono f f1 _ m1 r (by omega) h

theorem find_best_loop_mono (request : Nat) (m : Mem) : ∀ (f f1 iter best r : Nat), f ≤ f1 →
    find_best_loop request m f iter best = some r →
    find_best_loop request m f1 iter best = some r
  | 0, _, _, _, _, _, h => by simp [find_best_loop] at h
  | f + 1, 0, _, _, _, hle, _ => by omega
  | f + 1, f1 + 1, iter, best, r, hle, h => by
    rw [find_best_loop] at h ⊢
    by_cases hc : iter = 0
    · rw [if_pos hc] at h ⊢
      exact h
    · rw [if_neg hc] at h ⊢
      exact find_best_loop_mono request m f f1 _ _ r (by omega) h

theorem insert_seek_mono (m : Mem) (block : Nat) : ∀ (f f1 iter r : Nat), f ≤ f1 →
    insert_seek m block f iter = some r → insert_seek m block f1 iter = some r
  | 0, _, _, _, _, h => by simp [insert_seek] at h
  | f + 1, 0, _, _, hle, _ => by omega
  | f + 1, f1 + 1, iter, r, hle, h => by
    rw [insert_seek] at h ⊢
    by_cases hc : iter ≠ 0 ∧ iter < block
    · rw [if_pos hc] at h ⊢
      exact insert_seek_mono m block f f1 _ r (by omega) h
    · rw [if_neg hc] at h ⊢
      exact h

theorem insert_last_mono (m : Mem) : ∀ (f f1 iter r : Nat), f ≤ f1 →
    insert_last m f iter = some r → insert_last m f1 iter = some r
  | 0, _, _, _, _, h => by simp [insert_last] at h
  | f + 1, 0, _, _, hle, _ => by omega
  | f + 1, f1 + 1, iter, r, hle, h => by
    rw [insert_last] at h ⊢
    by_cases hc : (m iter).next ≠ 0
    · rw [if_pos hc] at h ⊢
      exact insert_last_mono m f f1 _ r (by omega) h
    · rw [if_neg hc] at h ⊢
      exact h

theorem last_loop_mono (m : Mem) : ∀ (f f1 iter r : Nat), f ≤ f1 →
    last_loop m f iter = some r → last_loop m f1 iter = some r
  | 0, _, _, _, _, h => by simp [last_loop] at h
  | f + 1, 0, _, _, hle, _ => by omega
  | f + 1, f1 + 1, iter, r, hle, h => by
    rw [last_loop] at h ⊢
    by_cases hc : (m iter).next ≠ 0 ∧ (m (m iter).next).status ≠ STATUS_MAPPED
    · rw [if_pos hc] at h ⊢
      exact last_loop_mono m f f1 _ r (by omega) h
    · rw [if_neg hc] at h ⊢
      exact h

theorem coalesce_blocks_mono (f f1 : Nat) (s r : State) (hle : f ≤ f1)
    (h : coalesce_blocks f s = some r) : coalesce_blocks f1 s = some r := by
  unfold coalesce_blocks at h ⊢
  cases hw : coalesce_walk f s.head s.mem with
  | none => rw [hw] at h; simp at h
  | some m1 =>
    rw [hw] at h
    rw [coalesce_walk_mono f f1 _ _ m1 hle hw]
    exact h

theorem find_best_mono (f f1 : Nat) (s : State) (request : Nat) (r : Nat × State)
    (hle : f ≤ f1) (h : find_best f s request = some r) :
    find_best f1 s request = some r := by
  unfold find_best at h ⊢
  cases hw : coalesce_blocks f s with
  | none => rw [hw] at h; simp at h
  | some s1 =>
    rw [hw] at h
    rw [coalesce_blocks_mono f f1 s s1 hle hw]
    simp only at h ⊢
    cases hl : find_best_loop request s1.mem f s1.head 0 with
    | none => rw [hl] at h; simp at h
    | some b =>
      rw [hl] at h
      rw [find_best_loop_mono request s1.mem f f1 _ _ b hle hl]
      exact h

theorem insertAlloced_mono (f f1 : Nat) (s r : State) (block : Nat) (hle : f ≤ f1)
    (h : insertAlloced f s block = some r) : insertAlloced f1 s block = some r := by
  unfold insertAlloced at h ⊢
  by_cases h0 : s.head = 0
  · rw [if_pos h0] at h ⊢
    exact h
  · rw [if_neg h0] at h ⊢
    cases hw : insert_seek s.mem block f s.head with
    | none => rw [hw] at h; simp at h
    | some iter =>
      rw [hw] at h
      rw [insert_seek_mono s.mem block f f1 _ iter hle hw]
      simp only at h ⊢
      by_cases hi : iter = 0
      · rw [if_pos hi] at h ⊢
        cases hl : insert_last s.mem f s.head with
        | none => rw [hl] at h; simp at h
        | some last =>
          rw [hl] at h
          rw [insert_last_mono s.mem f f1 _ last hle hl]
          exact h
      · rw [if_neg hi] at h ⊢
        exact h

theorem getLast_mono (f f1 : Nat) (s : State) (hle : f ≤ f1)
    (h : getLastExpandableBlock f s ≠ .timeout) :
    getLastExpandableBlock f1 s = getLastExpandableBlock f s := by
  unfold getLastExpandableBlock at h ⊢
  by_cases h0 : s.head = 0
  · rw [if_pos h0]
    rw [if_pos h0]
  · rw [if_neg h0] at h ⊢
    rw [if_neg h0]
    by_cases h1 : (s.mem s.head).status = STATUS_MAPPED
    · rw [if_pos h1, if_pos h1]
    · rw [if_neg h1] at h ⊢
      rw [if_neg h1]
      cases hl : last_loop s.mem f s.head with
      | none => rw [hl] at h; exact absurd rfl h
      | some iter => rw [last_loop_mono s.mem f f1 _ iter hle hl]

theorem arena_mono (f f1 : Nat) (s : State) (n : Nat)
    (fin : Nat → Nat → State → Res (Nat × State)) (hle : f ≤ f1)
    (h : arena f s n fin ≠ .timeout) : arena f1 s n fin = arena f s n fin := by
  unfold arena at h ⊢
  cases hfb : find_best f s n with
  | none => rw [hfb] at h; exact absurd rfl h
  | some x =>
    obtain ⟨nb, s1⟩ := x
    rw [hfb] at h
    rw [find_best_mono f f1 s n _ hle hfb]
    simp only at h ⊢
    by_cases h1 : nb ≠ 0
    · rw [if_pos h1, if_pos h1]
    · rw [if_neg h1] at h ⊢
      rw [if_neg h1]
      by_cases h2 : s1.prealloced_mem = 0
      · rw [if_pos h2] at h ⊢
        rw [if_pos h2]
        by_cases h3 : (sbrk s1 (ALIGN MMAP_THRESHOLD)).1 = FAILED
        · rw [if_pos h3, if_pos h3]
        · rw [if_neg h3] at h ⊢
          rw [if_neg h3]
          generalize hi : insertAlloced f _ _ = o at h ⊢
          cases o with
          | none => exact absurd rfl h
          | some s3 => rw [insertAlloced_mono f f1 _ s3 _ hle hi]
      · rw [if_neg h2] at h ⊢
        rw [if_neg h2]
        have hg : getLastExpandableBlock f s1 ≠ .timeout := by
          intro hg
          rw [hg] at h
          exact h rfl
        rw [getLast_mono f f1 s1 hle hg]
        cases hl : getLastExpandableBlock f s1 with
        | timeout => exact absurd hl hg
        | fault => rfl
        | die d => rfl
        | ok last =>
          rw [hl] at h
          simp only at h ⊢
          by_cases h4 : last = 0
          · rw [if_pos h4] at h ⊢
            rw [if_pos h4]
            by_cases h3 : (sbrk s1 (add64 (ALIGN n) META_SIZE)).1 = FAILED
            · rw [if_pos h3, if_pos h3]
            · rw [if_neg h3] at h ⊢
              rw [if_neg h3]
              generalize hi : insertAlloced f _ _ = o at h ⊢
              cases o with
              | none => exact absurd rfl h
              | some s3 => rw [insertAlloced_mono f f1 _ s3 _ hle hi]
          · rw [if_neg h4, if_neg h4]

theorem prealloc_size : sub64 131072 META_SIZE = 131040 := by
  rw [META_SIZE_eq, sub64_eq _ _ (by decide) (by rw [W_eq]; decide)]

theorem arena_first (s sc : State) (fuel n : Nat)
    (fin : Nat → Nat → State → Res (Nat × State))
    (hfb : find_best fuel s n = some (0, sc))
    (hv : Valid sc []) (hpre : sc.prealloced_mem = 0) (hn : ALIGN n ≤ 131040)
    (hfuel : 0 < fuel) :
    (¬ sc.brk + 131072 ≤ sc.brk_max → arena fuel s n fin = .die .sbrk_failed)
    ∧ (sc.brk + 131072 ≤ sc.brk_max → ∃ m2,
        arena fuel s n fin = fin (sc.brk + 32) (m2 sc.brk).size
          { sc with
            mem := m2
            head := sc.brk
            prealloced_mem := 1
            brk := sc.brk + 131072
            log := OsCall.sbrk 131072 sc.brk :: sc.log
            preallocs := sc.preallocs + 1 }
        ∧ Valid
          { sc with
            mem := m2
            head := sc.brk
            prealloced_mem := 1
            brk := sc.brk + 131072
            log := OsCall.sbrk 131072 sc.brk :: sc.log
            preallocs := sc.preallocs + 1 }
          (splitL ⟨sc.brk, 131040, STATUS_FREE⟩ n)
        ∧ (∀ a, sc.brk + 131072 ≤ a → Agree sc.mem m2 a)) := by
  have h00 : ¬ (0 : Nat) ≠ 0 := fun h => h rfl
  constructor
  · intro hfit
    unfold arena
    rw [hfb]
    simp only
    rw [if_neg h00, if_pos hpre, ALIGN_THRESHOLD, sbrk_fail _ _ (fun h => hfit h.2)]
    simp only [if_true]
  · intro hfit
    have hbf : sc.brk ≠ FAILED := brk_ne_failed sc.brk hv.brk8
    obtain ⟨m1, h1, e2, v2, fr2, _⟩ := append_valid sc [] fuel 131072 131040
      STATUS_FREE 1 hv rfl hfit (by decide) (Or.inl rfl) (by decide) (Or.inl hfuel)
    have hh : h1 = sc.brk := by
      have hr : Rep m1 h1 [⟨sc.brk, 131040, STATUS_FREE⟩] := v2.rep
      exact hr.1
    subst hh
    obtain ⟨v3, fr3⟩ := split_valid _ [] [] ⟨sc.brk, 131040, STATUS_FREE⟩ n v2 hn
    have hbW : sc.brk + 32 < W := by
      have := v2.brk_lt
      have : sc.brk + 131072 < W := this
      omega
    refine ⟨(split m1 sc.brk n).2, ?_, ?_, ?_⟩
    · unfold arena
      rw [hfb]
      simp only
      rw [if_neg h00, if_pos hpre, ALIGN_THRESHOLD, sbrk_ok _ _ ⟨by decide, hfit⟩]
      simp only
      rw [if_neg hbf, prealloc_size, e2]
      simp only
      rw [split_fst, META_SIZE_eq, add64_eq _ _ hbW]
    · have e : ([] ++ splitL ⟨sc.brk, 131040, STATUS_FREE⟩ n ++ [] : List Blk)
          = splitL ⟨sc.brk, 131040, STATUS_FREE⟩ n := by
        rw [List.nil_append, List.append_nil]
      rw [e] at v3
      exact Valid_count _ _ (sc.preallocs + 1) v3
    · intro a ha
      exact (fr2 a ha).trans (fr3 a ha)

theorem arena_grow (s sc : State) (pre : List Blk) (l : Blk) (fuel n : Nat)
    (fin : Nat → Nat → State → Res (Nat × State))
    (hfb : find_best fuel s n = some (0, sc))
    (hv : Valid sc (pre ++ [l])) (hpre : sc.prealloced_mem ≠ 0) (hn : ALIGN n ≤ 131040)
    (hl : l.status ≠ STATUS_FREE) (hfuel : (pre ++ [l]).length < fuel) :
    (¬ sc.brk + (ALIGN n + 32) ≤ sc.brk_max → arena fuel s n fin = .die .sbrk_failed)
    ∧ (sc.brk + (ALIGN n + 32) ≤ sc.brk_max → ∃ m2,
        arena fuel s n fin = fin (sc.brk + 32) (ALIGN n)
          { sc with
            mem := m2
            brk := sc.brk + (ALIGN n + 32)
            log := OsCall.sbrk (ALIGN n + 32) sc.brk :: sc.log }
        ∧ Valid
          { sc with
            mem := m2
            brk := sc.brk + (ALIGN n + 32)
            log := OsCall.sbrk (ALIGN n + 32) sc.brk :: sc.log }
          (pre ++ [l] ++ [⟨sc.brk, ALIGN n, STATUS_ALLOC⟩])
        ∧ (∀ a, sc.brk + (ALIGN n + 32) ≤ a → Agree sc.mem m2 a)) := by
  have h00 : ¬ (0 : Nat) ≠ 0 := fun h => h rfl
  have hlen : pre.length < fuel := by
    rw [List.length_append] at hfuel
    omega
  have hg := getLast_spec sc pre l fuel hv.rep hv.stat (Or.inl hlen)
  rw [if_neg hl] at hg
  have hd : add64 (ALIGN n) META_SIZE = ALIGN n + 32 := by
    rw [META_SIZE_eq, add64_eq _ _ (by rw [W_eq]; omega)]
  have h263 : ALIGN n + 32 < 2 ^ 63 := by omega
  constructor
  · intro hfit
    unfold arena
    rw [hfb]
    simp only
    rw [if_neg h00, if_neg hpre, hg]
    simp only
    rw [if_pos True.intro, hd, sbrk_fail _ _ (fun h => hfit h.2)]
    simp only [if_true]
  · intro hfit
    have hbf : sc.brk ≠ FAILED := brk_ne_failed sc.brk hv.brk8
    obtain ⟨m1, h1, e2, v2, fr2, hh⟩ := append_valid sc (pre ++ [l]) fuel (ALIGN n + 32)
      (ALIGN n) STATUS_ALLOC sc.prealloced_mem hv rfl hfit (ALIGN_dvd n) (Or.inr rfl) hpre
      (Or.inl hfuel)
    have hh1 : h1 = sc.head := hh (by simp)
    subst hh1
    have hbW : sc.brk + 32 < W := by
      have := v2.brk_lt
      have : sc.brk + (ALIGN n + 32) < W := this
      omega
    refine ⟨m1, ?_, v2, fr2⟩
    unfold arena
    rw [hfb]
    simp only
    rw [if_neg h00, if_neg hpre, hg]
    simp only
    rw [if_pos True.intro, hd, sbrk_ok _ _ ⟨h263, hfit⟩]
    simp only
    rw [if_neg hbf, e2]
    simp only
    rw [META_SIZE_eq, add64_eq _ _ hbW]

theorem arena_expand (s sc : State) (pre : List Blk) (l : Blk) (fuel n : Nat)
    (fin : Nat → Nat → State → Res (Nat × State))
    (hfb : find_best fuel s n = some (0, sc))
    (hv : Valid sc (pre ++ [l])) (hpre : sc.prealloced_mem ≠ 0) (hn : ALIGN n ≤ 131040)
    (hl : l.status = STATUS_FREE) (hlt : l.size < ALIGN n)
    (hfuel : (pre ++ [l]).length < fuel) :
    arena fuel s n fin = fin (l.addr + 32) (ALIGN n)
      { (sbrk sc (ALIGN n - l.size)).2 with
        mem := set_size (set_status sc.mem l.addr STATUS_ALLOC) l.addr (ALIGN n) }
    ∧ (sc.brk + (ALIGN n - l.size) ≤ sc.brk_max →
        Valid
          { sc with
            mem := set_size (set_status sc.mem l.addr STATUS_ALLOC) l.addr (ALIGN n)
            brk := sc.brk + (ALIGN n - l.size)
            log := OsCall.sbrk (ALIGN n - l.size) sc.brk :: sc.log }
          (pre ++ [⟨l.addr, ALIGN n, STATUS_ALLOC⟩])) := by
  have h00 : ¬ (0 : Nat) ≠ 0 := fun h => h rfl
  have hlen : pre.length < fuel := by
    rw [List.length_append] at hfuel
    omega
  have hg := getLast_spec sc pre l fuel hv.rep hv.stat (Or.inl hlen)
  rw [if_pos hl] at hg
  have hlm := Seg_mem _ _ _ hv.rep l (List.mem_append_right _ (List.mem_singleton_self _))
  have hlb := hv.bounds l (List.mem_append_right _ (List.mem_singleton_self _))
  have hW := hv.brk_lt
  have hd : sub64 (ALIGN n) (sc.mem l.addr).size = ALIGN n - l.size := by
    rw [hlm.2.1, sub64_eq _ _ (by omega) (by rw [W_eq]; omega)]
  have hd0 : ¬ ALIGN n - l.size = 0 := by omega
  constructor
  · unfold arena
    rw [hfb]
    simp only
    rw [if_neg h00, if_neg hpre, hg]
    simp only
    rw [if_neg hlm.1, hd, if_neg hd0, sbrk_mem, META_SIZE_eq, add64_eq _ _ (by omega)]
  · intro hfit
    refine tail_valid sc pre l (ALIGN n) STATUS_ALLOC (ALIGN n - l.size) _ hv (by omega) hfit
      (ALIGN_dvd n) (Or.inr rfl) ?_ ?_
    · intro a ha
      simp [Agree, ha]
    · simp

theorem NoAdjFree_cons (b : Blk) (v : List Blk) :
    NoAdjFree (b :: v) ↔
      NoAdjFree v ∧ ∀ y ∈ v.head?, ¬ (b.status = STATUS_FREE ∧ y.status = STATUS_FREE) := by
  cases v with
  | nil => simp [NoAdjFree]
  | cons c v => simp [NoAdjFree, and_comm]

theorem NoAdjFree_append : ∀ (xs ys : List Blk), NoAdjFree (xs ++ ys) ↔
    NoAdjFree xs ∧ NoAdjFree ys
      ∧ ∀ x ∈ xs.getLast?, ∀ y ∈ ys.head?, ¬ (x.status = STATUS_FREE ∧ y.status = STATUS_FREE)
  | [], ys => by simp [NoAdjFree]
  | [a], ys => by
    rw [List.singleton_append, NoAdjFree_cons]
    simp [NoAdjFree]
  | a :: b :: xs, ys => by
    have ih := NoAdjFree_append (b :: xs) ys
    rw [List.cons_append, NoAdjFree_cons, ih, NoAdjFree_cons a (b :: xs)]
    simp only [List.cons_append, List.head?_cons, Option.mem_def, Option.some.injEq,
      forall_eq', List.getLast?_cons_cons]
    constructor
    · rintro ⟨⟨h1, h2, h3⟩, h4⟩
      exact ⟨⟨h1, h4⟩, h2, h3⟩
    · rintro ⟨⟨h1, h4⟩, h2, h3⟩
      exact ⟨⟨h1, h2, h3⟩, h4⟩

theorem NoAdjFree_snoc (v : List Blk) (x : Blk) (hv : NoAdjFree v)
    (hx : x.status ≠ STATUS_FREE) : NoAdjFree (v ++ [x]) := by
  rw [NoAdjFree_append]
  refine ⟨hv, trivial, ?_⟩
  intro a _ y hy
  simp only [List.head?_cons, Option.mem_def, Option.some.injEq] at hy
  subst hy
  exact fun h => hx h.2

theorem NoAdjFree_last (pre : List Blk) (l x : Blk) (hv : NoAdjFree (pre ++ [l]))
    (hx : x.status ≠ STATUS_FREE) : NoAdjFree (pre ++ [x]) :=
  NoAdjFree_snoc pre x ((NoAdjFree_append pre [l]).mp hv).1 hx

theorem NoAdjFree_split (pre suf : List Blk) (b : Blk) (n : Nat)
    (hv : NoAdjFree (pre ++ b :: suf)) (hb : b.status = STATUS_FREE) :
    NoAdjFree (pre ++ splitL b n ++ suf) := by
  obtain ⟨h1, h2, h3⟩ := (NoAdjFree_append pre (b :: suf)).mp hv
  obtain ⟨h4, h5⟩ := (NoAdjFree_cons b suf).mp h2
  have hsuf : ∀ y ∈ suf.head?, y.status ≠ STATUS_FREE := fun y hy h => h5 y hy ⟨hb, h⟩
  have hne : STATUS_ALLOC ≠ STATUS_FREE := fun h => status_ne.2.2 h.symm
  rw [List.append_assoc, NoAdjFree_append]
  generalize hL : splitL b n = L
  rcases Classical.em (toSigned (sub64 (sub64 b.size (ALIGN n)) META_SIZE) ≥ 8) with hc | hc
  · rw [splitL_pos b n hc] at hL
    subst hL
    refine ⟨h1, ?_, ?_⟩
    · show NoAdjFree (_ :: _ :: suf)
      rw [NoAdjFree_cons, NoAdjFree_cons]
      refine ⟨⟨h4, fun y hy h => hsuf y hy h.2⟩, ?_⟩
      intro y hy
      simp only [List.head?_cons, Option.mem_def, Option.some.injEq] at hy
      subst hy
      exact fun h => hne h.1
    · intro x _ y hy
      simp only [List.cons_append, List.head?_cons, Option.mem_def, Option.some.injEq] at hy
      subst hy
      exact fun h => hne h.2
  · rw [splitL_neg b n hc] at hL
    subst hL
    refine ⟨h1, ?_, ?_⟩
    · show NoAdjFree (_ :: suf)
      rw [NoAdjFree_cons]
      exact ⟨h4, fun y _ h => hne h.1⟩
    · intro x _ y hy
      simp only [List.cons_append, List.head?_cons, Option.mem_def, Option.some.injEq] at hy
      subst hy
      exact fun h => hne h.2

theorem NoAdjFree_splitL (b : Blk) (n : Nat) : NoAdjFree (splitL b n) := by
  have := NoAdjFree_split [] [] b n
  have hne : STATUS_ALLOC ≠ STATUS_FREE := fun h => status_ne.2.2 h.symm
  generalize hL : splitL b n = L
  rcases Classical.em (toSigned (sub64 (sub64 b.size (ALIGN n)) META_SIZE) ≥ 8) with hc | hc
  · rw [splitL_pos b n hc] at hL
    subst hL
    exact ⟨fun h => hne h.1, trivial⟩
  · rw [splitL_neg b n hc] at hL
    subst hL
    trivial

theorem tiles_inj : ∀ (v : List Blk) (a e : Nat), TilesFrom a v e →
    ∀ x ∈ v, ∀ y ∈ v, x.addr = y.addr → x = y
  | [], _, _, _, x, hx, _, _, _ => by simp at hx
  | c :: v, a, e, h, x, hx, y, hy, hxy => by
    have hc : c.addr = a := h.1
    have ht := TilesFrom_mem v _ e h.2
    simp only [META_SIZE_eq] at ht
    rcases List.mem_cons.mp hx with rfl | hx1
    · rcases List.mem_cons.mp hy with rfl | hy1
      · rfl
      · have := (ht y hy1).1
        omega
    · rcases List.mem_cons.mp hy with rfl | hy1
      · have := (ht x hx1).1
        omega
      · exact tiles_inj v _ e h.2 x hx1 y hy1 hxy

theorem Valid.inj {s : State} {v : List Blk} (hv : Valid s v) (x y : Blk) (hx : x ∈ v)
    (hy : y ∈ v) (h : x.addr = y.addr) : x = y :=
  tiles_inj v _ _ (hv.tiles (List.ne_nil_of_mem hx)) x hx y hy h

theorem splitL_head (b : Blk) (n : Nat) (hA : ALIGN n ≤ b.size) (hb : b.size < W) :
    ∃ x ∈ splitL b n, x.addr = b.addr ∧ x.status = STATUS_ALLOC ∧ ALIGN n ≤ x.size := by
  rcases splitL_cases b n hA hb with ⟨h, _, _⟩ | ⟨h, _⟩
  · rw [h]
    exact ⟨_, List.mem_cons_self _ _, rfl, rfl, le_refl _⟩
  · rw [h]
    exact ⟨_, List.mem_cons_self _ _, rfl, rfl, hA⟩

theorem coalesceFrom_pos : ∀ (v : List Blk) (b : Blk) (a e : Nat),
    TilesFrom a (b :: v) e → e < W → (∀ x ∈ b :: v, 0 < x.size) →
    ∀ x ∈ coalesceFrom b v, 0 < x.size
  | [], _, _, _, _, _, hp => hp
  | c :: v, b, a, e, h, he, hp => by
    obtain ⟨h1, h2, h3⟩ := h
    unfold coalesceFrom
    by_cases hff : b.status = STATUS_FREE ∧ c.status = STATUS_FREE
    · rw [if_pos hff]
      have hle := TilesFrom_le v _ e h3
      have hs : add64 (add64 b.size c.size) META_SIZE = b.size + c.size + META_SIZE := by
        rw [META_SIZE_eq] at hle ⊢
        rw [add64_eq b.size c.size (by omega), add64_eq _ _ (by omega)]
      apply coalesceFrom_pos v _ a e _ he
      · intro x hx
        rcases List.mem_cons.mp hx with rfl | hx
        · show 0 < add64 (add64 b.size c.size) META_SIZE
          rw [hs, META_SIZE_eq]
          omega
        · exact hp x (List.mem_cons_of_mem _ (List.mem_cons_of_mem _ hx))
      · refine ⟨h1, ?_⟩
        show TilesFrom (a + META_SIZE + add64 (add64 b.size c.size) META_SIZE) v e
        rw [hs]
        have : a + META_SIZE + (b.size + c.size + META_SIZE)
            = a + META_SIZE + b.size + META_SIZE + c.size := by omega
        rw [this]
        exact h3
    · rw [if_neg hff]
      intro x hx
      rcases List.mem_cons.mp hx with rfl | hx
      · exact hp x (List.mem_cons_self _ _)
      · exact coalesceFrom_pos v c _ e ⟨h2, h3⟩ he
          (fun y hy => hp y (List.mem_cons_of_mem _ hy)) x hx

theorem coalesceL_pos (v : List Blk) (a e : Nat) (ht : TilesFrom a v e) (he : e < W)
    (hp : ∀ x ∈ v, 0 < x.size) : ∀ x ∈ coalesceL v, 0 < x.size := by
  cases v with
  | nil => exact hp
  | cons b v => exact coalesceFrom_pos v b a e ht he hp

theorem Valid.coalesce_pos {s : State} {v : List Blk} (hv : Valid s v)
    (hp : ∀ x ∈ v, 0 < x.size) : ∀ x ∈ coalesceL v, 0 < x.size := by
  by_cases hne : v = []
  · subst hne
    exact hp
  · exact coalesceL_pos v _ _ (hv.tiles hne) hv.brk_lt hp

theorem splitL_sizes (b : Blk) (n : Nat) (hA : ALIGN n ≤ b.size) (hb : b.size < W)
    (hn : 0 < ALIGN n) : ∀ x ∈ splitL b n, 0 < x.size := by
  intro x hx
  rcases splitL_cases b n hA hb with ⟨h1, h2, _⟩ | ⟨h1, _⟩
  · rw [h1] at hx
    rcases List.mem_cons.mp hx with rfl | hx
    · exact hn
    · rw [List.mem_singleton.mp hx]
      show 0 < b.size - ALIGN n - 32
      omega
  · rw [h1] at hx
    rw [List.mem_singleton.mp hx]
    show 0 < b.size
    omega

theorem arena_spec (s : State) (v : List Blk) (fuel n : Nat)
    (fin : Nat → Nat → State → Res (Nat × State))
    (hv : Valid s v) (hn : ALIGN n ≤ 131040) (hfuel : v.length < fuel) :
    arena fuel s n fin = .die .sbrk_failed
    ∨ ∃ p sz s1, arena fuel s n fin = fin p sz s1
        ∧ (NoFail s1.log → ∃ v1, ArenaPost s v n p sz s1 v1) := by
  obtain ⟨m1, e1, vc, fr1, st1⟩ := find_best_valid s v fuel n hv (Or.inl hfuel)
  have hne : STATUS_ALLOC ≠ STATUS_FREE := fun h => status_ne.2.2 h.symm
  have hW := hv.brk_lt
  cases hb : bestL (ALIGN n) (coalesceL v) none with
  | some b =>
    obtain ⟨m2, pre, suf, hc, vc2, hst, hbF, hbA, ha, hv2, hfr⟩ :=
      arena_hit s v fuel n fin b hv hb (Or.inl hfuel)
    have hbm : b ∈ coalesceL v := by
      rw [hc]
      exact List.mem_append_right _ (List.mem_cons_self _ _)
    have hbb := vc.bounds b hbm
    have hbW : b.size < W := by
      have : ({ s with mem := m1 } : State).brk = s.brk := rfl
      omega
    obtain ⟨x, hx, hxa, hxs, hxA⟩ := splitL_head b n hbA hbW
    have hxm : x ∈ pre ++ splitL b n ++ suf :=
      List.mem_append_left _ (List.mem_append_right _ hx)
    refine Or.inr ⟨_, _, _, ha, fun _ => ⟨pre ++ splitL b n ++ suf, ?_⟩⟩
    have hp0 : s.prealloced_mem ≠ 0 := by
      intro h0
      have h1 := hv.pre0 h0
      subst h1
      simp [coalesceL] at hbm
    refine ⟨hv2, ⟨x, hxm, by rw [hxa], hxs, hxA, ?_⟩, ?_, ?_, ?_, rfl, rfl, rfl, rfl, ?_,
      Or.inl ⟨rfl, rfl⟩, hp0, fun _ => rfl, fun h => absurd h hp0, ?_,
      ⟨fun h => absurd h hp0, fun _ => rfl⟩⟩
    · have := (Seg_mem _ _ _ hv2.rep x hxm).2.1
      rw [hxa] at this
      exact this
    · have := coalesceL_noAdj v
      rw [hc] at this
      exact NoAdjFree_split pre suf b n this hbF
    · intro y hy hys
      have h1 := coalesceL_mem_alloc v y hy (by rw [hys]; exact hne)
      rw [hc] at h1
      rcases List.mem_append.mp h1 with h2 | h2
      · exact List.mem_append_left _ (List.mem_append_left _ h2)
      · rcases List.mem_cons.mp h2 with h3 | h3
        · rw [h3, hbF] at hys
          exact absurd hys.symm hne
        · exact List.mem_append_right _ h3
    · intro y hy hys h
      have h1 := coalesceL_mem_alloc v y hy (by rw [hys]; exact hne)
      have h2 := vc.inj y b h1 hbm (by omega)
      rw [h2, hbF] at hys
      exact hne hys.symm
    · intro a ha1
      exact hfr a (le_trans hv.brk_le ha1)
    · intro hn0 hp y hy
      have hcp := hv.coalesce_pos hp
      rcases List.mem_append.mp hy with h1 | h1
      · rcases List.mem_append.mp h1 with h2 | h2
        · exact hcp y (by rw [hc]; exact List.mem_append_left _ h2)
        · exact splitL_sizes b n hbA hbW hn0 y h2
      · exact hcp y (by rw [hc]; exact List.mem_append_right _ (List.mem_cons_of_mem _ h1))
  | none =>
    rw [hb] at e1
    obtain ⟨_, hnone⟩ := bestL_none _ _ _ hb
    by_cases hpre : s.prealloced_mem = 0
    · have hv0 : v = [] := hv.pre0 hpre
      subst hv0
      obtain ⟨hA, hB⟩ := arena_first s { s with mem := m1 } fuel n fin e1 vc hpre hn
        (by omega)
      by_cases hfit : s.brk + 131072 ≤ s.brk_max
      · obtain ⟨m2, ha, hv2, hfr⟩ := hB hfit
        obtain ⟨x, hx, hxa, hxs, hxA⟩ :=
          splitL_head ⟨s.brk, 131040, STATUS_FREE⟩ n hn
            (by show 131040 < W; rw [W_eq]; omega)
        refine Or.inr ⟨_, _, _, ha, fun _ => ⟨splitL ⟨s.brk, 131040, STATUS_FREE⟩ n, ?_⟩⟩
        refine ⟨hv2, ⟨x, hx, by rw [hxa], hxs, hxA, ?_⟩, NoAdjFree_splitL _ _, ?_, ?_,
          rfl, rfl, rfl, rfl, ?_, Or.inr ⟨131072, rfl, rfl⟩, Nat.one_ne_zero,
          fun h => absurd hpre h, fun _ => ⟨rfl, rfl⟩,
          fun hn0 _ => splitL_sizes ⟨s.brk, 131040, STATUS_FREE⟩ n hn
            (by show 131040 < W; rw [W_eq]; omega) hn0,
          ⟨fun _ => rfl, fun h => absurd hpre h⟩⟩
        · have := (Seg_mem _ _ _ hv2.rep x hx).2.1
          rw [hxa] at this
          exact this
        · intro y hy
          simp at hy
        · intro y hy
          simp at hy
        · intro a ha1
          have h1 : Agree s.mem m1 a := fr1 a (fun c hc => by simp at hc)
          have h2 := hfr a (le_trans hfit ha1)
          exact h1.trans h2
      · exact Or.inl (hA hfit)
    · have hvne : coalesceL v ≠ [] := coalesceL_ne_nil v (hv.pre1 hpre)
      rcases List.eq_nil_or_concat (coalesceL v) with h0 | ⟨pre, l, hcl⟩
      · exact absurd h0 hvne
      · rw [List.concat_eq_append] at hcl
        rw [hcl] at vc
        have hlen : (pre ++ [l]).length < fuel := by
          have := coalesceL_length v
          rw [hcl] at this
          omega
        have hlm : l ∈ coalesceL v := by
          rw [hcl]
          exact List.mem_append_right _ (List.mem_singleton_self _)
        by_cases hl : l.status = STATUS_FREE
        · have hlt : l.size < ALIGN n := by
            have := hnone l hlm
            by_contra hcon
            exact this ⟨by omega, hl⟩
          obtain ⟨ha, hV⟩ := arena_expand s { s with mem := m1 } pre l fuel n fin e1 vc hpre hn
            hl hlt hlen
          refine Or.inr ⟨_, _, _, ha, fun hnf => ?_⟩
          have hfit := sbrk_nofail { s with mem := m1 } (ALIGN n - l.size) hnf
          have hV2 := hV hfit.2
          have hxm : (⟨l.addr, ALIGN n, STATUS_ALLOC⟩ : Blk) ∈
              pre ++ [⟨l.addr, ALIGN n, STATUS_ALLOC⟩] :=
            List.mem_append_right _ (List.mem_singleton_self _)
          rw [sbrk_ok _ _ hfit]
          refine ⟨_, hV2, ⟨_, hxm, rfl, rfl, le_refl _, rfl⟩, ?_, ?_, ?_,
            rfl, rfl, rfl, rfl, ?_, Or.inr ⟨ALIGN n - l.size, rfl, rfl⟩, hpre,
            fun _ => rfl, fun h => absurd h hpre, ?_,
            ⟨fun h => absurd h hpre, fun _ => rfl⟩⟩
          · have := coalesceL_noAdj v
            rw [hcl] at this
            exact NoAdjFree_last pre l _ this hne
          · intro y hy hys
            have h1 := coalesceL_mem_alloc v y hy (by rw [hys]; exact hne)
            rw [hcl] at h1
            rcases List.mem_append.mp h1 with h2 | h2
            · exact List.mem_append_left _ h2
            · rw [List.mem_singleton.mp h2, hl] at hys
              exact absurd hys.symm hne
          · intro y hy hys h
            have h1 := coalesceL_mem_alloc v y hy (by rw [hys]; exact hne)
            rw [hcl] at h1
            have h2 := vc.inj y l h1 (List.mem_append_right _ (List.mem_singleton_self _))
              (by omega)
            rw [h2, hl] at hys
            exact hne hys.symm
          · intro a ha1
            have hlb := vc.bounds l (List.mem_append_right _ (List.mem_singleton_self _))
            have hne1 : a ≠ l.addr := by
              have h1 : ({ s with mem := m1 } : State).brk = s.brk := rfl
              have h2 := hv.brk_le
              omega
            have h1 : Agree s.mem m1 a := by
              refine fr1 a (fun c hc => ?_)
              have := hv.bounds c hc
              have h2 := hv.brk_le
              omega
            refine h1.trans ?_
            simp [Agree, hne1]
          · intro hn0 hp y hy
            have hcp := hv.coalesce_pos hp
            rcases List.mem_append.mp hy with h1 | h1
            · exact hcp y (by rw [hcl]; exact List.mem_append_left _ h1)
            · rw [List.mem_singleton.mp h1]
              exact hn0
        · obtain ⟨hA, hB⟩ := arena_grow s { s with mem := m1 } pre l fuel n fin e1 vc hpre hn
            hl hlen
          by_cases hfit : s.brk + (ALIGN n + 32) ≤ s.brk_max
          · obtain ⟨m2, ha, hv2, hfr⟩ := hB hfit
            have hxm : (⟨s.brk, ALIGN n, STATUS_ALLOC⟩ : Blk) ∈
                pre ++ [l] ++ [⟨s.brk, ALIGN n, STATUS_ALLOC⟩] :=
              List.mem_append_right _ (List.mem_singleton_self _)
            refine Or.inr ⟨_, _, _, ha, fun _ => ⟨_, hv2, ⟨_, hxm, rfl, rfl, le_refl _,
              rfl⟩, ?_, ?_, ?_, rfl, rfl, rfl, rfl, ?_, Or.inr ⟨ALIGN n + 32, rfl, rfl⟩,
              hpre, fun _ => rfl, fun h => absurd h hpre, ?_,
              ⟨fun h => absurd h hpre, fun _ => rfl⟩⟩⟩
            · have := coalesceL_noAdj v
              rw [hcl] at this
              exact NoAdjFree_snoc _ _ this hne
            · intro y hy hys
              have h1 := coalesceL_mem_alloc v y hy (by rw [hys]; exact hne)
              rw [hcl] at h1
              exact List.mem_append_left _ h1
            · intro y hy hys h
              have := hv.bounds y hy
              have h1 : ({ s with mem := m1 } : State).brk = s.brk := rfl
              omega
            · intro a ha1
              have h1 : Agree s.mem m1 a := by
                refine fr1 a (fun c hc => ?_)
                have := hv.bounds c hc
                have h2 := hv.brk_le
                omega
              exact h1.trans (hfr a (le_trans hfit ha1))
            · intro hn0 hp y hy
              have hcp := hv.coalesce_pos hp
              rcases List.mem_append.mp hy with h1 | h1
              · exact hcp y (by rw [hcl]; exact h1)
              · rw [List.mem_singleton.mp h1]
                exact hn0
          · exact Or.inl (hA hfit)

theorem os_free_null (s : State) : os_free s 0 = .ok s := by
  simp only [os_free, if_true]

theorem os_free_free (s : State) (ptr : Nat)
    (hs : (s.mem (sub64 ptr META_SIZE)).status = STATUS_FREE) : os_free s ptr = .ok s := by
  unfold os_free
  by_cases h0 : ptr = 0
  · rw [if_pos h0]
  · rw [if_neg h0]
    simp only [hs]
    rw [if_neg (fun h => h.2.1 rfl), if_pos True.intro]

theorem os_free_alloc (s : State) (ptr : Nat) (h0 : ptr ≠ 0)
    (hs : (s.mem (sub64 ptr META_SIZE)).status = STATUS_ALLOC) :
    os_free s ptr
      = .ok { s with mem := set_status s.mem (sub64 ptr META_SIZE) STATUS_FREE } := by
  unfold os_free
  rw [if_neg h0]
  simp only [hs]
  rw [if_neg (fun h => h.1 rfl), if_neg (fun h => status_ne.2.2 h.symm), if_pos True.intro]

theorem os_free_mapped (s : State) (ptr : Nat) (h0 : ptr ≠ 0)
    (hs : (s.mem (sub64 ptr META_SIZE)).status = STATUS_MAPPED) :
    os_free s ptr
      = if (munmap s (sub64 ptr META_SIZE)
            (add64 (s.mem (sub64 ptr META_SIZE)).size META_SIZE)).1 = false
        then .die .unmap_failed
        else .ok (munmap s (sub64 ptr META_SIZE)
            (add64 (s.mem (sub64 ptr META_SIZE)).size META_SIZE)).2 := by
  unfold os_free
  rw [if_neg h0]
  simp only [hs]
  rw [if_neg (fun h => h.2.2 rfl), if_neg (fun h => status_ne.1 h.symm),
    if_neg (fun h => status_ne.2.1 h.symm), if_pos True.intro]

theorem setStatusL_rep {m : Mem} (a st : Nat) : ∀ (v : List Blk) (h e : Nat),
    Seg m h v e → Seg (set_status m a st) h (setStatusL a st v) e
  | [], _, _, hs => hs
  | b :: v, h, e, hs => by
    obtain ⟨h1, h2, h3, h4, h5⟩ := hs
    have ih := setStatusL_rep a st v _ e h5
    by_cases hb : b.addr = a
    · simp only [setStatusL, List.map_cons, if_pos hb, Seg, set_status_size,
        set_status_status, set_status_next, if_true]
      exact ⟨h1, h2, h3, trivial, ih⟩
    · simp only [setStatusL, List.map_cons, if_neg hb, Seg, set_status_size,
        set_status_status, set_status_next, if_false]
      exact ⟨h1, h2, h3, h4, ih⟩

theorem setStatusL_tiles (a st : Nat) : ∀ (v : List Blk) (x e : Nat),
    TilesFrom x v e → TilesFrom x (setStatusL a st v) e
  | [], _, _, h => h
  | b :: v, x, e, h => by
    have ih := setStatusL_tiles a st v _ e h.2
    by_cases hb : b.addr = a
    · simp only [setStatusL, List.map_cons, if_pos hb, TilesFrom]
      exact ⟨h.1, ih⟩
    · simp only [setStatusL, List.map_cons, if_neg hb, TilesFrom]
      exact ⟨h.1, ih⟩

theorem setStatusL_mem (a st : Nat) (v : List Blk) (x : Blk) (hx : x ∈ setStatusL a st v) :
    ∃ b ∈ v, x.addr = b.addr ∧ x.size = b.size
      ∧ ((b.addr = a ∧ x.status = st) ∨ (b.addr ≠ a ∧ x = b)) := by
  obtain ⟨b, hb, rfl⟩ := List.mem_map.mp hx
  refine ⟨b, hb, ?_⟩
  by_cases h : b.addr = a
  · rw [if_pos h]
    exact ⟨rfl, rfl, Or.inl ⟨h, rfl⟩⟩
  · rw [if_neg h]
    exact ⟨rfl, rfl, Or.inr ⟨h, rfl⟩⟩

theorem setStatusL_keep (a st : Nat) (v : List Blk) (b : Blk) (hb : b ∈ v) (h : b.addr ≠ a) :
    b ∈ setStatusL a st v :=
  List.mem_map.mpr ⟨b, hb, by rw [if_neg h]⟩

theorem setStatusL_hit (a st : Nat) (v : List Blk) (b : Blk) (hb : b ∈ v) (h : b.addr = a) :
    ({ b with status := st } : Blk) ∈ setStatusL a st v :=
  List.mem_map.mpr ⟨b, hb, by rw [if_pos h]⟩

theorem status_valid (s : State) (v : List Blk) (a st : Nat) (hv : Valid s v)
    (ha : ∃ b ∈ v, b.addr = a) (hst : st = STATUS_FREE ∨ st = STATUS_ALLOC) :
    Valid { s with mem := set_status s.mem a st } (setStatusL a st v) := by
  obtain ⟨b0, hb0, hab⟩ := ha
  have hbd := hv.bounds b0 hb0
  refine Valid_heap s v _ _ hv (setStatusL_rep a st v _ _ hv.rep) ?_ ?_ ?_ ?_ ?_
  · intro h
    have hne : v ≠ [] := List.ne_nil_of_mem hb0
    exact setStatusL_tiles a st v _ _ (hv.tiles hne)
  · simp [setStatusL]
  · intro x hx
    obtain ⟨b, hb, _, h2, _⟩ := setStatusL_mem a st v x hx
    rw [h2]
    exact hv.size8 b hb
  · intro x hx
    obtain ⟨b, hb, _, _, h3⟩ := setStatusL_mem a st v x hx
    rcases h3 with ⟨_, h4⟩ | ⟨_, h4⟩
    · rw [h4]
      exact hst
    · rw [h4]
      exact hv.stat b hb
  · intro x hx
    have : x ≠ a := by omega
    simp [Agree, this]

theorem Held_iff (s : State) (v : List Blk) (hv : Valid s v) (p : Nat) :
    Held s p ↔ (∃ b ∈ v, b.status = STATUS_ALLOC ∧ p = b.addr + 32)
      ∨ (∃ x ∈ s.maps, p = x.1 + 32) := by
  unfold Held
  rw [META_SIZE_eq]
  constructor
  · rintro (⟨v1, b, h1, h2, h3, h4⟩ | ⟨x, h1, _, h3⟩)
    · have := Rep_unique _ _ _ h1 hv.rep
      subst this
      exact Or.inl ⟨b, h2, h3, h4⟩
    · exact Or.inr ⟨x, h1, h3⟩
  · rintro (⟨b, h2, h3, h4⟩ | ⟨x, h1, h3⟩)
    · exact Or.inl ⟨v, b, hv.rep, h2, h3, h4⟩
    · exact Or.inr ⟨x, h1, (hv.maps x h1).1, h3⟩

theorem Valid.map_bounds {s : State} {v : List Blk} (hv : Valid s v) (x : Nat × Nat)
    (hx : x ∈ s.maps) : s.brk ≤ x.1 ∧ x.1 + 4096 ≤ s.map_next ∧ x.1 + 4096 < W := by
  obtain ⟨_, _, _, _, h5, h6, h7⟩ := hv.maps x hx
  have h1 := hv.brk_le
  have h2 := hv.next_lt
  have h3 : 4096 ≤ pages x.2 := by
    unfold pages PAGE
    have : 1 ≤ (x.2 + (4096 - 1)) / 4096 := by omega
    omega
  omega

theorem free_step (s s1 : State) (v : List Blk) (ptr : Nat) (hv : Valid s v)
    (hp : ptr = 0 ∨ Held s ptr) (hf : os_free s ptr = .ok s1) :
    ∃ v1, Valid s1 v1 ∧ Stable s v s1 v1 ptr ∧ s1.brk = s.brk ∧ s1.bytes = s.bytes := by
  have hW := hv.brk_lt
  rcases hp with rfl | hp
  · rw [os_free_null] at hf
    cases hf
    exact ⟨v, hv, ⟨fun b hb _ _ => hb, fun x hx _ => ⟨hx, Agree.refl _ _⟩⟩, rfl, rfl⟩
  · rcases (Held_iff s v hv ptr).mp hp with ⟨b, hb, hbs, rfl⟩ | ⟨x, hx, rfl⟩
    · have hbd := hv.bounds b hb
      have hsub : sub64 (b.addr + 32) META_SIZE = b.addr := by
        rw [META_SIZE_eq, sub64_eq _ _ (by omega) (by omega)]
        omega
      have hm := Seg_mem _ _ _ hv.rep b hb
      rw [os_free_alloc s _ (by omega) (by rw [hsub, hm.2.2, hbs]), hsub] at hf
      cases hf
      refine ⟨setStatusL b.addr STATUS_FREE v,
        status_valid s v b.addr STATUS_FREE hv ⟨b, hb, rfl⟩ (Or.inl rfl), ⟨?_, ?_⟩, rfl, rfl⟩
      · intro c hc _ hne
        rw [META_SIZE_eq] at hne
        exact setStatusL_keep _ _ _ c hc (by omega)
      · intro x hx _
        refine ⟨hx, ?_⟩
        have := (hv.map_bounds x hx).1
        have : x.1 ≠ b.addr := by omega
        simp [Agree, this]
    · have hxb := hv.map_bounds x hx
      obtain ⟨m1, m2, m3, m4, m5, m6, m7⟩ := hv.maps x hx
      have hsub : sub64 (x.1 + 32) META_SIZE = x.1 := by
        rw [META_SIZE_eq, sub64_eq _ _ (by omega) (by omega)]
        omega
      have hmem : (x.1, add64 (s.mem x.1).size META_SIZE) ∈ s.maps := by
        rw [← m2]
        exact hx
      rw [os_free_mapped s _ (by omega) (by rw [hsub, m1]), hsub] at hf
      have hmun : munmap s x.1 (add64 (s.mem x.1).size META_SIZE)
          = (true, { s with
              maps := s.maps.erase (x.1, add64 (s.mem x.1).size META_SIZE)
              log := OsCall.munmap x.1 (add64 (s.mem x.1).size META_SIZE) true :: s.log }) := by
        unfold munmap
        rw [if_pos hmem]
      rw [hmun] at hf
      simp only [Bool.true_eq_false, if_false] at hf
      cases hf
      refine ⟨v, ⟨hv.rep, hv.tiles, hv.pre0, hv.pre1, hv.size8, hv.stat, hv.brk_pos, hv.brk8,
        hv.brk_le, hv.max_le, hv.next8, hv.next_lt, hv.room, ?_, ?_, ?_⟩,
        ⟨fun b hb _ _ => hb, ?_⟩,
        rfl, rfl⟩
      · intro y hy
        exact hv.maps y (List.mem_of_mem_erase hy)
      · exact hv.apart.sublist (List.erase_sublist _ _)
      · rw [NoFail_cons]
        exact ⟨rfl, hv.nofail⟩
      · intro y hy hne
        refine ⟨?_, Agree.refl _ _⟩
        have hxy : y ≠ (x.1, add64 (s.mem x.1).size META_SIZE) := by
          intro h
          rw [h, META_SIZE_eq] at hne
          exact hne rfl
        exact (List.mem_erase_of_ne hxy).mpr hy

theorem pages_ge (len : Nat) (h : 0 < len) : 4096 ≤ pages len ∧ 8 ∣ pages len := by
  unfold pages PAGE
  have : 1 ≤ (len + (4096 - 1)) / 4096 := by omega
  refine ⟨by omega, ?_⟩
  exact Dvd.dvd.mul_left (by decide) _

theorem mmap_ok (s : State) (len : Nat) (h : 0 < len ∧ s.map_next + pages len < W) :
    mmap s len = (s.map_next,
      { s with
        bytes := fun a => if s.map_next ≤ a ∧ a < s.map_next + pages len then 0 else s.bytes a
        map_next := s.map_next + pages len
        maps := (s.map_next, len) :: s.maps
        log := OsCall.mmap len s.map_next :: s.log }) := by
  unfold mmap
  rw [if_pos h]

theorem mmap_fail (s : State) (len : Nat) (h : ¬ (0 < len ∧ s.map_next + pages len < W)) :
    mmap s len = (FAILED, { s with log := OsCall.mmap len FAILED :: s.log }) := by
  unfold mmap
  rw [if_neg h]

theorem mmap_nofail (s : State) (len : Nat) (h : NoFail (mmap s len).2.log) :
    0 < len ∧ s.map_next + pages len < W := by
  by_contra hc
  rw [mmap_fail s len hc] at h
  have := h _ (List.mem_cons_self _ _)
  simp [OsCall.failed] at this

theorem mmap_ne_failed (s : State) (len : Nat) (h : (mmap s len).1 ≠ FAILED) :
    0 < len ∧ s.map_next + pages len < W := by
  by_contra hc
  rw [mmap_fail s len hc] at h
  exact h rfl

theorem mmap_valid (s : State) (v : List Blk) (len sz : Nat) (m1 : Mem)
    (z : Nat → Nat) (hv : Valid s v)
    (hc : 0 < len ∧ s.map_next + pages len < W) (hl : len = add64 sz META_SIZE)
    (h8 : 8 ∣ sz) (hm : ∀ a, a ≠ s.map_next → Agree s.mem m1 a)
    (hh : (m1 s.map_next).status = STATUS_MAPPED ∧ (m1 s.map_next).size = sz) :
    Valid { s with
        mem := m1
        bytes := z
        map_next := s.map_next + pages len
        maps := (s.map_next, len) :: s.maps
        log := OsCall.mmap len s.map_next :: s.log } v
    ∧ Stable s v { s with
        mem := m1
        bytes := z
        map_next := s.map_next + pages len
        maps := (s.map_next, len) :: s.maps
        log := OsCall.mmap len s.map_next :: s.log } v 0 := by
  have hpg := pages_ge len hc.1
  have hold : ∀ x ∈ s.maps, x.1 ≠ s.map_next := by
    intro x hx
    have := hv.map_bounds x hx
    omega
  constructor
  · refine ⟨?_, hv.tiles, hv.pre0, hv.pre1, hv.size8, hv.stat, hv.brk_pos, hv.brk8,
      hv.brk_le, ?_, ?_, hc.2, hv.room, ?_, ?_, ?_⟩
    · refine Seg_frame v _ _ (fun b hb => hm _ ?_) hv.rep
      have := hv.bounds b hb
      have h1 := hv.brk_le
      have h2 := hv.max_le
      omega
    · have := hv.max_le
      show s.brk_max ≤ s.map_next + pages len
      omega
    · exact Dvd.dvd.add hv.next8 hpg.2
    · intro x hx
      rcases List.mem_cons.mp hx with rfl | hx1
      · exact ⟨hh.1, by rw [hh.2]; exact hl, by rw [hh.2]; exact h8, hv.next8, hv.max_le,
          le_refl _, hc.1⟩
      · obtain ⟨a1, a2, a3, a4, a5, a6, a7⟩ := hv.maps x hx1
        obtain ⟨e1, e2, _⟩ := hm x.1 (hold x hx1)
        refine ⟨e2.trans a1, by rw [e1]; exact a2, by rw [e1]; exact a3, a4, a5, ?_, a7⟩
        show x.1 + pages x.2 ≤ s.map_next + pages len
        omega
    · refine List.pairwise_cons.mpr ⟨fun y hy => ?_, hv.apart⟩
      exact (hv.maps y hy).2.2.2.2.2.1
    · rw [NoFail_cons]
      refine ⟨?_, hv.nofail⟩
      have : s.map_next ≠ FAILED := by
        unfold FAILED
        omega
      simp [OsCall.failed, this]
  · refine ⟨fun b hb _ _ => hb, fun x hx _ => ⟨List.mem_cons_of_mem _ hx, hm _ (hold x hx)⟩⟩

theorem tiles_addr8 : ∀ (v : List Blk) (a e : Nat), TilesFrom a v e →
    (∀ b ∈ v, 8 ∣ b.size) → 8 ∣ e → 8 ∣ a ∧ ∀ b ∈ v, 8 ∣ b.addr
  | [], a, e, h, _, he => by
    have : a = e := h
    subst this
    exact ⟨he, fun b hb => by simp at hb⟩
  | c :: v, a, e, h, hs, he => by
    obtain ⟨h1, h2⟩ := tiles_addr8 v _ e h.2 (fun b hb => hs b (List.mem_cons_of_mem _ hb)) he
    have hc : c.addr = a := h.1
    have h3 := hs c (List.mem_cons_self _ _)
    rw [META_SIZE_eq] at h1
    have ha : 8 ∣ a := by omega
    refine ⟨ha, fun b hb => ?_⟩
    rcases List.mem_cons.mp hb with rfl | hb1
    · rw [hc]
      exact ha
    · exact h2 b hb1

theorem Valid.addr8 {s : State} {v : List Blk} (hv : Valid s v) (b : Blk) (hb : b ∈ v) :
    8 ∣ b.addr :=
  (tiles_addr8 v _ _ (hv.tiles (List.ne_nil_of_mem hb)) hv.size8 hv.brk8).2 b hb

theorem carve_size_self (m : Mem) (blk size rem : Nat) (hn : (m blk).next = 0)
    (h0 : blk ≠ 0) : (carve m blk size rem blk).size = ALIGN size := by
  have h00 : ¬ (0 : Nat) = blk := fun h => h0 h.symm
  by_cases hq : add64 (add64 blk META_SIZE) (ALIGN size) = blk
  · simp only [carve, hn, ne_eq, not_true_eq_false, if_false, set_status_size, set_size_size,
      set_next_size, set_prev_size, set_status_status, set_size_status, set_next_status,
      set_prev_status, set_status_next, set_size_next, set_next_next, set_prev_next, if_true,
      hq, h0, h00]
  · have hq1 : ¬ blk = add64 (add64 blk META_SIZE) (ALIGN size) := fun h => hq h.symm
    simp only [carve, hn, ne_eq, not_true_eq_false, if_false, set_status_size, set_size_size,
      set_next_size, set_prev_size, set_status_status, set_size_status, set_next_status,
      set_prev_status, set_status_next, set_size_next, set_next_next, set_prev_next, if_true,
      hq, hq1, h0, h00]

theorem finish_calloc_fault (p n : Nat) (s : State) (h : W < p + n) :
    finish_calloc p n s = .fault := by
  unfold finish_calloc memset0
  rw [if_neg (fun hc => absurd hc.1 (by omega))]

theorem wrap_cond (A : Nat) (h1 : W - 32 ≤ A) (h2 : A < W) :
    toSigned (sub64 (sub64 131040 A) META_SIZE) ≥ 8 := by
  rw [META_SIZE_eq, sub64_wrap _ _ (by rw [W_eq] at h1; omega) h2,
    sub64_eq _ _ (by omega) (by rw [W_eq] at *; omega)]
  unfold toSigned
  rw [if_pos (by rw [W_eq] at *; omega)]
  rw [W_eq] at *
  omega

theorem arena_wrap_aux (s sc : State) (vc : List Blk) (fuel n : Nat)
    (e0 : find_best fuel s n = some (0, sc)) (hv : Valid sc vc)
    (hn : W - 32 ≤ ALIGN n) (hfuel : vc.length < fuel) (r : Nat × State) :
    arena fuel s n finish_calloc ≠ .ok r := by
  have hW := hv.brk_lt
  have hroom : sc.brk + 4096 ≤ W := le_trans (Nat.add_le_add_right hv.brk_le _) hv.room
  have hAW : ALIGN n < W := by
    have := ALIGN_lt n
    omega
  have h00 : ¬ (0 : Nat) ≠ 0 := fun h => h rfl
  by_cases hpre : sc.prealloced_mem = 0
  · have hv0 : vc = [] := hv.pre0 hpre
    subst hv0
    by_cases hfit : sc.brk + 131072 ≤ sc.brk_max
    · have hbf : sc.brk ≠ FAILED := brk_ne_failed sc.brk hv.brk8
      obtain ⟨m2, h1, e2, v2, fr2, _⟩ := append_valid sc [] fuel 131072
        131040 STATUS_FREE 1 hv rfl hfit (by decide) (Or.inl rfl) (by decide)
        (Or.inl hfuel)
      have hr : Rep m2 h1 [⟨sc.brk, 131040, STATUS_FREE⟩] := v2.rep
      have hh : h1 = sc.brk := hr.1
      subst hh
      have hsz : (m2 sc.brk).size = 131040 := hr.2.2.1
      have hnx : (m2 sc.brk).next = 0 := hr.2.2.2.2
      have hp0 : sc.brk ≠ 0 := by
        have := hv.brk_pos
        omega
      have hsp : ((split m2 sc.brk n).2 sc.brk).size = ALIGN n := by
        simp only [split, hsz, if_pos (wrap_cond (ALIGN n) hn hAW)]
        exact carve_size_self m2 sc.brk n _ hnx hp0
      have hbW : sc.brk + 32 < W := by
        have := v2.brk_lt
        have : sc.brk + 131072 < W := this
        omega
      unfold arena
      rw [e0]
      simp only
      rw [if_neg h00, if_pos hpre, ALIGN_THRESHOLD, sbrk_ok _ _ ⟨by decide, hfit⟩]
      simp only
      rw [if_neg hbf, prealloc_size, e2]
      simp only
      rw [split_fst, META_SIZE_eq, add64_eq _ _ hbW, hsp, finish_calloc_fault _ _ _ (by omega)]
      exact fun h => Res.noConfusion h
    · unfold arena
      rw [e0]
      simp only
      rw [if_neg h00, if_pos hpre, ALIGN_THRESHOLD, sbrk_fail _ _ (fun h => hfit h.2)]
      simp only [if_true]
      exact fun h => Res.noConfusion h
  · have hvne : vc ≠ [] := hv.pre1 hpre
    rcases List.eq_nil_or_concat vc with h0 | ⟨pre, l, hcl⟩
    · exact absurd h0 hvne
    · rw [List.concat_eq_append] at hcl
      subst hcl
      have hlen : pre.length < fuel := by
        rw [List.length_append] at hfuel
        omega
      have hg := getLast_spec sc pre l fuel hv.rep hv.stat (Or.inl hlen)
      have hlm := Seg_mem _ _ _ hv.rep l (List.mem_append_right _ (List.mem_singleton_self _))
      have hlb := hv.bounds l (List.mem_append_right _ (List.mem_singleton_self _))
      by_cases hl : l.status = STATUS_FREE
      · rw [if_pos hl] at hg
        have hd : sub64 (ALIGN n) (sc.mem l.addr).size = ALIGN n - l.size := by
          rw [hlm.2.1, sub64_eq _ _ (by omega) hAW]
        have hd0 : ¬ ALIGN n - l.size = 0 := by omega
        unfold arena
        rw [e0]
        simp only
        rw [if_neg h00, if_neg hpre, hg]
        simp only
        rw [if_neg hlm.1, hd, if_neg hd0, META_SIZE_eq, add64_eq _ _ (by omega),
          finish_calloc_fault _ _ _ (by omega)]
        exact fun h => Res.noConfusion h
      · rw [if_neg hl] at hg
        unfold arena
        rw [e0]
        simp only
        rw [if_neg h00, if_neg hpre, hg]
        simp only
        rw [if_pos True.intro]
        by_cases hfit : add64 (ALIGN n) META_SIZE < 2 ^ 63
            ∧ sc.brk + add64 (ALIGN n) META_SIZE ≤ sc.brk_max
        · have hbf : sc.brk ≠ FAILED := brk_ne_failed sc.brk hv.brk8
          rw [sbrk_ok _ _ hfit]
          simp only
          rw [if_neg hbf]
          generalize insertAlloced fuel _ _ = ins
          cases ins with
          | none => exact fun h => Res.noConfusion h
          | some s3 =>
            simp only
            rw [META_SIZE_eq, add64_eq _ _ (by omega), finish_calloc_fault _ _ _ (by
              have := hv.brk_pos
              omega)]
            exact fun h => Res.noConfusion h
        · rw [sbrk_fail _ _ hfit]
          simp only [if_true]
          exact fun h => Res.noConfusion h

theorem arena_wrap (s : State) (v : List Blk) (fuel n : Nat) (hv : Valid s v)
    (hn : W - 32 ≤ ALIGN n) (hfuel : v.length < fuel) (r : Nat × State) :
    arena fuel s n finish_calloc ≠ .ok r := by
  obtain ⟨m1, e1, vc, fr1, st1⟩ := find_best_valid s v fuel n hv (Or.inl hfuel)
  have hW := hv.brk_lt
  cases hb : bestL (ALIGN n) (coalesceL v) none with
  | some b =>
    exfalso
    rcases bestL_some _ _ _ _ hb with ⟨h1, h2, _⟩ | h1
    · have := vc.bounds b h1
      have hbrk : ({ s with mem := m1 } : State).brk = s.brk := rfl
      omega
    · cases h1
  | none =>
    rw [hb] at e1
    exact arena_wrap_aux s _ (coalesceL v) fuel n e1 vc hn
      (lt_of_le_of_lt (coalesceL_length v) hfuel) r

theorem add64_comm (a b : Nat) : add64 a b = add64 b a := by
  unfold add64
  rw [Nat.add_comm]

theorem os_malloc_large (fuel : Nat) (s : State) (size : Nat) (h0 : size ≠ 0)
    (hge : ¬ size < 131040) :
    os_malloc fuel s size
      = if (mmap s (add64 META_SIZE (ALIGN size))).1 = FAILED then .die .map_failed
        else .ok (add64 (mmap s (add64 META_SIZE (ALIGN size))).1 META_SIZE,
          { (mmap s (add64 META_SIZE (ALIGN size))).2 with
            mem := set_status (set_next (set_prev (set_size
              (mmap s (add64 META_SIZE (ALIGN size))).2.mem
              (mmap s (add64 META_SIZE (ALIGN size))).1 (ALIGN size))
              (mmap s (add64 META_SIZE (ALIGN size))).1 0)
              (mmap s (add64 META_SIZE (ALIGN size))).1 0)
              (mmap s (add64 META_SIZE (ALIGN size))).1 STATUS_MAPPED }) := by
  have hlt1 : ¬ size < sub64 MMAP_THRESHOLD META_SIZE := by rw [threshold_eq]; exact hge
  unfold os_malloc
  rw [if_neg h0, if_neg hlt1]

theorem os_calloc_failed (fuel : Nat) (s : State) (nmemb size : Nat)
    (h0 : (nmemb * size) % W ≠ 0)
    (hge : add64 (ALIGN ((nmemb * size) % W)) META_SIZE ≥ 4096)
    (hf : (mmap s (add64 (ALIGN ((nmemb * size) % W)) META_SIZE)).1 = FAILED) :
    os_calloc fuel s nmemb size = .fault := by
  unfold os_calloc
  simp only [if_neg h0, if_pos hge, if_pos hf]

theorem calloc_mapped_ok (fuel : Nat) (s : State) (nmemb size : Nat) (r : Nat × State)
    (h0 : (nmemb * size) % W ≠ 0)
    (hge : add64 (ALIGN ((nmemb * size) % W)) META_SIZE ≥ 4096)
    (hm : os_calloc fuel s nmemb size = .ok r) :
    (mmap s (add64 (ALIGN ((nmemb * size) % W)) META_SIZE)).1 ≠ FAILED := by
  intro hf
  rw [os_calloc_failed fuel s nmemb size h0 hge hf] at hm
  cases hm

theorem os_calloc_large (fuel : Nat) (s : State) (nmemb size : Nat)
    (h0 : (nmemb * size) % W ≠ 0)
    (hge : add64 (ALIGN ((nmemb * size) % W)) META_SIZE ≥ 4096)
    (hf : (mmap s (add64 (ALIGN ((nmemb * size) % W)) META_SIZE)).1 ≠ FAILED) :
    os_calloc fuel s nmemb size
      = .ok (add64 (mmap s (add64 (ALIGN ((nmemb * size) % W)) META_SIZE)).1 META_SIZE,
          { (mmap s (add64 (ALIGN ((nmemb * size) % W)) META_SIZE)).2 with
            mem := set_status (set_next (set_prev (set_size
              (mmap s (add64 (ALIGN ((nmemb * size) % W)) META_SIZE)).2.mem
              (mmap s (add64 (ALIGN ((nmemb * size) % W)) META_SIZE)).1
                (ALIGN ((nmemb * size) % W)))
              (mmap s (add64 (ALIGN ((nmemb * size) % W)) META_SIZE)).1 0)
              (mmap s (add64 (ALIGN ((nmemb * size) % W)) META_SIZE)).1 0)
              (mmap s (add64 (ALIGN ((nmemb * size) % W)) META_SIZE)).1 STATUS_MAPPED }) := by
  unfold os_calloc
  simp only [if_neg h0, if_pos hge, if_neg hf]

theorem map_header (m : Mem) (a sz : Nat) :
    (∀ x, x ≠ a →
      Agree m (set_status (set_next (set_prev (set_size m a sz) a 0) a 0) a STATUS_MAPPED) x)
    ∧ ((set_status (set_next (set_prev (set_size m a sz) a 0) a 0) a STATUS_MAPPED) a).status
        = STATUS_MAPPED
    ∧ ((set_status (set_next (set_prev (set_size m a sz) a 0) a 0) a STATUS_MAPPED) a).size
        = sz := by
  refine ⟨fun x hx => ?_, ?_, ?_⟩
  · simp [Agree, hx]
  · simp
  · simp

theorem mapped_step (s : State) (v : List Blk) (len sz : Nat) (hv : Valid s v)
    (hc : 0 < len ∧ s.map_next + pages len < W) (hl : len = add64 sz META_SIZE)
    (h8 : 8 ∣ sz) :
    Valid { (mmap s len).2 with
        mem := set_status (set_next (set_prev (set_size (mmap s len).2.mem (mmap s len).1 sz)
          (mmap s len).1 0) (mmap s len).1 0) (mmap s len).1 STATUS_MAPPED } v
    ∧ Stable s v { (mmap s len).2 with
        mem := set_status (set_next (set_prev (set_size (mmap s len).2.mem (mmap s len).1 sz)
          (mmap s len).1 0) (mmap s len).1 0) (mmap s len).1 STATUS_MAPPED } v 0
    ∧ (mmap s len).1 = s.map_next
    ∧ (s.map_next, len) ∈ ({ (mmap s len).2 with
        mem := set_status (set_next (set_prev (set_size (mmap s len).2.mem (mmap s len).1 sz)
          (mmap s len).1 0) (mmap s len).1 0) (mmap s len).1 STATUS_MAPPED } : State).maps
    ∧ ((set_status (set_next (set_prev (set_size (mmap s len).2.mem (mmap s len).1 sz)
          (mmap s len).1 0) (mmap s len).1 0) (mmap s len).1 STATUS_MAPPED) s.map_next).size
        = sz := by
  obtain ⟨a1, a2, a3⟩ := map_header s.mem s.map_next sz
  rw [mmap_ok s len hc]
  obtain ⟨h1, h2⟩ := mmap_valid s v len sz _ _ hv hc hl h8 a1 ⟨a2, a3⟩
  exact ⟨h1, h2, rfl, List.mem_cons_self _ _, a3⟩

theorem arena_lift (s : State) (v : List Blk) (fuel n : Nat)
    (fin : Nat → Nat → State → Res (Nat × State)) (r : Nat × State)
    (h : arena fuel s n fin = .ok r) :
    ∃ F, v.length < F ∧ arena F s n fin = .ok r := by
  refine ⟨fuel + v.length + 1, by omega, ?_⟩
  rw [arena_mono fuel (fuel + v.length + 1) s n fin (by omega) (by rw [h]; exact fun h => Res.noConfusion h)]
  exact h

theorem malloc_small (s s1 : State) (v : List Blk) (fuel size p : Nat) (hv : Valid s v)
    (h0 : size ≠ 0) (hlt : size < 131040) (hm : os_malloc fuel s size = .ok (p, s1))
    (hnf : NoFail s1.log) : ∃ v1 sz, ArenaPost s v size p sz s1 v1 := by
  rw [os_malloc_small fuel s size h0 hlt] at hm
  obtain ⟨F, hF, hm1⟩ := arena_lift s v fuel size finish_malloc _ hm
  have hA : ALIGN size ≤ 131040 := by
    have := ALIGN_bounds size (by rw [W_eq]; omega)
    have h8 := ALIGN_dvd size
    omega
  rcases arena_spec s v F size finish_malloc hv hA hF with hd | ⟨p1, sz, s2, he, hpost⟩
  · rw [hd] at hm1
    cases hm1
  · rw [he] at hm1
    unfold finish_malloc at hm1
    cases hm1
    obtain ⟨v1, h1⟩ := hpost hnf
    exact ⟨v1, sz, h1⟩

theorem ArenaPost.stable {s s1 : State} {v v1 : List Blk} {n p sz : Nat}
    (h : ArenaPost s v n p sz s1 v1) : Stable s v s1 v1 0 := by
  refine ⟨fun b hb hs _ => h.keep b hb hs, fun x hx _ => ⟨?_, ?_⟩⟩
  · rw [h.maps]
    exact hx
  · exact h.frame _ (by
      have := h.valid
      exact (by
        have h1 : ∀ y ∈ s1.maps, s1.brk_max ≤ y.1 := fun y hy => (h.valid.maps y hy).2.2.2.2.1
        have h2 := h1 x (by rw [h.maps]; exact hx)
        rw [h.brk_max] at h2
        exact h2))

theorem ArenaPost.result {s s1 : State} {v v1 : List Blk} {n p sz : Nat}
    (h : ArenaPost s v n p sz s1 v1) (hv : Valid s v) :
    p ≠ 0 ∧ 8 ∣ p ∧ Returned s1 v1 p n ∧ ¬ Held s p := by
  obtain ⟨b, hb, hp, hbs, hbA, _⟩ := h.blk
  have h8 := h.valid.addr8 b hb
  refine ⟨by omega, by omega, Or.inl ⟨b, hb, hbs, by rw [META_SIZE_eq]; exact hp, hbA⟩, ?_⟩
  intro hh
  rcases (Held_iff s v hv p).mp hh with ⟨c, hc, hcs, hcp⟩ | ⟨x, hx, hxp⟩
  · exact h.other c hc hcs hcp.symm
  · have h1 := h.valid.bounds b hb
    have h2 := h.valid.brk_le
    have h3 := (hv.maps x hx).2.2.2.2.1
    rw [h.brk_max] at h2
    omega

theorem malloc_step (s s1 : State) (v : List Blk) (fuel size p : Nat) (hv : Valid s v)
    (hm : os_malloc fuel s size = .ok (p, s1)) (hnf : NoFail s1.log) :
    ∃ v1, Valid s1 v1 ∧ Stable s v s1 v1 0
      ∧ (size = 0 → p = 0 ∧ s1 = s)
      ∧ (size ≠ 0 → p ≠ 0 ∧ 8 ∣ p ∧ Returned s1 v1 p size ∧ ¬ Held s p) := by
  by_cases h0 : size = 0
  · subst h0
    have : os_malloc fuel s 0 = .ok (0, s) := by
      unfold os_malloc
      rw [if_pos rfl]
    rw [this] at hm
    cases hm
    exact ⟨v, hv, ⟨fun b hb _ _ => hb, fun x hx _ => ⟨hx, Agree.refl _ _⟩⟩,
      fun _ => ⟨rfl, rfl⟩, fun h => absurd rfl h⟩
  · by_cases hlt : size < 131040
    · obtain ⟨v1, sz, h1⟩ := malloc_small s s1 v fuel size p hv h0 hlt hm hnf
      exact ⟨v1, h1.valid, h1.stable, fun h => absurd h h0, fun _ => h1.result hv⟩
    · rw [os_malloc_large fuel s size h0 hlt] at hm
      by_cases hf : (mmap s (add64 META_SIZE (ALIGN size))).1 = FAILED
      · rw [if_pos hf] at hm
        cases hm
      · rw [if_neg hf] at hm
        have hc := mmap_ne_failed s _ hf
        obtain ⟨a1, a2, a3, a4, a5⟩ := mapped_step s v (add64 META_SIZE (ALIGN size))
          (ALIGN size) hv hc (add64_comm _ _) (ALIGN_dvd size)
        have hmb : s.map_next + 32 < W := by
          have := (pages_ge _ hc.1).1
          omega
        rw [a3, META_SIZE_eq, add64_eq _ _ hmb] at hm
        rw [a3] at a1 a2 a4 a5
        rw [META_SIZE_eq] at a1 a2 a4 a5
        cases hm
        refine ⟨v, a1, a2, fun h => absurd h h0, fun _ => ⟨by omega, ?_, ?_, ?_⟩⟩
        · have := hv.next8
          omega
        · exact Or.inr ⟨_, a4, by rw [META_SIZE_eq], le_of_eq a5.symm⟩
        · intro hh
          rcases (Held_iff s v hv _).mp hh with ⟨c, hc1, _, hcp⟩ | ⟨x, hx, hxp⟩
          · have := hv.bounds c hc1
            have h2 := hv.brk_le
            have h3 := hv.max_le
            omega
          · have := hv.map_bounds x hx
            omega

theorem calloc_small (s s1 : State) (v : List Blk) (fuel nmemb size p : Nat) (hv : Valid s v)
    (h0 : (nmemb * size) % W ≠ 0)
    (hlt : ¬ add64 (ALIGN ((nmemb * size) % W)) META_SIZE ≥ 4096)
    (hm : os_calloc fuel s nmemb size = .ok (p, s1)) (hnf : NoFail s1.log) :
    ∃ v1 sz s2 z, ArenaPost s v ((nmemb * size) % W) p sz s2 v1
      ∧ memset0 s2 p sz = some z ∧ s1 = { s2 with bytes := z } := by
  rw [os_calloc_small fuel s nmemb size h0 hlt] at hm
  obtain ⟨F, hF, hm1⟩ := arena_lift s v fuel _ finish_calloc _ hm
  have hAW := ALIGN_lt ((nmemb * size) % W)
  by_cases hw : W - 32 ≤ ALIGN ((nmemb * size) % W)
  · exact absurd hm1 (arena_wrap s v F _ hv hw hF _)
  · have hA : ALIGN ((nmemb * size) % W) ≤ 131040 := by
      rw [META_SIZE_eq, add64_eq _ _ (by omega)] at hlt
      omega
    rcases arena_spec s v F _ finish_calloc hv hA hF with hd | ⟨p1, sz, s2, he, hpost⟩
    · rw [hd] at hm1
      cases hm1
    · rw [he] at hm1
      unfold finish_calloc at hm1
      cases hz : memset0 s2 p1 sz with
      | none =>
        rw [hz] at hm1
        cases hm1
      | some z =>
        rw [hz] at hm1
        simp only at hm1
        cases hm1
        obtain ⟨v1, h1⟩ := hpost hnf
        exact ⟨v1, sz, s2, z, h1, hz, rfl⟩

theorem calloc_step (s s1 : State) (v : List Blk) (fuel nmemb size p : Nat) (hv : Valid s v)
    (hm : os_calloc fuel s nmemb size = .ok (p, s1)) (hnf : NoFail s1.log) :
    ∃ v1, Valid s1 v1 ∧ Stable s v s1 v1 0
      ∧ ((nmemb * size) % W = 0 → p = 0 ∧ s1 = s)
      ∧ ((nmemb * size) % W ≠ 0 →
          p ≠ 0 ∧ 8 ∣ p ∧ Returned s1 v1 p ((nmemb * size) % W) ∧ ¬ Held s p) := by
  by_cases h0 : (nmemb * size) % W = 0
  · have : os_calloc fuel s nmemb size = .ok (0, s) := by
      unfold os_calloc
      simp only [if_pos h0]
    rw [this] at hm
    cases hm
    exact ⟨v, hv, ⟨fun b hb _ _ => hb, fun x hx _ => ⟨hx, Agree.refl _ _⟩⟩,
      fun _ => ⟨rfl, rfl⟩, fun h => absurd h0 h⟩
  · by_cases hge : add64 (ALIGN ((nmemb * size) % W)) META_SIZE ≥ 4096
    · rw [os_calloc_large fuel s nmemb size h0 hge (calloc_mapped_ok fuel s nmemb size _ h0 hge hm)] at hm
      have hc : 0 < add64 (ALIGN ((nmemb * size) % W)) META_SIZE
          ∧ s.map_next + pages (add64 (ALIGN ((nmemb * size) % W)) META_SIZE) < W := by
        have e2 : s1.log = (mmap s (add64 (ALIGN ((nmemb * size) % W)) META_SIZE)).2.log := by
          cases hm
          rfl
        rw [e2] at hnf
        exact mmap_nofail s _ hnf
      obtain ⟨a1, a2, a3, a4, a5⟩ := mapped_step s v
        (add64 (ALIGN ((nmemb * size) % W)) META_SIZE)
        (ALIGN ((nmemb * size) % W)) hv hc rfl (ALIGN_dvd _)
      have hmb : s.map_next + 32 < W := by
        have := (pages_ge _ hc.1).1
        omega
      rw [a3, META_SIZE_eq, add64_eq _ _ hmb] at hm
      rw [a3] at a1 a2 a4 a5
      rw [META_SIZE_eq] at a1 a2 a4 a5
      cases hm
      refine ⟨v, a1, a2, fun h => absurd h h0, fun _ => ⟨by omega, ?_, ?_, ?_⟩⟩
      · have := hv.next8
        omega
      · exact Or.inr ⟨_, a4, by rw [META_SIZE_eq], le_of_eq a5.symm⟩
      · intro hh
        rcases (Held_iff s v hv _).mp hh with ⟨c, hc1, _, hcp⟩ | ⟨x, hx, hxp⟩
        · have := hv.bounds c hc1
          have h2 := hv.brk_le
          have h3 := hv.max_le
          omega
        · have := hv.map_bounds x hx
          omega
    · obtain ⟨v1, sz, s2, z, h1, _, rfl⟩ :=
        calloc_small s s1 v fuel nmemb size p hv h0 hge hm hnf
      obtain ⟨r1, r2, r3, r4⟩ := h1.result hv
      refine ⟨v1, Valid_bytes s2 v1 z h1.valid, h1.stable, fun h => absurd h h0,
        fun _ => ⟨r1, r2, ?_, r4⟩⟩
      rcases r3 with h | h
      · exact Or.inl h
      · exact Or.inr h

theorem os_realloc_zero (fuel : Nat) (s : State) (ptr : Nat) :
    os_realloc fuel s ptr 0
      = match os_free s ptr with
        | .ok s1 => .ok (0, s1)
        | .die f => .die f
        | .fault => .fault
        | .timeout => .timeout := by
  unfold os_realloc
  rw [if_pos rfl]

theorem os_realloc_null (fuel : Nat) (s : State) (size : Nat) (h0 : size ≠ 0) :
    os_realloc fuel s 0 size = os_malloc fuel s size := by
  unfold os_realloc
  rw [if_neg h0, if_pos rfl]

theorem os_realloc_free (fuel : Nat) (s : State) (ptr size : Nat) (h0 : size ≠ 0)
    (hp : ptr ≠ 0) (hs : (s.mem (sub64 ptr META_SIZE)).status = STATUS_FREE) :
    os_realloc fuel s ptr size = .ok (0, s) := by
  unfold os_realloc
  rw [if_neg h0, if_neg hp]
  simp only [hs, if_true]

theorem os_realloc_mapped_same (fuel : Nat) (s sc : State) (ptr size : Nat) (h0 : size ≠ 0)
    (hp : ptr ≠ 0) (hs : (s.mem (sub64 ptr META_SIZE)).status ≠ STATUS_FREE)
    (hc : coalesce_blocks fuel s = some sc)
    (hm : (sc.mem (sub64 ptr META_SIZE)).status = STATUS_MAPPED)
    (he : (sc.mem (sub64 ptr META_SIZE)).size = ALIGN size) :
    os_realloc fuel s ptr size = .ok (ptr, sc) := by
  unfold os_realloc
  rw [if_neg h0, if_neg hp]
  simp only [if_neg hs, hc, if_pos hm, if_pos he]

theorem os_realloc_mapped_move (fuel : Nat) (s sc : State) (ptr size : Nat) (h0 : size ≠ 0)
    (hp : ptr ≠ 0) (hs : (s.mem (sub64 ptr META_SIZE)).status ≠ STATUS_FREE)
    (hc : coalesce_blocks fuel s = some sc)
    (hm : (sc.mem (sub64 ptr META_SIZE)).status = STATUS_MAPPED)
    (he : (sc.mem (sub64 ptr META_SIZE)).size ≠ ALIGN size) :
    os_realloc fuel s ptr size
      = match os_malloc fuel sc size with
        | .timeout => .timeout
        | .fault => .fault
        | .die f => .die f
        | .ok (new_ptr, s2) =>
          match memcpy s2 new_ptr ptr
              (if (s2.mem (sub64 ptr META_SIZE)).size > ALIGN size then size
               else (s2.mem (sub64 ptr META_SIZE)).size) with
          | none => .fault
          | some copied =>
            match os_free { s2 with bytes := copied } ptr with
            | .ok s3 => .ok (new_ptr, s3)
            | .die f => .die f
            | .fault => .fault
            | .timeout => .timeout := by
  unfold os_realloc
  rw [if_neg h0, if_neg hp]
  simp only [if_neg hs, hc, if_pos hm, if_neg he]

theorem os_realloc_alloc_same (fuel : Nat) (s sc : State) (ptr size : Nat) (h0 : size ≠ 0)
    (hp : ptr ≠ 0) (hs : (s.mem (sub64 ptr META_SIZE)).status ≠ STATUS_FREE)
    (hc : coalesce_blocks fuel s = some sc)
    (hm : (sc.mem (sub64 ptr META_SIZE)).status = STATUS_ALLOC)
    (he : (sc.mem (sub64 ptr META_SIZE)).size = ALIGN size) :
    os_realloc fuel s ptr size = .ok (ptr, sc) := by
  have hm1 : (sc.mem (sub64 ptr META_SIZE)).status ≠ STATUS_MAPPED := by
    rw [hm]
    exact status_ne.2.1
  unfold os_realloc
  rw [if_neg h0, if_neg hp]
  simp only [if_neg hs, hc, if_neg hm1, if_pos hm, if_pos he]

theorem os_realloc_shrink (fuel : Nat) (s sc : State) (ptr size : Nat) (h0 : size ≠ 0)
    (hp : ptr ≠ 0) (hs : (s.mem (sub64 ptr META_SIZE)).status ≠ STATUS_FREE)
    (hc : coalesce_blocks fuel s = some sc)
    (hm : (sc.mem (sub64 ptr META_SIZE)).status = STATUS_ALLOC)
    (he : (sc.mem (sub64 ptr META_SIZE)).size > ALIGN size) :
    os_realloc fuel s ptr size
      = .ok (add64 (split sc.mem (sub64 ptr META_SIZE) size).1 META_SIZE,
          { sc with mem := (split sc.mem (sub64 ptr META_SIZE) size).2 }) := by
  have hm1 : (sc.mem (sub64 ptr META_SIZE)).status ≠ STATUS_MAPPED := by
    rw [hm]
    exact status_ne.2.1
  have he1 : (sc.mem (sub64 ptr META_SIZE)).size ≠ ALIGN size := by omega
  unfold os_realloc
  rw [if_neg h0, if_neg hp]
  simp only [if_neg hs, hc, if_neg hm1, if_pos hm, if_neg he1, if_pos he]

theorem os_realloc_tail (fuel : Nat) (s sc : State) (ptr size : Nat) (h0 : size ≠ 0)
    (hp : ptr ≠ 0) (hs : (s.mem (sub64 ptr META_SIZE)).status ≠ STATUS_FREE)
    (hc : coalesce_blocks fuel s = some sc)
    (hm : (sc.mem (sub64 ptr META_SIZE)).status = STATUS_ALLOC)
    (he : (sc.mem (sub64 ptr META_SIZE)).size < ALIGN size)
    (hn : (sc.mem (sub64 ptr META_SIZE)).next = 0) :
    os_realloc fuel s ptr size
      = .ok (add64 (sub64 ptr META_SIZE) META_SIZE,
          { (sbrk sc (sub64 (ALIGN size) (sc.mem (sub64 ptr META_SIZE)).size)).2 with
            mem := set_size
              (sbrk sc (sub64 (ALIGN size) (sc.mem (sub64 ptr META_SIZE)).size)).2.mem
              (sub64 ptr META_SIZE) (ALIGN size) }) := by
  have hm1 : (sc.mem (sub64 ptr META_SIZE)).status ≠ STATUS_MAPPED := by
    rw [hm]
    exact status_ne.2.1
  have he1 : (sc.mem (sub64 ptr META_SIZE)).size ≠ ALIGN size := by omega
  have he2 : ¬ (sc.mem (sub64 ptr META_SIZE)).size > ALIGN size := by omega
  unfold os_realloc
  rw [if_neg h0, if_neg hp]
  simp only [if_neg hs, hc, if_neg hm1, if_pos hm, if_neg he1, if_neg he2, if_pos hn]

theorem os_realloc_absorb (fuel : Nat) (s sc : State) (ptr size : Nat) (h0 : size ≠ 0)
    (hp : ptr ≠ 0) (hs : (s.mem (sub64 ptr META_SIZE)).status ≠ STATUS_FREE)
    (hc : coalesce_blocks fuel s = some sc)
    (hm : (sc.mem (sub64 ptr META_SIZE)).status = STATUS_ALLOC)
    (he : (sc.mem (sub64 ptr META_SIZE)).size < ALIGN size)
    (hn : (sc.mem (sub64 ptr META_SIZE)).next ≠ 0)
    (hf : (sc.mem (sc.mem (sub64 ptr META_SIZE)).next).status = STATUS_FREE
      ∧ add64 (add64 (sc.mem (sub64 ptr META_SIZE)).size META_SIZE)
          (sc.mem (sc.mem (sub64 ptr META_SIZE)).next).size ≥ ALIGN size) :
    os_realloc fuel s ptr size
      = .ok (add64 (split (absorb_next sc.mem (sub64 ptr META_SIZE))
            (sub64 ptr META_SIZE) size).1 META_SIZE,
          { sc with mem := (split (absorb_next sc.mem (sub64 ptr META_SIZE))
            (sub64 ptr META_SIZE) size).2 }) := by
  have hm1 : (sc.mem (sub64 ptr META_SIZE)).status ≠ STATUS_MAPPED := by
    rw [hm]
    exact status_ne.2.1
  have he1 : (sc.mem (sub64 ptr META_SIZE)).size ≠ ALIGN size := by omega
  have he2 : ¬ (sc.mem (sub64 ptr META_SIZE)).size > ALIGN size := by omega
  unfold os_realloc
  rw [if_neg h0, if_neg hp]
  simp only [if_neg hs, hc, if_neg hm1, if_pos hm, if_neg he1, if_neg he2, if_neg hn, if_pos hf]

theorem os_realloc_fallback (fuel : Nat) (s sc : State) (ptr size : Nat) (h0 : size ≠ 0)
    (hp : ptr ≠ 0) (hs : (s.mem (sub64 ptr META_SIZE)).status ≠ STATUS_FREE)
    (hc : coalesce_blocks fuel s = some sc)
    (hm : (sc.mem (sub64 ptr META_SIZE)).status = STATUS_ALLOC)
    (he : (sc.mem (sub64 ptr META_SIZE)).size < ALIGN size)
    (hn : (sc.mem (sub64 ptr META_SIZE)).next ≠ 0)
    (hf : ¬ ((sc.mem (sc.mem (sub64 ptr META_SIZE)).next).status = STATUS_FREE
      ∧ add64 (add64 (sc.mem (sub64 ptr META_SIZE)).size META_SIZE)
          (sc.mem (sc.mem (sub64 ptr META_SIZE)).next).size ≥ ALIGN size)) :
    os_realloc fuel s ptr size
      = match os_malloc fuel sc (ALIGN size) with
        | .timeout => .timeout
        | .fault => .fault
        | .die f => .die f
        | .ok (new_ptr, s2) =>
          match memcpy s2 new_ptr ptr (s2.mem (sub64 ptr META_SIZE)).size with
          | none => .fault
          | some copied =>
            .ok (new_ptr, { s2 with
              bytes := copied
              mem := set_status s2.mem (sub64 ptr META_SIZE) STATUS_FREE }) := by
  have hm1 : (sc.mem (sub64 ptr META_SIZE)).status ≠ STATUS_MAPPED := by
    rw [hm]
    exact status_ne.2.1
  have he1 : (sc.mem (sub64 ptr META_SIZE)).size ≠ ALIGN size := by omega
  have he2 : ¬ (sc.mem (sub64 ptr META_SIZE)).size > ALIGN size := by omega
  unfold os_realloc
  rw [if_neg h0, if_neg hp]
  simp only [if_neg hs, hc, if_neg hm1, if_pos hm, if_neg he1, if_neg he2, if_neg hn, if_neg hf]

theorem absorb_fields (m : Mem) (a : Nat) (hne : (m a).next ≠ a) :
    (∀ x, x ≠ a → Agree m (absorb_next m a) x)
    ∧ ((absorb_next m a) a).size
        = add64 (add64 (m a).size META_SIZE) (m (m a).next).size
    ∧ ((absorb_next m a) a).status = (m a).status
    ∧ ((absorb_next m a) a).next = (m (m a).next).next := by
  by_cases h : (m (m a).next).next = 0
  · simp only [absorb_next, set_size_next, set_next_next, if_neg hne, h, ne_eq,
      not_true_eq_false, if_false]
    refine ⟨fun x hx => ?_, ?_, ?_, ?_⟩
    · simp [Agree, hx]
    · simp
    · simp
    · simp
  · simp only [absorb_next, set_size_next, set_next_next, if_neg hne, h, ne_eq,
      not_false_eq_true, if_true]
    refine ⟨fun x hx => ?_, ?_, ?_, ?_⟩
    · simp [Agree, hx]
    · simp
    · simp
    · simp

theorem absorb_rep (m m3 : Mem) (pre suf : List Blk) (b c : Blk) (h S : Nat)
    (hrep : Rep m h (pre ++ b :: c :: suf)) (hd : ∀ x ∈ pre ++ suf, x.addr ≠ b.addr)
    (hag : ∀ x, x ≠ b.addr → Agree m m3 x) (hsz : (m3 b.addr).size = S)
    (hst : (m3 b.addr).status = b.status) (hnx : (m3 b.addr).next = (m c.addr).next) :
    Rep m3 h (pre ++ ⟨b.addr, S, b.status⟩ :: suf) := by
  unfold Rep at hrep ⊢
  obtain ⟨mid, h1, h2⟩ := (Seg_append pre (b :: c :: suf) h 0).mp hrep
  obtain ⟨e1, e2, e3, e4, e5⟩ := h2
  obtain ⟨f1, f2, f3, f4, f5⟩ := e5
  refine (Seg_append pre _ h 0).mpr ⟨mid, ?_, ?_⟩
  · exact Seg_frame pre _ _ (fun x hx => hag _ (hd x (List.mem_append_left _ hx))) h1
  · refine ⟨e1, e2, hsz, hst, ?_⟩
    show Seg m3 (m3 b.addr).next suf 0
    rw [hnx]
    exact Seg_frame suf _ _ (fun x hx => hag _ (hd x (List.mem_append_right _ hx))) f5
theorem absorb_valid (s : State) (pre suf : List Blk) (b c : Blk)
    (hv : Valid s (pre ++ b :: c :: suf)) (hb : b.status = STATUS_ALLOC) :
    Valid { s with mem := absorb_next s.mem b.addr }
      (pre ++ ⟨b.addr, b.size + 32 + c.size, STATUS_ALLOC⟩ :: suf)
    ∧ (∀ x, x ≠ b.addr → Agree s.mem (absorb_next s.mem b.addr) x)
    ∧ (s.mem b.addr).next = c.addr ∧ (s.mem c.addr).size = c.size
    ∧ (s.mem c.addr).status = c.status
    ∧ add64 (add64 (s.mem b.addr).size META_SIZE) (s.mem c.addr).size
        = b.size + 32 + c.size := by
  have hne0 : pre ++ b :: c :: suf ≠ [] := by simp
  have ht := hv.tiles hne0
  have hW := hv.brk_lt
  have hbm : b ∈ pre ++ b :: c :: suf := List.mem_append_right _ (List.mem_cons_self _ _)
  have hcm : c ∈ pre ++ b :: c :: suf :=
    List.mem_append_right _ (List.mem_cons_of_mem _ (List.mem_cons_self _ _))
  have hbb := hv.bounds b hbm
  have hcb := hv.bounds c hcm
  obtain ⟨mid, t1, t2⟩ := (TilesFrom_append pre (b :: c :: suf) _ _).mp ht
  obtain ⟨t3, t4⟩ := t2
  obtain ⟨t5, t6⟩ := t4
  rw [META_SIZE_eq] at t5 t6
  have hca : c.addr = b.addr + 32 + b.size := by omega
  obtain ⟨mid2, r1, r2⟩ := (Seg_append pre (b :: c :: suf) _ 0).mp hv.rep
  obtain ⟨e1, e2, e3, e4, e5⟩ := r2
  obtain ⟨f1, f2, f3, f4, f5⟩ := e5
  have hnext : (s.mem b.addr).next = c.addr := f1
  have hne : (s.mem b.addr).next ≠ b.addr := by omega
  obtain ⟨a1, a2, a3, a4⟩ := absorb_fields s.mem b.addr hne
  have hS : add64 (add64 (s.mem b.addr).size META_SIZE) (s.mem c.addr).size
      = b.size + 32 + c.size := by
    rw [e3, f3, META_SIZE_eq, add64_eq b.size 32 (by omega), add64_eq _ _ (by omega)]
  have hd : ∀ x ∈ pre ++ suf, x.addr ≠ b.addr := by
    intro x hx hxa
    have hxm : x ∈ pre ++ b :: c :: suf := by
      rcases List.mem_append.mp hx with h | h
      · exact List.mem_append_left _ h
      · exact List.mem_append_right _ (List.mem_cons_of_mem _ (List.mem_cons_of_mem _ h))
    rcases List.mem_append.mp hx with h | h
    · have := (TilesFrom_mem pre _ _ t1 x h).2
      rw [META_SIZE_eq] at this
      omega
    · have := (TilesFrom_mem suf _ _ t6 x h).1
      omega
  refine ⟨?_, a1, hnext, f3, f4, hS⟩
  refine Valid_heap s _ _ _ hv ?_ ?_ ?_ ?_ ?_ ?_
  · have := absorb_rep s.mem _ pre suf b c _ (b.size + 32 + c.size) hv.rep hd a1
      (by rw [a2, hnext, hS]) (by rw [a3, e4]) (by rw [a4, hnext])
    rw [hb] at this
    exact this
  · intro _
    refine (TilesFrom_append pre _ _ _).mpr ⟨mid, t1, t3, ?_⟩
    show TilesFrom (mid + META_SIZE + (b.size + 32 + c.size)) suf s.brk
    rw [META_SIZE_eq]
    have e : mid + 32 + (b.size + 32 + c.size) = mid + 32 + b.size + 32 + c.size := by omega
    rw [e]
    exact t6
  · simp
  · intro x hx
    rcases List.mem_append.mp hx with h | h
    · exact hv.size8 x (List.mem_append_left _ h)
    · rcases List.mem_cons.mp h with rfl | h1
      · have h1 := hv.size8 b hbm
        have h2 := hv.size8 c hcm
        show 8 ∣ b.size + 32 + c.size
        omega
      · exact hv.size8 x
          (List.mem_append_right _ (List.mem_cons_of_mem _ (List.mem_cons_of_mem _ h1)))
  · intro x hx
    rcases List.mem_append.mp hx with h | h
    · exact hv.stat x (List.mem_append_left _ h)
    · rcases List.mem_cons.mp h with rfl | h1
      · exact Or.inr rfl
      · exact hv.stat x
          (List.mem_append_right _ (List.mem_cons_of_mem _ (List.mem_cons_of_mem _ h1)))
  · intro x hx
    exact a1 x (by omega)

theorem Stable.same (s : State) (v : List Blk) (r : Nat) : Stable s v s v r :=
  ⟨fun _ hb _ _ => hb, fun _ hx _ => ⟨hx, Agree.refl _ _⟩⟩

theorem Stable.trans0 {s s1 s2 : State} {v v1 v2 : List Blk} {r : Nat}
    (h1 : Stable s v s1 v1 0) (h2 : Stable s1 v1 s2 v2 r) : Stable s v s2 v2 r := by
  have hm : ∀ a : Nat, a + META_SIZE ≠ 0 := by
    intro a
    rw [META_SIZE_eq]
    omega
  refine ⟨fun b hb hs hr => h2.1 b (h1.1 b hb hs (hm _)) hs hr, fun x hx hr => ?_⟩
  obtain ⟨a1, a2⟩ := h1.2 x hx (hm _)
  obtain ⟨b1, b2⟩ := h2.2 x a1 hr
  exact ⟨b1, a2.trans b2⟩

theorem Stable.trans1 {s s1 s2 : State} {v v1 v2 : List Blk} {r : Nat}
    (h1 : Stable s v s1 v1 r) (h2 : Stable s1 v1 s2 v2 0) : Stable s v s2 v2 r := by
  have hm : ∀ a : Nat, a + META_SIZE ≠ 0 := by
    intro a
    rw [META_SIZE_eq]
    omega
  refine ⟨fun b hb hs hr => h2.1 b (h1.1 b hb hs hr) hs (hm _), fun x hx hr => ?_⟩
  obtain ⟨a1, a2⟩ := h1.2 x hx hr
  obtain ⟨b1, b2⟩ := h2.2 x a1 (hm _)
  exact ⟨b1, a2.trans b2⟩

theorem Returned.keep {s s1 : State} {v v1 : List Blk} {p n r : Nat}
    (h : Returned s v p n) (hs : Stable s v s1 v1 r) (hr : p ≠ r) : Returned s1 v1 p n := by
  rcases h with ⟨b, hb, hbs, hp, hA⟩ | ⟨x, hx, hp, hA⟩
  · exact Or.inl ⟨b, hs.1 b hb hbs (by rw [← hp]; exact hr), hbs, hp, hA⟩
  · obtain ⟨a1, a2⟩ := hs.2 x hx (by rw [← hp]; exact hr)
    exact Or.inr ⟨x, a1, hp, by rw [a2.1]; exact hA⟩

theorem coalesce_step (s sc : State) (v : List Blk) (fuel : Nat) (hv : Valid s v)
    (hc : coalesce_blocks fuel s = some sc) :
    Valid sc (coalesceL v) ∧ Stable s v sc (coalesceL v) 0
      ∧ (∀ a, (sc.mem a).status = (s.mem a).status)
      ∧ (∃ m1, sc = { s with mem := m1 }) := by
  obtain ⟨m1, e1, vc, fr, st⟩ := coalesce_valid s v fuel hv (Or.inr (by rw [hc]; rfl))
  rw [hc] at e1
  cases e1
  have hne : STATUS_ALLOC ≠ STATUS_FREE := fun h => status_ne.2.2 h.symm
  refine ⟨vc, ⟨fun b hb hs _ => coalesceL_mem_alloc v b hb (by rw [hs]; exact hne),
    fun x hx _ => ⟨hx, fr _ (fun c hc1 => ?_)⟩⟩, st, m1, rfl⟩
  have h1 := hv.bounds c hc1
  have h2 := (hv.map_bounds x hx).1
  omega

theorem sub_meta (a : Nat) (h : a + 32 < W) : sub64 (a + 32) META_SIZE = a := by
  rw [META_SIZE_eq, sub64_eq _ _ (by omega) h]
  omega

theorem realloc_same_ok (s sc : State) (pre suf : List Blk) (b : Blk) (fuel size : Nat)
    (hc : coalesce_blocks fuel s = some sc) (hvc : Valid sc (pre ++ b :: suf))
    (hb : b.status = STATUS_ALLOC) (hs : (s.mem b.addr).status ≠ STATUS_FREE)
    (h0 : size ≠ 0) (he : b.size = ALIGN size) :
    os_realloc fuel s (b.addr + 32) size = .ok (b.addr + 32, sc) := by
  have hbm : b ∈ pre ++ b :: suf := List.mem_append_right _ (List.mem_cons_self _ _)
  have hbb := hvc.bounds b hbm
  have hW := hvc.brk_lt
  have hsub := sub_meta b.addr (by omega)
  have hm := Seg_mem _ _ _ hvc.rep b hbm
  exact os_realloc_alloc_same fuel s sc _ size h0 (by omega) (by rw [hsub]; exact hs) hc
    (by rw [hsub, hm.2.2, hb]) (by rw [hsub, hm.2.1, he])

theorem realloc_shrink_ok (s sc : State) (pre suf : List Blk) (b : Blk) (fuel size : Nat)
    (hc : coalesce_blocks fuel s = some sc) (hvc : Valid sc (pre ++ b :: suf))
    (hb : b.status = STATUS_ALLOC) (hs : (s.mem b.addr).status ≠ STATUS_FREE)
    (h0 : size ≠ 0) (he : ALIGN size < b.size) :
    os_realloc fuel s (b.addr + 32) size
      = .ok (b.addr + 32, { sc with mem := (split sc.mem b.addr size).2 })
    ∧ Valid { sc with mem := (split sc.mem b.addr size).2 } (pre ++ splitL b size ++ suf)
    ∧ (∀ a, sc.brk ≤ a → Agree sc.mem (split sc.mem b.addr size).2 a) := by
  have hbm : b ∈ pre ++ b :: suf := List.mem_append_right _ (List.mem_cons_self _ _)
  have hbb := hvc.bounds b hbm
  have hW := hvc.brk_lt
  have hsub := sub_meta b.addr (by omega)
  have hm := Seg_mem _ _ _ hvc.rep b hbm
  obtain ⟨v1, f1⟩ := split_valid sc pre suf b size hvc (le_of_lt he)
  refine ⟨?_, v1, f1⟩
  rw [os_realloc_shrink fuel s sc _ size h0 (by omega) (by rw [hsub]; exact hs) hc
    (by rw [hsub, hm.2.2, hb]) (by rw [hsub, hm.2.1]; exact he), hsub, split_fst,
    META_SIZE_eq, add64_eq _ _ (by omega)]

theorem realloc_tail_ok (s sc : State) (pre : List Blk) (b : Blk) (fuel size : Nat)
    (hc : coalesce_blocks fuel s = some sc) (hvc : Valid sc (pre ++ [b]))
    (hb : b.status = STATUS_ALLOC) (hs : (s.mem b.addr).status ≠ STATUS_FREE)
    (h0 : size ≠ 0) (he : b.size < ALIGN size) :
    os_realloc fuel s (b.addr + 32) size
      = .ok (b.addr + 32, { (sbrk sc (ALIGN size - b.size)).2 with
          mem := set_size sc.mem b.addr (ALIGN size) })
    ∧ (sc.brk + (ALIGN size - b.size) ≤ sc.brk_max →
        Valid { sc with
            mem := set_size sc.mem b.addr (ALIGN size)
            brk := sc.brk + (ALIGN size - b.size)
            log := OsCall.sbrk (ALIGN size - b.size) sc.brk :: sc.log }
          (pre ++ [⟨b.addr, ALIGN size, STATUS_ALLOC⟩])) := by
  have hbm : b ∈ pre ++ [b] := List.mem_append_right _ (List.mem_singleton_self _)
  have hbb := hvc.bounds b hbm
  have hW := hvc.brk_lt
  have hsub := sub_meta b.addr (by omega)
  have hm := Seg_mem _ _ _ hvc.rep b hbm
  have hAW := ALIGN_lt size
  have hnx : (sc.mem b.addr).next = 0 := by
    obtain ⟨mid, r1, r2⟩ := (Seg_append pre [b] _ 0).mp hvc.rep
    exact r2.2.2.2.2
  constructor
  · rw [os_realloc_tail fuel s sc _ size h0 (by omega) (by rw [hsub]; exact hs) hc
      (by rw [hsub, hm.2.2, hb]) (by rw [hsub, hm.2.1]; exact he) (by rw [hsub]; exact hnx),
      hsub, hm.2.1, sub64_eq _ _ (by omega) (by omega), sbrk_mem, META_SIZE_eq,
      add64_eq _ _ (by omega)]
  · intro hfit
    refine tail_valid sc pre b (ALIGN size) STATUS_ALLOC (ALIGN size - b.size) _ hvc
      (by omega) hfit (ALIGN_dvd size) (Or.inr rfl) ?_ ?_
    · intro a ha
      simp [Agree, ha]
    · simp only [set_size_size, set_size_status, set_size_next, if_true]
      exact ⟨trivial, by rw [hm.2.2, hb], trivial⟩

theorem realloc_absorb_ok (s sc : State) (pre suf : List Blk) (b c : Blk) (fuel size : Nat)
    (hc : coalesce_blocks fuel s = some sc) (hvc : Valid sc (pre ++ b :: c :: suf))
    (hb : b.status = STATUS_ALLOC) (hs : (s.mem b.addr).status ≠ STATUS_FREE)
    (h0 : size ≠ 0) (he : b.size < ALIGN size) (hcf : c.status = STATUS_FREE)
    (hfit : ALIGN size ≤ b.size + 32 + c.size) :
    os_realloc fuel s (b.addr + 32) size
      = .ok (b.addr + 32,
          { sc with mem := (split (absorb_next sc.mem b.addr) b.addr size).2 })
    ∧ Valid { sc with mem := (split (absorb_next sc.mem b.addr) b.addr size).2 }
        (pre ++ splitL ⟨b.addr, b.size + 32 + c.size, STATUS_ALLOC⟩ size ++ suf)
    ∧ (∀ a, sc.brk ≤ a →
        Agree sc.mem (split (absorb_next sc.mem b.addr) b.addr size).2 a) := by
  have hbm : b ∈ pre ++ b :: c :: suf := List.mem_append_right _ (List.mem_cons_self _ _)
  have hbb := hvc.bounds b hbm
  have hW := hvc.brk_lt
  have hsub := sub_meta b.addr (by omega)
  have hm := Seg_mem _ _ _ hvc.rep b hbm
  obtain ⟨va, fa, hnx, hcs, hcst, hS⟩ := absorb_valid sc pre suf b c hvc hb
  obtain ⟨v1, f1⟩ := split_valid { sc with mem := absorb_next sc.mem b.addr } pre suf
    ⟨b.addr, b.size + 32 + c.size, STATUS_ALLOC⟩ size va hfit
  refine ⟨?_, v1, fun a ha => (fa a (by omega)).trans (f1 a ha)⟩
  have hc0 : c.addr ≠ 0 := by
    have hcm : c ∈ pre ++ b :: c :: suf :=
      List.mem_append_right _ (List.mem_cons_of_mem _ (List.mem_cons_self _ _))
    exact (Seg_mem _ _ _ hvc.rep c hcm).1
  rw [os_realloc_absorb fuel s sc _ size h0 (by omega) (by rw [hsub]; exact hs) hc
    (by rw [hsub, hm.2.2, hb]) (by rw [hsub, hm.2.1]; exact he)
    (by rw [hsub, hnx]; exact hc0)
    (by rw [hsub, hnx, hcst, hS]; exact ⟨hcf, hfit⟩), hsub, split_fst,
    META_SIZE_eq, add64_eq _ _ (by omega)]

theorem realloc_fallback_eq (s sc : State) (pre suf : List Blk) (b c : Blk) (fuel size : Nat)
    (hc : coalesce_blocks fuel s = some sc) (hvc : Valid sc (pre ++ b :: c :: suf))
    (hb : b.status = STATUS_ALLOC) (hs : (s.mem b.addr).status ≠ STATUS_FREE)
    (h0 : size ≠ 0) (he : b.size < ALIGN size)
    (hno : ¬ (c.status = STATUS_FREE ∧ ALIGN size ≤ b.size + 32 + c.size)) :
    os_realloc fuel s (b.addr + 32) size
      = match os_malloc fuel sc (ALIGN size) with
        | .timeout => .timeout
        | .fault => .fault
        | .die f => .die f
        | .ok (new_ptr, s2) =>
          match memcpy s2 new_ptr (b.addr + 32) (s2.mem b.addr).size with
          | none => .fault
          | some copied =>
            .ok (new_ptr, { s2 with
              bytes := copied
              mem := set_status s2.mem b.addr STATUS_FREE }) := by
  have hbm : b ∈ pre ++ b :: c :: suf := List.mem_append_right _ (List.mem_cons_self _ _)
  have hbb := hvc.bounds b hbm
  have hW := hvc.brk_lt
  have hsub := sub_meta b.addr (by omega)
  have hm := Seg_mem _ _ _ hvc.rep b hbm
  obtain ⟨_, _, hnx, hcs, hcst, hS⟩ := absorb_valid sc pre suf b c hvc hb
  have hc0 : c.addr ≠ 0 := by
    have hcm : c ∈ pre ++ b :: c :: suf :=
      List.mem_append_right _ (List.mem_cons_of_mem _ (List.mem_cons_self _ _))
    exact (Seg_mem _ _ _ hvc.rep c hcm).1
  rw [os_realloc_fallback fuel s sc _ size h0 (by omega) (by rw [hsub]; exact hs) hc
    (by rw [hsub, hm.2.2, hb]) (by rw [hsub, hm.2.1]; exact he)
    (by rw [hsub, hnx]; exact hc0)
    (by rw [hsub, hnx, hcst, hS]; exact hno), hsub]

theorem os_realloc_timeout (fuel : Nat) (s : State) (ptr size : Nat) (h0 : size ≠ 0)
    (hp : ptr ≠ 0) (hs : (s.mem (sub64 ptr META_SIZE)).status ≠ STATUS_FREE)
    (hc : coalesce_blocks fuel s = none) :
    os_realloc fuel s ptr size = .timeout := by
  unfold os_realloc
  rw [if_neg h0, if_neg hp]
  simp only [if_neg hs, hc]

theorem realloc_alloc_step (s s1 : State) (v : List Blk) (b : Blk) (fuel size p : Nat)
    (hv : Valid s v) (hbv : b ∈ v) (hb : b.status = STATUS_ALLOC) (h0 : size ≠ 0)
    (hm : os_realloc fuel s (b.addr + 32) size = .ok (p, s1)) (hnf : NoFail s1.log) :
    ∃ v1, Valid s1 v1 ∧ Stable s v s1 v1 (b.addr + 32) ∧ p ≠ 0 ∧ 8 ∣ p
      ∧ Returned s1 v1 p size := by
  have hne : STATUS_ALLOC ≠ STATUS_FREE := fun h => status_ne.2.2 h.symm
  have hbb0 := hv.bounds b hbv
  have hW0 := hv.brk_lt
  have hsub := sub_meta b.addr (by omega)
  have hs : (s.mem b.addr).status ≠ STATUS_FREE := by
    rw [(Seg_mem _ _ _ hv.rep b hbv).2.2, hb]
    exact hne
  have h8 := hv.addr8 b hbv
  cases hcb : coalesce_blocks fuel s with
  | none =>
    rw [os_realloc_timeout fuel s _ size h0 (by omega) (by rw [hsub]; exact hs) hcb] at hm
    cases hm
  | some sc =>
    obtain ⟨vc, stc, _, _⟩ := coalesce_step s sc v fuel hv hcb
    have hbc : b ∈ coalesceL v := coalesceL_mem_alloc v b hbv (by rw [hb]; exact hne)
    obtain ⟨pre, suf, hdec⟩ := List.append_of_mem hbc
    rw [hdec] at vc stc
    have hbm : b ∈ pre ++ b :: suf := List.mem_append_right _ (List.mem_cons_self _ _)
    have hother : ∀ x ∈ pre ++ b :: suf, x.addr + META_SIZE ≠ b.addr + 32 →
        x ∈ pre ∨ x ∈ suf := by
      intro x hx hxa
      rcases List.mem_append.mp hx with h | h
      · exact Or.inl h
      · rcases List.mem_cons.mp h with rfl | h1
        · rw [META_SIZE_eq] at hxa
          exact absurd rfl hxa
        · exact Or.inr h1
    have hmapne : ∀ x ∈ sc.maps, x.1 ≠ b.addr := by
      intro x hx
      have h1 := (vc.map_bounds x hx).1
      have h2 := vc.bounds b hbm
      omega
    by_cases he : b.size = ALIGN size
    · rw [realloc_same_ok s sc pre suf b fuel size hcb vc hb hs h0 he] at hm
      cases hm
      refine ⟨_, vc, stc.trans0 (Stable.same _ _ _), by omega, by omega, ?_⟩
      exact Or.inl ⟨b, hbm, hb, by rw [META_SIZE_eq], le_of_eq he.symm⟩
    · by_cases hgt : ALIGN size < b.size
      · obtain ⟨e1, v1, f1⟩ := realloc_shrink_ok s sc pre suf b fuel size hcb vc hb hs h0 hgt
        rw [e1] at hm
        cases hm
        have hbW : b.size < W := by
          have := vc.bounds b hbm
          omega
        obtain ⟨x, hx, hxa, hxs, hxA⟩ := splitL_head b size (le_of_lt hgt) hbW
        refine ⟨_, v1, stc.trans0 ⟨?_, ?_⟩, by omega, by omega, ?_⟩
        · intro y hy _ hya
          rcases hother y hy hya with h | h
          · exact List.mem_append_left _ (List.mem_append_left _ h)
          · exact List.mem_append_right _ h
        · intro y hy _
          exact ⟨hy, f1 _ (vc.map_bounds y hy).1⟩
        · exact Or.inl ⟨x, List.mem_append_left _ (List.mem_append_right _ hx), hxs,
            by rw [META_SIZE_eq, hxa], hxA⟩
      · have hlt : b.size < ALIGN size := by omega
        cases suf with
        | nil =>
          obtain ⟨e1, hV⟩ := realloc_tail_ok s sc pre b fuel size hcb vc hb hs h0 hlt
          rw [e1] at hm
          cases hm
          have hfit := sbrk_nofail sc (ALIGN size - b.size) hnf
          have hV2 := hV hfit.2
          rw [sbrk_ok _ _ hfit]
          refine ⟨_, hV2, stc.trans0 ⟨?_, ?_⟩, by omega, by omega, ?_⟩
          · intro y hy _ hya
            rcases hother y hy hya with h | h
            · exact List.mem_append_left _ h
            · simp at h
          · intro y hy _
            refine ⟨hy, ?_⟩
            have := hmapne y hy
            simp [Agree, this]
          · exact Or.inl ⟨⟨b.addr, ALIGN size, STATUS_ALLOC⟩,
              List.mem_append_right _ (List.mem_singleton_self _), rfl,
              by rw [META_SIZE_eq], le_refl _⟩
        | cons c suf =>
          by_cases hab : c.status = STATUS_FREE ∧ ALIGN size ≤ b.size + 32 + c.size
          · obtain ⟨e1, v1, f1⟩ := realloc_absorb_ok s sc pre suf b c fuel size hcb vc hb hs h0
              hlt hab.1 hab.2
            rw [e1] at hm
            cases hm
            have hcm : c ∈ pre ++ b :: c :: suf :=
              List.mem_append_right _ (List.mem_cons_of_mem _ (List.mem_cons_self _ _))
            have hcb1 := vc.bounds c hcm
            have hbc1 := vc.bounds b hbm
            have hWc := vc.brk_lt
            have hca : c.addr = b.addr + 32 + b.size := by
              have ht := vc.tiles (by simp)
              obtain ⟨mid, _, t2⟩ := (TilesFrom_append pre (b :: c :: suf) _ _).mp ht
              have t3 := t2.1
              have t4 := t2.2.1
              rw [META_SIZE_eq] at t4
              omega
            obtain ⟨x, hx, hxa, hxs, hxA⟩ :=
              splitL_head ⟨b.addr, b.size + 32 + c.size, STATUS_ALLOC⟩ size hab.2
                (by show b.size + 32 + c.size < W; omega)
            refine ⟨_, v1, stc.trans0 ⟨?_, ?_⟩, by omega, by omega, ?_⟩
            · intro y hy hys hya
              rcases hother y hy hya with h | h
              · exact List.mem_append_left _ (List.mem_append_left _ h)
              · rcases List.mem_cons.mp h with rfl | h1
                · rw [hab.1] at hys
                  exact absurd hys.symm hne
                · exact List.mem_append_right _ h1
            · intro y hy _
              exact ⟨hy, f1 _ (vc.map_bounds y hy).1⟩
            · exact Or.inl ⟨x, List.mem_append_left _ (List.mem_append_right _ hx), hxs,
                by rw [META_SIZE_eq, hxa], hxA⟩
          · rw [realloc_fallback_eq s sc pre suf b c fuel size hcb vc hb hs h0 hlt hab] at hm
            cases hmal : os_malloc fuel sc (ALIGN size) with
            | timeout => rw [hmal] at hm; cases hm
            | fault => rw [hmal] at hm; cases hm
            | die f => rw [hmal] at hm; cases hm
            | ok r =>
              obtain ⟨np, s2⟩ := r
              rw [hmal] at hm
              simp only at hm
              cases hcp : memcpy s2 np (b.addr + 32) (s2.mem b.addr).size with
              | none => rw [hcp] at hm; cases hm
              | some copied =>
                rw [hcp] at hm
                simp only at hm
                cases hm
                obtain ⟨v2, V2, S2, _, hres⟩ := malloc_step sc s2 _ fuel (ALIGN size) p vc
                  hmal hnf
                obtain ⟨r1, r2, r3, r4⟩ := hres (by omega)
                have hb2 : b ∈ v2 := S2.1 b hbm hb (by rw [META_SIZE_eq]; omega)
                have V3 := Valid_bytes _ _ copied
                  (status_valid s2 v2 b.addr STATUS_FREE V2 ⟨b, hb2, rfl⟩ (Or.inl rfl))
                have hheld : Held sc (b.addr + 32) :=
                  (Held_iff sc _ vc _).mpr (Or.inl ⟨b, hbm, hb, rfl⟩)
                have hnp : p ≠ b.addr + 32 := fun h => r4 (h ▸ hheld)
                have S3 : Stable s2 v2 { s2 with
                    bytes := copied
                    mem := set_status s2.mem b.addr STATUS_FREE }
                    (setStatusL b.addr STATUS_FREE v2) (b.addr + 32) := by
                  refine ⟨fun y hy _ hya => setStatusL_keep _ _ _ y hy ?_, fun y hy _ => ⟨hy, ?_⟩⟩
                  · rw [META_SIZE_eq] at hya
                    omega
                  · have h1 := (V2.map_bounds y hy).1
                    have h2 := V2.bounds b hb2
                    have : y.1 ≠ b.addr := by omega
                    simp [Agree, this]
                refine ⟨_, V3, stc.trans0 (S2.trans0 S3), r1, r2, ?_⟩
                have := Returned.keep r3 S3 hnp
                rw [Returned, ALIGN_idem] at this
                exact this

theorem munmap_log (s : State) (a l : Nat) :
    ∃ c, (munmap s a l).2.log = c :: s.log := by
  unfold munmap
  by_cases h : (a, l) ∈ s.maps
  · rw [if_pos h]
    exact ⟨_, rfl⟩
  · rw [if_neg h]
    exact ⟨_, rfl⟩

theorem os_free_log (s s1 : State) (ptr : Nat) (h : os_free s ptr = .ok s1) :
    s1.log = s.log ∨ ∃ c, s1.log = c :: s.log := by
  by_cases h0 : ptr = 0
  · subst h0
    rw [os_free_null] at h
    cases h
    exact Or.inl rfl
  · by_cases hf : (s.mem (sub64 ptr META_SIZE)).status = STATUS_FREE
    · rw [os_free_free s ptr hf] at h
      cases h
      exact Or.inl rfl
    · by_cases ha : (s.mem (sub64 ptr META_SIZE)).status = STATUS_ALLOC
      · rw [os_free_alloc s ptr h0 ha] at h
        cases h
        exact Or.inl rfl
      · by_cases hmp : (s.mem (sub64 ptr META_SIZE)).status = STATUS_MAPPED
        · rw [os_free_mapped s ptr h0 hmp] at h
          by_cases hu : (munmap s (sub64 ptr META_SIZE)
              (add64 (s.mem (sub64 ptr META_SIZE)).size META_SIZE)).1 = false
          · rw [if_pos hu] at h
            cases h
          · rw [if_neg hu] at h
            cases h
            exact Or.inr (munmap_log s _ _)
        · unfold os_free at h
          rw [if_neg h0] at h
          simp only [if_pos (And.intro ha (And.intro hf hmp))] at h
          cases h

theorem os_free_nofail (s s1 : State) (ptr : Nat) (h : os_free s ptr = .ok s1)
    (hnf : NoFail s1.log) : NoFail s.log := by
  rcases os_free_log s s1 ptr h with e | ⟨c, e⟩
  · rw [← e]
    exact hnf
  · rw [e, NoFail_cons] at hnf
    exact hnf.2

theorem realloc_mapped_step (s s1 : State) (v : List Blk) (x : Nat × Nat)
    (fuel size p : Nat) (hv : Valid s v) (hx : x ∈ s.maps) (h0 : size ≠ 0)
    (hm : os_realloc fuel s (x.1 + 32) size = .ok (p, s1)) (hnf : NoFail s1.log) :
    ∃ v1, Valid s1 v1 ∧ Stable s v s1 v1 (x.1 + 32) ∧ p ≠ 0 ∧ 8 ∣ p
      ∧ Returned s1 v1 p size := by
  obtain ⟨m1, m2, m3, m4, m5, m6, m7⟩ := hv.maps x hx
  have hxb := hv.map_bounds x hx
  have hsub := sub_meta x.1 (by omega)
  have hs : (s.mem x.1).status ≠ STATUS_FREE := by
    rw [m1]
    exact fun h => status_ne.1 h.symm
  cases hcb : coalesce_blocks fuel s with
  | none =>
    rw [os_realloc_timeout fuel s _ size h0 (by omega) (by rw [hsub]; exact hs) hcb] at hm
    cases hm
  | some sc =>
    obtain ⟨vc, stc, hst, _⟩ := coalesce_step s sc v fuel hv hcb
    have hmeta : x.1 + META_SIZE ≠ 0 := by
      rw [META_SIZE_eq]
      omega
    obtain ⟨hxc, hag⟩ := stc.2 x hx hmeta
    have hms : (sc.mem x.1).status = STATUS_MAPPED := by rw [hst, m1]
    by_cases he : (sc.mem x.1).size = ALIGN size
    · rw [os_realloc_mapped_same fuel s sc _ size h0 (by omega) (by rw [hsub]; exact hs) hcb
        (by rw [hsub]; exact hms) (by rw [hsub]; exact he)] at hm
      cases hm
      refine ⟨_, vc, stc.trans0 (Stable.same _ _ _), by omega, by omega, ?_⟩
      exact Or.inr ⟨x, hxc, by rw [META_SIZE_eq], le_of_eq he.symm⟩
    · rw [os_realloc_mapped_move fuel s sc _ size h0 (by omega) (by rw [hsub]; exact hs) hcb
        (by rw [hsub]; exact hms) (by rw [hsub]; exact he)] at hm
      cases hmal : os_malloc fuel sc size with
      | timeout => rw [hmal] at hm; cases hm
      | fault => rw [hmal] at hm; cases hm
      | die f => rw [hmal] at hm; cases hm
      | ok r =>
        obtain ⟨np, s2⟩ := r
        rw [hmal] at hm
        simp only at hm
        generalize hn : (if (s2.mem (sub64 (x.1 + 32) META_SIZE)).size > ALIGN size then size
          else (s2.mem (sub64 (x.1 + 32) META_SIZE)).size) = n at hm
        cases hcp : memcpy s2 np (x.1 + 32) n with
        | none => rw [hcp] at hm; cases hm
        | some copied =>
          rw [hcp] at hm
          simp only at hm
          cases hfr : os_free { s2 with bytes := copied } (x.1 + 32) with
          | timeout => rw [hfr] at hm; cases hm
          | fault => rw [hfr] at hm; cases hm
          | die f => rw [hfr] at hm; cases hm
          | ok s3 =>
            rw [hfr] at hm
            simp only at hm
            cases hm
            have hnf2 : NoFail s2.log := os_free_nofail { s2 with bytes := copied } _ _ hfr hnf
            obtain ⟨v2, V2, S2, _, hres⟩ := malloc_step sc s2 _ fuel size p vc hmal hnf2
            obtain ⟨r1, r2, r3, r4⟩ := hres h0
            obtain ⟨hx2, _⟩ := S2.2 x hxc hmeta
            have V2b := Valid_bytes s2 v2 copied V2
            have hheld2 : Held { s2 with bytes := copied } (x.1 + 32) :=
              (Held_iff _ _ V2b _).mpr (Or.inr ⟨x, hx2, rfl⟩)
            obtain ⟨v3, V3, S3, _, _⟩ := free_step _ s1 v2 (x.1 + 32) V2b (Or.inr hheld2) hfr
            have hheld : Held sc (x.1 + 32) :=
              (Held_iff sc _ vc _).mpr (Or.inr ⟨x, hxc, rfl⟩)
            have hnp : p ≠ x.1 + 32 := fun h => r4 (h ▸ hheld)
            have S2b : Stable sc (coalesceL v) { s2 with bytes := copied } v2 0 := S2
            have r3b : Returned { s2 with bytes := copied } v2 p size := r3
            exact ⟨v3, V3, stc.trans0 (S2b.trans0 S3), r1, r2, Returned.keep r3b S3 hnp⟩

theorem realloc_step (s s1 : State) (v : List Blk) (fuel ptr size p : Nat) (hv : Valid s v)
    (hp : ptr = 0 ∨ Held s ptr) (hm : os_realloc fuel s ptr size = .ok (p, s1))
    (hnf : NoFail s1.log) :
    ∃ v1, Valid s1 v1 ∧ Stable s v s1 v1 ptr
      ∧ (size ≠ 0 → p ≠ 0 ∧ 8 ∣ p ∧ Returned s1 v1 p size) ∧ (size = 0 → p = 0) := by
  by_cases h0 : size = 0
  · subst h0
    rw [os_realloc_zero] at hm
    cases hfr : os_free s ptr with
    | timeout => rw [hfr] at hm; cases hm
    | fault => rw [hfr] at hm; cases hm
    | die f => rw [hfr] at hm; cases hm
    | ok s2 =>
      rw [hfr] at hm
      simp only at hm
      cases hm
      obtain ⟨v1, V1, S1, _, _⟩ := free_step s s1 v ptr hv hp hfr
      exact ⟨v1, V1, S1, fun h => absurd rfl h, fun _ => rfl⟩
  · rcases hp with rfl | hp
    · rw [os_realloc_null fuel s size h0] at hm
      obtain ⟨v1, V1, S1, _, hres⟩ := malloc_step s s1 v fuel size p hv hm hnf
      obtain ⟨r1, r2, r3, _⟩ := hres h0
      exact ⟨v1, V1, S1, fun _ => ⟨r1, r2, r3⟩, fun h => absurd h h0⟩
    · rcases (Held_iff s v hv ptr).mp hp with ⟨b, hb, hbs, rfl⟩ | ⟨x, hx, rfl⟩
      · obtain ⟨v1, V1, S1, r⟩ := realloc_alloc_step s s1 v b fuel size p hv hb hbs h0 hm hnf
        exact ⟨v1, V1, S1, fun _ => r, fun h => absurd h h0⟩
      · obtain ⟨v1, V1, S1, r⟩ := realloc_mapped_step s s1 v x fuel size p hv hx h0 hm hnf
        exact ⟨v1, V1, S1, fun _ => r, fun h => absurd h h0⟩

theorem fresh_valid (s : State) (h : Fresh s) : Valid s [] where
  rep := h.head
  tiles := fun hne => absurd rfl hne
  pre0 := fun _ => rfl
  pre1 := fun hne => absurd h.pre hne
  size8 := fun b hb => by simp at hb
  stat := fun b hb => by simp at hb
  brk_pos := h.brk_pos
  brk8 := h.brk8
  brk_le := h.brk_le
  max_le := h.max_le
  next8 := h.next8
  next_lt := h.next_lt
  room := h.room
  maps := fun x hx => by
    rw [h.maps] at hx
    simp at hx
  apart := by
    rw [h.maps]
    exact List.Pairwise.nil
  nofail := fun c hc => by
    rw [h.log] at hc
    simp at hc

theorem reachable_valid (s : State) (h : Reachable s) : ∃ v, Valid s v := by
  induction h with
  | fresh s hf => exact ⟨[], fresh_valid s hf⟩
  | malloc s s1 fuel size p _ _ hm hnf ih =>
    obtain ⟨v, hv⟩ := ih
    obtain ⟨v1, V1, _⟩ := malloc_step s s1 v fuel size p hv hm hnf
    exact ⟨v1, V1⟩
  | calloc s s1 fuel nmemb size p _ _ _ hm hnf ih =>
    obtain ⟨v, hv⟩ := ih
    obtain ⟨v1, V1, _⟩ := calloc_step s s1 v fuel nmemb size p hv hm hnf
    exact ⟨v1, V1⟩
  | realloc s s1 fuel ptr size p _ hp _ hm hnf ih =>
    obtain ⟨v, hv⟩ := ih
    obtain ⟨v1, V1, _⟩ := realloc_step s s1 v fuel ptr size p hv hp hm hnf
    exact ⟨v1, V1⟩
  | free s s1 ptr _ hp hm _ ih =>
    obtain ⟨v, hv⟩ := ih
    obtain ⟨v1, V1, _⟩ := free_step s s1 v ptr hv hp hm
    exact ⟨v1, V1⟩

theorem fresh_s0 : Fresh s0 :=
  ⟨rfl, rfl, by decide, by decide, by decide, by decide, by decide, by decide, by decide,
    rfl, rfl, rfl⟩

theorem eval_sA : os_malloc 4 s0 100 = .ok (4128, sA) := by with_unfolding_all rfl

theorem sA_log : sA.log = [OsCall.sbrk 131072 4096] := by with_unfolding_all rfl

theorem sA_rep : Rep sA.mem sA.head [⟨4096, 104, STATUS_ALLOC⟩, ⟨4232, 130904, STATUS_FREE⟩] :=
  by with_unfolding_all exact ⟨rfl, by decide, rfl, rfl, rfl, by decide, rfl, rfl, rfl⟩

theorem nofail_sA : NoFail sA.log := by
  rw [sA_log]
  unfold NoFail
  decide

theorem reach_sA : Reachable sA :=
  Reachable.malloc s0 sA 4 100 4128 (Reachable.fresh s0 fresh_s0) (by decide) eval_sA nofail_sA

theorem held_sA : Held sA 4128 :=
  Or.inl ⟨_, ⟨4096, 104, STATUS_ALLOC⟩, sA_rep, List.mem_cons_self _ _, rfl,
    by with_unfolding_all rfl⟩

theorem eval_sAF : os_free sA 4128 = .ok sAF := by with_unfolding_all rfl

theorem sAF_rep :
    Rep sAF.mem sAF.head [⟨4096, 104, STATUS_FREE⟩, ⟨4232, 130904, STATUS_FREE⟩] :=
  by with_unfolding_all exact ⟨rfl, by decide, rfl, rfl, rfl, by decide, rfl, rfl, rfl⟩

theorem nofail_sAF : NoFail sAF.log := by
  with_unfolding_all exact nofail_sA

theorem reach_sAF : Reachable sAF :=
  Reachable.free sA sAF 4128 reach_sA (Or.inr held_sA) eval_sAF nofail_sAF

/-- C1: in every state reachable from the fresh allocator by public calls on live
pointers, with every operating-system call succeeding, the registry is a list of
nodes with strictly ascending header addresses in which every node starts exactly
where the payload of its predecessor ends. -/
theorem C1_registry_sorted_contiguous (s : State) (h : Reachable s) :
    ∃ v, Rep s.mem s.head v ∧ Ascending v ∧ Contiguous v := by
  obtain ⟨v, hv⟩ := reachable_valid s h
  refine ⟨v, hv.rep, ?_, ?_⟩
  · by_cases hne : v = []
    · subst hne
      trivial
    · exact TilesFrom_ascending v _ _ (hv.tiles hne)
  · by_cases hne : v = []
    · subst hne
      trivial
    · exact TilesFrom_contiguous v _ _ (hv.tiles hne)

theorem C1_registry_sorted_contiguous_witness :
    Reachable sA ∧ ∃ v, Rep sA.mem sA.head v ∧ Ascending v ∧ Contiguous v :=
  ⟨reach_sA, C1_registry_sorted_contiguous sA reach_sA⟩

/-- C2 fails: after `a = os_malloc(100); os_free(a)` on a fresh process the state is
reachable and its registry holds two neighbours that are both FREE, the released
block and the remainder of the preallocation. -/
theorem C2_counterexample :
    Reachable sAF ∧ ∀ v, Rep sAF.mem sAF.head v → ¬ NoAdjFree v := by
  refine ⟨reach_sAF, fun v hv hn => ?_⟩
  have := Rep_unique _ _ _ hv sAF_rep
  subst this
  exact hn.1 ⟨rfl, rfl⟩

/-- C2 as amended: when `os_malloc` or `os_calloc` serves a request from the arena
(for `os_malloc` a non-zero size below `128*1024 - META_SIZE`, for `os_calloc` a
non-zero request with `ALIGN(request) + META_SIZE < 4096`) in a reachable state and
every operating-system call succeeds, no two neighbours of the registry are both
FREE when the call returns. Nothing is promised after `os_free` or `os_realloc`. -/
theorem C2_no_adjacent_free_after_arena_alloc (s s1 : State) (fuel p n nmemb size : Nat)
    (h : Reachable s) (hnf : NoFail s1.log)
    (hop : (n ≠ 0 ∧ n < 131040 ∧ os_malloc fuel s n = .ok (p, s1))
      ∨ ((nmemb * size) % W ≠ 0 ∧ add64 (ALIGN ((nmemb * size) % W)) META_SIZE < 4096
        ∧ os_calloc fuel s nmemb size = .ok (p, s1))) :
    ∃ v, Rep s1.mem s1.head v ∧ NoAdjFree v := by
  obtain ⟨v, hv⟩ := reachable_valid s h
  rcases hop with ⟨h0, hlt, hm⟩ | ⟨h0, hlt, hm⟩
  · obtain ⟨v1, sz, hp⟩ := malloc_small s s1 v fuel n p hv h0 hlt hm hnf
    exact ⟨v1, hp.valid.rep, hp.noadj⟩
  · obtain ⟨v1, sz, s2, z, hp, _, rfl⟩ :=
      calloc_small s s1 v fuel nmemb size p hv h0 (by omega) hm hnf
    exact ⟨v1, hp.valid.rep, hp.noadj⟩

theorem C2_no_adjacent_free_after_arena_alloc_witness :
    Reachable s0 ∧ os_malloc 4 s0 100 = .ok (4128, sA)
      ∧ ∃ v, Rep sA.mem sA.head v ∧ NoAdjFree v :=
  ⟨Reachable.fresh s0 fresh_s0, eval_sA,
    C2_no_adjacent_free_after_arena_alloc s0 sA 4 4128 100 0 0
      (Reachable.fresh s0 fresh_s0) nofail_sA (Or.inl ⟨by decide, by decide, eval_sA⟩)⟩

theorem Returned.header {s : State} {v : List Blk} {p n : Nat} (hv : Valid s v)
    (h : Returned s v p n) :
    ((s.mem (sub64 p META_SIZE)).status = STATUS_ALLOC
      ∨ (s.mem (sub64 p META_SIZE)).status = STATUS_MAPPED)
    ∧ ALIGN n ≤ (s.mem (sub64 p META_SIZE)).size := by
  have hW := hv.brk_lt
  rcases h with ⟨b, hb, hbs, hp, hA⟩ | ⟨x, hx, hp, hA⟩
  · have hbb := hv.bounds b hb
    have hm := Seg_mem _ _ _ hv.rep b hb
    rw [META_SIZE_eq] at hp
    rw [hp, sub_meta b.addr (by omega), hm.2.1, hm.2.2]
    exact ⟨Or.inl hbs, hA⟩
  · have hxb := hv.map_bounds x hx
    rw [META_SIZE_eq] at hp
    rw [hp, sub_meta x.1 (by omega)]
    exact ⟨Or.inr (hv.maps x hx).1, hA⟩

theorem later_keeps (p n : Nat) (hp : p ≠ 0) : ∀ s s2, Later p s s2 →
    ∀ v, Valid s v → Returned s v p n → ∃ v2, Valid s2 v2 ∧ Returned s2 v2 p n := by
  intro s s2 hl
  induction hl with
  | refl => exact fun v hv hr => ⟨v, hv, hr⟩
  | malloc s1 s2 fuel size q _ _ hm hnf ih =>
    intro v hv hr
    obtain ⟨v1, V1, R1⟩ := ih v hv hr
    obtain ⟨v2, V2, S2, _⟩ := malloc_step s1 s2 v1 fuel size q V1 hm hnf
    exact ⟨v2, V2, R1.keep S2 hp⟩
  | calloc s1 s2 fuel nmemb size q _ _ _ hm hnf ih =>
    intro v hv hr
    obtain ⟨v1, V1, R1⟩ := ih v hv hr
    obtain ⟨v2, V2, S2, _⟩ := calloc_step s1 s2 v1 fuel nmemb size q V1 hm hnf
    exact ⟨v2, V2, R1.keep S2 hp⟩
  | realloc s1 s2 fuel ptr size q _ hheld hne _ hm hnf ih =>
    intro v hv hr
    obtain ⟨v1, V1, R1⟩ := ih v hv hr
    obtain ⟨v2, V2, S2, _⟩ := realloc_step s1 s2 v1 fuel ptr size q V1 hheld hm hnf
    exact ⟨v2, V2, R1.keep S2 (fun h => hne h.symm)⟩
  | free s1 s2 ptr _ hheld hne hm _ ih =>
    intro v hv hr
    obtain ⟨v1, V1, R1⟩ := ih v hv hr
    obtain ⟨v2, V2, S2, _⟩ := free_step s1 s2 v1 ptr V1 hheld hm
    exact ⟨v2, V2, R1.keep S2 (fun h => hne h.symm)⟩

/-- C3: in a reachable state, for a request `n > 0` whose rounding up to 8 does not
overflow, the non-null pointer `p` returned by `os_malloc(n)`, by `os_calloc(k, s)`
with `k * s = n` or by `os_realloc(q, n)` (every operating-system call succeeding,
so that the addresses handed out by the system are 8-byte aligned) is a multiple of
8, its header is ALLOCATED or MAPPED and records at least `ALIGN(n)` bytes; and this
is still so after any later public calls that do not release or reallocate `p`. -/
theorem C3_returned_pointer_aligned_and_sized (s s1 s2 : State)
    (fuel n p q nmemb size : Nat) (h : Reachable s) (hn : n ≠ 0) (hov : n + 7 < W)
    (hop : os_malloc fuel s n = .ok (p, s1)
      ∨ (nmemb * size = n ∧ os_calloc fuel s nmemb size = .ok (p, s1))
      ∨ ((q = 0 ∨ Held s q) ∧ os_realloc fuel s q n = .ok (p, s1)))
    (hnf : NoFail s1.log) (hp : p ≠ 0) (hl : Later p s1 s2) :
    8 ∣ p
    ∧ ((s2.mem (sub64 p META_SIZE)).status = STATUS_ALLOC
      ∨ (s2.mem (sub64 p META_SIZE)).status = STATUS_MAPPED)
    ∧ ALIGN n ≤ (s2.mem (sub64 p META_SIZE)).size ∧ n ≤ ALIGN n := by
  obtain ⟨v, hv⟩ := reachable_valid s h
  have hres : 8 ∣ p ∧ ∃ v1, Valid s1 v1 ∧ Returned s1 v1 p n := by
    rcases hop with hm | ⟨hk, hm⟩ | ⟨hq, hm⟩
    · obtain ⟨v1, V1, _, _, hr⟩ := malloc_step s s1 v fuel n p hv hm hnf
      obtain ⟨_, r2, r3, _⟩ := hr hn
      exact ⟨r2, v1, V1, r3⟩
    · obtain ⟨v1, V1, _, _, hr⟩ := calloc_step s s1 v fuel nmemb size p hv hm hnf
      have hmod : (nmemb * size) % W = n := by
        rw [hk]
        exact Nat.mod_eq_of_lt (by omega)
      rw [hmod] at hr
      obtain ⟨_, r2, r3, _⟩ := hr hn
      exact ⟨r2, v1, V1, r3⟩
    · obtain ⟨v1, V1, _, hr, _⟩ := realloc_step s s1 v fuel q n p hv hq hm hnf
      obtain ⟨_, r2, r3⟩ := hr hn
      exact ⟨r2, v1, V1, r3⟩
  obtain ⟨h8, v1, V1, R1⟩ := hres
  obtain ⟨v2, V2, R2⟩ := later_keeps p n hp s1 s2 hl v1 V1 R1
  obtain ⟨a1, a2⟩ := R2.header V2
  exact ⟨h8, a1, a2, (ALIGN_bounds n hov).1⟩

theorem C3_returned_pointer_aligned_and_sized_witness :
    Reachable s0 ∧ os_malloc 4 s0 100 = .ok (4128, sA)
    ∧ (8 ∣ 4128
      ∧ ((sA.mem (sub64 4128 META_SIZE)).status = STATUS_ALLOC
        ∨ (sA.mem (sub64 4128 META_SIZE)).status = STATUS_MAPPED)
      ∧ ALIGN 100 ≤ (sA.mem (sub64 4128 META_SIZE)).size ∧ 100 ≤ ALIGN 100) :=
  ⟨Reachable.fresh s0 fresh_s0, eval_sA,
    C3_returned_pointer_aligned_and_sized s0 sA sA 4 100 4128 0 0 0
      (Reachable.fresh s0 fresh_s0) (by decide) (by decide) (Or.inl eval_sA) nofail_sA
      (by decide) (Later.refl sA)⟩

theorem eval_sB : os_malloc 4 sA 100 = .ok (4264, sB) := by with_unfolding_all rfl

theorem sB_rep : Rep sB.mem sB.head
    [⟨4096, 104, STATUS_ALLOC⟩, ⟨4232, 104, STATUS_ALLOC⟩, ⟨4368, 130768, STATUS_FREE⟩] := by
  with_unfolding_all exact
    ⟨rfl, by decide, rfl, rfl, rfl, by decide, rfl, rfl, rfl, by decide, rfl, rfl, rfl⟩

theorem nofail_sB : NoFail sB.log := by
  with_unfolding_all exact nofail_sA

theorem reach_sB : Reachable sB :=
  Reachable.malloc sA sB 4 100 4264 reach_sA (by decide) eval_sB nofail_sB

theorem held_sB_a : Held sB 4128 :=
  Or.inl ⟨_, ⟨4096, 104, STATUS_ALLOC⟩, sB_rep, List.mem_cons_self _ _, rfl,
    by with_unfolding_all rfl⟩

theorem held_sB_b : Held sB 4264 :=
  Or.inl ⟨_, ⟨4232, 104, STATUS_ALLOC⟩, sB_rep,
    List.mem_cons_of_mem _ (List.mem_cons_self _ _), rfl, by with_unfolding_all rfl⟩

theorem eval_sM1 :
    os_malloc 1 s0 18446744073709551600 = .ok (1099511627808, sM1) := by
  with_unfolding_all rfl

theorem eval_sM2 :
    os_malloc 1 sM1 18446744073709551600 = .ok (1099511631904, sM2) := by
  with_unfolding_all rfl

theorem sM1_log : sM1.log = [OsCall.mmap 16 1099511627776] := by with_unfolding_all rfl

theorem sM2_log :
    sM2.log = [OsCall.mmap 16 1099511631872, OsCall.mmap 16 1099511627776] := by
  with_unfolding_all rfl

theorem sM2_maps : sM2.maps = [(1099511631872, 16), (1099511627776, 16)] := by
  with_unfolding_all rfl

theorem reach_sM2 : Reachable sM2 := by
  have h1 : NoFail sM1.log := by
    rw [sM1_log]
    unfold NoFail
    with_unfolding_all decide
  have h2 : NoFail sM2.log := by
    rw [sM2_log]
    unfold NoFail
    with_unfolding_all decide
  exact Reachable.malloc sM1 sM2 1 _ _
    (Reachable.malloc s0 sM1 1 _ _ (Reachable.fresh s0 fresh_s0) (by decide) eval_sM1 h1)
    (by decide) eval_sM2 h2

theorem tiles_disjoint : ∀ (v : List Blk) (a e : Nat), TilesFrom a v e →
    ∀ x ∈ v, ∀ y ∈ v, x ≠ y →
      x.addr + 32 + x.size ≤ y.addr ∨ y.addr + 32 + y.size ≤ x.addr
  | [], _, _, _, x, hx, _, _, _ => by simp at hx
  | c :: v, a, e, h, x, hx, y, hy, hxy => by
    have hc : c.addr = a := h.1
    have ht := TilesFrom_mem v _ e h.2
    simp only [META_SIZE_eq] at ht
    rcases List.mem_cons.mp hx with rfl | hx1
    · rcases List.mem_cons.mp hy with rfl | hy1
      · exact absurd rfl hxy
      · have := (ht y hy1).1
        exact Or.inl (by omega)
    · rcases List.mem_cons.mp hy with rfl | hy1
      · have := (ht x hx1).1
        exact Or.inr (by omega)
      · exact tiles_disjoint v _ e h.2 x hx1 y hy1 hxy

theorem pairwise_or {α : Type} (R : α → α → Prop) : ∀ (l : List α), l.Pairwise R →
    ∀ x ∈ l, ∀ y ∈ l, x ≠ y → R x y ∨ R y x
  | [], _, x, hx, _, _, _ => by simp at hx
  | c :: l, h, x, hx, y, hy, hxy => by
    obtain ⟨h1, h2⟩ := List.pairwise_cons.mp h
    rcases List.mem_cons.mp hx with rfl | hx1
    · rcases List.mem_cons.mp hy with rfl | hy1
      · exact absurd rfl hxy
      · exact Or.inl (h1 y hy1)
    · rcases List.mem_cons.mp hy with rfl | hy1
      · exact Or.inr (h1 x hx1)
      · exact pairwise_or R l h2 x hx1 y hy1 hxy

/-- C4 fails: after two calls `os_malloc(2^64 - 16)` on a fresh process both
returned pointers are live in a reachable state, each header records a payload of
`2^64 - 16` bytes while only 16 bytes were mapped for it, and the two payload
ranges overlap. -/
theorem C4_counterexample :
    Reachable sM2 ∧ Held sM2 1099511627808 ∧ Held sM2 1099511631904
    ∧ (1099511627808 : Nat) ≠ 1099511631904
    ∧ ¬ (1099511627808 + (sM2.mem (sub64 1099511627808 META_SIZE)).size ≤ 1099511631904
        ∨ 1099511631904 + (sM2.mem (sub64 1099511631904 META_SIZE)).size
            ≤ 1099511627808) := by
  refine ⟨reach_sM2, Or.inr ⟨(1099511627776, 16), ?_, ?_, ?_⟩,
    Or.inr ⟨(1099511631872, 16), ?_, ?_, ?_⟩, by decide, ?_⟩
  · rw [sM2_maps]
    decide
  · with_unfolding_all rfl
  · with_unfolding_all rfl
  · rw [sM2_maps]
    decide
  · with_unfolding_all rfl
  · with_unfolding_all rfl
  · have e1 : (sM2.mem (sub64 1099511627808 META_SIZE)).size = 18446744073709551600 := by
      with_unfolding_all rfl
    have e2 : (sM2.mem (sub64 1099511631904 META_SIZE)).size = 18446744073709551600 := by
      with_unfolding_all rfl
    rw [e1, e2]
    decide

/-- C4 as amended: in every reachable state the payload ranges
`[p, p + header(p).size)` of two distinct live allocations are disjoint, provided
that for both of them `header.size + META_SIZE` does not wrap around `2^64` (which
holds for every arena block, and for a MAPPED block exactly when the mapping that
was requested covers its payload). -/
theorem C4_live_payloads_disjoint (s : State) (p q : Nat) (h : Reachable s)
    (hp : Held s p) (hq : Held s q) (hne : p ≠ q)
    (hwp : (s.mem (sub64 p META_SIZE)).size + META_SIZE < W)
    (hwq : (s.mem (sub64 q META_SIZE)).size + META_SIZE < W) :
    p + (s.mem (sub64 p META_SIZE)).size ≤ q
      ∨ q + (s.mem (sub64 q META_SIZE)).size ≤ p := by
  obtain ⟨v, hv⟩ := reachable_valid s h
  have hW := hv.brk_lt
  have h1 := hv.brk_le
  rw [META_SIZE_eq] at hwp hwq ⊢
  have sm : ∀ a, a + 32 < W → sub64 (a + 32) 32 = a := by
    intro a ha
    have := sub_meta a ha
    rwa [META_SIZE_eq] at this
  have key : ∀ x ∈ s.maps, (s.mem x.1).size + 32 < W →
      x.1 + 32 + (s.mem x.1).size ≤ x.1 + pages x.2 := by
    intro x hx hw
    have h2 := (hv.maps x hx).2.1
    rw [META_SIZE_eq, add64_eq _ _ hw] at h2
    rw [h2]
    unfold pages PAGE
    omega
  rcases (Held_iff s v hv p).mp hp with ⟨b, hb, _, rfl⟩ | ⟨x, hx, rfl⟩
  · have hbb := hv.bounds b hb
    have hbm := Seg_mem _ _ _ hv.rep b hb
    rw [sm b.addr (by omega), hbm.2.1]
    rcases (Held_iff s v hv q).mp hq with ⟨c, hc, _, rfl⟩ | ⟨y, hy, rfl⟩
    · have hcb := hv.bounds c hc
      have hcm := Seg_mem _ _ _ hv.rep c hc
      rw [sm c.addr (by omega), hcm.2.1]
      have hbc : b ≠ c := fun e => hne (by rw [e])
      rcases tiles_disjoint v _ _ (hv.tiles (List.ne_nil_of_mem hb)) b hb c hc hbc with d | d
      · exact Or.inl (by omega)
      · exact Or.inr (by omega)
    · have hyb := hv.map_bounds y hy
      exact Or.inl (by omega)
  · have hxb := hv.map_bounds x hx
    rw [sm x.1 (by omega)] at hwp ⊢
    have kx := key x hx hwp
    rcases (Held_iff s v hv q).mp hq with ⟨c, hc, _, rfl⟩ | ⟨y, hy, rfl⟩
    · have hcb := hv.bounds c hc
      have hcm := Seg_mem _ _ _ hv.rep c hc
      rw [sm c.addr (by omega), hcm.2.1]
      exact Or.inr (by omega)
    · have hyb := hv.map_bounds y hy
      rw [sm y.1 (by omega)] at hwq ⊢
      have ky := key y hy hwq
      have hxy : x ≠ y := fun e => hne (by rw [e])
      rcases pairwise_or _ _ hv.apart x hx y hy hxy with d | d
      · exact Or.inr (by omega)
      · exact Or.inl (by omega)

theorem C4_live_payloads_disjoint_witness :
    Reachable sB ∧ Held sB 4128 ∧ Held sB 4264
    ∧ (4128 + (sB.mem (sub64 4128 META_SIZE)).size ≤ 4264
      ∨ 4264 + (sB.mem (sub64 4264 META_SIZE)).size ≤ 4128) :=
  ⟨reach_sB, held_sB_a, held_sB_b,
    C4_live_payloads_disjoint sB 4128 4264 reach_sB held_sB_a held_sB_b (by decide)
      (by with_unfolding_all decide) (by with_unfolding_all decide)⟩

theorem map_header_eq (m : Mem) (a sz x : Nat) (hx : x ≠ a) :
    (set_status (set_next (set_prev (set_size m a sz) a 0) a 0) a STATUS_MAPPED) x = m x := by
  simp [set_status, set_next, set_prev, set_size, upd, hx]

/-- C5: in a reachable state, for every `n >= 128*1024 - META_SIZE` whose rounding up
does not overflow and for which the system grants the mapping, `os_malloc(n)` makes
exactly one operating-system call, a map of `META_SIZE + ALIGN(n)` bytes (in
`size_t` arithmetic), does not move the break, returns the address `META_SIZE` past
the mapping, whose header is MAPPED with size `ALIGN(n)` (at least `n`), and leaves
every other header and the registry as they were; `os_free` of that pointer then returns after
making exactly one call, the unmapping of that base address with that same length,
and again leaves headers, registry and break as they were. -/
theorem C5_large_request_is_mapped (s : State) (fuel n : Nat) (h : Reachable s)
    (hge : 131040 ≤ n) (hov : n + 7 < W)
    (hroom : 0 < add64 META_SIZE (ALIGN n)
      ∧ s.map_next + pages (add64 META_SIZE (ALIGN n)) < W) :
    ∃ s1 s2, os_malloc fuel s n = .ok (s.map_next + META_SIZE, s1)
      ∧ s1.log = OsCall.mmap (add64 META_SIZE (ALIGN n)) s.map_next :: s.log
      ∧ s1.brk = s.brk
      ∧ (s1.mem s.map_next).status = STATUS_MAPPED
      ∧ (s1.mem s.map_next).size = ALIGN n
      ∧ n ≤ (s1.mem s.map_next).size
      ∧ s1.head = s.head ∧ (∀ a, a ≠ s.map_next → s1.mem a = s.mem a)
      ∧ (∀ v, Rep s.mem s.head v → Rep s1.mem s1.head v)
      ∧ os_free s1 (s.map_next + META_SIZE) = .ok s2
      ∧ s2.log = OsCall.munmap s.map_next (add64 META_SIZE (ALIGN n)) true :: s1.log
      ∧ s2.mem = s1.mem ∧ s2.head = s1.head ∧ s2.brk = s1.brk ∧ s2.maps = s.maps := by
  obtain ⟨v, hv⟩ := reachable_valid s h
  have hpg := pages_ge _ hroom.1
  have hmb : s.map_next + 32 < W := by omega
  have hf : (mmap s (add64 META_SIZE (ALIGN n))).1 ≠ FAILED := by
    rw [mmap_ok s _ hroom]
    show s.map_next ≠ FAILED
    unfold FAILED
    omega
  have hsub := sub_meta s.map_next hmb
  obtain ⟨a1, a2, a3⟩ := map_header s.mem s.map_next (ALIGN n)
  obtain ⟨s1, hs1⟩ : ∃ s1 : State, s1 = { s with
        mem := set_status (set_next (set_prev (set_size s.mem s.map_next (ALIGN n))
          s.map_next 0) s.map_next 0) s.map_next STATUS_MAPPED
        bytes := fun a => if s.map_next ≤ a
          ∧ a < s.map_next + pages (add64 META_SIZE (ALIGN n)) then 0 else s.bytes a
        map_next := s.map_next + pages (add64 META_SIZE (ALIGN n))
        maps := (s.map_next, add64 META_SIZE (ALIGN n)) :: s.maps
        log := OsCall.mmap (add64 META_SIZE (ALIGN n)) s.map_next :: s.log } := ⟨_, rfl⟩
  have e1 : os_malloc fuel s n = .ok (s.map_next + META_SIZE, s1) := by
    rw [hs1, os_malloc_large fuel s n (by omega) (by omega), if_neg hf, mmap_ok s _ hroom]
    simp only
    rw [META_SIZE_eq, add64_eq _ _ hmb]
  have hst : (s1.mem s.map_next).status = STATUS_MAPPED := by rw [hs1]; exact a2
  have hsz : (s1.mem s.map_next).size = ALIGN n := by rw [hs1]; exact a3
  have hs2 : sub64 (s.map_next + META_SIZE) META_SIZE = s.map_next := by
    rw [META_SIZE_eq] at hsub ⊢
    exact hsub
  have hin : (s.map_next, add64 META_SIZE (ALIGN n)) ∈ s1.maps := by
    rw [hs1]
    exact List.mem_cons_self _ _
  have f1 : os_free s1 (s.map_next + META_SIZE) = .ok { s1 with
      maps := s1.maps.erase (s.map_next, add64 META_SIZE (ALIGN n))
      log := OsCall.munmap s.map_next (add64 META_SIZE (ALIGN n)) true :: s1.log } := by
    rw [os_free_mapped _ _ (by rw [META_SIZE_eq]; omega) (by rw [hs2]; exact hst), hs2, hsz,
      add64_comm (ALIGN n) META_SIZE]
    unfold munmap
    rw [if_pos hin]
    simp only [Bool.true_eq_false, if_false]
  refine ⟨s1, _, e1, by rw [hs1], by rw [hs1], hst, hsz,
    by rw [hsz]; exact (ALIGN_bounds n hov).1, by rw [hs1], ?_, ?_, f1,
    rfl, rfl, rfl, rfl, ?_⟩
  · intro a ha
    rw [hs1]
    exact map_header_eq _ _ _ a ha
  · intro v1 hv1
    have := Rep_unique _ _ _ hv1 hv.rep
    subst this
    rw [hs1]
    refine Seg_frame v1 _ _ (fun b hb => a1 _ ?_) hv1
    have h1 := hv.bounds b hb
    have h2 := hv.brk_le
    have h3 := hv.max_le
    omega
  · show s1.maps.erase (s.map_next, add64 META_SIZE (ALIGN n)) = s.maps
    rw [hs1]
    exact List.erase_cons_head _ _

theorem C5_large_request_is_mapped_witness :
    Reachable s0 ∧ 131040 ≤ 204800
    ∧ ∃ s1 s2, os_malloc 1 s0 204800 = .ok (s0.map_next + META_SIZE, s1)
      ∧ s1.log = OsCall.mmap (add64 META_SIZE (ALIGN 204800)) s0.map_next :: s0.log
      ∧ s1.brk = s0.brk
      ∧ (s1.mem s0.map_next).status = STATUS_MAPPED
      ∧ (s1.mem s0.map_next).size = ALIGN 204800
      ∧ 204800 ≤ (s1.mem s0.map_next).size
      ∧ s1.head = s0.head ∧ (∀ a, a ≠ s0.map_next → s1.mem a = s0.mem a)
      ∧ (∀ v, Rep s0.mem s0.head v → Rep s1.mem s1.head v)
      ∧ os_free s1 (s0.map_next + META_SIZE) = .ok s2
      ∧ s2.log = OsCall.munmap s0.map_next (add64 META_SIZE (ALIGN 204800)) true :: s1.log
      ∧ s2.mem = s1.mem ∧ s2.head = s1.head ∧ s2.brk = s1.brk ∧ s2.maps = s0.maps :=
  ⟨Reachable.fresh s0 fresh_s0, by decide,
    C5_large_request_is_mapped s0 1 204800 (Reachable.fresh s0 fresh_s0) (by decide)
      (by decide) (by with_unfolding_all decide)⟩

/-- C6: for every state and every non-null pointer `p` whose header has status FREE,
`os_free(p)` returns and `os_realloc(p, n)` with `n > 0` returns `NULL`, and both
leave the whole allocator state (headers, registry, break, mappings, trace of
operating-system calls) exactly as it was. -/
theorem C6_released_pointer_is_left_alone (s : State) (fuel p n : Nat) (hp : p ≠ 0)
    (hf : (s.mem (sub64 p META_SIZE)).status = STATUS_FREE) (hn : n ≠ 0) :
    os_free s p = .ok s ∧ os_realloc fuel s p n = .ok (0, s) :=
  ⟨os_free_free s p hf, os_realloc_free fuel s p n hn hp hf⟩

theorem C6_released_pointer_is_left_alone_witness :
    (sAF.mem (sub64 4128 META_SIZE)).status = STATUS_FREE
    ∧ os_free sAF 4128 = .ok sAF ∧ os_realloc 0 sAF 4128 200 = .ok (0, sAF) :=
  ⟨by with_unfolding_all rfl,
    C6_released_pointer_is_left_alone sAF 0 4128 200 (by decide) (by with_unfolding_all rfl)
      (by decide)⟩

/-- C7: for every state and every non-null pointer `p` whose header has status
ALLOCATED, `os_free(p)` returns and changes nothing but the status of that header,
which becomes FREE: every header keeps its size and links, every other header keeps
its status, the registry holds the same nodes in the same order (none merged, even
next to a FREE neighbour), and head, break, mappings and the trace of
operating-system calls are unchanged; `os_free(NULL)` changes nothing. -/
theorem C7_free_only_flips_status (s : State) (p : Nat) (hp : p ≠ 0)
    (ha : (s.mem (sub64 p META_SIZE)).status = STATUS_ALLOC) :
    ∃ s1, os_free s p = .ok s1
      ∧ (s1.mem (sub64 p META_SIZE)).status = STATUS_FREE
      ∧ (∀ a, (s1.mem a).size = (s.mem a).size ∧ (s1.mem a).next = (s.mem a).next
          ∧ (s1.mem a).prev = (s.mem a).prev)
      ∧ (∀ a, a ≠ sub64 p META_SIZE → (s1.mem a).status = (s.mem a).status)
      ∧ (∀ v, Rep s.mem s.head v →
          Rep s1.mem s1.head (setStatusL (sub64 p META_SIZE) STATUS_FREE v)
          ∧ (setStatusL (sub64 p META_SIZE) STATUS_FREE v).map (fun b => (b.addr, b.size))
              = v.map (fun b => (b.addr, b.size)))
      ∧ s1.head = s.head ∧ s1.brk = s.brk ∧ s1.maps = s.maps ∧ s1.log = s.log
      ∧ s1.prealloced_mem = s.prealloced_mem ∧ s1.bytes = s.bytes
      ∧ os_free s 0 = .ok s := by
  refine ⟨_, os_free_alloc s p hp ha, ?_, ?_, ?_, ?_, rfl, rfl, rfl, rfl, rfl, rfl,
    os_free_null s⟩
  · simp
  · intro a
    simp
  · intro a h
    simp [h]
  · intro v hv
    refine ⟨setStatusL_rep _ _ v _ _ hv, ?_⟩
    unfold setStatusL
    rw [List.map_map]
    refine List.map_congr_left (fun b _ => ?_)
    by_cases hb : b.addr = sub64 p META_SIZE
    · simp [hb]
    · simp [hb]

theorem C7_free_only_flips_status_witness :
    (sA.mem (sub64 4128 META_SIZE)).status = STATUS_ALLOC
    ∧ ∃ s1, os_free sA 4128 = .ok s1
      ∧ (s1.mem (sub64 4128 META_SIZE)).status = STATUS_FREE
      ∧ (∀ a, (s1.mem a).size = (sA.mem a).size ∧ (s1.mem a).next = (sA.mem a).next
          ∧ (s1.mem a).prev = (sA.mem a).prev)
      ∧ (∀ a, a ≠ sub64 4128 META_SIZE → (s1.mem a).status = (sA.mem a).status)
      ∧ (∀ v, Rep sA.mem sA.head v →
          Rep s1.mem s1.head (setStatusL (sub64 4128 META_SIZE) STATUS_FREE v)
          ∧ (setStatusL (sub64 4128 META_SIZE) STATUS_FREE v).map
                (fun b => (b.addr, b.size))
              = v.map (fun b => (b.addr, b.size)))
      ∧ s1.head = sA.head ∧ s1.brk = sA.brk ∧ s1.maps = sA.maps ∧ s1.log = sA.log
      ∧ s1.prealloced_mem = sA.prealloced_mem ∧ s1.bytes = sA.bytes
      ∧ os_free sA 0 = .ok sA :=
  ⟨by with_unfolding_all rfl,
    C7_free_only_flips_status sA 4128 (by decide) (by with_unfolding_all rfl)⟩

theorem split_cond_iff (sz A : Nat) (hsz : sz < 2 ^ 63) (hA : A + 32 < 2 ^ 63) :
    toSigned (sub64 (sub64 sz A) META_SIZE) ≥ 8 ↔ A + 40 ≤ sz := by
  rw [META_SIZE_eq]
  unfold toSigned sub64
  rw [W_eq]
  have h63 : (2 : Nat) ^ 63 = 9223372036854775808 := by norm_num
  rw [h63] at hsz hA ⊢
  rw [Nat.mod_eq_of_lt (by omega : A < 18446744073709551616),
    Nat.mod_eq_of_lt (by omega : 32 < 18446744073709551616)]
  by_cases hle : A ≤ sz
  · have e1 : (sz + (18446744073709551616 - A)) % 18446744073709551616 = sz - A := by omega
    rw [e1]
    by_cases h32 : 32 ≤ sz - A
    · have e2 : (sz - A + (18446744073709551616 - 32)) % 18446744073709551616
          = sz - A - 32 := by omega
      rw [e2, if_pos (by omega)]
      omega
    · have e2 : (sz - A + (18446744073709551616 - 32)) % 18446744073709551616
          = sz - A + 18446744073709551584 := by omega
      rw [e2, if_neg (by omega)]
      omega
  · have e1 : (sz + (18446744073709551616 - A)) % 18446744073709551616
        = sz + 18446744073709551616 - A := by omega
    rw [e1]
    have e2 : (sz + 18446744073709551616 - A + (18446744073709551616 - 32))
        % 18446744073709551616 = sz + 18446744073709551616 - A - 32 := by omega
    rw [e2, if_neg (by omega)]
    omega

theorem find_best_fresh (s : State) (fuel n : Nat) (hv : Valid s []) (hfuel : 0 < fuel) :
    ∃ m1, find_best fuel s n = some (0, { s with mem := m1 })
      ∧ Valid { s with mem := m1 } [] := by
  obtain ⟨m1, e1, vc, _, _⟩ := find_best_valid s [] fuel n hv (Or.inl hfuel)
  exact ⟨m1, e1, vc⟩

/-- C8 fails: after `os_malloc(100)` on a fresh process the FREE node of the registry
has size 130904, which is `ALIGN(128*1024) - 2*META_SIZE - 104`: the remainder pays
for a header of its own, so the registry is not
`[ALLOCATED 104, FREE ALIGN(128*1024) - META_SIZE - 104]`. -/
theorem C8_counterexample :
    Fresh s0 ∧ os_malloc 4 s0 100 = .ok (4128, sA)
    ∧ Rep sA.mem sA.head [⟨4096, 104, STATUS_ALLOC⟩, ⟨4232, 130904, STATUS_FREE⟩]
    ∧ ¬ ∃ a b, Rep sA.mem sA.head
        [⟨a, 104, STATUS_ALLOC⟩, ⟨b, ALIGN MMAP_THRESHOLD - META_SIZE - 104, STATUS_FREE⟩] := by
  refine ⟨fresh_s0, eval_sA, sA_rep, ?_⟩
  rintro ⟨a, b, h⟩
  have := Rep_unique _ _ _ h sA_rep
  rw [ALIGN_THRESHOLD, META_SIZE_eq] at this
  simp at this

/-- C8 as amended: on a fresh process whose break can grow by `ALIGN(128*1024)`,
`os_malloc(n)` for `n > 0` whose rounding does not overflow and with `ALIGN(n) +
META_SIZE + 8 <= ALIGN(128*1024) - META_SIZE` (so for `n = 100`) returns the address `META_SIZE` past the old break
after exactly one operating-system call, a break growth of `ALIGN(128*1024)` bytes,
and leaves a registry of exactly two nodes: ALLOCATED of size `ALIGN(n)` at the old
break, then FREE of size `ALIGN(128*1024) - 2*META_SIZE - ALIGN(n)` (104 and 130904
for `n = 100`). -/
theorem C8_first_malloc_preallocates_and_splits (s : State) (fuel n : Nat) (hf : Fresh s)
    (hroom : s.brk + ALIGN MMAP_THRESHOLD ≤ s.brk_max) (hn : n ≠ 0) (hov : n + 7 < W)
    (hsmall : ALIGN n + META_SIZE + 8 ≤ ALIGN MMAP_THRESHOLD - META_SIZE)
    (hfuel : 0 < fuel) :
    ∃ s1, os_malloc fuel s n = .ok (s.brk + META_SIZE, s1)
      ∧ s1.log = [OsCall.sbrk (ALIGN MMAP_THRESHOLD) s.brk]
      ∧ Rep s1.mem s1.head
          [⟨s.brk, ALIGN n, STATUS_ALLOC⟩,
           ⟨s.brk + META_SIZE + ALIGN n,
            ALIGN MMAP_THRESHOLD - META_SIZE - META_SIZE - ALIGN n, STATUS_FREE⟩]
      ∧ ALIGN 100 = 104 ∧ ALIGN MMAP_THRESHOLD - META_SIZE - META_SIZE - 104 = 130904 := by
  rw [ALIGN_THRESHOLD] at hroom
  rw [ALIGN_THRESHOLD, META_SIZE_eq] at hsmall
  rw [ALIGN_THRESHOLD, META_SIZE_eq]
  have hA : ALIGN n ≤ 131040 := by omega
  have hnlt : n < 131040 := by
    have := (ALIGN_bounds n hov).1
    omega
  obtain ⟨m1, e0, vc⟩ := find_best_fresh s fuel n (fresh_valid s hf) hfuel
  obtain ⟨-, hB⟩ := arena_first s { s with mem := m1 } fuel n finish_malloc e0 vc hf.pre hA
    hfuel
  obtain ⟨m2, ha, hv2, -⟩ := hB hroom
  have hcond := (split_cond_iff 131040 (ALIGN n) (by norm_num) (by
    have : (2 : Nat) ^ 63 = 9223372036854775808 := by norm_num
    omega)).mpr (by omega)
  rw [splitL_pos _ n hcond] at hv2
  have hbW : s.brk + 131072 < W := by
    have h1 := hf.brk_le
    have h2 := hf.room
    unfold PAGE at h2
    omega
  have hrem : sub64 (sub64 131040 (ALIGN n)) META_SIZE = 131072 - 32 - 32 - ALIGN n := by
    rw [META_SIZE_eq, sub64_eq _ _ hA (by rw [W_eq]; omega),
      sub64_eq _ _ (by omega) (by rw [W_eq]; omega)]
    omega
  have hnb : add64 (add64 s.brk META_SIZE) (ALIGN n) = s.brk + 32 + ALIGN n := by
    rw [META_SIZE_eq, add64_eq s.brk 32 (by omega), add64_eq _ _ (by omega)]
  refine ⟨{ s with
      mem := m2
      head := s.brk
      prealloced_mem := 1
      brk := s.brk + 131072
      log := OsCall.sbrk 131072 s.brk :: s.log
      preallocs := s.preallocs + 1 }, ?_, ?_, ?_,
    by with_unfolding_all decide, by with_unfolding_all decide⟩
  · rw [os_malloc_small fuel s n hn hnlt, ha]
    rfl
  · show OsCall.sbrk 131072 s.brk :: s.log = [OsCall.sbrk 131072 s.brk]
    rw [hf.log]
  · have hr := hv2.rep
    rw [hrem] at hr
    have hnb2 : add64 (add64 ({ s with mem := m1 } : State).brk META_SIZE) (ALIGN n)
        = s.brk + 32 + ALIGN n := hnb
    simp only [hnb2] at hr
    exact hr

theorem C8_first_malloc_preallocates_and_splits_witness :
    Fresh s0
    ∧ ∃ s1, os_malloc 4 s0 100 = .ok (s0.brk + META_SIZE, s1)
      ∧ s1.log = [OsCall.sbrk (ALIGN MMAP_THRESHOLD) s0.brk]
      ∧ Rep s1.mem s1.head
          [⟨s0.brk, ALIGN 100, STATUS_ALLOC⟩,
           ⟨s0.brk + META_SIZE + ALIGN 100,
            ALIGN MMAP_THRESHOLD - META_SIZE - META_SIZE - ALIGN 100, STATUS_FREE⟩]
      ∧ ALIGN 100 = 104 ∧ ALIGN MMAP_THRESHOLD - META_SIZE - META_SIZE - 104 = 130904 :=
  ⟨fresh_s0,
    C8_first_malloc_preallocates_and_splits s0 4 100 fresh_s0
      (by with_unfolding_all decide) (by decide) (by decide) (by with_unfolding_all decide)
      (by decide)⟩

/-- C10: in a reachable state, for every `n` with `0 < n < 128*1024 - META_SIZE`,
after `p = os_malloc(n)` has returned (every operating-system call succeeding),
`os_free(p)` returns, and the next `os_malloc(n)` then returns (given enough fuel
for its walks over the registry) the payload of an ALLOCATED node of the registry
without making any operating-system call: no break growth, no mapping. -/
theorem C10_free_then_malloc_reuses_the_arena (s s1 : State) (fuel n p : Nat)
    (h : Reachable s) (hn : n ≠ 0) (hlt : n < 131040)
    (hm : os_malloc fuel s n = .ok (p, s1)) (hnf : NoFail s1.log) :
    ∃ s2, os_free s1 p = .ok s2
      ∧ ∃ F, ∀ f2, F ≤ f2 → ∃ q s3, os_malloc f2 s2 n = .ok (q, s3)
        ∧ s3.log = s2.log ∧ s3.brk = s2.brk ∧ s3.maps = s2.maps
        ∧ ∃ v3 b, Rep s3.mem s3.head v3 ∧ b ∈ v3 ∧ b.status = STATUS_ALLOC
          ∧ q = b.addr + META_SIZE := by
  obtain ⟨v, hv⟩ := reachable_valid s h
  obtain ⟨v1, sz, hp⟩ := malloc_small s s1 v fuel n p hv hn hlt hm hnf
  obtain ⟨b, hb, hpb, hbs, hbA, _⟩ := hp.blk
  have V1 := hp.valid
  have hbb := V1.bounds b hb
  have hW := V1.brk_lt
  have hbm := Seg_mem _ _ _ V1.rep b hb
  have hsub : sub64 p META_SIZE = b.addr := by
    rw [hpb]
    exact sub_meta b.addr (by omega)
  have hfree : os_free s1 p = .ok { s1 with mem := set_status s1.mem b.addr STATUS_FREE } := by
    rw [os_free_alloc s1 p (by omega) (by rw [hsub, hbm.2.2, hbs]), hsub]
  have V2 := status_valid s1 v1 b.addr STATUS_FREE V1 ⟨b, hb, rfl⟩ (Or.inl rfl)
  obtain ⟨s2, hs2⟩ : ∃ s2 : State,
      s2 = { s1 with mem := set_status s1.mem b.addr STATUS_FREE } := ⟨_, rfl⟩
  have hbrk : s2.brk = s1.brk := by rw [hs2]
  rw [← hs2] at hfree V2
  have hb2 := setStatusL_hit b.addr STATUS_FREE v1 b hb rfl
  obtain ⟨y, hy, hyf, hys⟩ := coalesceL_free_cap _ _ _ _
    (V2.tiles (List.ne_nil_of_mem hb2)) V2.brk_lt hb2 rfl
  refine ⟨s2, hfree, (setStatusL b.addr STATUS_FREE v1).length + 1, fun f2 hf2 => ?_⟩
  cases hbest : bestL (ALIGN n) (coalesceL (setStatusL b.addr STATUS_FREE v1)) none with
  | none =>
    exfalso
    exact (bestL_none _ _ _ hbest).2 y hy ⟨le_trans hbA hys, hyf⟩
  | some c =>
    obtain ⟨m1, pre, suf, hc, vc, _, hcF, hcA, ha, hv3, _⟩ :=
      arena_hit _ _ f2 n finish_malloc c V2 hbest (Or.inl (by omega))
    have hcm : c ∈ coalesceL (setStatusL b.addr STATUS_FREE v1) := by
      rw [hc]
      exact List.mem_append_right _ (List.mem_cons_self _ _)
    have hcb := vc.bounds c hcm
    have hcW : c.size < W := by
      have h2 := vc.brk_lt
      have h3 : ({ s2 with mem := m1 } : State).brk = s2.brk := rfl
      omega
    obtain ⟨x, hx, hxa, hxs, _⟩ := splitL_head c n hcA hcW
    refine ⟨c.addr + 32, { s2 with mem := (split m1 c.addr n).2 }, ?_, rfl, rfl, rfl,
      pre ++ splitL c n ++ suf, x, hv3.rep,
      List.mem_append_left _ (List.mem_append_right _ hx), hxs, ?_⟩
    · rw [os_malloc_small f2 _ n hn hlt, ha]
      rfl
    · rw [hxa, META_SIZE_eq]

theorem C10_free_then_malloc_reuses_the_arena_witness :
    Reachable s0 ∧ os_malloc 4 s0 100 = .ok (4128, sA)
    ∧ ∃ s2, os_free sA 4128 = .ok s2
      ∧ ∃ F, ∀ f2, F ≤ f2 → ∃ q s3, os_malloc f2 s2 100 = .ok (q, s3)
        ∧ s3.log = s2.log ∧ s3.brk = s2.brk ∧ s3.maps = s2.maps
        ∧ ∃ v3 b, Rep s3.mem s3.head v3 ∧ b ∈ v3 ∧ b.status = STATUS_ALLOC
          ∧ q = b.addr + META_SIZE :=
  ⟨Reachable.fresh s0 fresh_s0, eval_sA,
    C10_free_then_malloc_reuses_the_arena s0 sA 4 100 4128 (Reachable.fresh s0 fresh_s0)
      (by decide) (by decide) eval_sA nofail_sA⟩

theorem coalesceL_cons_keep (b : Blk) (t : List Blk)
    (h : b.status ≠ STATUS_FREE ∨ ∀ c ∈ t.head?, c.status ≠ STATUS_FREE) :
    coalesceL (b :: t) = b :: coalesceL t := by
  cases t with
  | nil => rfl
  | cons c t =>
    have hn : ¬ (b.status = STATUS_FREE ∧ c.status = STATUS_FREE) := by
      rintro ⟨h1, h2⟩
      rcases h with h | h
      · exact h h1
      · exact h c rfl h2
    simp only [coalesceL, coalesceFrom, if_neg hn]

theorem bestL_stay (r : Nat) (c : Blk) : ∀ (v : List Blk),
    (∀ y ∈ v, ¬ (y.size ≥ r ∧ y.status = STATUS_FREE ∧ y.size < c.size)) →
    bestL r v (some c) = some c
  | [], _ => rfl
  | b :: v, h => by
    have hk : keepL r b (some c) = some c := by
      unfold keepL
      by_cases h1 : b.size ≥ r ∧ b.status = STATUS_FREE
      · rw [if_pos h1]
        have h2 : ¬ b.size < c.size := fun h3 =>
          h b (List.mem_cons_self _ _) ⟨h1.1, h1.2, h3⟩
        simp only [if_neg h2]
      · rw [if_neg h1]
    show bestL r v (keepL r b (some c)) = some c
    rw [hk]
    exact bestL_stay r c v (fun y hy => h y (List.mem_cons_of_mem _ hy))

theorem setStatusL_head (b : Blk) (t : List Blk) (st a e : Nat)
    (ht : TilesFrom a (b :: t) e) :
    setStatusL b.addr st (b :: t) = { b with status := st } :: t := by
  unfold setStatusL
  rw [List.map_cons, if_pos rfl]
  congr 1
  have hm := TilesFrom_mem t _ e ht.2
  have hb : b.addr = a := ht.1
  rw [META_SIZE_eq] at hm
  calc t.map (fun x => if x.addr = b.addr then { x with status := st } else x)
      = t.map id := List.map_congr_left (fun x hx => by
          have := (hm x hx).1
          have hne : x.addr ≠ b.addr := by omega
          simp [hne])
    _ = t := List.map_id t

theorem decomp_unique : ∀ (p1 p2 s1 s2 : List Blk) (x : Blk) (a e : Nat),
    TilesFrom a (p1 ++ x :: s1) e → p1 ++ x :: s1 = p2 ++ x :: s2 → p1 = p2 ∧ s1 = s2
  | [], [], s1, s2, x, _, _, _, h => by
    simp only [List.nil_append, List.cons.injEq, true_and] at h
    exact ⟨rfl, h⟩
  | [], y :: p2, s1, s2, x, a, e, ht, h => by
    exfalso
    simp only [List.nil_append, List.cons_append, List.cons.injEq] at h
    have hx : x ∈ s1 := by
      rw [h.2]
      exact List.mem_append_right _ (List.mem_cons_self _ _)
    have := (TilesFrom_mem s1 _ e ht.2 x hx).1
    have hb : x.addr = a := ht.1
    rw [META_SIZE_eq] at this
    omega
  | y :: p1, [], s1, s2, x, a, e, ht, h => by
    exfalso
    simp only [List.nil_append, List.cons_append, List.cons.injEq] at h
    have hx : x ∈ p1 ++ x :: s1 := List.mem_append_right _ (List.mem_cons_self _ _)
    have := (TilesFrom_mem _ _ e ht.2 x hx).1
    have hb : y.addr = a := ht.1
    rw [META_SIZE_eq, ← h.1] at this
    omega
  | y :: p1, z :: p2, s1, s2, x, a, e, ht, h => by
    simp only [List.cons_append, List.cons.injEq] at h
    obtain ⟨r1, r2⟩ := decomp_unique p1 p2 s1 s2 x _ e ht.2 h.2
    exact ⟨by rw [h.1, r1], r2⟩
theorem reuse_head (s3 : State) (B sa n fuel : Nat) (bBlk : Blk) (tail : List Blk)
    (hv : Valid s3 (⟨B, sa, STATUS_FREE⟩ :: bBlk :: tail)) (hb : bBlk.status = STATUS_ALLOC)
    (hA : ALIGN n ≤ sa) (hns : sa < ALIGN n + 40) (hc : sa = ALIGN n ∨ tail = [])
    (hn : n ≠ 0) (hlt : n < 131040) (hfuel : tail.length + 2 < fuel) :
    ∃ s4, os_malloc fuel s3 n = .ok (B + 32, s4) ∧ s4.log = s3.log ∧ s4.brk = s3.brk
      ∧ (s4.mem B).size = sa ∧ (s4.mem B).status = STATUS_ALLOC
      ∧ (s4.mem B).next = (s3.mem B).next := by
  have hne : STATUS_ALLOC ≠ STATUS_FREE := fun h => status_ne.2.2 h.symm
  have hbne : bBlk.status ≠ STATUS_FREE := by rw [hb]; exact hne
  have hAb : ALIGN n ≤ 131040 := by
    have := ALIGN_bounds n (by rw [W_eq]; omega)
    have h8 := ALIGN_dvd n
    omega
  have hco : coalesceL (⟨B, sa, STATUS_FREE⟩ :: bBlk :: tail)
      = ⟨B, sa, STATUS_FREE⟩ :: coalesceL (bBlk :: tail) :=
    coalesceL_cons_keep _ _ (Or.inr (fun c hc1 => by
      simp only [List.head?_cons, Option.mem_def, Option.some.injEq] at hc1
      rw [← hc1]
      exact hbne))
  have hbest : bestL (ALIGN n) (coalesceL (⟨B, sa, STATUS_FREE⟩ :: bBlk :: tail)) none
      = some ⟨B, sa, STATUS_FREE⟩ := by
    rw [hco]
    have hk : keepL (ALIGN n) ⟨B, sa, STATUS_FREE⟩ none = some ⟨B, sa, STATUS_FREE⟩ := by
      unfold keepL
      rw [if_pos ⟨hA, rfl⟩]
    show bestL (ALIGN n) (coalesceL (bBlk :: tail)) (keepL (ALIGN n) _ none) = _
    rw [hk]
    refine bestL_stay _ _ _ (fun y hy hcon => ?_)
    rcases hc with h1 | h1
    · have : y.size < sa := hcon.2.2
      have : y.size ≥ ALIGN n := hcon.1
      omega
    · subst h1
      have : coalesceL [bBlk] = [bBlk] := rfl
      rw [this, List.mem_singleton] at hy
      rw [hy] at hcon
      exact hbne hcon.2.1
  obtain ⟨m1, pre, suf, hdec, vc, _, _, _, ha, hv4, _⟩ :=
    arena_hit s3 _ fuel n finish_malloc ⟨B, sa, STATUS_FREE⟩ hv hbest
      (Or.inl (by simp only [List.length_cons]; omega))
  have htl : TilesFrom s3.head (pre ++ ⟨B, sa, STATUS_FREE⟩ :: suf) s3.brk := by
    have := vc.tiles (by rw [hdec]; simp)
    rw [hdec] at this
    exact this
  obtain ⟨hp, hs⟩ := decomp_unique pre [] suf (coalesceL (bBlk :: tail)) _ _ _ htl
    (by rw [← hdec, hco]; rfl)
  subst hp
  subst hs
  have hncond : ¬ toSigned (sub64 (sub64 sa (ALIGN n)) META_SIZE) ≥ 8 := by
    have h63 : (2 : Nat) ^ 63 = 9223372036854775808 := by norm_num
    rw [split_cond_iff sa (ALIGN n) (by omega) (by omega)]
    omega
  rw [splitL_neg _ n hncond] at hv4
  have hr4 := hv4.rep
  have hr3 := hv.rep
  obtain ⟨c, rest, hcr, hca, _⟩ := coalesceFrom_head tail bBlk
  have hcr2 : coalesceL (bBlk :: tail) = c :: rest := hcr
  rw [hcr2] at hr4
  refine ⟨{ s3 with mem := (split m1 B n).2 }, ?_, rfl, rfl, hr4.2.2.1, hr4.2.2.2.1, ?_⟩
  · rw [os_malloc_small fuel s3 n hn hlt, ha]
    rfl
  · have e4 : ((split m1 B n).2 B).next = c.addr := hr4.2.2.2.2.1
    have e3 : (s3.mem B).next = bBlk.addr := hr3.2.2.2.2.1
    show ((split m1 B n).2 B).next = (s3.mem B).next
    rw [e4, e3, hca]

theorem free_head (s2 : State) (B sa : Nat) (rest : List Blk)
    (hv : Valid s2 (⟨B, sa, STATUS_ALLOC⟩ :: rest)) :
    os_free s2 (B + 32) = .ok { s2 with mem := set_status s2.mem B STATUS_FREE }
    ∧ Valid { s2 with mem := set_status s2.mem B STATUS_FREE }
        (⟨B, sa, STATUS_FREE⟩ :: rest) := by
  have hbm : (⟨B, sa, STATUS_ALLOC⟩ : Blk) ∈ ⟨B, sa, STATUS_ALLOC⟩ :: rest :=
    List.mem_cons_self _ _
  have hbb := hv.bounds _ hbm
  have hW := hv.brk_lt
  have hm := Seg_mem _ _ _ hv.rep _ hbm
  have hbb1 : B + 32 + sa ≤ s2.brk := hbb.2
  have hsub := sub_meta B (by omega)
  constructor
  · rw [os_free_alloc s2 _ (by omega) (by rw [hsub]; exact hm.2.2), hsub]
  · have := status_valid s2 _ B STATUS_FREE hv ⟨_, hbm, rfl⟩ (Or.inl rfl)
    rw [setStatusL_head ⟨B, sa, STATUS_ALLOC⟩ rest STATUS_FREE _ _
      (hv.tiles (List.cons_ne_nil _ _))] at this
    exact this
theorem first_malloc (s : State) (fuel n : Nat) (hf : Fresh s)
    (hroom : s.brk + 131072 ≤ s.brk_max) (hn : n ≠ 0) (hlt : n < 131040)
    (hfuel : 0 < fuel) :
    ∃ s1 sa rest, os_malloc fuel s n = .ok (s.brk + 32, s1)
      ∧ Valid s1 (⟨s.brk, sa, STATUS_ALLOC⟩ :: rest)
      ∧ s1.brk = s.brk + 131072 ∧ s1.brk_max = s.brk_max ∧ s1.prealloced_mem ≠ 0
      ∧ ((sa = ALIGN n
          ∧ rest = [⟨s.brk + 32 + ALIGN n, 131008 - ALIGN n, STATUS_FREE⟩]
          ∧ ALIGN n + 40 ≤ 131040)
        ∨ (sa = 131040 ∧ rest = [] ∧ 131040 < ALIGN n + 40)) := by
  have hA : ALIGN n ≤ 131040 := by
    have := ALIGN_bounds n (by rw [W_eq]; omega)
    have h8 := ALIGN_dvd n
    omega
  obtain ⟨m1, e0, vc⟩ := find_best_fresh s fuel n (fresh_valid s hf) hfuel
  obtain ⟨-, hB⟩ := arena_first s { s with mem := m1 } fuel n finish_malloc e0 vc hf.pre hA
    hfuel
  obtain ⟨m2, ha, hv2, -⟩ := hB hroom
  have hbW : s.brk + 131072 < W := by
    have h1 := hf.brk_le
    have h2 := hf.room
    unfold PAGE at h2
    omega
  have e1 : os_malloc fuel s n = .ok (s.brk + 32, { s with
      mem := m2
      head := s.brk
      prealloced_mem := 1
      brk := s.brk + 131072
      log := OsCall.sbrk 131072 s.brk :: s.log
      preallocs := s.preallocs + 1 }) := by
    rw [os_malloc_small fuel s n hn hlt, ha]
    rfl
  have h63 : (2 : Nat) ^ 63 = 9223372036854775808 := by norm_num
  rcases splitL_cases ⟨s.brk, 131040, STATUS_FREE⟩ n hA (by show 131040 < W; rw [W_eq]; omega)
    with ⟨h1, h2, _⟩ | ⟨h1, h2⟩
  · rw [h1] at hv2
    have hnb : add64 (add64 s.brk META_SIZE) (ALIGN n) = s.brk + 32 + ALIGN n := by
      rw [META_SIZE_eq, add64_eq s.brk 32 (by omega), add64_eq _ _ (by omega)]
    have hv3 : Valid { s with
        mem := m2
        head := s.brk
        prealloced_mem := 1
        brk := s.brk + 131072
        log := OsCall.sbrk 131072 s.brk :: s.log
        preallocs := s.preallocs + 1 }
        [⟨s.brk, ALIGN n, STATUS_ALLOC⟩,
         ⟨s.brk + 32 + ALIGN n, 131008 - ALIGN n, STATUS_FREE⟩] := by
      have e : (131040 : Nat) - ALIGN n - 32 = 131008 - ALIGN n := by omega
      have hv2b : Valid _ [⟨s.brk, ALIGN n, STATUS_ALLOC⟩,
          ⟨add64 (add64 s.brk META_SIZE) (ALIGN n), 131040 - ALIGN n - 32, STATUS_FREE⟩] := hv2
      rw [hnb, e] at hv2b
      exact hv2b
    exact ⟨_, _, _, e1, hv3, rfl, rfl, Nat.one_ne_zero, Or.inl ⟨rfl, rfl, h2⟩⟩
  · rw [h1] at hv2
    have hc := (split_cond_iff 131040 (ALIGN n) (by omega) (by omega)).not.mp h2
    exact ⟨_, _, _, e1, hv2, rfl, rfl, Nat.one_ne_zero, Or.inr ⟨rfl, rfl, by omega⟩⟩

theorem find_best_none (s : State) (v : List Blk) (fuel n : Nat) (hv : Valid s v)
    (hfuel : v.length < fuel) (hnone : bestL (ALIGN n) (coalesceL v) none = none) :
    ∃ m1, find_best fuel s n = some (0, { s with mem := m1 })
      ∧ Valid { s with mem := m1 } (coalesceL v) := by
  obtain ⟨m1, e1, vc, _, _⟩ := find_best_valid s v fuel n hv (Or.inl hfuel)
  rw [hnone] at e1
  exact ⟨m1, e1, vc⟩
theorem second_malloc (s1 : State) (B sa n fuel : Nat) (rest : List Blk)
    (hv : Valid s1 (⟨B, sa, STATUS_ALLOC⟩ :: rest))
    (hshape : (sa = ALIGN n ∧ rest = [⟨B + 32 + ALIGN n, 131008 - ALIGN n, STATUS_FREE⟩]
        ∧ ALIGN n + 40 ≤ 131040)
      ∨ (sa = 131040 ∧ rest = [] ∧ 131040 < ALIGN n + 40))
    (hroom : s1.brk + 131072 ≤ s1.brk_max) (hpre : s1.prealloced_mem ≠ 0)
    (hn : n ≠ 0) (hlt : n < 131040) (hfuel : 2 < fuel) :
    ∃ b s2 bBlk tail, os_malloc fuel s1 n = .ok (b, s2)
      ∧ Valid s2 (⟨B, sa, STATUS_ALLOC⟩ :: bBlk :: tail) ∧ bBlk.status = STATUS_ALLOC
      ∧ (sa = ALIGN n ∨ tail = []) ∧ tail.length ≤ 1 := by
  have hne : STATUS_ALLOC ≠ STATUS_FREE := fun h => status_ne.2.2 h.symm
  have hA : ALIGN n ≤ 131040 := by
    have := ALIGN_bounds n (by rw [W_eq]; omega)
    have h8 := ALIGN_dvd n
    omega
  have hka : ∀ best, keepL (ALIGN n) ⟨B, sa, STATUS_ALLOC⟩ best = best := by
    intro best
    unfold keepL
    rw [if_neg (fun h => hne h.2)]
  rcases hshape with ⟨hsa, hrest, hsp⟩ | ⟨hsa, hrest, hsp⟩
  · subst hrest
    have hco : coalesceL [⟨B, sa, STATUS_ALLOC⟩,
        ⟨B + 32 + ALIGN n, 131008 - ALIGN n, STATUS_FREE⟩]
        = [⟨B, sa, STATUS_ALLOC⟩, ⟨B + 32 + ALIGN n, 131008 - ALIGN n, STATUS_FREE⟩] :=
      coalesceL_cons_keep _ _ (Or.inl hne)
    by_cases hfit : ALIGN n ≤ 131008 - ALIGN n
    · have hbest : bestL (ALIGN n) (coalesceL [⟨B, sa, STATUS_ALLOC⟩,
          ⟨B + 32 + ALIGN n, 131008 - ALIGN n, STATUS_FREE⟩]) none
          = some ⟨B + 32 + ALIGN n, 131008 - ALIGN n, STATUS_FREE⟩ := by
        rw [hco]
        show bestL (ALIGN n) [_] (keepL (ALIGN n) ⟨B, sa, STATUS_ALLOC⟩ none) = _
        rw [hka]
        show keepL (ALIGN n) _ none = _
        unfold keepL
        rw [if_pos ⟨hfit, rfl⟩]
      obtain ⟨m1, pre, suf, hdec, vc, _, _, _, ha, hv2, _⟩ :=
        arena_hit s1 _ fuel n finish_malloc _ hv hbest
          (Or.inl (by simp only [List.length_cons, List.length_nil]; omega))
      have htl : TilesFrom s1.head
          (pre ++ ⟨B + 32 + ALIGN n, 131008 - ALIGN n, STATUS_FREE⟩ :: suf) s1.brk := by
        have := vc.tiles (by rw [hdec]; simp)
        rw [hdec] at this
        exact this
      obtain ⟨hp, hs⟩ := decomp_unique pre [⟨B, sa, STATUS_ALLOC⟩] suf [] _ _ _ htl
        (by rw [← hdec, hco]; rfl)
      subst hp
      subst hs
      have e1 : os_malloc fuel s1 n = .ok (B + 32 + ALIGN n + 32,
          { s1 with mem := (split m1 (B + 32 + ALIGN n) n).2 }) := by
        rw [os_malloc_small fuel s1 n hn hlt, ha]
        rfl
      rcases splitL_cases ⟨B + 32 + ALIGN n, 131008 - ALIGN n, STATUS_FREE⟩ n hfit
        (by show 131008 - ALIGN n < W; rw [W_eq]; omega) with ⟨h1, _, _⟩ | ⟨h1, _⟩
      · rw [h1] at hv2
        exact ⟨_, _, _, _, e1, hv2, rfl, Or.inl hsa, by simp⟩
      · rw [h1] at hv2
        exact ⟨_, _, _, _, e1, hv2, rfl, Or.inl hsa, by simp⟩
    · have hnone : bestL (ALIGN n) (coalesceL [⟨B, sa, STATUS_ALLOC⟩,
          ⟨B + 32 + ALIGN n, 131008 - ALIGN n, STATUS_FREE⟩]) none = none := by
        rw [hco]
        show bestL (ALIGN n) [_] (keepL (ALIGN n) ⟨B, sa, STATUS_ALLOC⟩ none) = _
        rw [hka]
        show keepL (ALIGN n) _ none = _
        unfold keepL
        rw [if_neg (fun h => hfit h.1)]
      obtain ⟨m1, e0, vc⟩ := find_best_none s1 _ fuel n hv
        (by simp only [List.length_cons, List.length_nil]; omega) hnone
      rw [hco] at vc
      have vc2 : Valid { s1 with mem := m1 } ([⟨B, sa, STATUS_ALLOC⟩]
          ++ [⟨B + 32 + ALIGN n, 131008 - ALIGN n, STATUS_FREE⟩]) := vc
      obtain ⟨ha, hV⟩ := arena_expand s1 { s1 with mem := m1 } [⟨B, sa, STATUS_ALLOC⟩]
        ⟨B + 32 + ALIGN n, 131008 - ALIGN n, STATUS_FREE⟩ fuel n finish_malloc e0 vc2 hpre hA
        rfl (by show 131008 - ALIGN n < ALIGN n; omega)
        (by simp only [List.length_append, List.length_cons, List.length_nil]; omega)
      have hfit2 : ({ s1 with mem := m1 } : State).brk
          + (ALIGN n - (131008 - ALIGN n)) ≤ ({ s1 with mem := m1 } : State).brk_max := by
        show s1.brk + (ALIGN n - (131008 - ALIGN n)) ≤ s1.brk_max
        omega
      have hV2 := hV hfit2
      rw [sbrk_ok _ _ ⟨by
        have h63 : (2 : Nat) ^ 63 = 9223372036854775808 := by norm_num
        show ALIGN n - (131008 - ALIGN n) < 2 ^ 63
        omega, hfit2⟩] at ha
      refine ⟨B + 32 + ALIGN n + 32, _, _, _, ?_, hV2, rfl, Or.inl hsa, by simp⟩
      rw [os_malloc_small fuel s1 n hn hlt, ha]
      rfl
  · subst hrest
    have hnone : bestL (ALIGN n) (coalesceL [⟨B, sa, STATUS_ALLOC⟩]) none = none := by
      show keepL (ALIGN n) ⟨B, sa, STATUS_ALLOC⟩ none = none
      rw [hka]
    obtain ⟨m1, e0, vc⟩ := find_best_none s1 _ fuel n hv
      (by simp only [List.length_cons, List.length_nil]; omega) hnone
    have vc2 : Valid { s1 with mem := m1 } ([] ++ [⟨B, sa, STATUS_ALLOC⟩]) := vc
    obtain ⟨-, hB⟩ := arena_grow s1 { s1 with mem := m1 } [] ⟨B, sa, STATUS_ALLOC⟩ fuel n
      finish_malloc e0 vc2 hpre hA hne
      (by simp only [List.length_append, List.length_cons, List.length_nil]; omega)
    obtain ⟨m2, ha, hv2, -⟩ := hB (by
      show s1.brk + (ALIGN n + 32) ≤ s1.brk_max
      omega)
    refine ⟨s1.brk + 32, _, _, _, ?_, hv2, rfl, Or.inr rfl, by simp⟩
    rw [os_malloc_small fuel s1 n hn hlt, ha]
    rfl
/-- C9: on a fresh process whose break can grow, for every `n` with
`0 < n < 128*1024 - META_SIZE` and enough fuel for the walks over the registry,
the calls `a = os_malloc(n); b = os_malloc(n); os_free(a); c = os_malloc(n)` all
return and `c == a`; the third allocation makes no operating-system call (the
break does not move) and does not split the block of `a`: its header keeps the size
and the successor it had before the call. -/
theorem C9_released_block_is_reused (s : State) (fuel n : Nat) (hf : Fresh s)
    (hroom : s.brk + 2 * ALIGN MMAP_THRESHOLD ≤ s.brk_max) (hn : n ≠ 0)
    (hlt : n < 131040) (hfuel : 3 < fuel) :
    ∃ a s1 b s2 s3 c s4, os_malloc fuel s n = .ok (a, s1)
      ∧ os_malloc fuel s1 n = .ok (b, s2) ∧ os_free s2 a = .ok s3
      ∧ os_malloc fuel s3 n = .ok (c, s4) ∧ c = a
      ∧ s4.log = s3.log ∧ s4.brk = s3.brk
      ∧ (s4.mem (sub64 a META_SIZE)).size = (s3.mem (sub64 a META_SIZE)).size
      ∧ (s4.mem (sub64 a META_SIZE)).next = (s3.mem (sub64 a META_SIZE)).next
      ∧ (s4.mem (sub64 a META_SIZE)).status = STATUS_ALLOC := by
  rw [ALIGN_THRESHOLD] at hroom
  have hA : ALIGN n ≤ 131040 := by
    have := ALIGN_bounds n (by rw [W_eq]; omega)
    have h8 := ALIGN_dvd n
    omega
  obtain ⟨s1, sa, rest, e1, V1, hb1, hm1, hp1, hshape⟩ :=
    first_malloc s fuel n hf (by omega) hn hlt (by omega)
  obtain ⟨b, s2, bBlk, tail, e2, V2, hbs, hcase, hlen⟩ :=
    second_malloc s1 s.brk sa n fuel rest V1 hshape (by omega) hp1 hn hlt (by omega)
  obtain ⟨e3, V3⟩ := free_head s2 s.brk sa (bBlk :: tail) V2
  have hsa : ALIGN n ≤ sa ∧ sa < ALIGN n + 40 := by
    rcases hshape with ⟨h1, _, _⟩ | ⟨h1, _, h3⟩
    · omega
    · omega
  obtain ⟨s4, e4, l4, b4, z4, t4, n4⟩ :=
    reuse_head _ s.brk sa n fuel bBlk tail V3 hbs hsa.1 hsa.2 hcase hn hlt (by omega)
  have hbW : s.brk + 32 < W := by
    have h1 := hf.brk_le
    have h2 := hf.room
    unfold PAGE at h2
    omega
  have hsub := sub_meta s.brk hbW
  have hs3 : (set_status s2.mem s.brk STATUS_FREE s.brk).size = sa :=
    (Seg_mem _ _ _ V3.rep _ (List.mem_cons_self _ _)).2.1
  refine ⟨s.brk + 32, s1, b, s2, _, s.brk + 32, s4, e1, e2, e3, e4, rfl, l4, b4, ?_, ?_, ?_⟩
  · rw [hsub, z4]
    exact hs3.symm
  · rw [hsub]
    exact n4
  · rw [hsub]
    exact t4

theorem C9_released_block_is_reused_witness :
    Fresh s0
    ∧ ∃ a s1 b s2 s3 c s4, os_malloc 4 s0 200 = .ok (a, s1)
      ∧ os_malloc 4 s1 200 = .ok (b, s2) ∧ os_free s2 a = .ok s3
      ∧ os_malloc 4 s3 200 = .ok (c, s4) ∧ c = a
      ∧ s4.log = s3.log ∧ s4.brk = s3.brk
      ∧ (s4.mem (sub64 a META_SIZE)).size = (s3.mem (sub64 a META_SIZE)).size
      ∧ (s4.mem (sub64 a META_SIZE)).next = (s3.mem (sub64 a META_SIZE)).next
      ∧ (s4.mem (sub64 a META_SIZE)).status = STATUS_ALLOC :=
  ⟨fresh_s0,
    C9_released_block_is_reused s0 4 200 fresh_s0 (by with_unfolding_all decide) (by decide)
      (by decide) (by decide)⟩

theorem eval_scB : coalesce_blocks 4 sB = some scB := by with_unfolding_all rfl

theorem Seg_next {m : Mem} (pre suf : List Blk) (b : Blk) (h : Nat)
    (hr : Rep m h (pre ++ b :: suf)) :
    (suf = [] → (m b.addr).next = 0)
    ∧ (∀ c t, suf = c :: t → (m b.addr).next = c.addr ∧ c.addr ≠ 0
        ∧ (m c.addr).size = c.size ∧ (m c.addr).status = c.status) := by
  obtain ⟨mid, _, r2⟩ := (Seg_append pre (b :: suf) h 0).mp hr
  obtain ⟨_, _, _, _, r3⟩ := r2
  constructor
  · intro hs
    subst hs
    exact r3
  · intro c t hs
    subst hs
    exact ⟨r3.1, r3.2.1, r3.2.2.1, r3.2.2.2.1⟩

/-- C11: in a reachable state, for a live pointer `p` and `n > 0`, let `sc` be the
state `coalesce_blocks` leaves (it returns, given enough fuel). If the header of `p`
has size `ALIGN(n)` (ALLOCATED or MAPPED), or is ALLOCATED and either has a size
above `ALIGN(n)`, or is the last node of the registry, or is followed by a FREE node
with `size + META_SIZE + next.size >= ALIGN(n)`, then `os_realloc(p, n)` returns `p`
itself, and afterwards the header of `p` has a size of at least `ALIGN(n)` and the
status (ALLOCATED or MAPPED) it had before. -/
theorem C11_realloc_in_place_returns_same_pointer (s sc : State) (fuel p n : Nat)
    (h : Reachable s) (hp : Held s p) (hn : n ≠ 0)
    (hc : coalesce_blocks fuel s = some sc)
    (hcase : (sc.mem (sub64 p META_SIZE)).size = ALIGN n
      ∨ ((sc.mem (sub64 p META_SIZE)).status = STATUS_ALLOC
        ∧ (ALIGN n < (sc.mem (sub64 p META_SIZE)).size
          ∨ (sc.mem (sub64 p META_SIZE)).next = 0
          ∨ ((sc.mem (sc.mem (sub64 p META_SIZE)).next).status = STATUS_FREE
            ∧ ALIGN n ≤ (sc.mem (sub64 p META_SIZE)).size + META_SIZE
                + (sc.mem (sc.mem (sub64 p META_SIZE)).next).size)))) :
    (∃ F, ∀ f, F ≤ f → (coalesce_blocks f s).isSome)
    ∧ ∃ s1, os_realloc fuel s p n = .ok (p, s1)
      ∧ ALIGN n ≤ (s1.mem (sub64 p META_SIZE)).size
      ∧ (s1.mem (sub64 p META_SIZE)).status = (s.mem (sub64 p META_SIZE)).status
      ∧ ((s.mem (sub64 p META_SIZE)).status = STATUS_ALLOC
        ∨ (s.mem (sub64 p META_SIZE)).status = STATUS_MAPPED) := by
  obtain ⟨v, hv⟩ := reachable_valid s h
  have hne : STATUS_ALLOC ≠ STATUS_FREE := fun h => status_ne.2.2 h.symm
  have hW := hv.brk_lt
  constructor
  · refine ⟨v.length + 1, fun f hf => ?_⟩
    obtain ⟨m1, e1, _⟩ := coalesce_valid s v f hv (Or.inl (by omega))
    rw [e1]
    rfl
  obtain ⟨vc, stc, hst, _⟩ := coalesce_step s sc v fuel hv hc
  rcases (Held_iff s v hv p).mp hp with ⟨b, hb, hbs, rfl⟩ | ⟨x, hx, rfl⟩
  · have hbb := hv.bounds b hb
    have hsub := sub_meta b.addr (by omega)
    rw [hsub] at hcase ⊢
    have hs0 := (Seg_mem _ _ _ hv.rep b hb).2.2
    have hs : (s.mem b.addr).status ≠ STATUS_FREE := by rw [hs0, hbs]; exact hne
    have hbc : b ∈ coalesceL v := coalesceL_mem_alloc v b hb (by rw [hbs]; exact hne)
    obtain ⟨pre, suf, hdec⟩ := List.append_of_mem hbc
    rw [hdec] at vc
    have hbm : b ∈ pre ++ b :: suf := List.mem_append_right _ (List.mem_cons_self _ _)
    have hm := Seg_mem _ _ _ vc.rep b hbm
    obtain ⟨hn0, hnc⟩ := Seg_next pre suf b _ vc.rep
    rw [hm.2.1] at hcase
    have hfin : ∀ (s1 : State) (l : List Blk) (x : Blk), Valid s1 l → x ∈ l →
        x.addr = b.addr → x.status = STATUS_ALLOC → ALIGN n ≤ x.size →
        ALIGN n ≤ (s1.mem b.addr).size ∧ (s1.mem b.addr).status = (s.mem b.addr).status
          ∧ ((s.mem b.addr).status = STATUS_ALLOC
            ∨ (s.mem b.addr).status = STATUS_MAPPED) := by
      intro s1 l x V hx hxa hxs hxA
      have := Seg_mem _ _ _ V.rep x hx
      rw [hxa] at this
      rw [this.2.1, this.2.2, hs0, hbs, hxs]
      exact ⟨hxA, rfl, Or.inl rfl⟩
    by_cases he : b.size = ALIGN n
    · refine ⟨sc, realloc_same_ok s sc pre suf b fuel n hc vc hbs hs hn he, ?_⟩
      exact hfin sc _ b vc hbm rfl hbs (le_of_eq he.symm)
    · by_cases hgt : ALIGN n < b.size
      · obtain ⟨e1, v1, _⟩ := realloc_shrink_ok s sc pre suf b fuel n hc vc hbs hs hn hgt
        have hbW : b.size < W := by
          have := vc.bounds b hbm
          have := vc.brk_lt
          omega
        obtain ⟨x, hx, hxa, hxs, hxA⟩ := splitL_head b n (le_of_lt hgt) hbW
        exact ⟨_, e1, hfin _ _ x v1 (List.mem_append_left _ (List.mem_append_right _ hx))
          hxa hxs hxA⟩
      · have hlt : b.size < ALIGN n := by omega
        cases suf with
        | nil =>
          obtain ⟨e1, _⟩ := realloc_tail_ok s sc pre b fuel n hc vc hbs hs hn hlt
          refine ⟨_, e1, ?_, ?_, Or.inl (by rw [hs0, hbs])⟩
          · simp
          · simp only [set_size_status]
            rw [hm.2.2, hs0]
        | cons c suf =>
          obtain ⟨hnx, hc0, hcs, hcst⟩ := hnc c suf rfl
          rw [hnx, hcs, hcst, META_SIZE_eq] at hcase
          have hab : c.status = STATUS_FREE ∧ ALIGN n ≤ b.size + 32 + c.size := by
            rcases hcase with h1 | ⟨_, h1 | h1 | h1⟩
            · exact absurd h1 he
            · exact absurd h1 hgt
            · exact absurd h1 hc0
            · exact h1
          obtain ⟨e1, v1, _⟩ := realloc_absorb_ok s sc pre suf b c fuel n hc vc hbs hs hn hlt
            hab.1 hab.2
          have hcm : c ∈ pre ++ b :: c :: suf :=
            List.mem_append_right _ (List.mem_cons_of_mem _ (List.mem_cons_self _ _))
          have hcb1 := vc.bounds c hcm
          have hbc1 := vc.bounds b hbm
          have hWc := vc.brk_lt
          have hca : c.addr = b.addr + 32 + b.size := by
            have ht := vc.tiles (by simp)
            obtain ⟨mid, _, t2⟩ := (TilesFrom_append pre (b :: c :: suf) _ _).mp ht
            have t3 := t2.1
            have t4 := t2.2.1
            rw [META_SIZE_eq] at t4
            omega
          obtain ⟨x, hx, hxa, hxs, hxA⟩ :=
            splitL_head ⟨b.addr, b.size + 32 + c.size, STATUS_ALLOC⟩ n hab.2
              (by show b.size + 32 + c.size < W; omega)
          exact ⟨_, e1, hfin _ _ x v1 (List.mem_append_left _ (List.mem_append_right _ hx))
            hxa hxs hxA⟩
  · obtain ⟨m1, m2, m3, m4, m5, m6, m7⟩ := hv.maps x hx
    have hxb := hv.map_bounds x hx
    have hsub := sub_meta x.1 (by omega)
    rw [hsub] at hcase ⊢
    have hmeta : x.1 + META_SIZE ≠ 0 := by
      rw [META_SIZE_eq]
      omega
    have hms : (sc.mem x.1).status = STATUS_MAPPED := by rw [hst, m1]
    have hsz : (sc.mem x.1).size = ALIGN n := by
      rcases hcase with h1 | ⟨h1, _⟩
      · exact h1
      · rw [hms] at h1
        exact absurd h1.symm status_ne.2.1
    have hs : (s.mem x.1).status ≠ STATUS_FREE := by
      rw [m1]
      exact fun h => status_ne.1 h.symm
    refine ⟨sc, ?_, le_of_eq hsz.symm, by rw [hms, m1], Or.inr m1⟩
    exact os_realloc_mapped_same fuel s sc _ n hn (by omega) (by rw [hsub]; exact hs) hc
      (by rw [hsub]; exact hms) (by rw [hsub]; exact hsz)

theorem C11_realloc_in_place_returns_same_pointer_witness :
    Reachable sB ∧ Held sB 4128 ∧ coalesce_blocks 4 sB = some scB
    ∧ ((∃ F, ∀ f, F ≤ f → (coalesce_blocks f sB).isSome)
      ∧ ∃ s1, os_realloc 4 sB 4128 50 = .ok (4128, s1)
        ∧ ALIGN 50 ≤ (s1.mem (sub64 4128 META_SIZE)).size
        ∧ (s1.mem (sub64 4128 META_SIZE)).status = (sB.mem (sub64 4128 META_SIZE)).status
        ∧ ((sB.mem (sub64 4128 META_SIZE)).status = STATUS_ALLOC
          ∨ (sB.mem (sub64 4128 META_SIZE)).status = STATUS_MAPPED)) :=
  ⟨reach_sB, held_sB_a, eval_scB,
    C11_realloc_in_place_returns_same_pointer sB scB 4 4128 50 reach_sB held_sB_a
      (by decide) eval_scB
      (Or.inr ⟨by with_unfolding_all rfl, Or.inl (by with_unfolding_all decide)⟩)⟩

theorem eval_sP1 : os_malloc 4 s0 8 = .ok (4128, sP1) := by with_unfolding_all rfl

theorem eval_sP : os_malloc 4 sP1 8 = .ok (4168, sP) := by with_unfolding_all rfl

theorem sP_rep : Rep sP.mem sP.head
    [⟨4096, 8, STATUS_ALLOC⟩, ⟨4136, 8, STATUS_ALLOC⟩, ⟨4176, 130960, STATUS_FREE⟩] := by
  with_unfolding_all exact
    ⟨rfl, by decide, rfl, rfl, rfl, by decide, rfl, rfl, rfl, by decide, rfl, rfl, rfl⟩

theorem nofail_sP : NoFail sP.log := by
  with_unfolding_all exact nofail_sA

theorem reach_sP : Reachable sP :=
  Reachable.malloc sP1 sP 4 8 4168
    (Reachable.malloc s0 sP1 4 8 4128 (Reachable.fresh s0 fresh_s0) (by decide) eval_sP1
      (by with_unfolding_all exact nofail_sA))
    (by decide) eval_sP nofail_sP

theorem held_sP : Held sP 4128 :=
  Or.inl ⟨_, ⟨4096, 8, STATUS_ALLOC⟩, sP_rep, List.mem_cons_self _ _, rfl,
    by with_unfolding_all rfl⟩

theorem eval_scP : coalesce_blocks 4 sP = some scP := by with_unfolding_all rfl

/-- C12, the code at the failing input: in the reachable state after
`a = os_malloc(8); b = os_malloc(8)`, the call `os_realloc(a, 131035)` takes the
fallback path (the block of `a` is ALLOCATED, smaller than `ALIGN(131035)`, not the
registry tail, and followed by an ALLOCATED node) and returns the payload of a new
MAPPED block, whereas `os_malloc(131035)` run on the coalesced state returns the
payload of the registry node at 4176 taken from the arena: the fallback calls
`os_malloc(ALIGN(size))`, and `ALIGN(131035) = 131040` is not below the threshold
`128*1024 - META_SIZE` while `131035` is. -/
theorem C12_fallback_is_not_malloc_of_size :
    Reachable sP ∧ Held sP 4128 ∧ coalesce_blocks 4 sP = some scP
    ∧ (scP.mem (sub64 4128 META_SIZE)).status = STATUS_ALLOC
    ∧ (scP.mem (sub64 4128 META_SIZE)).size < ALIGN 131035
    ∧ (scP.mem (sub64 4128 META_SIZE)).next ≠ 0
    ∧ (scP.mem (scP.mem (sub64 4128 META_SIZE)).next).status ≠ STATUS_FREE
    ∧ resPtr (os_realloc 4 sP 4128 131035) = 1099511627808
    ∧ ((resState (os_realloc 4 sP 4128 131035) sP).mem
        (sub64 1099511627808 META_SIZE)).status = STATUS_MAPPED
    ∧ resPtr (os_malloc 4 scP 131035) = 4208
    ∧ ((resState (os_malloc 4 scP 131035) scP).mem (sub64 4208 META_SIZE)).status
        = STATUS_ALLOC
    ∧ resPtr (os_realloc 4 sP 4128 131035) ≠ resPtr (os_malloc 4 scP 131035) := by
  refine ⟨reach_sP, held_sP, eval_scP, ?_, ?_, ?_, ?_, ?_, ?_, ?_, ?_, ?_⟩
  · with_unfolding_all rfl
  · with_unfolding_all decide
  · with_unfolding_all decide
  · with_unfolding_all decide
  · with_unfolding_all rfl
  · with_unfolding_all rfl
  · with_unfolding_all rfl
  · with_unfolding_all rfl
  · with_unfolding_all decide

theorem fresh_sFull : Fresh sFull :=
  ⟨rfl, rfl, by decide, by decide, by decide, by decide, by decide, by decide, by decide,
    rfl, rfl, rfl⟩

theorem fresh_sTight : Fresh sTight :=
  ⟨rfl, rfl, by decide, by decide, by decide, by decide, by decide, by decide, by decide,
    rfl, rfl, rfl⟩

/-- C14, the code at the failing input: in a process whose data segment can grow by
the preallocation and no further, `a = os_malloc(100)` preallocates, and
`os_malloc(131000)` then takes the tail-extension branch: `sbrk(96)` reports failure,
the result is not tested, and the call nevertheless returns the pointer 4264 after
marking the tail ALLOCATED with size 131000, a payload that ends beyond the break; the
call does not end in the fatal-abort outcome. The untested `mmap` of `os_calloc` ends
in a memory fault instead of the abort, where `os_malloc` tests the same call and
aborts. -/
theorem C14_unchecked_sbrk_returns_a_pointer :
    Fresh sTight ∧ os_malloc 4 sTight 100 = .ok (4128, sT1) ∧ NoFail sT1.log
    ∧ os_malloc 4 sT1 131000 = .ok (4264, sT2)
    ∧ sT2.log = [OsCall.sbrk 96 FAILED, OsCall.sbrk 131072 4096]
    ∧ ¬ NoFail sT2.log
    ∧ sT2.brk = 135168
    ∧ (sT2.mem 4232).status = STATUS_ALLOC ∧ (sT2.mem 4232).size = 131000
    ∧ sT2.brk < 4264 + 131000
    ∧ Fresh sFull
    ∧ os_calloc 1 sFull 1 5000 = .fault
    ∧ os_malloc 1 sFull 5000000 = .die .map_failed := by
  have hlog : sT2.log = [OsCall.sbrk 96 FAILED, OsCall.sbrk 131072 4096] := by
    with_unfolding_all rfl
  refine ⟨fresh_sTight, by with_unfolding_all rfl, ?_, by with_unfolding_all rfl, hlog, ?_,
    by with_unfolding_all rfl, by with_unfolding_all rfl, by with_unfolding_all rfl,
    by with_unfolding_all decide, fresh_sFull, by with_unfolding_all rfl,
    by with_unfolding_all rfl⟩
  · have h1 : sT1.log = [OsCall.sbrk 131072 4096] := by with_unfolding_all rfl
    rw [h1]
    unfold NoFail
    with_unfolding_all decide
  · intro h
    rw [hlog] at h
    have := h _ (List.mem_cons_self _ _)
    simp [OsCall.failed] at this

theorem memset0_read (s : State) (z : Nat → Nat) (p n : Nat) (h : memset0 s p n = some z)
    (i : Nat) (hi : i < n) : z (p + i) = 0 := by
  unfold memset0 at h
  by_cases hc : p + n ≤ W ∧ (n = 0 ∨ owned s p n = true)
  · rw [if_pos hc] at h
    cases h
    have h1 : p ≤ p + i ∧ p + i < p + n := ⟨by omega, by omega⟩
    simp only [if_pos h1]
  · rw [if_neg hc] at h
    cases h

/-- C15: in every reachable state, for every `k` and `s` whose product is positive and
does not overflow, when `os_calloc(k, s)` returns `p` with every operating-system call
succeeding, every payload byte in `[p, p + header(p).size)` is zero at return time.
The block is ALLOCATED (arena path, explicit `memset`) when
`ALIGN(request) + META_SIZE < 4096` and MAPPED (zero-filled fresh mapping) when
`ALIGN(request) + META_SIZE >= 4096`. -/
theorem C15_calloc_payload_is_zero (s s1 : State) (fuel k sz p : Nat) (h : Reachable s)
    (hpos : 0 < k * sz) (hov : k * sz < W)
    (hm : os_calloc fuel s k sz = .ok (p, s1)) (hnf : NoFail s1.log) :
    (∀ i, i < (s1.mem (sub64 p META_SIZE)).size → s1.bytes (p + i) = 0)
    ∧ (add64 (ALIGN (k * sz)) META_SIZE < 4096 →
        (s1.mem (sub64 p META_SIZE)).status = STATUS_ALLOC)
    ∧ (add64 (ALIGN (k * sz)) META_SIZE ≥ 4096 →
        (s1.mem (sub64 p META_SIZE)).status = STATUS_MAPPED) := by
  obtain ⟨v, hv⟩ := reachable_valid s h
  have hmod : (k * sz) % W = k * sz := Nat.mod_eq_of_lt hov
  have h0 : (k * sz) % W ≠ 0 := by omega
  by_cases hge : add64 (ALIGN ((k * sz) % W)) META_SIZE ≥ 4096
  · rw [os_calloc_large fuel s k sz h0 hge (calloc_mapped_ok fuel s k sz _ h0 hge hm)] at hm
    have hc : 0 < add64 (ALIGN ((k * sz) % W)) META_SIZE
        ∧ s.map_next + pages (add64 (ALIGN ((k * sz) % W)) META_SIZE) < W := by
      have e2 : s1.log = (mmap s (add64 (ALIGN ((k * sz) % W)) META_SIZE)).2.log := by
        cases hm
        rfl
      rw [e2] at hnf
      exact mmap_nofail s _ hnf
    rw [mmap_ok s _ hc] at hm
    simp only at hm
    have hnext := hv.next_lt
    have hAW := ALIGN_lt ((k * sz) % W)
    have hnw : ALIGN ((k * sz) % W) + 32 < W := by
      by_contra hw
      have : add64 (ALIGN ((k * sz) % W)) META_SIZE < 4096 := by
        rw [META_SIZE_eq]
        unfold add64
        rw [W_eq] at *
        omega
      omega
    have hlen : add64 (ALIGN ((k * sz) % W)) META_SIZE = ALIGN ((k * sz) % W) + 32 := by
      rw [META_SIZE_eq, add64_eq _ _ hnw]
    have hpg : ALIGN ((k * sz) % W) + 32
        ≤ pages (add64 (ALIGN ((k * sz) % W)) META_SIZE) := by
      rw [hlen]
      unfold pages PAGE
      omega
    have hp32 : add64 s.map_next META_SIZE = s.map_next + 32 := by
      rw [META_SIZE_eq, add64_eq _ _ (by
        have : 4096 ≤ pages (add64 (ALIGN ((k * sz) % W)) META_SIZE) := by
          rw [hlen]
          unfold pages PAGE
          omega
        omega)]
    rw [hp32] at hm
    cases hm
    obtain ⟨_, a2, a3⟩ := map_header s.mem s.map_next (ALIGN ((k * sz) % W))
    rw [sub_meta s.map_next (by omega)]
    refine ⟨fun i hi => ?_, fun hlt => ?_, fun _ => a2⟩
    · have hi2 : i < ALIGN ((k * sz) % W) := by
        rw [← a3]
        exact hi
      show (if s.map_next ≤ s.map_next + 32 + i ∧ s.map_next + 32 + i
          < s.map_next + pages (add64 (ALIGN ((k * sz) % W)) META_SIZE) then 0
          else s.bytes (s.map_next + 32 + i)) = 0
      rw [if_pos ⟨by omega, by omega⟩]
    · rw [hmod] at hge
      omega
  · obtain ⟨v1, n, s2, z, hpost, hz, rfl⟩ := calloc_small s s1 v fuel k sz p hv h0 hge hm hnf
    obtain ⟨b, hb, rfl, hbs, _, rfl⟩ := hpost.blk
    have hbb := hpost.valid.bounds b hb
    have hW := hpost.valid.brk_lt
    have hseg := Seg_mem _ _ _ hpost.valid.rep b hb
    rw [sub_meta b.addr (by omega)]
    show (∀ i, i < (s2.mem b.addr).size → z (b.addr + 32 + i) = 0)
      ∧ (_ → (s2.mem b.addr).status = STATUS_ALLOC)
      ∧ (_ → (s2.mem b.addr).status = STATUS_MAPPED)
    rw [hseg.2.1, hseg.2.2]
    refine ⟨fun i hi => memset0_read _ _ _ _ hz i hi, fun _ => hbs, fun hge2 => ?_⟩
    rw [hmod] at hge
    exact absurd hge2 hge

theorem eval_sC : os_calloc 4 sA 10 10 = .ok (4264, sC) := by with_unfolding_all rfl

theorem C15_calloc_payload_is_zero_witness :
    Reachable sA ∧ 0 < 10 * 10 ∧ 10 * 10 < W ∧ os_calloc 4 sA 10 10 = .ok (4264, sC)
    ∧ NoFail sC.log
    ∧ ((∀ i, i < (sC.mem (sub64 4264 META_SIZE)).size → sC.bytes (4264 + i) = 0)
      ∧ (add64 (ALIGN (10 * 10)) META_SIZE < 4096 →
          (sC.mem (sub64 4264 META_SIZE)).status = STATUS_ALLOC)
      ∧ (add64 (ALIGN (10 * 10)) META_SIZE ≥ 4096 →
          (sC.mem (sub64 4264 META_SIZE)).status = STATUS_MAPPED)) :=
  ⟨reach_sA, by decide, by decide, eval_sC, by with_unfolding_all exact nofail_sA,
    C15_calloc_payload_is_zero sA sC 4 10 10 4264 reach_sA (by decide) (by decide) eval_sC
      (by with_unfolding_all exact nofail_sA)⟩

theorem merge_fix (fuel : Nat) (m : Mem) (b : Blk) (v : List Blk)
    (hr : Rep m b.addr (b :: v)) (hn : NoAdjFree (b :: v)) :
    coalesce_merge (fuel + 1) b.addr m = some m := by
  obtain ⟨_, hb0, hbs, hbst, hnext⟩ := hr
  have hcond : ¬ ((m b.addr).status = STATUS_FREE ∧ (m b.addr).next ≠ 0
      ∧ (m (m b.addr).next).status = STATUS_FREE) := by
    cases v with
    | nil =>
      have h0 : (m b.addr).next = 0 := hnext
      exact fun h => h.2.1 h0
    | cons c t =>
      obtain ⟨hc1, _, _, hcst, _⟩ := hnext
      rw [hc1, hbst, hcst]
      exact fun h => hn.1 ⟨h.1, h.2.2⟩
  rw [coalesce_merge, if_neg hcond]

theorem walk_fix : ∀ (fuel : Nat) (v : List Blk) (h : Nat) (m : Mem),
    Rep m h v → NoAdjFree v → v.length < fuel → coalesce_walk fuel h m = some m
  | 0, _, _, _, _, _, hlen => by omega
  | fuel + 1, [], h, m, hrep, _, _ => by
    have h0 : h = 0 := hrep
    subst h0
    simp [coalesce_walk]
  | fuel + 1, b :: v, h, m, hrep, hn, hlen => by
    have hh : h = b.addr := hrep.1
    subst hh
    have hb0 : b.addr ≠ 0 := hrep.2.1
    simp only [List.length_cons] at hlen
    rw [coalesce_walk, if_neg hb0, merge_fix fuel m b v hrep hn]
    exact walk_fix fuel v _ m hrep.2.2.2.2 ((NoAdjFree_cons b v).mp hn).1 (by omega)

theorem coalesceFrom_filter : ∀ (v : List Blk) (b : Blk),
    (coalesceFrom b v).filter (fun x => decide (x.status = STATUS_ALLOC))
      = (b :: v).filter (fun x => decide (x.status = STATUS_ALLOC))
  | [], _ => rfl
  | c :: v, b => by
    have hne : STATUS_FREE ≠ STATUS_ALLOC := status_ne.2.2
    unfold coalesceFrom
    by_cases hff : b.status = STATUS_FREE ∧ c.status = STATUS_FREE
    · rw [if_pos hff, coalesceFrom_filter v _]
      have hb : ¬ b.status = STATUS_ALLOC := by rw [hff.1]; exact hne
      have hc : ¬ c.status = STATUS_ALLOC := by rw [hff.2]; exact hne
      simp [List.filter_cons, hb, hc]
    · rw [if_neg hff, List.filter_cons, coalesceFrom_filter v c]
      simp only [List.filter_cons]

theorem coalesceL_filter (v : List Blk) :
    (coalesceL v).filter (fun x => decide (x.status = STATUS_ALLOC))
      = v.filter (fun x => decide (x.status = STATUS_ALLOC)) := by
  cases v with
  | nil => rfl
  | cons b v => exact coalesceFrom_filter v b

/-- C16: for every registry `v` that lies back to back in ascending address order
(from the head up to an address below 2^64), `coalesce_blocks` returns (given enough
fuel) and leaves a registry `v1` in which no two neighbours are both FREE, whose
ALLOCATED nodes are those of `v` with the same address, size and order, and which
still lies back to back over the same range in ascending order; running
`coalesce_blocks` a second time leaves the memory exactly as it is. -/
theorem C16_coalesce_blocks_merges_free_neighbours (s : State) (v : List Blk) (e : Nat)
    (hr : Rep s.mem s.head v) (ht : TilesFrom s.head v e) (he : e < W) :
    ∃ F, ∀ fuel, F ≤ fuel → ∃ s1 v1, coalesce_blocks fuel s = some s1
      ∧ Rep s1.mem s1.head v1
      ∧ NoAdjFree v1
      ∧ v1.filter (fun x => decide (x.status = STATUS_ALLOC))
          = v.filter (fun x => decide (x.status = STATUS_ALLOC))
      ∧ TilesFrom s1.head v1 e ∧ Ascending v1 ∧ Contiguous v1
      ∧ coalesce_blocks fuel s1 = some s1 := by
  refine ⟨v.length + 1, fun fuel hf => ?_⟩
  obtain ⟨m1, e1, r1, _, _⟩ := walk_spec fuel v s.head s.mem hr
    (TilesFrom_pairwise v _ _ ht) (Or.inl (by omega))
  have htc : TilesFrom s.head (coalesceL v) e := by
    by_cases hne : v = []
    · subst hne
      exact ht
    · exact coalesceL_tiles v _ _ hne ht he
  refine ⟨{ s with mem := m1 }, coalesceL v, ?_, r1, coalesceL_noAdj v, coalesceL_filter v,
    htc, TilesFrom_ascending _ _ _ htc, TilesFrom_contiguous _ _ _ htc, ?_⟩
  · unfold coalesce_blocks
    rw [e1]
  · have hlen := coalesceL_length v
    have hw : coalesce_walk fuel ({ s with mem := m1 } : State).head
        ({ s with mem := m1 } : State).mem = some m1 :=
      walk_fix fuel (coalesceL v) s.head m1 r1 (coalesceL_noAdj v) (by omega)
    unfold coalesce_blocks
    rw [hw]

theorem C16_coalesce_blocks_merges_free_neighbours_witness :
    Rep sAF.mem sAF.head [⟨4096, 104, STATUS_FREE⟩, ⟨4232, 130904, STATUS_FREE⟩]
    ∧ TilesFrom sAF.head [⟨4096, 104, STATUS_FREE⟩, ⟨4232, 130904, STATUS_FREE⟩] 135168
    ∧ 135168 < W
    ∧ ∃ F, ∀ fuel, F ≤ fuel → ∃ s1 v1, coalesce_blocks fuel sAF = some s1
      ∧ Rep s1.mem s1.head v1
      ∧ NoAdjFree v1
      ∧ v1.filter (fun x => decide (x.status = STATUS_ALLOC))
          = List.filter (fun x => decide (x.status = STATUS_ALLOC))
              [⟨4096, 104, STATUS_FREE⟩, ⟨4232, 130904, STATUS_FREE⟩]
      ∧ TilesFrom s1.head v1 135168 ∧ Ascending v1 ∧ Contiguous v1
      ∧ coalesce_blocks fuel s1 = some s1 :=
  ⟨sAF_rep, by with_unfolding_all exact ⟨rfl, rfl, rfl⟩, by decide,
    C16_coalesce_blocks_merges_free_neighbours sAF _ 135168 sAF_rep
      (by with_unfolding_all exact ⟨rfl, rfl, rfl⟩) (by decide)⟩

theorem keepL_le (r : Nat) (b : Blk) (best : Option Blk) :
    (∀ b0, best = some b0 → ∃ k, keepL r b best = some k ∧ k.size ≤ b0.size)
    ∧ (b.size ≥ r ∧ b.status = STATUS_FREE →
        ∃ k, keepL r b best = some k ∧ k.size ≤ b.size) := by
  unfold keepL
  by_cases hc : b.size ≥ r ∧ b.status = STATUS_FREE
  · rw [if_pos hc]
    cases best with
    | none => exact ⟨fun b0 h => (by cases h), fun _ => ⟨b, rfl, Nat.le_refl _⟩⟩
    | some c0 =>
      by_cases hlt : b.size < c0.size
      · simp only [if_pos hlt]
        exact ⟨fun b0 h => (by cases h; exact ⟨b, rfl, Nat.le_of_lt hlt⟩),
          fun _ => ⟨b, rfl, Nat.le_refl _⟩⟩
      · simp only [if_neg hlt]
        exact ⟨fun b0 h => (by cases h; exact ⟨c0, rfl, Nat.le_refl _⟩),
          fun _ => ⟨c0, rfl, Nat.le_of_not_lt hlt⟩⟩
  · rw [if_neg hc]
    exact ⟨fun b0 h => ⟨b0, h, Nat.le_refl _⟩, fun h => absurd h hc⟩

theorem bestL_spec (r : Nat) : ∀ (v : List Blk) (best : Option Blk) (c : Blk),
    bestL r v best = some c →
    (best = some c ∧ ∀ x ∈ v, x.size ≥ r ∧ x.status = STATUS_FREE → c.size ≤ x.size)
    ∨ (∃ pre suf, v = pre ++ c :: suf ∧ (c.size ≥ r ∧ c.status = STATUS_FREE)
        ∧ (∀ x ∈ pre, x.size ≥ r ∧ x.status = STATUS_FREE → c.size < x.size)
        ∧ (∀ b0, best = some b0 → c.size < b0.size)
        ∧ (∀ x ∈ suf, x.size ≥ r ∧ x.status = STATUS_FREE → c.size ≤ x.size))
  | [], best, c, h => Or.inl ⟨h, fun x hx => by simp at hx⟩
  | b :: v, best, c, h => by
    have hk := keepL_le r b best
    rcases bestL_spec r v (keepL r b best) c h with ⟨h1, h2⟩ | ⟨pre, suf, e, hfit, hpre, hb0, hsuf⟩
    · rcases keepL_some r b best c h1 with ⟨rfl, hfit⟩ | hbest
      · by_cases hsame : best = some c
        · refine Or.inl ⟨hsame, fun x hx hf => ?_⟩
          rcases List.mem_cons.mp hx with rfl | hx
          · exact Nat.le_refl _
          · exact h2 x hx hf
        · refine Or.inr ⟨[], v, rfl, hfit, fun x hx => by simp at hx, fun b0 hb => ?_, h2⟩
          subst hb
          unfold keepL at h1
          rw [if_pos hfit] at h1
          simp only at h1
          by_cases hlt : c.size < b0.size
          · exact hlt
          · rw [if_neg hlt] at h1
            exact absurd h1 hsame
      · refine Or.inl ⟨hbest, fun x hx hf => ?_⟩
        rcases List.mem_cons.mp hx with rfl | hx
        · obtain ⟨k, hk1, hk2⟩ := hk.2 hf
          rw [h1] at hk1
          cases hk1
          exact hk2
        · exact h2 x hx hf
    · refine Or.inr ⟨b :: pre, suf, by rw [e]; rfl, hfit, fun x hx hf => ?_, fun b0 hb => ?_, hsuf⟩
      · rcases List.mem_cons.mp hx with rfl | hx
        · obtain ⟨k, hk1, hk2⟩ := hk.2 hf
          exact lt_of_lt_of_le (hb0 k hk1) hk2
        · exact hpre x hx hf
      · obtain ⟨k, hk1, hk2⟩ := hk.1 b0 hb
        exact lt_of_lt_of_le (hb0 k hk1) hk2

/-- C17: for every registry `v` that lies back to back in ascending address order and
every request, `find_best(request)` returns (given enough fuel) after coalescing the
registry into `v1`; it returns `NULL` exactly when no FREE node of `v1` has
`size >= ALIGN(request)`; otherwise it returns the address of a FREE node of `v1` with
`size >= ALIGN(request)` whose size is minimal among all such nodes and which has the
lowest address among the nodes of that minimal size. -/
theorem C17_find_best_is_best_fit (s : State) (v : List Blk) (e request : Nat)
    (hr : Rep s.mem s.head v) (ht : TilesFrom s.head v e) (he : e < W) :
    ∃ F, ∀ fuel, F ≤ fuel → ∃ blk s1 v1, find_best fuel s request = some (blk, s1)
      ∧ coalesce_blocks fuel s = some s1 ∧ Rep s1.mem s1.head v1
      ∧ (blk = 0 ↔ ∀ b ∈ v1, ¬ (b.status = STATUS_FREE ∧ ALIGN request ≤ b.size))
      ∧ (blk ≠ 0 → ∃ b ∈ v1, blk = b.addr ∧ b.status = STATUS_FREE ∧ ALIGN request ≤ b.size
          ∧ (∀ c ∈ v1, c.status = STATUS_FREE → ALIGN request ≤ c.size → b.size ≤ c.size)
          ∧ (∀ c ∈ v1, c.status = STATUS_FREE → ALIGN request ≤ c.size →
              c.size = b.size → b.addr ≤ c.addr)) := by
  refine ⟨v.length + 1, fun fuel hf => ?_⟩
  obtain ⟨m1, e1, r1, _, _⟩ := walk_spec fuel v s.head s.mem hr
    (TilesFrom_pairwise v _ _ ht) (Or.inl (by omega))
  have hcb : coalesce_blocks fuel s = some { s with mem := m1 } := by
    unfold coalesce_blocks
    rw [e1]
  have hlen := coalesceL_length v
  have hl : find_best_loop request m1 fuel s.head 0
      = some (addrOf (bestL (ALIGN request) (coalesceL v) none)) :=
    find_loop_spec request m1 fuel (coalesceL v) s.head none r1
      (fun c hc => by simp at hc) (Or.inl (by omega))
  have hfb : find_best fuel s request
      = some (addrOf (bestL (ALIGN request) (coalesceL v) none), { s with mem := m1 }) := by
    simp only [find_best, hcb, hl]
  refine ⟨_, _, coalesceL v, hfb, hcb, r1, ?_, ?_⟩
  · cases hb : bestL (ALIGN request) (coalesceL v) none with
    | none =>
      refine ⟨fun _ b hbv hfit => ?_, fun _ => rfl⟩
      exact (bestL_none _ _ _ hb).2 b hbv ⟨hfit.2, hfit.1⟩
    | some c =>
      rcases bestL_some _ _ _ _ hb with ⟨h1, h2, h3⟩ | h1
      · refine ⟨fun h0 => absurd h0 (Seg_mem _ _ _ r1 c h1).1, fun h => ?_⟩
        exact absurd ⟨h3, h2⟩ (h c h1)
      · cases h1
  · intro hne
    cases hb : bestL (ALIGN request) (coalesceL v) none with
    | none =>
      rw [hb] at hne
      exact absurd rfl hne
    | some c =>
      rcases bestL_spec _ _ _ _ hb with ⟨h1, _⟩ | ⟨pre, suf, hdec, hfit, hpre, _, hsuf⟩
      · cases h1
      · have hcm : c ∈ coalesceL v := by
          rw [hdec]
          exact List.mem_append_right _ (List.mem_cons_self _ _)
        have hvne : v ≠ [] := by
          rintro rfl
          simp [coalesceL] at hcm
        have htc : TilesFrom s.head (coalesceL v) e := coalesceL_tiles v _ _ hvne ht he
        rw [hdec] at htc
        obtain ⟨mid, _, ht2⟩ := (TilesFrom_append pre (c :: suf) _ _).mp htc
        have hsufa : ∀ x ∈ suf, c.addr ≤ x.addr := fun x hx => by
          have h1 : c.addr = mid := ht2.1
          have h2 := (TilesFrom_mem suf _ _ ht2.2 x hx).1
          omega
        refine ⟨c, hcm, rfl, hfit.2, hfit.1, fun x hx hs hsz => ?_, fun x hx hs hsz heq => ?_⟩
        · rw [hdec] at hx
          rcases List.mem_append.mp hx with hx | hx
          · exact Nat.le_of_lt (hpre x hx ⟨hsz, hs⟩)
          · rcases List.mem_cons.mp hx with rfl | hx
            · exact Nat.le_refl _
            · exact hsuf x hx ⟨hsz, hs⟩
        · rw [hdec] at hx
          rcases List.mem_append.mp hx with hx | hx
          · have := hpre x hx ⟨hsz, hs⟩
            omega
          · rcases List.mem_cons.mp hx with rfl | hx
            · exact Nat.le_refl _
            · exact hsufa x hx

theorem C17_find_best_is_best_fit_witness :
    Rep sAF.mem sAF.head [⟨4096, 104, STATUS_FREE⟩, ⟨4232, 130904, STATUS_FREE⟩]
    ∧ TilesFrom sAF.head [⟨4096, 104, STATUS_FREE⟩, ⟨4232, 130904, STATUS_FREE⟩] 135168
    ∧ 135168 < W
    ∧ ∃ F, ∀ fuel, F ≤ fuel → ∃ blk s1 v1, find_best fuel sAF 50 = some (blk, s1)
      ∧ coalesce_blocks fuel sAF = some s1 ∧ Rep s1.mem s1.head v1
      ∧ (blk = 0 ↔ ∀ b ∈ v1, ¬ (b.status = STATUS_FREE ∧ ALIGN 50 ≤ b.size))
      ∧ (blk ≠ 0 → ∃ b ∈ v1, blk = b.addr ∧ b.status = STATUS_FREE ∧ ALIGN 50 ≤ b.size
          ∧ (∀ c ∈ v1, c.status = STATUS_FREE → ALIGN 50 ≤ c.size → b.size ≤ c.size)
          ∧ (∀ c ∈ v1, c.status = STATUS_FREE → ALIGN 50 ≤ c.size →
              c.size = b.size → b.addr ≤ c.addr)) :=
  ⟨sAF_rep, by with_unfolding_all exact ⟨rfl, rfl, rfl⟩, by decide,
    C17_find_best_is_best_fit sAF _ 135168 50 sAF_rep
      (by with_unfolding_all exact ⟨rfl, rfl, rfl⟩) (by decide)⟩

theorem carve_prev (m : Mem) (blk size rem : Nat)
    (hne : add64 (add64 blk META_SIZE) (ALIGN size) ≠ blk) (x : Nat) :
    (carve m blk size rem x).prev =
      (if (m blk).next ≠ 0 ∧ x = (m blk).next then add64 (add64 blk META_SIZE) (ALIGN size)
      else if x = add64 (add64 blk META_SIZE) (ALIGN size) then blk else (m x).prev) := by
  have hne1 : blk ≠ add64 (add64 blk META_SIZE) (ALIGN size) := fun h => hne h.symm
  by_cases hn : (m blk).next = 0
  · simp only [carve, hn, ne_eq, not_true_eq_false, if_false, set_status_size, set_size_size,
      set_next_size, set_prev_size, set_status_status, set_size_status, set_next_status,
      set_prev_status, set_status_next, set_size_next, set_next_next, set_prev_next, if_true,
      set_status_prev, set_size_prev, set_next_prev, set_prev_prev, false_and, hne1]
  · simp only [carve, hn, ne_eq, not_false_eq_true, if_false, set_status_size, set_size_size,
      set_next_size, set_prev_size, set_status_status, set_size_status, set_next_status,
      set_prev_status, set_status_next, set_size_next, set_next_next, set_prev_next, if_true,
      set_status_prev, set_size_prev, set_next_prev, set_prev_prev, true_and, hne1]

theorem carve_addr_ne (blk A : Nat) (hA : A + 32 < 2 ^ 63) :
    add64 (add64 blk META_SIZE) A ≠ blk := by
  rw [META_SIZE_eq]
  unfold add64
  rw [W_eq]
  have h63 : (2 : Nat) ^ 63 = 9223372036854775808 := by norm_num
  rw [h63] at hA
  omega

/-- C18: for every block `B` and request with `r = ALIGN(request)`, `B.size < 2^63` and
`r + META_SIZE < 2^63`, `split(B, request)` returns `B`, and its test (the `size_t`
difference `B.size - r - META_SIZE` read as signed is at least 8) holds exactly when
`B.size >= r + META_SIZE + 8`. When it holds, afterwards `B` has size `r`, is ALLOCATED
and links to the new block at `addr(B) + META_SIZE + r`, which is FREE with size
`B.size_old - r - META_SIZE` (so `r + META_SIZE + remainder = B.size_old`), links on
to the former successor of `B` and back to `B`, and the former successor links back to
the new block; every other header keeps size, status and `next`. Otherwise only the
status of `B` changes, to ALLOCATED: every size and link is as before. -/
theorem C18_split_carves_or_flips (m : Mem) (B request : Nat)
    (hsz : (m B).size < 2 ^ 63) (hr : ALIGN request + META_SIZE < 2 ^ 63) :
    (split m B request).1 = B
    ∧ (toSigned (sub64 (sub64 (m B).size (ALIGN request)) META_SIZE) ≥ 8
        ↔ ALIGN request + META_SIZE + 8 ≤ (m B).size)
    ∧ (ALIGN request + META_SIZE + 8 ≤ (m B).size →
        ((split m B request).2 B).size = ALIGN request
        ∧ ((split m B request).2 B).status = STATUS_ALLOC
        ∧ ((split m B request).2 B).next = add64 (add64 B META_SIZE) (ALIGN request)
        ∧ (B + META_SIZE + ALIGN request < W →
            add64 (add64 B META_SIZE) (ALIGN request) = B + META_SIZE + ALIGN request)
        ∧ ((split m B request).2 (add64 (add64 B META_SIZE) (ALIGN request))).size
            = (m B).size - ALIGN request - META_SIZE
        ∧ ALIGN request + META_SIZE + ((m B).size - ALIGN request - META_SIZE) = (m B).size
        ∧ ((split m B request).2 (add64 (add64 B META_SIZE) (ALIGN request))).status
            = STATUS_FREE
        ∧ ((split m B request).2 (add64 (add64 B META_SIZE) (ALIGN request))).next
            = (m B).next
        ∧ ((m B).next ≠ add64 (add64 B META_SIZE) (ALIGN request) →
            ((split m B request).2 (add64 (add64 B META_SIZE) (ALIGN request))).prev = B)
        ∧ ((m B).next ≠ 0 →
            ((split m B request).2 (m B).next).prev
              = add64 (add64 B META_SIZE) (ALIGN request))
        ∧ (∀ a, a ≠ B → a ≠ add64 (add64 B META_SIZE) (ALIGN request) →
            ((split m B request).2 a).size = (m a).size
            ∧ ((split m B request).2 a).status = (m a).status
            ∧ ((split m B request).2 a).next = (m a).next))
    ∧ ((m B).size < ALIGN request + META_SIZE + 8 →
        ((split m B request).2 B).status = STATUS_ALLOC
        ∧ ∀ a, ((split m B request).2 a).size = (m a).size
          ∧ ((split m B request).2 a).next = (m a).next
          ∧ ((split m B request).2 a).prev = (m a).prev
          ∧ (a ≠ B → ((split m B request).2 a).status = (m a).status)) := by
  have hr32 : ALIGN request + 32 < 2 ^ 63 := by
    rw [META_SIZE_eq] at hr
    exact hr
  have hiff := split_cond_iff (m B).size (ALIGN request) hsz hr32
  have h63 : (2 : Nat) ^ 63 = 9223372036854775808 := by norm_num
  have hne := carve_addr_ne B (ALIGN request) hr32
  have hne1 : B ≠ add64 (add64 B META_SIZE) (ALIGN request) := fun h => hne h.symm
  refine ⟨rfl, ?_, fun hc => ?_, fun hc => ?_⟩
  · have e : ALIGN request + META_SIZE + 8 = ALIGN request + 40 := by rw [META_SIZE_eq]
    rw [e]
    exact hiff
  · rw [META_SIZE_eq] at hc
    have hcond := hiff.mpr (by omega)
    have hW : (m B).size < W := by
      rw [W_eq]
      omega
    have hrem := (carve_rem (m B).size (ALIGN request) (by omega) hW hcond).1
    rw [split_carve_eq m B request hcond, hrem]
    have hB := carve_fields m B request ((m B).size - ALIGN request - 32) hne B
    have hN := carve_fields m B request ((m B).size - ALIGN request - 32) hne
      (add64 (add64 B META_SIZE) (ALIGN request))
    have hP := carve_prev m B request ((m B).size - ALIGN request - 32) hne
    rw [if_neg hne1, if_pos rfl, if_neg hne1, if_pos rfl, if_neg hne1, if_pos rfl] at hB
    rw [if_pos rfl, if_pos rfl, if_pos rfl] at hN
    refine ⟨hB.1, hB.2.1, hB.2.2, fun hlt => ?_, ?_, ?_, hN.2.1, hN.2.2, fun hnx => ?_,
      fun hn0 => ?_, fun a ha1 ha2 => ?_⟩
    · rw [META_SIZE_eq] at hlt ⊢
      rw [add64_eq B 32 (by omega), add64_eq (B + 32) (ALIGN request) hlt]
    · rw [hN.1, META_SIZE_eq]
    · rw [META_SIZE_eq]
      omega
    · rw [hP, if_neg (fun h => hnx h.2.symm), if_pos rfl]
    · rw [hP, if_pos ⟨hn0, rfl⟩]
    · have hA := carve_fields m B request ((m B).size - ALIGN request - 32) hne a
      rw [if_neg ha2, if_neg ha1, if_neg ha2, if_neg ha1, if_neg ha2, if_neg ha1] at hA
      exact hA
  · rw [META_SIZE_eq] at hc
    have hcond : ¬ toSigned (sub64 (sub64 (m B).size (ALIGN request)) META_SIZE) ≥ 8 := by
      rw [hiff]
      omega
    rw [split_keep m B request hcond]
    refine ⟨by simp, fun a => ⟨by simp, by simp, by simp, fun ha => by simp [ha]⟩⟩

theorem C18_split_carves_or_flips_witness :
    (scAF.mem 4096).size < 2 ^ 63 ∧ ALIGN 100 + META_SIZE < 2 ^ 63
    ∧ ((split scAF.mem 4096 100).1 = 4096
    ∧ (toSigned (sub64 (sub64 (scAF.mem 4096).size (ALIGN 100)) META_SIZE) ≥ 8
        ↔ ALIGN 100 + META_SIZE + 8 ≤ (scAF.mem 4096).size)
    ∧ (ALIGN 100 + META_SIZE + 8 ≤ (scAF.mem 4096).size →
        ((split scAF.mem 4096 100).2 4096).size = ALIGN 100
        ∧ ((split scAF.mem 4096 100).2 4096).status = STATUS_ALLOC
        ∧ ((split scAF.mem 4096 100).2 4096).next = add64 (add64 4096 META_SIZE) (ALIGN 100)
        ∧ (4096 + META_SIZE + ALIGN 100 < W →
            add64 (add64 4096 META_SIZE) (ALIGN 100) = 4096 + META_SIZE + ALIGN 100)
        ∧ ((split scAF.mem 4096 100).2 (add64 (add64 4096 META_SIZE) (ALIGN 100))).size
            = (scAF.mem 4096).size - ALIGN 100 - META_SIZE
        ∧ ALIGN 100 + META_SIZE + ((scAF.mem 4096).size - ALIGN 100 - META_SIZE)
            = (scAF.mem 4096).size
        ∧ ((split scAF.mem 4096 100).2 (add64 (add64 4096 META_SIZE) (ALIGN 100))).status
            = STATUS_FREE
        ∧ ((split scAF.mem 4096 100).2 (add64 (add64 4096 META_SIZE) (ALIGN 100))).next
            = (scAF.mem 4096).next
        ∧ ((scAF.mem 4096).next ≠ add64 (add64 4096 META_SIZE) (ALIGN 100) →
            ((split scAF.mem 4096 100).2 (add64 (add64 4096 META_SIZE) (ALIGN 100))).prev
              = 4096)
        ∧ ((scAF.mem 4096).next ≠ 0 →
            ((split scAF.mem 4096 100).2 (scAF.mem 4096).next).prev
              = add64 (add64 4096 META_SIZE) (ALIGN 100))
        ∧ (∀ a, a ≠ 4096 → a ≠ add64 (add64 4096 META_SIZE) (ALIGN 100) →
            ((split scAF.mem 4096 100).2 a).size = (scAF.mem a).size
            ∧ ((split scAF.mem 4096 100).2 a).status = (scAF.mem a).status
            ∧ ((split scAF.mem 4096 100).2 a).next = (scAF.mem a).next))
    ∧ ((scAF.mem 4096).size < ALIGN 100 + META_SIZE + 8 →
        ((split scAF.mem 4096 100).2 4096).status = STATUS_ALLOC
        ∧ ∀ a, ((split scAF.mem 4096 100).2 a).size = (scAF.mem a).size
          ∧ ((split scAF.mem 4096 100).2 a).next = (scAF.mem a).next
          ∧ ((split scAF.mem 4096 100).2 a).prev = (scAF.mem a).prev
          ∧ (a ≠ 4096 → ((split scAF.mem 4096 100).2 a).status = (scAF.mem a).status))) :=
  ⟨by with_unfolding_all decide, by with_unfolding_all decide,
    C18_split_carves_or_flips scAF.mem 4096 100 (by with_unfolding_all decide)
      (by with_unfolding_all decide)⟩

theorem arena_die (fuel : Nat) (s : State) (n : Nat)
    (fin : Nat → Nat → State → Res (Nat × State)) (f : Fatal)
    (h : arena fuel s n fin = .die f) :
    f = .sbrk_failed ∨ (∃ p k t, fin p k t = .die f)
    ∨ ∃ sc, find_best fuel s n = some (0, sc) ∧ sc.prealloced_mem ≠ 0
        ∧ (getLastExpandableBlock fuel sc = .die f
          ∨ ∃ l, getLastExpandableBlock fuel sc = .ok l ∧ l ≠ 0
              ∧ sub64 (ALIGN n) (sc.mem l).size = 0) := by
  unfold arena at h
  cases hfb : find_best fuel s n with
  | none => rw [hfb] at h; cases h
  | some x =>
    obtain ⟨nb, s1⟩ := x
    rw [hfb] at h
    simp only at h
    by_cases h1 : nb ≠ 0
    · rw [if_pos h1] at h
      exact Or.inr (Or.inl ⟨_, _, _, h⟩)
    · rw [if_neg h1] at h
      have hnb : nb = 0 := by
        by_contra hc
        exact h1 hc
      subst hnb
      by_cases h2 : s1.prealloced_mem = 0
      · rw [if_pos h2] at h
        by_cases h3 : (sbrk s1 (ALIGN MMAP_THRESHOLD)).1 = FAILED
        · rw [if_pos h3] at h
          cases h
          exact Or.inl rfl
        · rw [if_neg h3] at h
          generalize hi : insertAlloced fuel _ _ = o at h
          cases o with
          | none => cases h
          | some s3 => exact Or.inr (Or.inl ⟨_, _, _, h⟩)
      · rw [if_neg h2] at h
        cases hl : getLastExpandableBlock fuel s1 with
        | timeout => rw [hl] at h; cases h
        | fault => rw [hl] at h; cases h
        | die d =>
          rw [hl] at h
          cases h
          exact Or.inr (Or.inr ⟨s1, rfl, h2, Or.inl hl⟩)
        | ok last =>
          rw [hl] at h
          simp only at h
          by_cases h4 : last = 0
          · rw [if_pos h4] at h
            by_cases h3 : (sbrk s1 (add64 (ALIGN n) META_SIZE)).1 = FAILED
            · rw [if_pos h3] at h
              cases h
              exact Or.inl rfl
            · rw [if_neg h3] at h
              generalize hi : insertAlloced fuel _ _ = o at h
              cases o with
              | none => cases h
              | some s3 => exact Or.inr (Or.inl ⟨_, _, _, h⟩)
          · rw [if_neg h4] at h
            by_cases h5 : sub64 (ALIGN n) (s1.mem last).size = 0
            · exact Or.inr (Or.inr ⟨s1, rfl, h2, Or.inr ⟨last, hl, h4, h5⟩⟩)
            · rw [if_neg h5] at h
              exact Or.inr (Or.inl ⟨_, _, _, h⟩)

theorem tail_branch (s sc : State) (v : List Blk) (fuel n : Nat) (r : Res Nat)
    (hv : Valid s v) (hfb : find_best fuel s n = some (0, sc)) (hpre : sc.prealloced_mem ≠ 0)
    (hg : getLastExpandableBlock fuel sc = r) (hnt : r ≠ .timeout) :
    ∃ pre lb, Valid sc (pre ++ [lb])
      ∧ r = .ok (if lb.status = STATUS_FREE then lb.addr else 0)
      ∧ (lb.status = STATUS_FREE → lb.size < ALIGN n) := by
  obtain ⟨m1, e1, vc, _, _⟩ := find_best_valid s v fuel n hv (Or.inr (by rw [hfb]; rfl))
  rw [hfb] at e1
  have e2 := Option.some.inj e1
  have hsc : sc = { s with mem := m1 } := congrArg Prod.snd e2
  have ha : addrOf (bestL (ALIGN n) (coalesceL v) none) = 0 := (congrArg Prod.fst e2).symm
  rw [← hsc] at vc
  have hnone : bestL (ALIGN n) (coalesceL v) none = none := by
    cases hb : bestL (ALIGN n) (coalesceL v) none with
    | none => rfl
    | some c =>
      exfalso
      rw [hb] at ha
      rcases bestL_some _ _ _ _ hb with ⟨h1, _⟩ | h1
      · exact (Seg_mem _ _ _ vc.rep c h1).1 ha
      · cases h1
  have hvne : coalesceL v ≠ [] := vc.pre1 hpre
  rcases List.eq_nil_or_concat (coalesceL v) with h0 | ⟨pre, lb, hcl⟩
  · exact absurd h0 hvne
  · rw [List.concat_eq_append] at hcl
    rw [hcl] at vc
    refine ⟨pre, lb, vc, ?_, fun hf => ?_⟩
    · have hm := getLast_mono fuel (fuel + pre.length + 1) sc (by omega) (by rw [hg]; exact hnt)
      rw [← hg, ← hm]
      exact getLast_spec sc pre lb _ vc.rep vc.stat (Or.inl (by omega))
    · have := (bestL_none _ _ _ hnone).2 lb (by rw [hcl]; exact List.mem_append_right _ (List.mem_singleton_self _))
      by_contra hc
      exact this ⟨by omega, hf⟩

theorem arena_never_dies_expanding (s : State) (v : List Blk) (fuel n : Nat)
    (fin : Nat → Nat → State → Res (Nat × State)) (hv : Valid s v)
    (hfin : ∀ p k t f, fin p k t = .die f → f = .sbrk_failed) (f : Fatal)
    (h : arena fuel s n fin = .die f) : f = .sbrk_failed := by
  rcases arena_die fuel s n fin f h with h1 | ⟨p, k, t, h1⟩ | ⟨sc, hfb, hpre, h1⟩
  · exact h1
  · exact hfin p k t f h1
  · exfalso
    rcases h1 with hd | ⟨l, hl, hl0, hz⟩
    · obtain ⟨pre, lb, _, hr, _⟩ := tail_branch s sc v fuel n _ hv hfb hpre hd
        (fun h => Res.noConfusion h)
      cases hr
    · obtain ⟨pre, lb, vc, hr, hlt⟩ := tail_branch s sc v fuel n _ hv hfb hpre hl
        (fun h => Res.noConfusion h)
      have hr1 := Res.ok.inj hr
      by_cases hf : lb.status = STATUS_FREE
      · rw [if_pos hf] at hr1
        subst hr1
        have hlm := Seg_mem _ _ _ vc.rep lb
          (List.mem_append_right _ (List.mem_singleton_self _))
        have hA := ALIGN_lt n
        have := hlt hf
        rw [hlm.2.1, sub64_eq _ _ (by omega) (by omega)] at hz
        omega
      · rw [if_neg hf] at hr1
        exact hl0 hr1
theorem sbrk_log (s : State) (d : Nat) :
    (sbrk s d).2.log = OsCall.sbrk d (sbrk s d).1 :: s.log := by
  unfold sbrk
  split <;> rfl

theorem malloc_die (s : State) (v : List Blk) (fuel k : Nat) (hv : Valid s v) (f : Fatal)
    (h : os_malloc fuel s k = .die f) : f = .sbrk_failed ∨ f = .map_failed := by
  unfold os_malloc at h
  by_cases h0 : k = 0
  · rw [if_pos h0] at h
    cases h
  · rw [if_neg h0] at h
    by_cases h1 : k < sub64 MMAP_THRESHOLD META_SIZE
    · rw [if_pos h1] at h
      refine Or.inl (arena_never_dies_expanding s v fuel k finish_malloc hv ?_ f h)
      intro p n t f hf
      cases hf
    · rw [if_neg h1] at h
      simp only at h
      by_cases h2 : (mmap s (add64 META_SIZE (ALIGN k))).1 = FAILED
      · rw [if_pos h2] at h
        cases h
        exact Or.inr rfl
      · rw [if_neg h2] at h
        cases h

theorem calloc_die (s : State) (v : List Blk) (fuel k z : Nat) (hv : Valid s v) (f : Fatal)
    (h : os_calloc fuel s k z = .die f) : f = .sbrk_failed := by
  unfold os_calloc at h
  simp only at h
  by_cases h0 : (k * z) % W = 0
  · rw [if_pos h0] at h
    cases h
  · rw [if_neg h0] at h
    by_cases h1 : add64 (ALIGN ((k * z) % W)) META_SIZE ≥ 4096
    · rw [if_pos h1] at h
      by_cases h2 : (mmap s (add64 (ALIGN ((k * z) % W)) META_SIZE)).1 = FAILED
      · rw [if_pos h2] at h
        cases h
      · rw [if_neg h2] at h
        cases h
    · rw [if_neg h1] at h
      refine arena_never_dies_expanding s v fuel _ finish_calloc hv ?_ f h
      intro p n t f hf
      unfold finish_calloc at hf
      cases hz : memset0 t p n with
      | none => rw [hz] at hf; cases hf
      | some y => rw [hz] at hf; cases hf

/-- C19: in every reachable state, when `os_malloc` or `os_calloc` reaches the
tail-extension branch (`find_best` returned `NULL` leaving the state `sc`, the arena is
already preallocated, and `getLastExpandableBlock` returned a non-null block `l`), `l`
is the FREE last node of the registry and `l.size < ALIGN(request)`, so the delta
`ALIGN(request) - l.size` is positive and the `size_t` subtraction does not wrap; the
branch asks `sbrk` for exactly that delta and leaves `l` ALLOCATED with size
`ALIGN(request)`, handing out the unchanged payload address `l + META_SIZE`. From a
reachable state neither function ever ends in the "no need to expand" abort or in the
MAPPED-tail abort of `getLastExpandableBlock`. -/
theorem C19_tail_extension_delta_is_positive (s sc : State) (fuel n l : Nat)
    (h : Reachable s)
    (hfb : find_best fuel s n = some (0, sc)) (hpre : sc.prealloced_mem ≠ 0)
    (hg : getLastExpandableBlock fuel sc = .ok l) (hl0 : l ≠ 0) :
    (sc.mem l).status = STATUS_FREE ∧ (sc.mem l).next = 0
    ∧ (sc.mem l).size < ALIGN n
    ∧ sub64 (ALIGN n) (sc.mem l).size = ALIGN n - (sc.mem l).size
    ∧ (∃ s2 ret,
        (n ≠ 0 → n < sub64 MMAP_THRESHOLD META_SIZE →
          os_malloc fuel s n = .ok (l + META_SIZE, s2))
        ∧ (∀ k z, (k * z) % W = n → n ≠ 0 → add64 (ALIGN n) META_SIZE < 4096 →
            os_calloc fuel s k z = finish_calloc (l + META_SIZE) (ALIGN n) s2)
        ∧ (s2.mem l).status = STATUS_ALLOC ∧ (s2.mem l).size = ALIGN n
        ∧ s2.log = OsCall.sbrk (ALIGN n - (sc.mem l).size) ret :: sc.log)
    ∧ (∀ f k z, os_malloc f s k ≠ .die .no_need_to_expand
        ∧ os_malloc f s k ≠ .die .expanding_mapped_block
        ∧ os_calloc f s k z ≠ .die .no_need_to_expand
        ∧ os_calloc f s k z ≠ .die .expanding_mapped_block) := by
  obtain ⟨v, hv⟩ := reachable_valid s h
  obtain ⟨pre, lb, vc, hr, hlt⟩ := tail_branch s sc v fuel n _ hv hfb hpre hg
    (fun h => Res.noConfusion h)
  have hr1 := Res.ok.inj hr
  have hf : lb.status = STATUS_FREE := by
    by_contra hc
    rw [if_neg hc] at hr1
    exact hl0 hr1
  rw [if_pos hf] at hr1
  subst hr1
  have hmem : lb ∈ pre ++ [lb] := List.mem_append_right _ (List.mem_singleton_self _)
  have hlm := Seg_mem _ _ _ vc.rep lb hmem
  have hlb := vc.bounds lb hmem
  have hW := vc.brk_lt
  have hA := ALIGN_lt n
  have hlt1 := hlt hf
  have hd : sub64 (ALIGN n) (sc.mem lb.addr).size = ALIGN n - lb.size := by
    rw [hlm.2.1, sub64_eq _ _ (by omega) (by omega)]
  have hd0 : ¬ sub64 (ALIGN n) (sc.mem lb.addr).size = 0 := by
    rw [hd]
    omega
  have h00 : ¬ (0 : Nat) ≠ 0 := fun h => h rfl
  have hp : add64 lb.addr META_SIZE = lb.addr + META_SIZE := by
    rw [META_SIZE_eq, add64_eq _ _ (by omega)]
  have harena : ∀ fin : Nat → Nat → State → Res (Nat × State),
      arena fuel s n fin = fin (lb.addr + META_SIZE) (ALIGN n)
        { (sbrk sc (sub64 (ALIGN n) (sc.mem lb.addr).size)).2 with
          mem := set_size (set_status
            (sbrk sc (sub64 (ALIGN n) (sc.mem lb.addr).size)).2.mem
            lb.addr STATUS_ALLOC) lb.addr (ALIGN n) } := by
    intro fin
    unfold arena
    rw [hfb]
    simp only
    rw [if_neg h00, if_neg hpre, hg]
    simp only
    rw [if_neg hl0, if_neg hd0, hp]
  refine ⟨by rw [hlm.2.2, hf], (Seg_next pre [] lb _ vc.rep).1 rfl, by rw [hlm.2.1]; exact hlt1,
    by rw [hd, hlm.2.1],
    ⟨{ (sbrk sc (sub64 (ALIGN n) (sc.mem lb.addr).size)).2 with
        mem := set_size (set_status
          (sbrk sc (sub64 (ALIGN n) (sc.mem lb.addr).size)).2.mem
          lb.addr STATUS_ALLOC) lb.addr (ALIGN n) },
      (sbrk sc (sub64 (ALIGN n) (sc.mem lb.addr).size)).1,
      fun h0 hthr => ?_, fun k z hkz h0 h4 => ?_, ?_, ?_, ?_⟩, fun f k z => ⟨?_, ?_, ?_, ?_⟩⟩
  · unfold os_malloc
    rw [if_neg h0, if_pos hthr, harena finish_malloc]
    rfl
  · unfold os_calloc
    simp only
    rw [hkz, if_neg h0, if_neg (by omega), harena finish_calloc]
  · simp
  · simp
  · show (sbrk sc (sub64 (ALIGN n) (sc.mem lb.addr).size)).2.log = _
    rw [sbrk_log, hd, hlm.2.1]
  · intro hd1
    rcases malloc_die s v f k hv _ hd1 with h1 | h1 <;> cases h1
  · intro hd1
    rcases malloc_die s v f k hv _ hd1 with h1 | h1 <;> cases h1
  · intro hd1
    cases calloc_die s v f k z hv _ hd1
  · intro hd1
    cases calloc_die s v f k z hv _ hd1

theorem C19_tail_extension_delta_is_positive_witness :
    Reachable sA ∧ find_best 4 sA 131000 = some (0, sA) ∧ sA.prealloced_mem ≠ 0
    ∧ getLastExpandableBlock 4 sA = .ok 4232 ∧ 4232 ≠ 0
    ∧ ((sA.mem 4232).status = STATUS_FREE ∧ (sA.mem 4232).next = 0
    ∧ (sA.mem 4232).size < ALIGN 131000
    ∧ sub64 (ALIGN 131000) (sA.mem 4232).size = ALIGN 131000 - (sA.mem 4232).size
    ∧ (∃ s2 ret,
        (131000 ≠ 0 → 131000 < sub64 MMAP_THRESHOLD META_SIZE →
          os_malloc 4 sA 131000 = .ok (4232 + META_SIZE, s2))
        ∧ (∀ k z, (k * z) % W = 131000 → 131000 ≠ 0 → add64 (ALIGN 131000) META_SIZE < 4096 →
            os_calloc 4 sA k z = finish_calloc (4232 + META_SIZE) (ALIGN 131000) s2)
        ∧ (s2.mem 4232).status = STATUS_ALLOC ∧ (s2.mem 4232).size = ALIGN 131000
        ∧ s2.log = OsCall.sbrk (ALIGN 131000 - (sA.mem 4232).size) ret :: sA.log)
    ∧ (∀ f k z, os_malloc f sA k ≠ .die .no_need_to_expand
        ∧ os_malloc f sA k ≠ .die .expanding_mapped_block
        ∧ os_calloc f sA k z ≠ .die .no_need_to_expand
        ∧ os_calloc f sA k z ≠ .die .expanding_mapped_block)) :=
  ⟨reach_sA, by with_unfolding_all rfl, by with_unfolding_all decide,
    by with_unfolding_all rfl, by decide,
    C19_tail_extension_delta_is_positive sA sA 4 131000 4232 reach_sA
      (by with_unfolding_all rfl) (by with_unfolding_all decide) (by with_unfolding_all rfl)
      (by decide)⟩

theorem firstSbrk_total : ∀ log : List OsCall, firstSbrk log = none → sbrkTotal log = 0
  | [], _ => rfl
  | .sbrk d r :: log, h => by
    unfold firstSbrk at h
    cases hf : firstSbrk log with
    | none => rw [hf] at h; cases h
    | some x => rw [hf] at h; cases h
  | .mmap _ _ :: log, h => firstSbrk_total log h
  | .munmap _ _ _ :: log, h => firstSbrk_total log h

theorem Ledger.start {s s1 : State} (h : Ledger s) (hp : s.prealloced_mem = 0)
    (hp1 : s1.prealloced_mem ≠ 0)
    (hh : s1.head = s.brk) (hl : s1.log = OsCall.sbrk 131072 s.brk :: s.log)
    (hb : s1.brk = s.brk + 131072) (hc : s1.preallocs = s.preallocs + 1) : Ledger s1 := by
  have h1 := h.idle hp
  have h2 := firstSbrk_total _ h1
  refine ⟨fun h0 => absurd h0 hp1, fun _ => ?_, fun _ => ?_, fun h0 => absurd h0 hp1,
    fun _ => by rw [hc, h.never hp]⟩
  · rw [hl, hh]
    unfold firstSbrk
    rw [h1]
  · rw [hl, hh, hb]
    unfold sbrkTotal
    rw [h2]

theorem Ledger.grow {s s1 : State} (h : Ledger s) (hp : s.prealloced_mem ≠ 0)
    (hp1 : s1.prealloced_mem ≠ 0) (hh : s1.head = s.head) (d : Nat)
    (hl : s1.log = OsCall.sbrk d s.brk :: s.log) (hb : s1.brk = s.brk + d)
    (hc : s1.preallocs = s.preallocs) : Ledger s1 := by
  have h1 := h.first hp
  have h2 := h.total hp
  refine ⟨fun h0 => absurd h0 hp1, fun _ => ?_, fun _ => ?_, fun h0 => absurd h0 hp1,
    fun _ => by rw [hc, h.once hp]⟩
  · rw [hl, hh]
    unfold firstSbrk
    rw [h1]
  · rw [hl, hh, hb]
    unfold sbrkTotal
    omega

theorem Ledger.quiet {s s1 : State} (h : Ledger s)
    (hf : firstSbrk s1.log = firstSbrk s.log) (ht : sbrkTotal s1.log = sbrkTotal s.log)
    (hb : s1.brk = s.brk) (hh : s1.head = s.head)
    (hp : s1.prealloced_mem = 0 ↔ s.prealloced_mem = 0)
    (hc : s1.preallocs = s.preallocs) : Ledger s1 := by
  refine ⟨fun h0 => ?_, fun h0 => ?_, fun h0 => ?_,
    fun h0 => by rw [hc, h.never (hp.mp h0)],
    fun h0 => by rw [hc, h.once (fun h1 => h0 (hp.mpr h1))]⟩
  · rw [hf]
    exact h.idle (hp.mp h0)
  · rw [hf, hh]
    exact h.first (fun h1 => h0 (hp.mpr h1))
  · rw [ht, hh, hb]
    exact h.total (fun h1 => h0 (hp.mpr h1))

theorem ArenaPost.ledger {s s1 : State} {v v1 : List Blk} {n p sz : Nat}
    (h : ArenaPost s v n p sz s1 v1) (hl : Ledger s) : Ledger s1 := by
  by_cases hp : s.prealloced_mem = 0
  · obtain ⟨h1, h2⟩ := h.first hp
    rcases h.log with ⟨h3, _⟩ | ⟨d, h3, h4⟩
    · rw [h2] at h3
      exact absurd (congrArg List.length h3) (by simp)
    · rw [h2] at h3
      have hd : d = 131072 := by
        have := (List.cons.inj h3).1
        cases this
        rfl
      subst hd
      exact hl.start hp h.pre h1 h2 h4 (h.count.1 hp)
  · rcases h.log with ⟨h3, h4⟩ | ⟨d, h3, h4⟩
    · exact hl.quiet (by rw [h3]) (by rw [h3]) h4 (h.head hp)
        ⟨fun h0 => absurd h0 h.pre, fun h0 => absurd h0 hp⟩ (h.count.2 hp)
    · exact hl.grow hp h.pre (h.head hp) d h3 h4 (h.count.2 hp)

theorem ArenaPost.poskeep {s s1 : State} {v v1 : List Blk} {n p sz : Nat}
    (h : ArenaPost s v n p sz s1 v1) (hn : 0 < ALIGN n) : PosKeep v s1 := by
  intro hp w hw
  rw [Rep_unique _ _ _ hw h.valid.rep]
  exact h.pos hn hp

theorem PosKeep.of_valid {s1 : State} {v v1 : List Blk} (hv : Valid s1 v1)
    (h : (∀ x ∈ v, 0 < x.size) → ∀ x ∈ v1, 0 < x.size) : PosKeep v s1 := by
  intro hp w hw
  rw [Rep_unique _ _ _ hw hv.rep]
  exact h hp

theorem mmap_fields (s : State) (len : Nat) :
    (mmap s len).2.mem = s.mem ∧ (mmap s len).2.head = s.head ∧ (mmap s len).2.brk = s.brk
    ∧ (mmap s len).2.prealloced_mem = s.prealloced_mem
    ∧ firstSbrk (mmap s len).2.log = firstSbrk s.log
    ∧ sbrkTotal (mmap s len).2.log = sbrkTotal s.log
    ∧ (mmap s len).2.preallocs = s.preallocs := by
  unfold mmap
  split <;> exact ⟨rfl, rfl, rfl, rfl, rfl, rfl, rfl⟩

theorem munmap_fields (s : State) (a len : Nat) :
    (munmap s a len).2.mem = s.mem ∧ (munmap s a len).2.head = s.head
    ∧ (munmap s a len).2.brk = s.brk
    ∧ (munmap s a len).2.prealloced_mem = s.prealloced_mem
    ∧ firstSbrk (munmap s a len).2.log = firstSbrk s.log
    ∧ sbrkTotal (munmap s a len).2.log = sbrkTotal s.log
    ∧ (munmap s a len).2.preallocs = s.preallocs := by
  unfold munmap
  split <;> exact ⟨rfl, rfl, rfl, rfl, rfl, rfl, rfl⟩

theorem malloc_keeps (s s1 : State) (v : List Blk) (fuel size p : Nat) (hv : Valid s v)
    (hm : os_malloc fuel s size = .ok (p, s1)) (hnf : NoFail s1.log) :
    (Ledger s → Ledger s1) ∧ PosKeep v s1 := by
  by_cases h0 : size = 0
  · subst h0
    have : os_malloc fuel s 0 = .ok (0, s) := by
      unfold os_malloc
      rw [if_pos rfl]
    rw [this] at hm
    cases hm
    exact ⟨id, PosKeep.of_valid hv id⟩
  · by_cases hlt : size < 131040
    · obtain ⟨v1, sz, hp⟩ := malloc_small s s1 v fuel size p hv h0 hlt hm hnf
      have hA := ALIGN_pos size h0 (by rw [W_eq]; omega)
      exact ⟨hp.ledger, hp.poskeep (by omega)⟩
    · rw [os_malloc_large fuel s size h0 hlt] at hm
      by_cases hf : (mmap s (add64 META_SIZE (ALIGN size))).1 = FAILED
      · rw [if_pos hf] at hm
        cases hm
      · rw [if_neg hf] at hm
        cases hm
        obtain ⟨f1, f2, f3, f4, f5, f6, f7⟩ := mmap_fields s (add64 META_SIZE (ALIGN size))
        have hc := mmap_ne_failed s _ hf
        exact ⟨fun hl => hl.quiet f5 f6 f3 f2 (by rw [← f4]) f7,
          PosKeep.of_valid (mapped_step s v (add64 META_SIZE (ALIGN size)) (ALIGN size) hv hc
            (add64_comm _ _) (ALIGN_dvd size)).1 id⟩

theorem calloc_keeps (s s1 : State) (v : List Blk) (fuel nmemb size p : Nat) (hv : Valid s v)
    (hm : os_calloc fuel s nmemb size = .ok (p, s1)) (hnf : NoFail s1.log) :
    (Ledger s → Ledger s1) ∧ ((nmemb * size) % W + 7 < W → PosKeep v s1) := by
  by_cases h0 : (nmemb * size) % W = 0
  · have : os_calloc fuel s nmemb size = .ok (0, s) := by
      unfold os_calloc
      simp only [if_pos h0]
    rw [this] at hm
    cases hm
    exact ⟨id, fun _ => PosKeep.of_valid hv id⟩
  · by_cases hge : add64 (ALIGN ((nmemb * size) % W)) META_SIZE ≥ 4096
    · rw [os_calloc_large fuel s nmemb size h0 hge (calloc_mapped_ok fuel s nmemb size _ h0 hge hm)] at hm
      have hc : 0 < add64 (ALIGN ((nmemb * size) % W)) META_SIZE
          ∧ s.map_next + pages (add64 (ALIGN ((nmemb * size) % W)) META_SIZE) < W := by
        have e2 : s1.log = (mmap s (add64 (ALIGN ((nmemb * size) % W)) META_SIZE)).2.log := by
          cases hm
          rfl
        rw [e2] at hnf
        exact mmap_nofail s _ hnf
      cases hm
      obtain ⟨f1, f2, f3, f4, f5, f6, f7⟩ :=
        mmap_fields s (add64 (ALIGN ((nmemb * size) % W)) META_SIZE)
      exact ⟨fun hl => hl.quiet f5 f6 f3 f2 (by rw [← f4]) f7,
        fun _ => PosKeep.of_valid (mapped_step s v _ (ALIGN ((nmemb * size) % W)) hv hc
          rfl (ALIGN_dvd _)).1 id⟩
    · obtain ⟨v1, sz, s2, z, hp, _, rfl⟩ :=
        calloc_small s s1 v fuel nmemb size p hv h0 hge hm hnf
      refine ⟨fun hl => ?_, fun hb => ?_⟩
      · have := hp.ledger hl
        exact ⟨this.idle, this.first, this.total, this.never, this.once⟩
      · have hA := ALIGN_pos _ h0 hb
        exact hp.poskeep (by omega)

theorem free_keeps (s s1 : State) (v : List Blk) (ptr : Nat) (hv : Valid s v)
    (hp : ptr = 0 ∨ Held s ptr) (hf : os_free s ptr = .ok s1) :
    (Ledger s → Ledger s1) ∧ PosKeep v s1 := by
  have hW := hv.brk_lt
  rcases hp with rfl | hp
  · rw [os_free_null] at hf
    cases hf
    exact ⟨id, PosKeep.of_valid hv id⟩
  · rcases (Held_iff s v hv ptr).mp hp with ⟨b, hb, hbs, rfl⟩ | ⟨x, hx, rfl⟩
    · have hbd := hv.bounds b hb
      have hsub := sub_meta b.addr (by omega)
      have hm := Seg_mem _ _ _ hv.rep b hb
      rw [os_free_alloc s _ (by omega) (by rw [hsub, hm.2.2, hbs]), hsub] at hf
      cases hf
      refine ⟨fun hl => ⟨hl.idle, hl.first, hl.total, hl.never, hl.once⟩,
        PosKeep.of_valid (status_valid s v b.addr STATUS_FREE hv ⟨b, hb, rfl⟩ (Or.inl rfl))
          (fun hpos y hy => ?_)⟩
      obtain ⟨c, hc, _, h2, _⟩ := setStatusL_mem _ _ _ y hy
      rw [h2]
      exact hpos c hc
    · have hxb := hv.map_bounds x hx
      have hsub := sub_meta x.1 (by omega)
      have hst := (hv.maps x hx).1
      rw [os_free_mapped s _ (by omega) (by rw [hsub, hst]), hsub] at hf
      by_cases hu : (munmap s x.1 (add64 (s.mem x.1).size META_SIZE)).1 = false
      · rw [if_pos hu] at hf
        cases hf
      · rw [if_neg hu] at hf
        cases hf
        obtain ⟨f1, f2, f3, f4, f5, f6, f7⟩ := munmap_fields s x.1 (add64 (s.mem x.1).size META_SIZE)
        refine ⟨fun hl => hl.quiet f5 f6 f3 f2 (by rw [← f4]) f7, ?_⟩
        intro hpos w hw
        rw [f1, f2] at hw
        rw [Rep_unique _ _ _ hw hv.rep]
        exact hpos

theorem realloc_alloc_keeps (s s1 : State) (v : List Blk) (b : Blk) (fuel size p : Nat)
    (hv : Valid s v) (hbv : b ∈ v) (hb : b.status = STATUS_ALLOC) (h0 : size ≠ 0)
    (hm : os_realloc fuel s (b.addr + 32) size = .ok (p, s1)) (hnf : NoFail s1.log) :
    (Ledger s → Ledger s1) ∧ (size + 7 < W → PosKeep v s1) := by
  have hne : STATUS_ALLOC ≠ STATUS_FREE := fun h => status_ne.2.2 h.symm
  have hbb0 := hv.bounds b hbv
  have hW0 := hv.brk_lt
  have hsub := sub_meta b.addr (by omega)
  have hs : (s.mem b.addr).status ≠ STATUS_FREE := by
    rw [(Seg_mem _ _ _ hv.rep b hbv).2.2, hb]
    exact hne
  cases hcb : coalesce_blocks fuel s with
  | none =>
    rw [os_realloc_timeout fuel s _ size h0 (by omega) (by rw [hsub]; exact hs) hcb] at hm
    cases hm
  | some sc =>
    obtain ⟨vc, stc, _, mc, hsc⟩ := coalesce_step s sc v fuel hv hcb
    have hLc : Ledger s → Ledger sc := fun hl => by
      rw [hsc]
      exact ⟨hl.idle, hl.first, hl.total, hl.never, hl.once⟩
    have hbc : b ∈ coalesceL v := coalesceL_mem_alloc v b hbv (by rw [hb]; exact hne)
    have hpc : sc.prealloced_mem ≠ 0 := fun h => by
      have := vc.pre0 h
      rw [this] at hbc
      simp at hbc
    obtain ⟨pre, suf, hdec⟩ := List.append_of_mem hbc
    have hcp := hv.coalesce_pos
    rw [hdec] at vc hcp
    have hbm : b ∈ pre ++ b :: suf := List.mem_append_right _ (List.mem_cons_self _ _)
    have hbW : b.size < W := by
      have := vc.bounds b hbm
      have := vc.brk_lt
      omega
    by_cases he : b.size = ALIGN size
    · rw [realloc_same_ok s sc pre suf b fuel size hcb vc hb hs h0 he] at hm
      cases hm
      exact ⟨hLc, fun _ => PosKeep.of_valid vc hcp⟩
    · by_cases hgt : ALIGN size < b.size
      · obtain ⟨e1, v1, f1⟩ := realloc_shrink_ok s sc pre suf b fuel size hcb vc hb hs h0 hgt
        rw [e1] at hm
        cases hm
        refine ⟨fun hl => ?_, fun hbd => PosKeep.of_valid v1 (fun hpos y hy => ?_)⟩
        · have := hLc hl
          exact ⟨this.idle, this.first, this.total, this.never, this.once⟩
        · have hA := ALIGN_pos size h0 hbd
          rcases List.mem_append.mp hy with h1 | h1
          · rcases List.mem_append.mp h1 with h2 | h2
            · exact hcp hpos y (List.mem_append_left _ h2)
            · exact splitL_sizes b size (le_of_lt hgt) hbW (by omega) y h2
          · exact hcp hpos y (List.mem_append_right _ (List.mem_cons_of_mem _ h1))
      · have hlt : b.size < ALIGN size := by omega
        cases suf with
        | nil =>
          obtain ⟨e1, hV⟩ := realloc_tail_ok s sc pre b fuel size hcb vc hb hs h0 hlt
          rw [e1] at hm
          cases hm
          have hfit := sbrk_nofail sc (ALIGN size - b.size) hnf
          have hV2 := hV hfit.2
          rw [sbrk_ok _ _ hfit]
          refine ⟨fun hl => (hLc hl).grow hpc hpc rfl (ALIGN size - b.size) rfl rfl rfl,
            fun _ => PosKeep.of_valid hV2 (fun hpos y hy => ?_)⟩
          rcases List.mem_append.mp hy with h1 | h1
          · exact hcp hpos y (List.mem_append_left _ h1)
          · rw [List.mem_singleton.mp h1]
            show 0 < ALIGN size
            omega
        | cons c suf =>
          by_cases hab : c.status = STATUS_FREE ∧ ALIGN size ≤ b.size + 32 + c.size
          · obtain ⟨e1, v1, f1⟩ := realloc_absorb_ok s sc pre suf b c fuel size hcb vc hb hs h0
              hlt hab.1 hab.2
            rw [e1] at hm
            cases hm
            have hcm : c ∈ pre ++ b :: c :: suf :=
              List.mem_append_right _ (List.mem_cons_of_mem _ (List.mem_cons_self _ _))
            have hcb1 := vc.bounds c hcm
            have hbc1 := vc.bounds b hbm
            have hWc := vc.brk_lt
            have hca : c.addr = b.addr + 32 + b.size := by
              have ht := vc.tiles (by simp)
              obtain ⟨mid, _, t2⟩ := (TilesFrom_append pre (b :: c :: suf) _ _).mp ht
              have t3 := t2.1
              have t4 := t2.2.1
              rw [META_SIZE_eq] at t4
              omega
            refine ⟨fun hl => ?_, fun hbd => PosKeep.of_valid v1 (fun hpos y hy => ?_)⟩
            · have := hLc hl
              exact ⟨this.idle, this.first, this.total, this.never, this.once⟩
            · have hA := ALIGN_pos size h0 hbd
              rcases List.mem_append.mp hy with h1 | h1
              · rcases List.mem_append.mp h1 with h2 | h2
                · exact hcp hpos y (List.mem_append_left _ h2)
                · exact splitL_sizes ⟨b.addr, b.size + 32 + c.size, STATUS_ALLOC⟩ size hab.2
                    (by show b.size + 32 + c.size < W; omega) (by omega) y h2
              · exact hcp hpos y (List.mem_append_right _
                  (List.mem_cons_of_mem _ (List.mem_cons_of_mem _ h1)))
          · rw [realloc_fallback_eq s sc pre suf b c fuel size hcb vc hb hs h0 hlt hab] at hm
            cases hmal : os_malloc fuel sc (ALIGN size) with
            | timeout => rw [hmal] at hm; cases hm
            | fault => rw [hmal] at hm; cases hm
            | die f => rw [hmal] at hm; cases hm
            | ok r =>
              obtain ⟨np, s2⟩ := r
              rw [hmal] at hm
              simp only at hm
              cases hcp2 : memcpy s2 np (b.addr + 32) (s2.mem b.addr).size with
              | none => rw [hcp2] at hm; cases hm
              | some copied =>
                rw [hcp2] at hm
                simp only at hm
                cases hm
                obtain ⟨v2, V2, S2, _, _⟩ := malloc_step sc s2 _ fuel (ALIGN size) p vc
                  hmal hnf
                obtain ⟨hL2, hP2⟩ := malloc_keeps sc s2 _ fuel (ALIGN size) p vc hmal hnf
                have hb2 : b ∈ v2 := S2.1 b hbm hb (by rw [META_SIZE_eq]; omega)
                have V3 := Valid_bytes _ _ copied
                  (status_valid s2 v2 b.addr STATUS_FREE V2 ⟨b, hb2, rfl⟩ (Or.inl rfl))
                refine ⟨fun hl => ?_, fun _ => PosKeep.of_valid V3 (fun hpos y hy => ?_)⟩
                · have := hL2 (hLc hl)
                  exact ⟨this.idle, this.first, this.total, this.never, this.once⟩
                · obtain ⟨c2, hc2, _, h2, _⟩ := setStatusL_mem _ _ _ y hy
                  rw [h2]
                  exact hP2 (hcp hpos) v2 V2.rep c2 hc2

theorem realloc_mapped_keeps (s s1 : State) (v : List Blk) (x : Nat × Nat)
    (fuel size p : Nat) (hv : Valid s v) (hx : x ∈ s.maps) (h0 : size ≠ 0)
    (hm : os_realloc fuel s (x.1 + 32) size = .ok (p, s1)) (hnf : NoFail s1.log) :
    (Ledger s → Ledger s1) ∧ PosKeep v s1 := by
  obtain ⟨m1, m2, m3, m4, m5, m6, m7⟩ := hv.maps x hx
  have hxb := hv.map_bounds x hx
  have hsub := sub_meta x.1 (by omega)
  have hs : (s.mem x.1).status ≠ STATUS_FREE := by
    rw [m1]
    exact fun h => status_ne.1 h.symm
  cases hcb : coalesce_blocks fuel s with
  | none =>
    rw [os_realloc_timeout fuel s _ size h0 (by omega) (by rw [hsub]; exact hs) hcb] at hm
    cases hm
  | some sc =>
    obtain ⟨vc, stc, hst, mm, hsc⟩ := coalesce_step s sc v fuel hv hcb
    have hLc : Ledger s → Ledger sc := fun hl => by
      rw [hsc]
      exact ⟨hl.idle, hl.first, hl.total, hl.never, hl.once⟩
    have hcp := hv.coalesce_pos
    have hmeta : x.1 + META_SIZE ≠ 0 := by
      rw [META_SIZE_eq]
      omega
    obtain ⟨hxc, hag⟩ := stc.2 x hx hmeta
    have hms : (sc.mem x.1).status = STATUS_MAPPED := by rw [hst, m1]
    by_cases he : (sc.mem x.1).size = ALIGN size
    · rw [os_realloc_mapped_same fuel s sc _ size h0 (by omega) (by rw [hsub]; exact hs) hcb
        (by rw [hsub]; exact hms) (by rw [hsub]; exact he)] at hm
      cases hm
      exact ⟨hLc, PosKeep.of_valid vc hcp⟩
    · rw [os_realloc_mapped_move fuel s sc _ size h0 (by omega) (by rw [hsub]; exact hs) hcb
        (by rw [hsub]; exact hms) (by rw [hsub]; exact he)] at hm
      cases hmal : os_malloc fuel sc size with
      | timeout => rw [hmal] at hm; cases hm
      | fault => rw [hmal] at hm; cases hm
      | die f => rw [hmal] at hm; cases hm
      | ok r =>
        obtain ⟨np, s2⟩ := r
        rw [hmal, hsub] at hm
        simp only at hm
        cases hcp2 : memcpy s2 np (x.1 + 32)
            (if (s2.mem x.1).size > ALIGN size then size else (s2.mem x.1).size) with
        | none => rw [hcp2] at hm; cases hm
        | some copied =>
          rw [hcp2] at hm
          simp only at hm
          cases hfr : os_free { s2 with bytes := copied } (x.1 + 32) with
          | timeout => rw [hfr] at hm; cases hm
          | fault => rw [hfr] at hm; cases hm
          | die f => rw [hfr] at hm; cases hm
          | ok s3 =>
            rw [hfr] at hm
            simp only at hm
            cases hm
            have hnf2 : NoFail s2.log := os_free_nofail { s2 with bytes := copied } _ _ hfr hnf
            obtain ⟨v2, V2, S2, _, _⟩ := malloc_step sc s2 _ fuel size p vc hmal hnf2
            obtain ⟨hL2, hP2⟩ := malloc_keeps sc s2 _ fuel size p vc hmal hnf2
            obtain ⟨hx2, hag2⟩ := S2.2 x hxc hmeta
            have V2b := Valid_bytes s2 v2 copied V2
            have hheld2 : Held { s2 with bytes := copied } (x.1 + 32) :=
              (Held_iff _ _ V2b _).mpr (Or.inr ⟨x, hx2, rfl⟩)
            obtain ⟨hL3, hP3⟩ := free_keeps _ s1 v2 (x.1 + 32) V2b (Or.inr hheld2) hfr
            refine ⟨fun hl => hL3 ?_, fun hpos => hP3 (hP2 (hcp hpos) v2 V2.rep)⟩
            have := hL2 (hLc hl)
            exact ⟨this.idle, this.first, this.total, this.never, this.once⟩

theorem realloc_keeps (s s1 : State) (v : List Blk) (fuel ptr size p : Nat) (hv : Valid s v)
    (hp : ptr = 0 ∨ Held s ptr) (hm : os_realloc fuel s ptr size = .ok (p, s1))
    (hnf : NoFail s1.log) :
    (Ledger s → Ledger s1) ∧ (size + 7 < W → PosKeep v s1) := by
  by_cases h0 : size = 0
  · subst h0
    rw [os_realloc_zero] at hm
    cases hfr : os_free s ptr with
    | timeout => rw [hfr] at hm; cases hm
    | fault => rw [hfr] at hm; cases hm
    | die f => rw [hfr] at hm; cases hm
    | ok s2 =>
      rw [hfr] at hm
      simp only at hm
      cases hm
      obtain ⟨h1, h2⟩ := free_keeps s s1 v ptr hv hp hfr
      exact ⟨h1, fun _ => h2⟩
  · rcases hp with rfl | hp
    · rw [os_realloc_null fuel s size h0] at hm
      obtain ⟨h1, h2⟩ := malloc_keeps s s1 v fuel size p hv hm hnf
      exact ⟨h1, fun _ => h2⟩
    · rcases (Held_iff s v hv ptr).mp hp with ⟨b, hb, hbs, rfl⟩ | ⟨x, hx, rfl⟩
      · exact realloc_alloc_keeps s s1 v b fuel size p hv hb hbs h0 hm hnf
      · obtain ⟨h1, h2⟩ := realloc_mapped_keeps s s1 v x fuel size p hv hx h0 hm hnf
        exact ⟨h1, fun _ => h2⟩

theorem fresh_ledger (s : State) (h : Fresh s) : Ledger s := by
  refine ⟨fun _ => ?_, fun h0 => absurd h.pre h0, fun h0 => absurd h.pre h0, fun _ => h.count,
    fun h0 => absurd h.pre h0⟩
  rw [h.log]
  rfl

theorem reach_ledger (s : State) (h : Reachable s) : Ledger s := by
  induction h with
  | fresh s hf => exact fresh_ledger s hf
  | malloc s s1 fuel size p hr _ hm hnf ih =>
    obtain ⟨v, hv⟩ := reachable_valid s hr
    exact (malloc_keeps s s1 v fuel size p hv hm hnf).1 ih
  | calloc s s1 fuel nmemb size p hr _ _ hm hnf ih =>
    obtain ⟨v, hv⟩ := reachable_valid s hr
    exact (calloc_keeps s s1 v fuel nmemb size p hv hm hnf).1 ih
  | realloc s s1 fuel ptr size p hr hp _ hm hnf ih =>
    obtain ⟨v, hv⟩ := reachable_valid s hr
    exact (realloc_keeps s s1 v fuel ptr size p hv hp hm hnf).1 ih
  | free s s1 ptr hr hp hf _ ih =>
    obtain ⟨v, hv⟩ := reachable_valid s hr
    exact (free_keeps s s1 v ptr hv hp hf).1 ih

theorem tame_reachable (s : State) (h : Tame s) : Reachable s := by
  induction h with
  | fresh s hf => exact Reachable.fresh s hf
  | malloc s s1 fuel size p _ hs hm hnf ih => exact Reachable.malloc s s1 fuel size p ih hs hm hnf
  | calloc s s1 fuel nmemb size p _ h1 h2 _ hm hnf ih =>
    exact Reachable.calloc s s1 fuel nmemb size p ih h1 h2 hm hnf
  | realloc s s1 fuel ptr size p _ hp hs hm hnf ih =>
    exact Reachable.realloc s s1 fuel ptr size p ih hp (by omega) hm hnf
  | free s s1 ptr _ hp hf hnf ih => exact Reachable.free s s1 ptr ih hp hf hnf

theorem tame_pos (s : State) (h : Tame s) :
    ∀ v, Rep s.mem s.head v → ∀ x ∈ v, 0 < x.size := by
  induction h with
  | fresh s hf =>
    intro v hv x hx
    have h0 := hf.head
    cases v with
    | nil => simp at hx
    | cons b t =>
      have h1 : s.head = b.addr := hv.1
      have h2 : b.addr ≠ 0 := hv.2.1
      omega
  | malloc s s1 fuel size p ht _ hm hnf ih =>
    obtain ⟨v, hv⟩ := reachable_valid s (tame_reachable s ht)
    exact (malloc_keeps s s1 v fuel size p hv hm hnf).2 (ih v hv.rep)
  | calloc s s1 fuel nmemb size p ht _ _ hb hm hnf ih =>
    obtain ⟨v, hv⟩ := reachable_valid s (tame_reachable s ht)
    exact (calloc_keeps s s1 v fuel nmemb size p hv hm hnf).2 hb (ih v hv.rep)
  | realloc s s1 fuel ptr size p ht hp hb hm hnf ih =>
    obtain ⟨v, hv⟩ := reachable_valid s (tame_reachable s ht)
    exact (realloc_keeps s s1 v fuel ptr size p hv hp hm hnf).2 hb (ih v hv.rep)
  | free s s1 ptr ht hp hf _ ih =>
    obtain ⟨v, hv⟩ := reachable_valid s (tame_reachable s ht)
    exact (free_keeps s s1 v ptr hv hp hf).2 (ih v hv.rep)

theorem tiles_footprint : ∀ (v : List Blk) (a e : Nat), TilesFrom a v e →
    a + footprint v = e
  | [], a, e, h => by
    have h1 : a = e := h
    simp [footprint, h1]
  | b :: v, a, e, h => by
    have := tiles_footprint v _ e h.2
    unfold footprint
    omega

theorem eval_sZ : os_calloc 4 sA 1 18446744073709551615 = .ok (4264, sZ) := by
  with_unfolding_all rfl

theorem sZ_rep : Rep sZ.mem sZ.head
    [⟨4096, 104, STATUS_ALLOC⟩, ⟨4232, 0, STATUS_ALLOC⟩, ⟨4264, 130872, STATUS_FREE⟩] := by
  with_unfolding_all exact
    ⟨rfl, by decide, rfl, rfl, rfl, by decide, rfl, rfl, rfl, by decide, rfl, rfl, rfl⟩

theorem reach_sZ : Reachable sZ :=
  Reachable.calloc sA sZ 4 1 18446744073709551615 4264 reach_sA (by decide) (by decide)
    eval_sZ (by with_unfolding_all exact nofail_sA)

/-- C20 fails in its clause on node sizes. After
`a = os_malloc(100)` on a fresh process, `os_calloc(1, 2^64 - 1)` (a product that does
not overflow) rounds the request up to `ALIGN(2^64 - 1) = 0`, finds the FREE remainder
of the preallocation and splits it for a payload of 0 bytes: the reachable state has a
preallocated arena whose registry holds an ALLOCATED node of size 0, which is not a
positive multiple of 8. -/
theorem C20_counterexample :
    Reachable sZ ∧ sZ.prealloced_mem ≠ 0
    ∧ Rep sZ.mem sZ.head
        [⟨4096, 104, STATUS_ALLOC⟩, ⟨4232, 0, STATUS_ALLOC⟩, ⟨4264, 130872, STATUS_FREE⟩]
    ∧ ¬ (∀ v, Rep sZ.mem sZ.head v → ∀ b ∈ v, 0 < b.size ∧ 8 ∣ b.size) := by
  refine ⟨reach_sZ, by with_unfolding_all decide, sZ_rep, fun h => ?_⟩
  have := (h _ sZ_rep ⟨4232, 0, STATUS_ALLOC⟩
    (List.mem_cons_of_mem _ (List.mem_cons_self _ _))).1
  exact absurd this (by decide)

/-- C20, amended: in every reachable state, while nothing is preallocated no `sbrk`
call has been made and the registry is empty; once the arena is preallocated, the
registry tiles the grown data segment exactly: the oldest `sbrk` call is the
preallocation of 128*1024 bytes and it returned the registry head; the nodes lie back
to back from the head to the current break, so the last node ends at the break; the
sum over the nodes of `META_SIZE + size` equals the number of bytes obtained from
`sbrk` so far; and every node size is a multiple of 8, positive whenever every request
of `os_calloc` and `os_realloc` made so far could be rounded up to the alignment
without wrapping around 2^64. The preallocation happens at most once: the
preallocation branch of `os_malloc` and `os_calloc` has run `preallocs` times since
the process started, which is 0 while the flag is unset and 1 ever after. -/
theorem C20_registry_tiles_the_data_segment (s : State) (h : Reachable s) :
    (s.prealloced_mem = 0 →
      firstSbrk s.log = none ∧ sbrkTotal s.log = 0 ∧ Rep s.mem s.head [])
    ∧ (s.prealloced_mem ≠ 0 →
      ∃ v pre l, Rep s.mem s.head v ∧ v = pre ++ [l]
        ∧ firstSbrk s.log = some (131072, s.head)
        ∧ TilesFrom s.head v s.brk
        ∧ l.addr + META_SIZE + l.size = s.brk
        ∧ footprint v = sbrkTotal s.log
        ∧ (∀ b ∈ v, 8 ∣ b.size)
        ∧ (Tame s → ∀ b ∈ v, 0 < b.size))
    ∧ s.preallocs ≤ 1
    ∧ (s.prealloced_mem = 0 → s.preallocs = 0)
    ∧ (s.prealloced_mem ≠ 0 → s.preallocs = 1) := by
  obtain ⟨v, hv⟩ := reachable_valid s h
  have hl := reach_ledger s h
  have hle : s.preallocs ≤ 1 := by
    by_cases h0 : s.prealloced_mem = 0
    · rw [hl.never h0]
      exact Nat.zero_le 1
    · rw [hl.once h0]
  refine ⟨fun h0 => ?_, fun h0 => ?_, hle, hl.never, hl.once⟩
  · have hv0 := hv.pre0 h0
    subst hv0
    exact ⟨hl.idle h0, firstSbrk_total _ (hl.idle h0), hv.rep⟩
  · have hne := hv.pre1 h0
    have ht := hv.tiles hne
    rcases List.eq_nil_or_concat v with h1 | ⟨pre, l, hcl⟩
    · exact absurd h1 hne
    · rw [List.concat_eq_append] at hcl
      refine ⟨v, pre, l, hv.rep, hcl, hl.first h0, ht, ?_, ?_, hv.size8,
        fun htame => tame_pos s htame v hv.rep⟩
      · rw [hcl] at ht
        obtain ⟨mid, _, t2⟩ := (TilesFrom_append pre [l] _ _).mp ht
        have t3 : l.addr = mid := t2.1
        have t4 : mid + META_SIZE + l.size = s.brk := t2.2
        omega
      · have h1 := tiles_footprint v _ _ ht
        have h2 := hl.total h0
        omega

theorem tame_sB : Tame sB :=
  Tame.malloc sA sB 4 100 4264
    (Tame.malloc s0 sA 4 100 4128 (Tame.fresh s0 fresh_s0) (by decide) eval_sA nofail_sA)
    (by decide) eval_sB nofail_sB

theorem C20_registry_tiles_the_data_segment_witness :
    Reachable sB ∧ Tame sB
    ∧ ((sB.prealloced_mem = 0 →
        firstSbrk sB.log = none ∧ sbrkTotal sB.log = 0 ∧ Rep sB.mem sB.head [])
      ∧ (sB.prealloced_mem ≠ 0 →
        ∃ v pre l, Rep sB.mem sB.head v ∧ v = pre ++ [l]
          ∧ firstSbrk sB.log = some (131072, sB.head)
          ∧ TilesFrom sB.head v sB.brk
          ∧ l.addr + META_SIZE + l.size = sB.brk
          ∧ footprint v = sbrkTotal sB.log
          ∧ (∀ b ∈ v, 8 ∣ b.size)
          ∧ (Tame sB → ∀ b ∈ v, 0 < b.size))
      ∧ sB.preallocs ≤ 1
      ∧ (sB.prealloced_mem = 0 → sB.preallocs = 0)
      ∧ (sB.prealloced_mem ≠ 0 → sB.preallocs = 1)) :=
  ⟨reach_sB, tame_sB, C20_registry_tiles_the_data_segment sB reach_sB⟩

end Osmem
